import Mathlib

/-!
# Reachability solver of the causality graph (`analysis.h`)

A shallow embedding of `TypeSet`, `TypeflowHistory` and `BFS::run` and the properties of the
solver that are established about it.  Vectors are lists, identifiers are natural numbers,
the 8-bit distance counter is a natural number reduced modulo 256, and every loop whose
termination is not structural carries a fuel argument (`none` means the fuel ran out).
-/

namespace CausalityGraph

/-! ## Identifiers, sentinels, bitsets -/

/-- Modelled from the spec: the value `numeric_limits<type_t>::max()`; `type_t` is declared in
`model.h`, which is not part of the sources. A 16-bit handle lets 20 types, 20 distances and
the saturation distance fill the 64-byte record. -/
def type_max : Nat := 65535

/-- The value `numeric_limits<uint8_t>::max()`, the sentinel of distances. -/
def u8_max : Nat := 255

/-- Modelled from the spec: `Bitset` of `model.h` (not part of the sources), a dense bit vector
over `[0, size)` with membership, `count`, `first` and `next`. -/
structure Bitset where
  bits : List Bool
deriving DecidableEq

namespace Bitset

/-- Domain size of the bit vector. -/
def size (b : Bitset) : Nat := b.bits.length

/-- Indexed membership `b[i]`. -/
def get (b : Bitset) (i : Nat) : Bool := b.bits.getD i false

/-- Number of members. -/
def count (b : Bitset) : Nat := b.bits.count true

/-- Smallest member that is at least `start`, or the sentinel `size`. -/
def findFrom (b : Bitset) (start : Nat) : Nat :=
  ((List.range b.size).find? (fun i => decide (start ≤ i) && b.get i)).getD b.size

/-- Modelled from the spec: smallest member, or a sentinel that is at least the domain size. -/
def first (b : Bitset) : Nat := b.findFrom 0

/-- Modelled from the spec: smallest member strictly greater than `pos`, or a sentinel that is
at least the domain size. -/
def next (b : Bitset) (pos : Nat) : Nat := b.findFrom (pos + 1)

/-- Assignment `b[i] = true`. -/
def set (b : Bitset) (i : Nat) : Bitset := ⟨b.bits.set i true⟩

/-- Constructor `Bitset(n)`: no member, domain size `n`. -/
def zeros (n : Nat) : Bitset := ⟨List.replicate n false⟩

end Bitset

instance : Inhabited Bitset := ⟨⟨[]⟩⟩

/-! ## TypeSet -/

/-- The tagged word of `TypeSet`: low bit set means an inlined single type, otherwise the word
is the address of a bitset owned by the adjacency (modelled by the bitset itself). -/
inductive TypeSet
  | single (t : Nat)
  | multi (b : Bitset)
deriving DecidableEq

namespace TypeSet

/-- Constructor `TypeSet(type_t single_type)`. -/
def ofType (t : Nat) : TypeSet := single t

/-- Constructor `TypeSet(const Bitset* multiple_types)`. -/
def ofBitset (b : Bitset) : TypeSet :=
  if b.count = 1 then single b.first else multi b

/-- Source: `is_single_type`. -/
def is_single_type : TypeSet → Bool
  | single _ => true
  | multi _ => false

/-- Source: `operator[]`. -/
def get : TypeSet → Nat → Bool
  | single t, i => decide (t = i)
  | multi b, i => b.get i

/-- Source: `count`. -/
def count : TypeSet → Nat
  | single _ => 1
  | multi b => b.count

/-- Source: `first`. -/
def first : TypeSet → Nat
  | single t => t
  | multi b => b.first

/-- Source: `next`. -/
def next : TypeSet → Nat → Nat
  | single _, _ => type_max
  | multi b, pos => b.next pos

end TypeSet

instance : Inhabited TypeSet := ⟨TypeSet.multi default⟩

/-! ## TypeflowHistory -/

/-- Source: `TypeflowHistory::saturation_cutoff`. -/
def saturation_cutoff : Nat := 20

/-- The 64-byte record: twenty type slots, twenty distance slots and the saturation distance. -/
structure TypeflowHistory where
  types : List Nat
  dists : List Nat
  saturated_dist : Nat
deriving DecidableEq

namespace TypeflowHistory

/-- Default constructor: all slots hold the sentinels. -/
def fresh : TypeflowHistory :=
  ⟨List.replicate saturation_cutoff type_max, List.replicate saturation_cutoff u8_max, u8_max⟩

/-- The scan of `add_type` from slot `i`, with `n` slots left to look at. -/
def add_type_from (h : TypeflowHistory) (type dist : Nat) : Nat → Nat → TypeflowHistory × Bool
  | 0, _ => ({ h with saturated_dist := dist }, true)
  | n + 1, i =>
    if h.types.getD i type_max = type_max then
      ({ h with types := h.types.set i type, dists := h.dists.set i dist }, true)
    else if h.types.getD i type_max = type then
      (h, false)
    else
      add_type_from h type dist n (i + 1)

/-- Source: `add_type`; the second component is the returned flag. -/
def add_type (h : TypeflowHistory) (type dist : Nat) : TypeflowHistory × Bool :=
  add_type_from h type dist saturation_cutoff 0

/-- Source: `is_saturated`. -/
def is_saturated (h : TypeflowHistory) : Bool :=
  h.saturated_dist != u8_max

/-- Source: `any`. -/
def any (h : TypeflowHistory) : Bool :=
  h.is_saturated || h.types.getD 0 type_max != type_max

/-- The pairs visited by the iterator from position `pos`, with `n` positions left before
`saturation_cutoff`. -/
def iter_from (h : TypeflowHistory) : Nat → Nat → List (Nat × Nat)
  | 0, _ => []
  | n + 1, pos =>
    if h.types.getD pos type_max = type_max then []
    else (h.types.getD pos type_max, h.dists.getD pos u8_max) :: iter_from h n (pos + 1)

/-- The sequence produced by `for (pair : history)`. -/
def iter (h : TypeflowHistory) : List (Nat × Nat) :=
  h.iter_from saturation_cutoff 0

/-- The types recorded in the history, in iteration order. -/
def recorded (h : TypeflowHistory) : List Nat :=
  h.iter.map Prod.fst

end TypeflowHistory

instance : Inhabited TypeflowHistory := ⟨TypeflowHistory.fresh⟩

/-! ## Adjacency -/

/-- Modelled from the spec: the tagged variant `MethodRole` of `model.h` (not part of the
sources), with the two cases `Reaching` and `Dependent`. -/
inductive MethodRole
  | Reaching (m : Nat)
  | Dependent (m : Nat)
deriving DecidableEq

namespace MethodRole

/-- Modelled from the spec: projection `reaching()`; on the other case it yields the null
identifier 0, the root, which is visited from the start. -/
def reaching : MethodRole → Nat
  | Reaching m => m
  | Dependent _ => 0

/-- Modelled from the spec: projection `dependent()`; on the other case it yields the null
identifier 0, which the source tests with `!adj[v].method.dependent()`. -/
def dependent : MethodRole → Nat
  | Reaching _ => 0
  | Dependent m => m

end MethodRole

/-- Modelled from the spec: a method of the adjacency. -/
structure MethodInfo where
  forward_edges : List Nat
  dependent_typeflows : List Nat
deriving DecidableEq

/-- Modelled from the spec: a typeflow of the adjacency; `filter` is the address of its filter,
an index into the array of filter bitsets. -/
structure TypeflowInfo where
  forward_edges : List Nat
  filter : Nat
  method : MethodRole
deriving DecidableEq

instance : Inhabited MethodInfo := ⟨⟨[], []⟩⟩

instance : Inhabited TypeflowInfo := ⟨⟨[], 0, MethodRole.Reaching 0⟩⟩

/-- Modelled from the spec: the immutable graph handed to the solver (`model.h`). -/
structure Adjacency where
  n_types : Nat
  methods : List MethodInfo
  flows : List TypeflowInfo
  filters : List Bitset
  allInstantiated : Nat
deriving DecidableEq

namespace Adjacency

/-- Number of methods. -/
def n_methods (adj : Adjacency) : Nat := adj.methods.length

/-- Number of typeflows. -/
def n_typeflows (adj : Adjacency) : Nat := adj.flows.length

/-- Access `adj[u]` for a method identifier. -/
def method (adj : Adjacency) (u : Nat) : MethodInfo := adj.methods.getD u default

/-- Access `adj[u]` for a typeflow identifier. -/
def flow (adj : Adjacency) (u : Nat) : TypeflowInfo := adj.flows.getD u default

end Adjacency

/-! ## The solver -/

/-- The members of `BFS` computed by its constructor. -/
structure BFS where
  adj : Adjacency
  filters_begin : Nat
  filter_filters : List TypeSet
  typeflow_filters : List TypeSet

/-- Constructor `BFS(adj)`: the address range of the filters and the canonical type sets. -/
def BFS.create (adj : Adjacency) : BFS :=
  let ptrs := adj.flows.map (fun f => f.filter)
  let filters_begin := ptrs.foldl min (ptrs.headD 0)
  let filters_end := ptrs.foldl max (ptrs.headD 0) + 1
  let filter_filters := (List.range (filters_end - filters_begin)).map
    (fun i => TypeSet.ofBitset (adj.filters.getD (filters_begin + i) default))
  { adj := adj
    filters_begin := filters_begin
    filter_filters := filter_filters
    typeflow_filters := adj.flows.map (fun f => filter_filters.getD (f.filter - filters_begin) default) }

/-- The index `adj[v].filter - filters_begin` of the filter of a typeflow. -/
def BFS.filterIndex (bfs : BFS) (v : Nat) : Nat := (bfs.adj.flow v).filter - bfs.filters_begin

/-- Source: `BFS::Result`. -/
structure Result where
  typeflow_visited : List TypeflowHistory
  method_history : List Nat
  method_visited : List Bool
deriving DecidableEq

/-- The local variables of `BFS::run`. -/
structure State where
  method_visited : List Bool
  method_history : List Nat
  typeflow_visited : List TypeflowHistory
  allInstantiated : Bitset
  method_worklist : List Nat
  next_method_worklist : List Nat
  typeflow_worklist : List Nat
  instantiated_since_last_iteration : List Nat
  saturation_uses_by_filter : List (List Nat)
  included_in_saturation_uses : List Bool
  dist : Nat
deriving DecidableEq

namespace State

/-- Read `typeflow_visited[v.id]`. -/
def hist (s : State) (v : Nat) : TypeflowHistory := s.typeflow_visited.getD v default

/-- Read `method_visited[m.id]`. -/
def visited (s : State) (m : Nat) : Bool := s.method_visited.getD m false

/-- Read `method_history[m.id]`. -/
def history (s : State) (m : Nat) : Nat := s.method_history.getD m u8_max

/-- Write `typeflow_visited[v.id]`. -/
def setHist (s : State) (v : Nat) (h : TypeflowHistory) : State :=
  { s with typeflow_visited := s.typeflow_visited.set v h }

/-- Append to the typeflow queue. -/
def pushTypeflow (s : State) (v : Nat) : State :=
  { s with typeflow_worklist := s.typeflow_worklist ++ [v] }

/-- Write `saturation_uses_by_filter[filter_id]`. -/
def setUses (s : State) (filter_id : Nat) (uses : List Nat) : State :=
  { s with saturation_uses_by_filter := s.saturation_uses_by_filter.set filter_id uses }

/-- The statement `if (c) typeflow_worklist.push(v)`. -/
def pushIf (s : State) (c : Bool) (v : Nat) : State :=
  if c then s.pushTypeflow v else s

end State

/-- The loops `for (t = filter.first(); t < n_types; t = filter.next(t))` of the white-hole
seeding and of the seeding under a saturated predecessor: types with `skip t` are passed over,
the others are added at `dist`, and the loop is left once the history is saturated. -/
def seedLoop (filter : TypeSet) (n_types : Nat) (skip : Nat → Bool) (dist : Nat) :
    Nat → Nat → TypeflowHistory → Bool → Option (TypeflowHistory × Bool)
  | 0, _, _, _ => none
  | fuel + 1, t, h, changed =>
    if t < n_types then
      if skip t then seedLoop filter n_types skip dist fuel (filter.next t) h changed
      else
        let r := h.add_type t dist
        if r.1.is_saturated then some (r.1, changed || r.2)
        else seedLoop filter n_types skip dist fuel (filter.next t) r.1 (changed || r.2)
    else some (h, changed)

/-- The loops that add a list of types to a history at `dist`, passing over those with
`skip t` and leaving once the history is saturated. -/
def flowLoop (skip : Nat → Bool) (dist : Nat) :
    List Nat → TypeflowHistory → Bool → TypeflowHistory × Bool
  | [], h, changed => (h, changed)
  | t :: rest, h, changed =>
    if skip t then flowLoop skip dist rest h changed
    else
      let r := h.add_type t dist
      if r.1.is_saturated then (r.1, changed || r.2)
      else flowLoop skip dist rest r.1 (changed || r.2)

/-- The test `method_history[adj[v].method.dependent().id] != max`. -/
def gateOpen (adj : Adjacency) (s : State) (v : Nat) : Bool :=
  s.history (adj.flow v).method.dependent != u8_max

/-- White-hole seeding of one successor `v` of typeflow 0. -/
def whiteHoleStep (bfs : BFS) (fuel : Nat) (s : State) (v : Nat) : Option State :=
  (seedLoop (bfs.typeflow_filters.getD v default) bfs.adj.n_types (fun _ => false) 0 fuel
      (bfs.typeflow_filters.getD v default).first (s.hist v) false).map
    (fun r => (s.setHist v r.1).pushIf (r.2 && (bfs.adj.flow v).method.dependent == 0) v)

/-- A loop over a list whose body may run out of fuel. -/
def forM_opt {α σ : Type} (f : σ → α → Option σ) : List α → σ → Option σ
  | [], s => some s
  | x :: xs, s =>
    match f s x with
    | none => none
    | some s1 => forM_opt f xs s1

/-- The vectors and worklists as declared, with the root and the purged methods marked. -/
def startState (bfs : BFS) (purged : List Nat) : State :=
  { method_visited :=
      purged.foldl (fun mv p => mv.set p true) ((List.replicate bfs.adj.n_methods false).set 0 true)
    method_history := (List.replicate bfs.adj.n_methods u8_max).set 0 0
    typeflow_visited := List.replicate bfs.adj.n_typeflows TypeflowHistory.fresh
    allInstantiated := Bitset.zeros bfs.adj.n_types
    method_worklist := [0]
    next_method_worklist := []
    typeflow_worklist := []
    instantiated_since_last_iteration := []
    saturation_uses_by_filter := List.replicate bfs.filter_filters.length []
    included_in_saturation_uses := List.replicate bfs.adj.n_typeflows false
    dist := 0 }

/-- The state before the outer loop: the declarations followed by the white-hole seeding. -/
def initState (bfs : BFS) (purged : List Nat) (fuel : Nat) : Option State :=
  forM_opt (whiteHoleStep bfs fuel) (bfs.adj.flow 0).forward_edges (startState bfs purged)

/-- One dependent typeflow of a dequeued method. -/
def wakeDependent (s : State) (v : Nat) : State :=
  s.pushIf (s.hist v).any v

/-- One forward edge of a dequeued method. -/
def visitMethod (s : State) (v : Nat) : State :=
  if !s.visited v then
    { s with method_visited := s.method_visited.set v true
             next_method_worklist := s.next_method_worklist ++ [v] }
  else s

/-- The statement `method_history[u.id] = dist`. -/
def recordDistance (s : State) (u : Nat) : State :=
  { s with method_history := s.method_history.set u s.dist }

/-- Body of `for (method_id u : method_worklist)`. -/
def methodBody (adj : Adjacency) (s : State) (u : Nat) : State :=
  (adj.method u).forward_edges.foldl visitMethod
    ((adj.method u).dependent_typeflows.foldl wakeDependent (recordDistance s u))

/-- The statements `method_worklist.clear(); swap(method_worklist, next_method_worklist)`. -/
def swapWorklists (s : State) : State :=
  { s with method_worklist := s.next_method_worklist, next_method_worklist := [] }

/-- One pass of the `do` loop: all methods of the worklist, then `clear` and `swap`. -/
def methodLayer (adj : Adjacency) (s : State) : State :=
  swapWorklists (s.method_worklist.foldl (methodBody adj) s)

/-- The `do ... while (!dist_matters && !method_worklist.empty())` loop. -/
def methodPhase (adj : Adjacency) (dist_matters : Bool) : Nat → State → Option State
  | 0, _ => none
  | fuel + 1, s =>
    let s1 := methodLayer adj s
    if !dist_matters && !s1.method_worklist.isEmpty then methodPhase adj dist_matters fuel s1
    else some s1

/-- The reaching method of a popped typeflow. -/
def reachMethod (s : State) (m : Nat) : State :=
  if !s.visited m then
    { s with method_visited := s.method_visited.set m true
             method_worklist := s.method_worklist ++ [m] }
  else s

/-- One recorded type of `u` when the successor is the all-instantiated typeflow. -/
def instantiate (s : State) (t : Nat) : State :=
  if !s.allInstantiated.get t then
    { s with allInstantiated := s.allInstantiated.set t
             instantiated_since_last_iteration := s.instantiated_since_last_iteration ++ [t] }
  else s

/-- The statement `if (v == adj.allInstantiated) ...` for a successor of an unsaturated `u`. -/
def feedInstantiated (bfs : BFS) (u : Nat) (s : State) (v : Nat) : State :=
  if v = bfs.adj.allInstantiated then (s.hist u).recorded.foldl instantiate s else s

/-- The rest of the body for a successor `v` of an unsaturated `u`: the recorded types of `u`
that pass the filter of `v` are added to `v`. -/
def flowInto (bfs : BFS) (u : Nat) (s : State) (v : Nat) : State :=
  if (s.hist v).is_saturated then s
  else
    let r := flowLoop (fun t => !(bfs.typeflow_filters.getD v default).get t) s.dist
      (s.hist u).recorded (s.hist v) false
    (s.setHist v r.1).pushIf (r.2 && gateOpen bfs.adj (s.setHist v r.1) v) v

/-- Body of the loop over the successors of an unsaturated typeflow `u`. -/
def flowEdge (bfs : BFS) (u : Nat) (s : State) (v : Nat) : State :=
  flowInto bfs u (feedInstantiated bfs u s v) v

/-- The statement `if (!saturated) saturation_uses_by_filter[filter - begin].push_back(v)`. -/
def joinUses (bfs : BFS) (s : State) (v : Nat) : State :=
  if !(s.hist v).is_saturated then
    s.setUses (bfs.filterIndex v) (s.saturation_uses_by_filter.getD (bfs.filterIndex v) [] ++ [v])
  else s

/-- The statement `included_in_saturation_uses[v.id] = true`. -/
def includeUse (s : State) (v : Nat) : State :=
  { s with included_in_saturation_uses := s.included_in_saturation_uses.set v true }

/-- Body of the loop over the successors of a saturated typeflow. -/
def saturatedEdge (bfs : BFS) (fuel : Nat) (s : State) (v : Nat) : Option State :=
  if (s.hist v).is_saturated then some s
  else if s.included_in_saturation_uses.getD v false then some s
  else
    (seedLoop (bfs.typeflow_filters.getD v default) bfs.adj.n_types
        (fun t => !s.allInstantiated.get t) s.dist fuel
        (bfs.typeflow_filters.getD v default).first (s.hist v) false).map
      (fun r =>
        (joinUses bfs ((includeUse s v).setHist v r.1) v).pushIf
          (r.2 && gateOpen bfs.adj (joinUses bfs ((includeUse s v).setHist v r.1) v) v) v)

/-- Body of `while (!typeflow_worklist.empty())` after the front `u` has been popped. -/
def processTypeflow (bfs : BFS) (fuel : Nat) (s : State) (u : Nat) : Option State :=
  if !((reachMethod s (bfs.adj.flow u).method.reaching).hist u).is_saturated then
    some ((bfs.adj.flow u).forward_edges.foldl (flowEdge bfs u)
      (reachMethod s (bfs.adj.flow u).method.reaching))
  else
    forM_opt (saturatedEdge bfs fuel) (bfs.adj.flow u).forward_edges
      (reachMethod s (bfs.adj.flow u).method.reaching)

/-- The statements `u = typeflow_worklist.front(); typeflow_worklist.pop()`. -/
def popTypeflow (s : State) (rest : List Nat) : State :=
  { s with typeflow_worklist := rest }

/-- The loop `while (!typeflow_worklist.empty())`. -/
def drainTypeflows (bfs : BFS) : Nat → State → Option State
  | 0, _ => none
  | fuel + 1, s =>
    match s.typeflow_worklist with
    | [] => some s
    | u :: rest =>
      match processTypeflow bfs fuel (popTypeflow s rest) u with
      | none => none
      | some s1 => drainTypeflows bfs fuel s1

/-- The loop over a filter with at most four members: `i` iterations done, `type` current. -/
def smallFilterLoop (filter : TypeSet) (instantiated : List Nat) :
    Nat → Nat → Nat → List Nat → List Nat
  | 0, _, _, acc => acc
  | fuel + 1, i, type, acc =>
    if i + 1 ≥ filter.count then (if type ∈ instantiated then acc ++ [type] else acc)
    else smallFilterLoop filter instantiated fuel (i + 1) (filter.next type)
      (if type ∈ instantiated then acc ++ [type] else acc)

/-- The list `instantiated_since_last_iteration_filtered` for one filter. -/
def filterDelta (filter : TypeSet) (instantiated : List Nat) : List Nat :=
  if filter.count ≤ 4 then smallFilterLoop filter instantiated 4 0 filter.first []
  else instantiated.filter (fun t => filter.get t)

/-- Body of the second pass over `saturation_uses`: the state and the entries kept so far. -/
def replayUse (bfs : BFS) (filtered : List Nat) (acc : State × List Nat) (v : Nat) :
    State × List Nat :=
  if (acc.1.hist v).is_saturated then acc
  else
    let r := flowLoop (fun _ => false) acc.1.dist filtered (acc.1.hist v) false
    ((acc.1.setHist v r.1).pushIf (r.2 && gateOpen bfs.adj (acc.1.setHist v r.1) v) v,
      acc.2 ++ [v])

/-- The first pass over `saturation_uses`, which erases the saturated entries. -/
def compactUses (s : State) (filter_id : Nat) : State :=
  s.setUses filter_id
    ((s.saturation_uses_by_filter.getD filter_id []).filter (fun v => !(s.hist v).is_saturated))

/-- The second pass over `saturation_uses` with the filtered new instantiations. -/
def replayUses (bfs : BFS) (s : State) (filter_id : Nat) (filtered : List Nat) : State :=
  ((s.saturation_uses_by_filter.getD filter_id []).foldl (replayUse bfs filtered) (s, [])).1.setUses
    filter_id
    ((s.saturation_uses_by_filter.getD filter_id []).foldl (replayUse bfs filtered) (s, [])).2

/-- Body of `for (filter_id = 0; filter_id < filter_filters.size(); filter_id++)`. -/
def propagateFilter (bfs : BFS) (s : State) (filter_id : Nat) : State :=
  if (s.saturation_uses_by_filter.getD filter_id []).isEmpty then s
  else if ((compactUses s filter_id).saturation_uses_by_filter.getD filter_id []).isEmpty then
    compactUses s filter_id
  else if (filterDelta (bfs.filter_filters.getD filter_id default)
      s.instantiated_since_last_iteration).isEmpty then compactUses s filter_id
  else replayUses bfs (compactUses s filter_id) filter_id
    (filterDelta (bfs.filter_filters.getD filter_id default) s.instantiated_since_last_iteration)

/-- The statement `instantiated_since_last_iteration.clear()`. -/
def clearInstantiated (s : State) : State :=
  { s with instantiated_since_last_iteration := [] }

/-- The saturation propagation of one round, with the final `clear`. -/
def propagate (bfs : BFS) (s : State) : State :=
  clearInstantiated ((List.range bfs.filter_filters.length).foldl (propagateFilter bfs) s)

/-- The loop `for (;;)`. -/
def typeflowPhase (bfs : BFS) (dist_matters : Bool) : Nat → State → Option State
  | 0, _ => none
  | fuel + 1, s =>
    match drainTypeflows bfs fuel s with
    | none => none
    | some s1 =>
      if !dist_matters && !s1.method_worklist.isEmpty then some s1
      else if s1.instantiated_since_last_iteration.isEmpty then some s1
      else typeflowPhase bfs dist_matters fuel (propagate bfs s1)

/-- The statement `if (dist_matters) dist++` on the 8-bit counter. -/
def bumpDist (dist_matters : Bool) (s : State) : State :=
  if dist_matters then { s with dist := (s.dist + 1) % 256 } else s

/-- The loop `while (!method_worklist.empty())`. -/
def outerLoop (bfs : BFS) (dist_matters : Bool) : Nat → State → Option State
  | 0, _ => none
  | fuel + 1, s =>
    if s.method_worklist.isEmpty then some s
    else
      match methodPhase bfs.adj dist_matters fuel s with
      | none => none
      | some s1 =>
        match typeflowPhase bfs dist_matters fuel (bumpDist dist_matters s1) with
        | none => none
        | some s2 => outerLoop bfs dist_matters fuel s2

/-- The state of `BFS::run` when the outer loop has been left. -/
def solve (bfs : BFS) (purged : List Nat) (dist_matters : Bool) (fuel : Nat) : Option State :=
  match initState bfs purged fuel with
  | none => none
  | some s0 => outerLoop bfs dist_matters fuel s0

/-- The final loop over the purged methods and the returned vectors. -/
def finish (purged : List Nat) (s : State) : Result :=
  { typeflow_visited := s.typeflow_visited
    method_history := s.method_history
    method_visited := purged.foldl (fun mv p => mv.set p false) s.method_visited }

/-- Source: `BFS::run<dist_matters>(purged_methods)` on the solver built from `adj`. -/
def run (adj : Adjacency) (purged : List Nat) (dist_matters : Bool) (fuel : Nat) : Option Result :=
  (solve (BFS.create adj) purged dist_matters fuel).map (finish purged)

/-! ## Predicates and auxiliary definitions of the proofs -/

/-- The record `h` holds exactly the pairs `ps`, in order, at the front of its slots. -/
structure TypeflowHistory.Holds (h : TypeflowHistory) (ps : List (Nat × Nat)) : Prop where
  len : ps.length ≤ saturation_cutoff
  ne_max : ∀ p ∈ ps, p.1 ≠ type_max
  types_eq : h.types = ps.map Prod.fst ++ List.replicate (saturation_cutoff - ps.length) type_max
  dists_eq : ∃ rest, h.dists = ps.map Prod.snd ++ rest ∧ rest.length = saturation_cutoff - ps.length
  sat_full : h.saturated_dist ≠ u8_max → ps.length = saturation_cutoff

/-- A record reachable from the default constructor by `add_type` calls. -/
def TypeflowHistory.Valid (h : TypeflowHistory) : Prop := ∃ ps, h.Holds ps

/-- The members of a type set in `[a, n)`, in increasing order. -/
def membersFrom (F : TypeSet) (n a : Nat) : List Nat :=
  (List.range' a (n - a)).filter (fun i => F.get i)

/-- The sentinels returned by `first` and `next` are not below the number of types. -/
def TypeSet.fits (F : TypeSet) (n : Nat) : Prop :=
  match F with
  | TypeSet.single _ => n ≤ type_max
  | TypeSet.multi b => n ≤ b.size

/-- All identifiers of the adjacency are in range, the root and the white hole exist, the
filters are bitsets over the types, and the type sentinel is not a type. -/
def Adjacency.wf (adj : Adjacency) : Prop :=
  0 < adj.n_methods ∧ 0 < adj.n_typeflows ∧ adj.n_types ≤ type_max ∧
  adj.allInstantiated < adj.n_typeflows ∧
  (∀ m ∈ adj.methods, (∀ v ∈ m.forward_edges, v < adj.n_methods) ∧
    (∀ v ∈ m.dependent_typeflows, v < adj.n_typeflows)) ∧
  (∀ f ∈ adj.flows, (∀ v ∈ f.forward_edges, v < adj.n_typeflows) ∧
    f.filter < adj.filters.length ∧ f.method.reaching < adj.n_methods ∧
    f.method.dependent < adj.n_methods) ∧
  (∀ b ∈ adj.filters, b.size = adj.n_types)

instance (adj : Adjacency) : Decidable adj.wf := by
  unfold Adjacency.wf; infer_instance

/-- The filter bitset of a typeflow. -/
def Adjacency.filterOf (adj : Adjacency) (v : Nat) : Bitset :=
  adj.filters.getD (adj.flow v).filter default

/-- The filter of typeflow `v` admits type `t`. -/
def Adjacency.admits (adj : Adjacency) (v t : Nat) : Bool := (adj.filterOf v).get t

/-- The facts about the solver built by the constructor that the proofs use. -/
structure BFS.Canonical (bfs : BFS) : Prop where
  wf : bfs.adj.wf
  typeflow_filter : ∀ v, v < bfs.adj.n_typeflows →
    bfs.typeflow_filters.getD v default = TypeSet.ofBitset (bfs.adj.filterOf v)
  filter_filter : ∀ v, v < bfs.adj.n_typeflows →
    bfs.filter_filters.getD (bfs.filterIndex v) default = TypeSet.ofBitset (bfs.adj.filterOf v)
  index_lt : ∀ v, v < bfs.adj.n_typeflows → bfs.filterIndex v < bfs.filter_filters.length

/-- The control points of the outer loop at which invariants are stated. -/
inductive Phase
  | head
  | methods
  | flows

/-- A family of state predicates that is carried along by every transition between control
points of the outer loop of `BFS::run`. -/
structure Phased (bfs : BFS) (dm : Bool) (I : Phase → State → Prop) : Prop where
  layer : ∀ s, I Phase.head s → s.method_worklist ≠ [] → I Phase.methods (methodLayer bfs.adj s)
  relayer : ∀ s, dm = false → I Phase.methods s → s.method_worklist ≠ [] →
    I Phase.methods (methodLayer bfs.adj s)
  bump : ∀ s, I Phase.methods s → (dm = true ∨ s.method_worklist = []) →
    I Phase.flows (bumpDist dm s)
  pop : ∀ fuel s u rest s1, I Phase.flows s → s.typeflow_worklist = u :: rest →
    processTypeflow bfs fuel (popTypeflow s rest) u = some s1 → I Phase.flows s1
  prop : ∀ s, I Phase.flows s → s.typeflow_worklist = [] →
    s.instantiated_since_last_iteration ≠ [] → (dm = true ∨ s.method_worklist = []) →
    I Phase.flows (propagate bfs s)
  exit : ∀ s, I Phase.flows s → s.typeflow_worklist = [] →
    ((dm = false ∧ s.method_worklist ≠ []) ∨ s.instantiated_since_last_iteration = []) →
    I Phase.head s

/-- The part of the state that the method phase owns, with the distance counter. -/
def State.methodPart (s : State) : List Bool × List Nat × List Nat × List Nat × Nat :=
  (s.method_visited, s.method_history, s.method_worklist, s.next_method_worklist, s.dist)

/-- The part of the state that records types. -/
def State.flowPart (s : State) :
    List TypeflowHistory × Bitset × List Nat × List (List Nat) × List Bool :=
  (s.typeflow_visited, s.allInstantiated, s.instantiated_since_last_iteration,
    s.saturation_uses_by_filter, s.included_in_saturation_uses)

/-- The invariants of the type-recording part of the state: vector sizes, well-formed records,
recorded types pass the filter, the new instantiations are instantiated, and every entry of a
saturation-uses list sits in the list of its own filter. -/
structure FlowShape (bfs : BFS) (s : State) : Prop where
  hist_len : s.typeflow_visited.length = bfs.adj.n_typeflows
  included_len : s.included_in_saturation_uses.length = bfs.adj.n_typeflows
  uses_len : s.saturation_uses_by_filter.length = bfs.filter_filters.length
  inst_size : s.allInstantiated.size = bfs.adj.n_types
  valid : ∀ v, (s.hist v).Valid
  honored : ∀ v t, t ∈ (s.hist v).recorded → bfs.adj.admits v t = true
  since_inst : ∀ t ∈ s.instantiated_since_last_iteration, s.allInstantiated.get t = true
  uses_index : ∀ f v, v ∈ s.saturation_uses_by_filter.getD f [] →
    v < bfs.adj.n_typeflows ∧ bfs.filterIndex v = f

/-- The invariant behind the observation of purged methods: they are marked from the start,
so none of them except possibly the root enters a worklist, and their distance stays unset. -/
structure PurgeInv (adj : Adjacency) (purged : List Nat) (s : State) : Prop where
  history_len : s.method_history.length = adj.n_methods
  purged_visited : ∀ p ∈ purged, p < adj.n_methods → s.visited p = true
  worklists : ∀ m, (m ∈ s.method_worklist ∨ m ∈ s.next_method_worklist) → m ∈ purged →
    m = 0 ∨ adj.n_methods ≤ m
  purged_history : ∀ p ∈ purged, p ≠ 0 → s.history p = u8_max

/-- The root stays marked at distance 0 and is never enqueued again. -/
structure RootInv (adj : Adjacency) (s : State) : Prop where
  visited_len : s.method_visited.length = adj.n_methods
  history_len : s.method_history.length = adj.n_methods
  root_visited : s.visited 0 = true
  root_history : s.history 0 = 0
  root_next : 0 ∉ s.next_method_worklist
  root_worklist : 0 ∈ s.method_worklist → s.dist = 0

/-- The family of root invariants: after the first layer the root has left the worklist. -/
def RootPhase (adj : Adjacency) : Phase → State → Prop
  | Phase.head, s => RootInv adj s
  | Phase.methods, s => RootInv adj s ∧ 0 ∉ s.method_worklist
  | Phase.flows, s => RootInv adj s ∧ 0 ∉ s.method_worklist

/-- Every marked method that is not purged waits in a worklist or has all its successors
marked. -/
structure ClosedInv (adj : Adjacency) (purged : List Nat) (s : State) : Prop where
  visited_len : s.method_visited.length = adj.n_methods
  closed : ∀ m, s.visited m = true → m ∈ purged ∨ m ∈ s.method_worklist ∨
    m ∈ s.next_method_worklist ∨ ∀ v ∈ (adj.method m).forward_edges, s.visited v = true

/-- The invariants of the earlier sections together. -/
def Base (bfs : BFS) (purged : List Nat) (p : Phase) (s : State) : Prop :=
  (FlowShape bfs s ∧ RootPhase bfs.adj p s) ∧
    (PurgeInv bfs.adj purged s ∧ ClosedInv bfs.adj purged s ∧ s.next_method_worklist = [])

/-- The effect on histories, worklist and method part of a statement sequence that stores the
outcome `r` of a type-adding loop in typeflow `v` and pushes `v` when `c` holds. -/
structure RecordStep (s s2 : State) (v : Nat) (r : TypeflowHistory × Bool) (c : Bool) : Prop where
  hist_self : s2.hist v = r.1
  hist_other : ∀ w, w ≠ v → s2.hist w = s.hist w
  worklist : s2.typeflow_worklist = if c then s.typeflow_worklist ++ [v] else s.typeflow_worklist
  methodPart : s2.methodPart = s.methodPart
  inst : s2.allInstantiated = s.allInstantiated
  since : s2.instantiated_since_last_iteration = s.instantiated_since_last_iteration

/-- A typeflow with a reaching role that records a type waits in the worklist or has its
method marked. -/
def ReachInv (adj : Adjacency) (s : State) : Prop :=
  ∀ u m, (adj.flow u).method = MethodRole.Reaching m → (s.hist u).recorded ≠ [] →
    u ∈ s.typeflow_worklist ∨ s.visited m = true

/-- The state in which the outer loop is left. -/
structure Final (bfs : BFS) (purged : List Nat) (s : State) : Prop where
  base : Base bfs purged Phase.head s
  reach : ReachInv bfs.adj s
  methods_done : s.method_worklist = []
  flows_done : s.typeflow_worklist = []
  since_done : s.instantiated_since_last_iteration = []

/-- A path of method forward edges from `a` all of whose methods are not purged. -/
inductive PurgeFreePath (adj : Adjacency) (purged : List Nat) : Nat → Nat → Prop
  | refl (a : Nat) : a ∉ purged → PurgeFreePath adj purged a a
  | step (a m v : Nat) : PurgeFreePath adj purged a m → v ∈ (adj.method m).forward_edges →
      v ∉ purged → PurgeFreePath adj purged a v

/-- The set of typeflows that record a type contains that of an earlier state. -/
def HistGrows (s s2 : State) : Prop :=
  ∀ u, (s.hist u).recorded ≠ [] → (s2.hist u).recorded ≠ []

/-- A start of method reachability: the root, or the reaching method of a typeflow that
records a type. -/
def IsSource (adj : Adjacency) (s : State) (src : Nat) : Prop :=
  src = 0 ∨ ∃ u, (adj.flow u).method = MethodRole.Reaching src ∧ (s.hist u).recorded ≠ []

/-- Method `m` is connected to a start by a path without purged methods. -/
def Justified (adj : Adjacency) (purged : List Nat) (s : State) (m : Nat) : Prop :=
  ∃ src, IsSource adj s src ∧ PurgeFreePath adj purged src m

/-- Every marked method that is not purged and every method in a worklist is justified, and
every typeflow in the worklist records a type. -/
structure JustInv (adj : Adjacency) (purged : List Nat) (s : State) : Prop where
  marked : ∀ m, s.visited m = true → m ∉ purged → Justified adj purged s m
  waiting : ∀ m, (m ∈ s.method_worklist ∨ m ∈ s.next_method_worklist) → m ∉ purged →
    Justified adj purged s m
  queued : ∀ u ∈ s.typeflow_worklist, (s.hist u).recorded ≠ []

/-- The methods in the worklists are in range and marked, and a method whose distance is set is
the root or is marked and not purged. -/
structure QueueInv (adj : Adjacency) (purged : List Nat) (s : State) : Prop where
  waiting : ∀ m, (m ∈ s.method_worklist ∨ m ∈ s.next_method_worklist) →
    m < adj.n_methods ∧ s.visited m = true
  dequeued : ∀ m, s.history m ≠ u8_max → m = 0 ∨ (s.visited m = true ∧ m ∉ purged)

/-- The invariants so far with the worklist invariant. -/
def Base2 (bfs : BFS) (purged : List Nat) (p : Phase) (s : State) : Prop :=
  Base bfs purged p s ∧ QueueInv bfs.adj purged s

/-- The lists of dependent typeflows name only typeflows that depend on that method. -/
def Adjacency.dependentsAgree (adj : Adjacency) : Prop :=
  ∀ m, m < adj.n_methods → ∀ v ∈ (adj.method m).dependent_typeflows,
    (adj.flow v).method.dependent = m

instance (adj : Adjacency) : Decidable adj.dependentsAgree := by
  unfold Adjacency.dependentsAgree; infer_instance

/-- Typeflow `u` is not held back: it depends on no method (or on the root), or its method is
marked and not purged. -/
def Live (adj : Adjacency) (purged : List Nat) (s : State) (u : Nat) : Prop :=
  (adj.flow u).method.dependent = 0 ∨
    (s.visited (adj.flow u).method.dependent = true ∧ (adj.flow u).method.dependent ∉ purged)

/-- Typeflow `v` has a predecessor that may hand types on: the white hole, or a typeflow that
records a type and is not held back. -/
def Fed (adj : Adjacency) (purged : List Nat) (s : State) (v : Nat) : Prop :=
  ∃ u, v ∈ (adj.flow u).forward_edges ∧
    (u = 0 ∨ ((s.hist u).recorded ≠ [] ∧ Live adj purged s u))

/-- Types are recorded only in fed typeflows, the uses lists hold fed typeflows, and the
typeflows in the worklist record a type and are not held back. -/
structure GateInv (adj : Adjacency) (purged : List Nat) (s : State) : Prop where
  recorded : ∀ v, (s.hist v).recorded ≠ [] → Fed adj purged s v
  uses : ∀ f v, v ∈ s.saturation_uses_by_filter.getD f [] → Fed adj purged s v
  queued : ∀ u ∈ s.typeflow_worklist, Live adj purged s u ∧ (s.hist u).recorded ≠ []

/-- The number of methods whose distance is set. -/
def distCount (n : Nat) (s : State) : Nat :=
  ((Finset.range n).filter (fun m => s.history m ≠ u8_max)).card

/-- The distance counter, with `k` to spare, is at most the number of methods whose distance
is set, and the methods of the worklist other than the root have no distance yet. -/
structure Counted (adj : Adjacency) (s : State) (k : Nat) : Prop where
  bound : s.dist + k ≤ distCount adj.n_methods s
  unset : ∀ m ∈ s.method_worklist, m ≠ 0 → s.history m = u8_max

/-- The spare count at each control point. -/
def spare : Phase → State → Nat
  | Phase.head, s => if 0 ∈ s.method_worklist then 1 else 0
  | Phase.methods, _ => 1
  | Phase.flows, _ => 0

/-- Without distances the counter stays 0; with distances it counts layers, each of which
sets the distance of a new method. -/
def NoWrap (adj : Adjacency) (dm : Bool) (p : Phase) (s : State) : Prop :=
  (dm = false → s.dist = 0) ∧ (dm = true → Counted adj s (spare p s))

/-- The invariants so far with the bound on the distance counter. -/
def Base3 (bfs : BFS) (purged : List Nat) (dm : Bool) (p : Phase) (s : State) : Prop :=
  Base2 bfs purged p s ∧ NoWrap bfs.adj dm p s

/-- Every marked method that is not purged is in the worklist or has its distance set. -/
def DoneInv (purged : List Nat) (s : State) : Prop :=
  ∀ m, s.visited m = true → m ∉ purged → m ∈ s.method_worklist ∨ s.history m ≠ u8_max

/-- All invariants of the method side, for fewer than 255 methods. -/
def Core (bfs : BFS) (purged : List Nat) (dm : Bool) (p : Phase) (s : State) : Prop :=
  Base3 bfs purged dm p s ∧ DoneInv purged s

/-- Every typeflow that depends on a method other than the root is in the list of dependent
typeflows of that method. -/
def Adjacency.dependentsListed (adj : Adjacency) : Prop :=
  ∀ v, v < adj.n_typeflows → (adj.flow v).method.dependent ≠ 0 →
    v ∈ (adj.method (adj.flow v).method.dependent).dependent_typeflows

instance (adj : Adjacency) : Decidable adj.dependentsListed := by
  unfold Adjacency.dependentsListed; infer_instance

/-- The successor `v` of a saturated typeflow has been dealt with: it is saturated itself or
it has been included in the saturation uses. -/
def Done (s : State) (v : Nat) : Prop :=
  (s.hist v).is_saturated = true ∨ s.included_in_saturation_uses.getD v false = true

/-- The invariant of the saturation uses. An included typeflow that is not saturated is an
entry of the list of its filter and holds every instantiated type that its filter admits, up
to the new instantiations; a saturated typeflow whose gate is open waits in the worklist or
has all its successors dealt with (`E` excepts the typeflow being processed). -/
structure SatInv (bfs : BFS) (E : Nat → Prop) (s : State) : Prop where
  complete : ∀ v, v < bfs.adj.n_typeflows →
    s.included_in_saturation_uses.getD v false = true → (s.hist v).is_saturated = false →
    v ∈ s.saturation_uses_by_filter.getD (bfs.filterIndex v) [] ∧
    ∀ t, s.allInstantiated.get t = true → bfs.adj.admits v t = true →
      t ∈ (s.hist v).recorded ∨ t ∈ s.instantiated_since_last_iteration
  processed : ∀ u, (s.hist u).is_saturated = true → gateOpen bfs.adj s u = true →
    u ∈ s.typeflow_worklist ∨ (∀ v ∈ (bfs.adj.flow u).forward_edges, Done s v) ∨ E u

/-- The histories of `s2` extend those of `s`, and the instantiated types, the inclusion flags
and the distance counter are the same. -/
structure Grows (s s2 : State) : Prop where
  sat : ∀ w, (s.hist w).is_saturated = true → (s2.hist w).is_saturated = true
  types : ∀ w t, t ∈ (s.hist w).recorded → t ∈ (s2.hist w).recorded
  included : s2.included_in_saturation_uses = s.included_in_saturation_uses
  inst : s2.allInstantiated = s.allInstantiated
  since : s2.instantiated_since_last_iteration = s.instantiated_since_last_iteration
  dist : s2.dist = s.dist

/-- The facts that the solver establishes: a method is reached, a typeflow holds a type. -/
inductive Fact
  | method (m : Nat)
  | type (v t : Nat)

/-- The propagation rules: the root is reached; calls reach methods; a typeflow that holds a
type reaches its reaching method; the white hole gives its successors every type that they
admit; a typeflow whose dependent method is reached hands its types on along its edges. -/
inductive Derivable (adj : Adjacency) : Fact → Prop
  | root : Derivable adj (Fact.method 0)
  | call (m v : Nat) : Derivable adj (Fact.method m) → v ∈ (adj.method m).forward_edges →
      Derivable adj (Fact.method v)
  | reach (u t : Nat) : Derivable adj (Fact.type u t) →
      Derivable adj (Fact.method (adj.flow u).method.reaching)
  | seed (v t : Nat) : v ∈ (adj.flow 0).forward_edges → adj.admits v t = true →
      Derivable adj (Fact.type v t)
  | flow (u v t : Nat) : Derivable adj (Fact.type u t) →
      Derivable adj (Fact.method (adj.flow u).method.dependent) →
      v ∈ (adj.flow u).forward_edges → adj.admits v t = true → Derivable adj (Fact.type v t)

/-- No history is saturated. -/
def NoSat (s : State) : Prop := ∀ v, (s.hist v).is_saturated = false

/-- Without a purged method and without saturation, every mark and every recorded type is
derivable, the typeflows in the worklist hold a type and have their dependent method reached,
and the saturation uses are empty. -/
structure SoundInv (adj : Adjacency) (s : State) : Prop where
  methods : ∀ m, s.visited m = true → Derivable adj (Fact.method m)
  types : ∀ v t, t ∈ (s.hist v).recorded → Derivable adj (Fact.type v t)
  queued : ∀ u ∈ s.typeflow_worklist,
    Derivable adj (Fact.method (adj.flow u).method.dependent) ∧ (s.hist u).recorded ≠ []
  unused : ∀ f, s.saturation_uses_by_filter.getD f [] = []

/-- The histories of `s2` extend those of `s`. -/
structure HistMono (s s2 : State) : Prop where
  sat : ∀ w, (s.hist w).is_saturated = true → (s2.hist w).is_saturated = true
  types : ∀ w t, t ∈ (s.hist w).recorded → t ∈ (s2.hist w).recorded

/-- Every type of `u` that the filter of `v` admits is in `v`, unless `v` is saturated. -/
def Handed (bfs : BFS) (s : State) (u v : Nat) : Prop :=
  ∀ t ∈ (s.hist u).recorded, bfs.adj.admits v t = true →
    t ∈ (s.hist v).recorded ∨ (s.hist v).is_saturated = true

/-- An unsaturated typeflow whose gate is open waits in the worklist or has handed its types
to all its successors (`E` excepts the typeflow being processed). -/
def EdgeInv (bfs : BFS) (E : Nat → Prop) (s : State) : Prop :=
  ∀ u, gateOpen bfs.adj s u = true → (s.hist u).is_saturated = false →
    u ∈ s.typeflow_worklist ∨ (∀ v ∈ (bfs.adj.flow u).forward_edges, Handed bfs s u v) ∨ E u

/-- The successors of the white hole hold every type that they admit, unless saturated. -/
def SeedInv (bfs : BFS) (s : State) : Prop :=
  ∀ v ∈ (bfs.adj.flow 0).forward_edges, ∀ t, bfs.adj.admits v t = true →
    t ∈ (s.hist v).recorded ∨ (s.hist v).is_saturated = true

/-- The invariants of completeness together. -/
def Closing (bfs : BFS) (s : State) : Prop :=
  EdgeInv bfs (fun _ => False) s ∧ SeedInv bfs s

/-- The fact holds in the state: the method is marked, the typeflow records the type. -/
def Holds (s : State) : Fact → Prop
  | Fact.method m => s.visited m = true
  | Fact.type v t => t ∈ (s.hist v).recorded

/-- The distance that the methods of the worklist are going to get. -/
def pendingLevel : Phase → State → Nat
  | Phase.head, s => s.dist
  | Phase.methods, s => s.dist + 1
  | Phase.flows, s => s.dist

/-- No distance exceeds the counter, and every successor of a dequeued method is purged, has
a distance at most one larger, or waits in the worklist for such a distance `k`. -/
structure DistInv (adj : Adjacency) (purged : List Nat) (k : Nat) (s : State) : Prop where
  le_dist : ∀ m, s.history m ≠ u8_max → s.history m ≤ s.dist
  edges : ∀ u, s.history u ≠ u8_max → u ∉ s.method_worklist →
    ∀ v ∈ (adj.method u).forward_edges,
      v ∈ purged ∨ (s.history v ≠ u8_max ∧ s.history v ≤ s.history u + 1) ∨
        (v ∈ s.method_worklist ∧ k ≤ s.history u + 1)

/-- A history reachable from the default constructor by calls of `add_type`. -/
inductive TypeflowHistory.Reachable : TypeflowHistory → Prop
  | fresh : TypeflowHistory.Reachable TypeflowHistory.fresh
  | add (h : TypeflowHistory) (t d : Nat) : TypeflowHistory.Reachable h →
      TypeflowHistory.Reachable (h.add_type t d).1

/-- A sequence of `add_type` calls, each given as the pair of its type and its distance,
applied in order. -/
def TypeflowHistory.addAll (calls : List (Nat × Nat)) (h : TypeflowHistory) : TypeflowHistory :=
  calls.foldl (fun h c => (h.add_type c.1 c.2).1) h

/-- What a history knows about the set `S` of types added to it so far. -/
structure TypeflowHistory.Seen (S : Finset Nat) (h : TypeflowHistory) : Prop where
  valid : h.Valid
  nodup : h.recorded.Nodup
  sub : ∀ t ∈ h.recorded, t ∈ S
  unsat : h.is_saturated = false → ∀ t ∈ S, t ∈ h.recorded
  sat : h.is_saturated = true → saturation_cutoff < S.card

/-- A history all of whose distances are zero. -/
def TypeflowHistory.Zero (h : TypeflowHistory) : Prop :=
  (∀ p ∈ h.iter, p.2 = 0) ∧ (h.is_saturated = true → h.saturated_dist = 0)

/-- Every distance stored in the state is zero or the sentinel of the methods. -/
structure ZeroInv (s : State) : Prop where
  dist : s.dist = 0
  methods : ∀ m, s.history m = 0 ∨ s.history m = u8_max
  flows : ∀ v, (s.hist v).Zero

/-- The history that the white-hole seeding gives to typeflow `v`. -/
def seedOf (bfs : BFS) (v : Nat) : TypeflowHistory :=
  (flowLoop (fun _ => false) 0
    (membersFrom (bfs.typeflow_filters.getD v default) bfs.adj.n_types 0)
    TypeflowHistory.fresh false).1

/-- The types below `n_types` that the filter of typeflow `v` admits, in increasing order. -/
def Adjacency.admitted (adj : Adjacency) (v : Nat) : List Nat :=
  (List.range adj.n_types).filter (fun t => adj.admits v t)

/-- Every successor of the white hole holds the history that the seeding gave it. -/
def SeedKept (bfs : BFS) (s : State) : Prop :=
  ∀ v ∈ (bfs.adj.flow 0).forward_edges, s.hist v = seedOf bfs v

/-- A chain of 255 methods `m0 → m1 → … → m254`. The white hole seeds `t1` with the types 0..19
and `t2` with the types 20..39; both depend on the last method `m254`. `t1` flows into `t3`,
`t2` into `t4`, and `t3` and `t4`, which admit all 40 types, flow into each other. -/
def loopGraph : Adjacency :=
  { n_types := 40
    methods := (List.range 255).map (fun i => if i < 254 then ⟨[i + 1], []⟩ else ⟨[], [1, 2]⟩)
    flows := [⟨[1, 2], 0, MethodRole.Reaching 0⟩, ⟨[3], 1, MethodRole.Dependent 254⟩,
      ⟨[4], 2, MethodRole.Dependent 254⟩, ⟨[4], 3, MethodRole.Reaching 0⟩,
      ⟨[3], 3, MethodRole.Reaching 0⟩]
    filters := [⟨List.replicate 40 false⟩, ⟨List.replicate 20 true ++ List.replicate 20 false⟩,
      ⟨List.replicate 20 false ++ List.replicate 20 true⟩, ⟨List.replicate 40 true⟩]
    allInstantiated := 0 }

/-- The solver built for `loopGraph`. -/
def loopBFS : BFS := BFS.create loopGraph

/-- The history of `t1` after the white-hole seeding: the types 0..19 at distance 0. -/
def lowSeed : TypeflowHistory := seedOf loopBFS 1

/-- The history of `t2` after the white-hole seeding: the types 20..39 at distance 0. -/
def highSeed : TypeflowHistory := seedOf loopBFS 2

/-- The types 0..19 recorded at distance 255. -/
def lowLate : TypeflowHistory :=
  (flowLoop (fun _ => false) 255 lowSeed.recorded TypeflowHistory.fresh false).1

/-- The types 20..39 recorded at distance 255. -/
def highLate : TypeflowHistory :=
  (flowLoop (fun _ => false) 255 highSeed.recorded TypeflowHistory.fresh false).1

/-- The typeflow part of the state while the methods of the chain are dequeued: nothing is
queued and only the seeded typeflows record types. -/
def Quiet (s : State) : Prop :=
  s.typeflow_worklist = [] ∧ s.instantiated_since_last_iteration = [] ∧
  s.hist 1 = lowSeed ∧ s.hist 2 = highSeed ∧
  s.hist 3 = TypeflowHistory.fresh ∧ s.hist 4 = TypeflowHistory.fresh

/-- The method part of the state when method `k` of the chain is the only one queued. -/
def Climbing (k : Nat) (s : State) : Prop :=
  s.method_worklist = [k] ∧ s.next_method_worklist = [] ∧
  (∀ m, k < m → s.visited m = false) ∧ Quiet s

/-- The typeflow part of the state once `m254` has woken `t1` and `t2`: the queue is never
empty again. -/
def Circling (s : State) : Prop :=
  s.hist 1 = lowSeed ∧ s.hist 2 = highSeed ∧
  ((s.typeflow_worklist = [1, 2] ∧ s.hist 3 = TypeflowHistory.fresh ∧
      s.hist 4 = TypeflowHistory.fresh) ∨
    (s.typeflow_worklist = [2, 3] ∧ s.hist 3 = lowLate ∧ s.hist 4 = TypeflowHistory.fresh) ∨
    ((s.typeflow_worklist = [3, 4] ∨ s.typeflow_worklist = [4, 4] ∨
      s.typeflow_worklist = [4, 3] ∨ s.typeflow_worklist = [3, 3]) ∧
      s.hist 3 = lowLate ∧ s.hist 4 = highLate))

/-- The states of the run on `loopGraph` with distances, by control point. -/
def Doomed : Phase → State → Prop
  | Phase.head, s => ∃ k, k ≤ 254 ∧ s.dist = k ∧ Climbing k s
  | Phase.methods, s =>
    (∃ k, k < 254 ∧ s.dist = k ∧ Climbing (k + 1) s) ∨ (s.dist = 254 ∧ Circling s)
  | Phase.flows, s =>
    (∃ k, k < 254 ∧ s.dist = k + 1 ∧ Climbing (k + 1) s) ∨ (s.dist = 255 ∧ Circling s)

/-- With distances, some method has been dequeued at distance 254, so that the typeflow loop
that follows runs at distance 255, the sentinel. -/
def Tainted (dm : Bool) (s : State) : Prop :=
  dm = true ∧ ∃ m, s.history m = 254

/-- The methods of the worklist other than the root have no distance yet, and without
distances the counter stays 0. -/
def Unset (dm : Bool) (s : State) : Prop :=
  (∀ m ∈ s.method_worklist, m ≠ 0 → s.history m = u8_max) ∧ (dm = false → s.dist = 0)

/-- The distance counter at each control point of a run that is not tainted. -/
def Below (dm : Bool) : Phase → State → Prop
  | Phase.head, s => dm = true → s.dist ≤ 254
  | Phase.methods, s => dm = true → s.dist ≤ 253
  | Phase.flows, s => dm = true → s.dist ≤ 254

/-- The basic invariants with the facts on which the taint rests. -/
def Base4 (bfs : BFS) (purged : List Nat) (dm : Bool) (p : Phase) (s : State) : Prop :=
  Base2 bfs purged p s ∧ Unset dm s

/-- The basic invariants of a run that is tainted or has its distance counter below the
sentinel. -/
def Base5 (bfs : BFS) (purged : List Nat) (dm : Bool) (p : Phase) (s : State) : Prop :=
  Base4 bfs purged dm p s ∧ (Tainted dm s ∨ Below dm p s)

/-- The invariants of the method side of a run that is not tainted. -/
def Core2 (bfs : BFS) (purged : List Nat) (dm : Bool) (p : Phase) (s : State) : Prop :=
  Base5 bfs purged dm p s ∧ (Tainted dm s ∨ DoneInv purged s)

/-- Type `t` is recorded by a typeflow that is not held back and feeds the all-instantiated
typeflow. -/
def Sourced (adj : Adjacency) (purged : List Nat) (s : State) (t : Nat) : Prop :=
  ∃ u, Live adj purged s u ∧ t ∈ (s.hist u).recorded ∧
    adj.allInstantiated ∈ (adj.flow u).forward_edges

/-- Typeflow `u` may hand the type `t` on: it is the white hole, or it is not held back and
records `t`, or it is not held back, is saturated and `t` has a source for the all-instantiated
set. -/
def Hands (adj : Adjacency) (purged : List Nat) (s : State) (u t : Nat) : Prop :=
  u = 0 ∨ (Live adj purged s u ∧
    (t ∈ (s.hist u).recorded ∨ ((s.hist u).is_saturated = true ∧ Sourced adj purged s t)))

/-- Typeflow `v` has a predecessor that may hand the type `t` on. -/
def Given (adj : Adjacency) (purged : List Nat) (s : State) (v t : Nat) : Prop :=
  ∃ u, v ∈ (adj.flow u).forward_edges ∧ Hands adj purged s u t

/-- Typeflow `v` has a predecessor that is the white hole or is saturated and not held back. -/
def Feeder (adj : Adjacency) (purged : List Nat) (s : State) (v : Nat) : Prop :=
  ∃ u, v ∈ (adj.flow u).forward_edges ∧
    (u = 0 ∨ (Live adj purged s u ∧ (s.hist u).is_saturated = true))

/-- Every recorded type was handed on by a predecessor, every instantiated type has a source,
and the typeflows of the uses lists have a saturated predecessor that is not held back. -/
structure TypeGate (adj : Adjacency) (purged : List Nat) (s : State) : Prop where
  recorded : ∀ v t, t ∈ (s.hist v).recorded → Given adj purged s v t
  inst : ∀ t, s.allInstantiated.get t = true → Sourced adj purged s t
  uses : ∀ f v, v ∈ s.saturation_uses_by_filter.getD f [] → Feeder adj purged s v

/-- A bitset over `[0, n)` with the given members. -/
def Bitset.ofList (n : Nat) (l : List Nat) : Bitset :=
  ⟨(List.range n).map (fun i => decide (i ∈ l))⟩

/-- Scenario 1: the root and the white hole only. -/
def emptyGraph : Adjacency :=
  { n_types := 8
    methods := [⟨[], []⟩]
    flows := [⟨[], 0, MethodRole.Reaching 0⟩]
    filters := [Bitset.ofList 8 []]
    allInstantiated := 0 }

/-- Scenarios 2, 3 and 5: the white hole feeds a typeflow `t1` with filter `{7}` whose method
`m1` is a leaf that the root does not call. -/
def singleFlow (role : MethodRole) : Adjacency :=
  { n_types := 8
    methods := [⟨[], []⟩, ⟨[], []⟩]
    flows := [⟨[1], 0, MethodRole.Reaching 0⟩, ⟨[], 1, role⟩]
    filters := [Bitset.ofList 8 [], Bitset.ofList 8 [7]]
    allInstantiated := 0 }

/-- Scenario 6: the chain `root → m1 → m2 → m3` of method edges. -/
def chainGraph : Adjacency :=
  { n_types := 8
    methods := [⟨[1], []⟩, ⟨[2], []⟩, ⟨[3], []⟩, ⟨[], []⟩]
    flows := [⟨[], 0, MethodRole.Reaching 0⟩]
    filters := [Bitset.ofList 8 []]
    allInstantiated := 0 }

/-- The pairs recorded for typeflow `v` in a result. -/
def Result.pairs (r : Result) (v : Nat) : List (Nat × Nat) :=
  (r.typeflow_visited.getD v default).iter

/-- The record that holds the single pair `(7, 0)`. -/
def sevenAtZero : TypeflowHistory := (TypeflowHistory.fresh.add_type 7 0).1

/-- The result of scenario 1. -/
def emptyGraphResult : Result := ⟨[TypeflowHistory.fresh], [0], [true]⟩

/-- The result of scenario 2 in the mode with distances. -/
def singleFlowResult : Result := ⟨[TypeflowHistory.fresh, sevenAtZero], [0, 1], [true, true]⟩

/-- The result of scenarios 3 and 5: `m1` is reported unreached, `t1` holds `(7, 0)`. -/
def gatedFlowResult : Result :=
  ⟨[TypeflowHistory.fresh, sevenAtZero], [0, u8_max], [true, false]⟩

/-- The result of scenario 6 in the mode with distances. -/
def chainGraphResult : Result := ⟨[TypeflowHistory.fresh], [0, 1, 2, 3], [true, true, true, true]⟩

/-- The result of the chain of scenario 6 when `m2` is purged. -/
def purgedChainResult : Result :=
  ⟨[TypeflowHistory.fresh], [0, 1, u8_max, u8_max], [true, true, false, false]⟩

/-- A gated typeflow `t1` that the white hole saturates, its successor `t2`, and an ungated
typeflow `t3` that feeds type 29 to the all-instantiated typeflow `t4`. -/
def gatedSaturation : Adjacency :=
  { n_types := 30
    methods := [⟨[], []⟩, ⟨[], [1]⟩]
    flows := [⟨[1, 3], 0, MethodRole.Reaching 0⟩, ⟨[2], 1, MethodRole.Dependent 1⟩,
      ⟨[], 2, MethodRole.Reaching 0⟩, ⟨[4], 3, MethodRole.Reaching 0⟩,
      ⟨[], 2, MethodRole.Reaching 0⟩]
    filters := [Bitset.ofList 30 [], Bitset.ofList 30 (List.range 25),
      Bitset.ofList 30 (List.range 30), Bitset.ofList 30 [29]]
    allInstantiated := 4 }

/-- Two gated sources `t2` (types 0..14, opened by `m2`) and `t3` (types 15..29, opened by `m3`,
which only the reaching typeflow `t1` reaches) flow into `t4`, whose successor `t5` admits type
20 only and reaches `m4`. -/
def orderSensitive : Adjacency :=
  { n_types := 30
    methods := [⟨[1], []⟩, ⟨[2], []⟩, ⟨[], [2]⟩, ⟨[], [3]⟩, ⟨[], []⟩]
    flows := [⟨[1, 2, 3], 0, MethodRole.Reaching 0⟩, ⟨[], 1, MethodRole.Reaching 3⟩,
      ⟨[4], 2, MethodRole.Dependent 2⟩, ⟨[4], 3, MethodRole.Dependent 3⟩,
      ⟨[5], 4, MethodRole.Reaching 0⟩, ⟨[], 5, MethodRole.Reaching 4⟩]
    filters := [Bitset.ofList 30 [], Bitset.ofList 30 [0], Bitset.ofList 30 (List.range 15),
      Bitset.ofList 30 ((List.range 15).map (fun i => i + 15)), Bitset.ofList 30 (List.range 30),
      Bitset.ofList 30 [20]]
    allInstantiated := 0 }

/-- A chain of 257 methods whose last method calls back the method at depth 2. -/
def deepChain : Adjacency :=
  { n_types := 1
    methods := (List.range 257).map (fun i => ⟨[if i < 256 then i + 1 else 2], []⟩)
    flows := [⟨[], 0, MethodRole.Reaching 0⟩]
    filters := [Bitset.ofList 1 []]
    allInstantiated := 0 }

/-- The gated scenario with a successor: the white hole feeds `t1` (filter `{7}`, role
`Dependent(m1)`), `t1` has the edge to `t2` (filter `{7}`), and the root does not call `m1`. -/
def gatedChain : Adjacency :=
  { n_types := 8
    methods := [⟨[], []⟩, ⟨[], [1]⟩]
    flows := [⟨[1], 0, MethodRole.Reaching 0⟩, ⟨[2], 1, MethodRole.Dependent 1⟩,
      ⟨[], 1, MethodRole.Reaching 0⟩]
    filters := [Bitset.ofList 8 [], Bitset.ofList 8 [7]]
    allInstantiated := 0 }

/-- The result on `gatedChain`: `t1` holds `(7, 0)` and hands nothing on to `t2`. -/
def gatedChainResult : Result :=
  ⟨[TypeflowHistory.fresh, sevenAtZero, TypeflowHistory.fresh], [0, u8_max], [true, false]⟩

/-- Typeflow `u` is not held back in the result: it depends on no method (or on the root), or
its method is reported reached. -/
def Result.notHeld (r : Result) (adj : Adjacency) (u : Nat) : Prop :=
  (adj.flow u).method.dependent = 0 ∨
    r.method_visited.getD (adj.flow u).method.dependent false = true

/-- The white hole feeds `t1` (filter `{1}`, role `Dependent(m1)`, `m1` not called) and `t2`
(filter `{2}`, reaching role); both have the edge to `t3`, which admits the types 1 and 2. -/
def leakGraph : Adjacency :=
  { n_types := 8
    methods := [⟨[], []⟩, ⟨[], [1]⟩]
    flows := [⟨[1, 2], 0, MethodRole.Reaching 0⟩, ⟨[3], 1, MethodRole.Dependent 1⟩,
      ⟨[3], 2, MethodRole.Reaching 0⟩, ⟨[], 3, MethodRole.Reaching 0⟩]
    filters := [Bitset.ofList 8 [], Bitset.ofList 8 [1], Bitset.ofList 8 [2],
      Bitset.ofList 8 [1, 2]]
    allInstantiated := 0 }

/-- The result on `leakGraph`: `t3` holds the type of `t2` and not the type of the gated
`t1`. -/
def leakResult : Result :=
  ⟨[TypeflowHistory.fresh, (TypeflowHistory.fresh.add_type 1 0).1,
    (TypeflowHistory.fresh.add_type 2 0).1, (TypeflowHistory.fresh.add_type 2 1).1],
    [0, u8_max], [true, false]⟩

/-- The white hole saturates the ungated typeflow `t1`, whose successor `t2` admits every type;
`t3` feeds type 29 to the all-instantiated typeflow `t4`. -/
def openSaturation : Adjacency :=
  { n_types := 30
    methods := [⟨[], []⟩]
    flows := [⟨[1, 3], 0, MethodRole.Reaching 0⟩, ⟨[2], 1, MethodRole.Reaching 0⟩,
      ⟨[], 2, MethodRole.Reaching 0⟩, ⟨[4], 3, MethodRole.Reaching 0⟩,
      ⟨[], 2, MethodRole.Reaching 0⟩]
    filters := [Bitset.ofList 30 [], Bitset.ofList 30 (List.range 25),
      Bitset.ofList 30 (List.range 30), Bitset.ofList 30 [29]]
    allInstantiated := 4 }

/-- The state in which the solver leaves `openSaturation`. -/
def openSaturationFinal : State :=
  (solve (BFS.create openSaturation) [] true 40).getD (startState (BFS.create openSaturation) [])

/-- The result of scenario 2 in the mode without distances. -/
def singleFlowFlat : Result := ⟨[TypeflowHistory.fresh, sevenAtZero], [0, 0], [true, true]⟩

/-- Twenty-one calls of `add_type` with the distinct types 0..20, each at distance 255. -/
def twentyOneAtMax : List (Nat × Nat) := (List.range 21).map (fun t => (t, u8_max))

/-- Twenty-one calls of `add_type` with the distinct types 0..20, each at distance 0. -/
def twentyOneAtZero : List (Nat × Nat) := (List.range 21).map (fun t => (t, 0))

/-- The contract of `next` in the words of the specification, for a set with membership `mem`
over a domain of size `n`: the result `r` is the smallest member strictly greater than `pos`,
or there is no such member and `r` is a sentinel that is at least the domain size. -/
def NextContract (mem : Nat → Bool) (n pos r : Nat) : Prop :=
  (pos < r ∧ mem r = true ∧ ∀ j, pos < j → j < r → mem j = false) ∨
  (n ≤ r ∧ ∀ j, pos < j → mem j = false)

/-- The bitset over `[0, 8)` whose only member is 7. -/
def onlySeven : Bitset := ⟨[false, false, false, false, false, false, false, true]⟩

/-- Scenario 4: the white hole seeds `t1`, whose filter admits 25 types; `t1` has edges to the
all-instantiated typeflow `t3` and to the successor `t2`, which admits every type. -/
def saturatedFeeder : Adjacency :=
  { n_types := 25
    methods := [⟨[], []⟩]
    flows := [⟨[1], 0, MethodRole.Reaching 0⟩, ⟨[3, 2], 1, MethodRole.Reaching 0⟩,
      ⟨[], 1, MethodRole.Reaching 0⟩, ⟨[], 1, MethodRole.Reaching 0⟩]
    filters := [Bitset.ofList 25 [], Bitset.ofList 25 (List.range 25)]
    allInstantiated := 3 }

/-- The state of `saturatedFeeder` in which `t1` is at the front of the typeflow worklist: after
the white-hole seeding, the first method layer and the increment of the distance. -/
def saturatedFeederAtPop : Option State :=
  (initState (BFS.create saturatedFeeder) [] 40).map
    (fun s0 => bumpDist true (methodLayer saturatedFeeder s0))

/-! ## Theorems -/

theorem getD_set_eq {α : Type} (l : List α) (i : Nat) (a d : α) (h : i < l.length) :
    (l.set i a).getD i d = a := by
  simp [List.getD_eq_getElem?_getD, List.getElem?_set, h]

theorem getD_set_ne {α : Type} (l : List α) (i j : Nat) (a d : α) (h : i ≠ j) :
    (l.set i a).getD j d = l.getD j d := by
  simp [List.getD_eq_getElem?_getD, List.getElem?_set, h]

theorem getD_set {α : Type} (l : List α) (i j : Nat) (a d : α) :
    (l.set i a).getD j d = if i = j ∧ i < l.length then a else l.getD j d := by
  by_cases h : i = j
  · subst h
    by_cases h2 : i < l.length
    · simp [getD_set_eq, h2]
    · simp [h2, List.set_eq_of_length_le (Nat.le_of_not_lt h2)]
  · simp [getD_set_ne, h]

theorem getD_replicate {α : Type} (n i : Nat) (a : α) : (List.replicate n a).getD i a = a := by
  simp only [List.getD_eq_getElem?_getD]
  by_cases h : i < n
  · simp [List.getElem?_replicate, h]
  · simp [List.getElem?_replicate, h]

theorem foldl_inv {α σ : Type} (P : σ → Prop) (f : σ → α → σ) (l : List α) (s : σ)
    (h0 : P s) (hf : ∀ s x, x ∈ l → P s → P (f s x)) : P (l.foldl f s) := by
  induction l generalizing s with
  | nil => exact h0
  | cons x xs ih =>
    simp only [List.foldl_cons]
    exact ih _ (hf s x (List.mem_cons_self _ _) h0)
      (fun s y hy hs => hf s y (List.mem_cons_of_mem _ hy) hs)

theorem TypeflowHistory.holds_fresh : fresh.Holds [] := by
  refine ⟨by simp, by simp, by simp [fresh],
    ⟨List.replicate saturation_cutoff u8_max, by simp [fresh], by simp⟩, ?_⟩
  intro h; exact absurd rfl h

theorem TypeflowHistory.Holds.types_getD_lt {h : TypeflowHistory} {ps : List (Nat × Nat)} (hp : h.Holds ps)
    (i : Nat) (hi : i < ps.length) :
    h.types.getD i type_max = (ps.getD i (type_max, u8_max)).1 := by
  rw [hp.types_eq, List.getD_append _ _ _ _ (by simpa using hi)]
  exact List.getD_map ps (type_max, u8_max) Prod.fst

theorem TypeflowHistory.Holds.dists_getD_lt {h : TypeflowHistory} {ps : List (Nat × Nat)} (hp : h.Holds ps)
    (i : Nat) (hi : i < ps.length) :
    h.dists.getD i u8_max = (ps.getD i (type_max, u8_max)).2 := by
  obtain ⟨rest, hr, _⟩ := hp.dists_eq
  rw [hr, List.getD_append _ _ _ _ (by simpa using hi)]
  exact List.getD_map ps (type_max, u8_max) Prod.snd

theorem TypeflowHistory.Holds.types_getD_ge {h : TypeflowHistory} {ps : List (Nat × Nat)} (hp : h.Holds ps)
    (i : Nat) (hi : ps.length ≤ i) : h.types.getD i type_max = type_max := by
  rw [hp.types_eq, List.getD_append_right _ _ _ _ (by simpa using hi)]
  exact getD_replicate _ _ _

theorem TypeflowHistory.getD_mem_ne {ps : List (Nat × Nat)} (hne : ∀ p ∈ ps, p.1 ≠ type_max) (i : Nat)
    (hi : i < ps.length) : (ps.getD i (type_max, u8_max)).1 ≠ type_max := by
  apply hne
  rw [List.getD_eq_getElem?_getD, List.getElem?_eq_getElem hi]
  exact List.getElem_mem hi

theorem TypeflowHistory.Holds.iter_from_eq {h : TypeflowHistory} {ps : List (Nat × Nat)} (hp : h.Holds ps) :
    ∀ n i, i + n = saturation_cutoff → i ≤ ps.length → h.iter_from n i = ps.drop i := by
  intro n
  induction n with
  | zero =>
    intro i hi hle
    have : ps.length ≤ i := by have := hp.len; omega
    simp [iter_from, List.drop_eq_nil_of_le this]
  | succ n ih =>
    intro i hi hle
    rcases Nat.lt_or_ge i ps.length with hlt | hge
    · have h1 := hp.types_getD_lt i hlt
      have h2 := hp.dists_getD_lt i hlt
      have h3 := getD_mem_ne hp.ne_max i hlt
      rw [iter_from, if_neg (by rw [h1]; exact h3), ih (i + 1) (by omega) (by omega), h1, h2]
      rw [List.drop_eq_getElem_cons hlt]
      simp [List.getD_eq_getElem?_getD, List.getElem?_eq_getElem hlt]
    · have h1 := hp.types_getD_ge i hge
      rw [iter_from, if_pos h1, List.drop_eq_nil_of_le hge]

theorem TypeflowHistory.Holds.iter_eq {h : TypeflowHistory} {ps : List (Nat × Nat)} (hp : h.Holds ps) :
    h.iter = ps := by
  have := hp.iter_from_eq saturation_cutoff 0 (by simp) (Nat.zero_le _)
  simpa [iter] using this

theorem TypeflowHistory.Holds.recorded_eq {h : TypeflowHistory} {ps : List (Nat × Nat)} (hp : h.Holds ps) :
    h.recorded = ps.map Prod.fst := by
  simp [recorded, hp.iter_eq]

/-- The outcome of the scan of `add_type` on a well-formed record. -/
theorem TypeflowHistory.Holds.add_type_from_eq {h : TypeflowHistory} {ps : List (Nat × Nat)} (hp : h.Holds ps)
    (type dist : Nat) :
    ∀ n i, i + n = saturation_cutoff → i ≤ ps.length →
      h.add_type_from type dist n i =
        if type ∈ (ps.drop i).map Prod.fst then (h, false)
        else if ps.length < saturation_cutoff then
          ({ h with types := h.types.set ps.length type, dists := h.dists.set ps.length dist }, true)
        else ({ h with saturated_dist := dist }, true) := by
  intro n
  induction n with
  | zero =>
    intro i hi hle
    have h1 : ps.length ≤ i := by have := hp.len; omega
    have h2 : ¬ ps.length < saturation_cutoff := by omega
    simp [add_type_from, List.drop_eq_nil_of_le h1, h2]
  | succ n ih =>
    intro i hi hle
    rcases Nat.lt_or_ge i ps.length with hlt | hge
    · have h1 := hp.types_getD_lt i hlt
      have h3 := getD_mem_ne hp.ne_max i hlt
      have hd : ps.drop i = ps.getD i (type_max, u8_max) :: ps.drop (i + 1) := by
        rw [List.drop_eq_getElem_cons hlt]
        simp [List.getD_eq_getElem?_getD, List.getElem?_eq_getElem hlt]
      rw [add_type_from, if_neg (by rw [h1]; exact h3), h1]
      by_cases heq : (ps.getD i (type_max, u8_max)).1 = type
      · rw [if_pos heq, if_pos (by rw [hd, List.map_cons]; exact heq ▸ List.mem_cons_self _ _)]
      · rw [if_neg heq, ih (i + 1) (by omega) (by omega)]
        have : type ∈ (ps.drop i).map Prod.fst ↔ type ∈ (ps.drop (i + 1)).map Prod.fst := by
          rw [hd]
          simp only [List.map_cons, List.mem_cons]
          constructor
          · rintro (h | h)
            · exact absurd h.symm heq
            · exact h
          · exact Or.inr
        simp only [this]
    · have h1 := hp.types_getD_ge i hge
      have h2 : ps.length < saturation_cutoff := by omega
      have h4 : i = ps.length := by omega
      rw [add_type_from, if_pos h1, List.drop_eq_nil_of_le hge]
      simp [h2, h4]

theorem TypeflowHistory.Holds.add_type_eq {h : TypeflowHistory} {ps : List (Nat × Nat)} (hp : h.Holds ps)
    (type dist : Nat) :
    h.add_type type dist =
      if type ∈ ps.map Prod.fst then (h, false)
      else if ps.length < saturation_cutoff then
        ({ h with types := h.types.set ps.length type, dists := h.dists.set ps.length dist }, true)
      else ({ h with saturated_dist := dist }, true) := by
  have := hp.add_type_from_eq type dist saturation_cutoff 0 (by simp) (Nat.zero_le _)
  simpa [add_type] using this

theorem TypeflowHistory.Holds.append {h : TypeflowHistory} {ps : List (Nat × Nat)} (hp : h.Holds ps)
    (type dist : Nat) (hlt : ps.length < saturation_cutoff) (hne : type ≠ type_max) :
    Holds { h with types := h.types.set ps.length type, dists := h.dists.set ps.length dist }
      (ps ++ [(type, dist)]) := by
  obtain ⟨rest, hr, hrl⟩ := hp.dists_eq
  have hk : saturation_cutoff - ps.length = (saturation_cutoff - (ps.length + 1)) + 1 := by omega
  refine ⟨by simpa using hlt, ?_, ?_, ?_, fun hs => absurd (hp.sat_full hs) (by omega)⟩
  · intro p hp'
    rcases List.mem_append.1 hp' with h1 | h1
    · exact hp.ne_max p h1
    · simp at h1; subst h1; exact hne
  · show h.types.set ps.length type = _
    rw [hp.types_eq, List.set_append, if_neg (by simp), hk, List.replicate_succ]
    simp
  · cases rest with
    | nil => simp at hrl; omega
    | cons r rest =>
      refine ⟨rest, ?_, by simp at hrl ⊢; omega⟩
      show h.dists.set ps.length dist = _
      rw [hr, List.set_append, if_neg (by simp)]
      simp

theorem TypeflowHistory.valid_fresh : fresh.Valid := ⟨[], holds_fresh⟩

theorem TypeflowHistory.Holds.set_max {h : TypeflowHistory} {ps : List (Nat × Nat)} (hp : h.Holds ps)
    (dist : Nat) (hlt : ps.length < saturation_cutoff) :
    Holds { h with types := h.types.set ps.length type_max, dists := h.dists.set ps.length dist }
      ps := by
  obtain ⟨rest, hr, hrl⟩ := hp.dists_eq
  have hk : saturation_cutoff - ps.length = (saturation_cutoff - (ps.length + 1)) + 1 := by omega
  refine ⟨hp.len, hp.ne_max, ?_, ?_, hp.sat_full⟩
  · show h.types.set ps.length type_max = _
    rw [hp.types_eq, List.set_append, if_neg (by simp), hk, List.replicate_succ]
    simp
  · cases rest with
    | nil => simp at hrl; omega
    | cons r rest =>
      refine ⟨dist :: rest, ?_, by simpa using hrl⟩
      show h.dists.set ps.length dist = _
      rw [hr, List.set_append, if_neg (by simp)]
      simp

theorem TypeflowHistory.Holds.saturate {h : TypeflowHistory} {ps : List (Nat × Nat)} (hp : h.Holds ps)
    (dist : Nat) (hfull : ps.length = saturation_cutoff) :
    Holds { h with saturated_dist := dist } ps :=
  ⟨hp.len, hp.ne_max, hp.types_eq, hp.dists_eq, fun _ => hfull⟩

/-- The pairs held after `add_type`. -/
theorem TypeflowHistory.Holds.add_type_holds {h : TypeflowHistory} {ps : List (Nat × Nat)} (hp : h.Holds ps)
    (type dist : Nat) :
    (h.add_type type dist).1.Holds
      (if type ∈ ps.map Prod.fst ∨ saturation_cutoff ≤ ps.length ∨ type = type_max then ps
       else ps ++ [(type, dist)]) := by
  rw [hp.add_type_eq]
  by_cases h1 : type ∈ ps.map Prod.fst
  · simpa [h1] using hp
  · by_cases h2 : ps.length < saturation_cutoff
    · by_cases h3 : type = type_max
      · subst h3
        simpa [h1, h2] using hp.set_max dist h2
      · have h2' : ¬ saturation_cutoff ≤ ps.length := by omega
        rw [if_neg h1, if_pos h2, if_neg (by simp only [h1, h2', h3, or_self, not_false_iff])]
        exact hp.append type dist h2 h3
    · have h2' : saturation_cutoff ≤ ps.length := by omega
      rw [if_neg h1, if_neg h2, if_pos (Or.inr (Or.inl h2'))]
      exact hp.saturate dist (by have := hp.len; omega)

theorem TypeflowHistory.Valid.add_type {h : TypeflowHistory} (hv : h.Valid) (type dist : Nat) :
    (h.add_type type dist).1.Valid := by
  obtain ⟨ps, hp⟩ := hv
  exact ⟨_, hp.add_type_holds type dist⟩

/-- The recorded types after `add_type`. -/
theorem TypeflowHistory.Valid.recorded_add_type {h : TypeflowHistory} (hv : h.Valid) (type dist : Nat) :
    (h.add_type type dist).1.recorded =
      if type ∈ h.recorded ∨ saturation_cutoff ≤ h.recorded.length ∨ type = type_max
      then h.recorded else h.recorded ++ [type] := by
  obtain ⟨ps, hp⟩ := hv
  rw [(hp.add_type_holds type dist).recorded_eq, hp.recorded_eq]
  simp only [List.length_map]
  split <;> simp

/-- The flag returned by `add_type`. -/
theorem TypeflowHistory.Valid.add_type_flag {h : TypeflowHistory} (hv : h.Valid) (type dist : Nat) :
    (h.add_type type dist).2 = !decide (type ∈ h.recorded) := by
  obtain ⟨ps, hp⟩ := hv
  rw [hp.add_type_eq, hp.recorded_eq]
  by_cases h1 : type ∈ ps.map Prod.fst
  · simp [h1]
  · by_cases h2 : ps.length < saturation_cutoff <;> simp [h1, h2]

/-- A call of `add_type` that returns false leaves the record as it was. -/
theorem TypeflowHistory.Valid.add_type_unchanged {h : TypeflowHistory} (hv : h.Valid) (type dist : Nat)
    (hf : (h.add_type type dist).2 = false) : (h.add_type type dist).1 = h := by
  obtain ⟨ps, hp⟩ := hv
  rw [hp.add_type_eq] at hf ⊢
  by_cases h1 : type ∈ ps.map Prod.fst
  · simp [h1]
  · by_cases h2 : ps.length < saturation_cutoff <;> simp [h1, h2] at hf

/-- The saturation distance after `add_type`. -/
theorem TypeflowHistory.Valid.add_type_saturated_dist {h : TypeflowHistory} (hv : h.Valid) (type dist : Nat) :
    (h.add_type type dist).1.saturated_dist =
      if type ∉ h.recorded ∧ saturation_cutoff ≤ h.recorded.length then dist
      else h.saturated_dist := by
  obtain ⟨ps, hp⟩ := hv
  rw [hp.add_type_eq, hp.recorded_eq]
  simp only [List.length_map]
  by_cases h1 : type ∈ ps.map Prod.fst
  · simp [h1]
  · by_cases h2 : ps.length < saturation_cutoff
    · have : ¬ saturation_cutoff ≤ ps.length := by omega
      simp [h1, h2, this]
    · have : saturation_cutoff ≤ ps.length := by omega
      simp [h1, h2, this]

theorem TypeflowHistory.Valid.recorded_length_le {h : TypeflowHistory} (hv : h.Valid) :
    h.recorded.length ≤ saturation_cutoff := by
  obtain ⟨ps, hp⟩ := hv
  rw [hp.recorded_eq]; simpa using hp.len

theorem TypeflowHistory.Valid.recorded_ne_max {h : TypeflowHistory} (hv : h.Valid) (t : Nat)
    (ht : t ∈ h.recorded) : t ≠ type_max := by
  obtain ⟨ps, hp⟩ := hv
  rw [hp.recorded_eq] at ht
  obtain ⟨p, hp1, rfl⟩ := List.mem_map.1 ht
  exact hp.ne_max p hp1

/-- On a well-formed record `any` holds exactly when it is saturated or records a type. -/
theorem TypeflowHistory.Valid.any_eq {h : TypeflowHistory} (hv : h.Valid) :
    h.any = (h.is_saturated || !h.recorded.isEmpty) := by
  obtain ⟨ps, hp⟩ := hv
  rw [hp.recorded_eq]
  unfold any
  congr 1
  cases ps with
  | nil =>
    have := hp.types_getD_ge 0 (by simp)
    rw [this]; simp
  | cons p ps =>
    have h1 := hp.types_getD_lt 0 (by simp)
    have h3 := getD_mem_ne hp.ne_max 0 (by simp)
    rw [← h1] at h3
    simp [-List.getD_eq_getElem?_getD, h3]

/-- A saturated record holds twenty types. -/
theorem TypeflowHistory.Valid.saturated_full {h : TypeflowHistory} (hv : h.Valid) (hs : h.is_saturated = true) :
    h.recorded.length = saturation_cutoff := by
  obtain ⟨ps, hp⟩ := hv
  rw [hp.recorded_eq, List.length_map]
  apply hp.sat_full
  simpa [is_saturated] using hs

/-- On a well-formed record `any` holds exactly when a type is recorded. -/
theorem TypeflowHistory.Valid.any_iff {h : TypeflowHistory} (hv : h.Valid) : h.any = true ↔ h.recorded ≠ [] := by
  rw [hv.any_eq]
  constructor
  · intro ha hnil
    rw [hnil] at ha
    simp only [List.isEmpty_nil, Bool.not_true, Bool.or_false] at ha
    have := hv.saturated_full ha
    rw [hnil] at this
    simp [saturation_cutoff] at this
  · intro hne
    cases hr : h.recorded with
    | nil => exact absurd hr hne
    | cons x xs => simp

theorem flowLoop_induct (P : TypeflowHistory → Prop) (skip : Nat → Bool) (d : Nat) :
    ∀ (l : List Nat) (h : TypeflowHistory) (c : Bool), P h →
      (∀ h t, t ∈ l → skip t = false → P h → P (h.add_type t d).1) →
      P (flowLoop skip d l h c).1 := by
  intro l
  induction l with
  | nil => intro h c h0 _; exact h0
  | cons t rest ih =>
    intro h c h0 hstep
    unfold flowLoop
    by_cases hs : skip t = true
    · rw [if_pos hs]
      exact ih h c h0 (fun h t ht => hstep h t (List.mem_cons_of_mem _ ht))
    · rw [if_neg hs]
      have h1 : P (h.add_type t d).1 :=
        hstep h t (List.mem_cons_self _ _) (by simpa using hs) h0
      dsimp only
      split
      · exact h1
      · exact ih _ _ h1 (fun h t ht => hstep h t (List.mem_cons_of_mem _ ht))

theorem flowLoop_valid (skip : Nat → Bool) (d : Nat) (l : List Nat) (h : TypeflowHistory)
    (c : Bool) (hv : h.Valid) : (flowLoop skip d l h c).1.Valid :=
  flowLoop_induct _ skip d l h c hv (fun _ t _ _ hv => hv.add_type t d)

theorem mem_recorded_add_type {h : TypeflowHistory} (hv : h.Valid) (t d x : Nat)
    (hx : x ∈ (h.add_type t d).1.recorded) : x ∈ h.recorded ∨ x = t := by
  rw [hv.recorded_add_type] at hx
  split at hx
  · exact Or.inl hx
  · rcases List.mem_append.1 hx with h1 | h1
    · exact Or.inl h1
    · exact Or.inr (by simpa using h1)

theorem recorded_subset_add_type {h : TypeflowHistory} (hv : h.Valid) (t d x : Nat)
    (hx : x ∈ h.recorded) : x ∈ (h.add_type t d).1.recorded := by
  rw [hv.recorded_add_type]
  split
  · exact hx
  · exact List.mem_append_left _ hx

/-- Every type recorded after the loop was recorded before it or is an admitted element of
the list. -/
theorem flowLoop_sound (skip : Nat → Bool) (d : Nat) (l : List Nat) (h : TypeflowHistory)
    (c : Bool) (hv : h.Valid) (x : Nat) (hx : x ∈ (flowLoop skip d l h c).1.recorded) :
    x ∈ h.recorded ∨ (x ∈ l ∧ skip x = false) := by
  have := flowLoop_induct
    (fun h1 => h1.Valid ∧ ∀ x, x ∈ h1.recorded → x ∈ h.recorded ∨ (x ∈ l ∧ skip x = false))
    skip d l h c ⟨hv, fun x hx => Or.inl hx⟩
    (fun h1 t ht hs ⟨hv1, hr⟩ => ⟨hv1.add_type t d, fun x hx => by
      rcases mem_recorded_add_type hv1 t d x hx with h2 | h2
      · exact hr x h2
      · subst h2; exact Or.inr ⟨ht, hs⟩⟩)
  exact this.2 x hx

/-- The loop only adds to the recorded types. -/
theorem flowLoop_mono (skip : Nat → Bool) (d : Nat) (l : List Nat) (h : TypeflowHistory)
    (c : Bool) (hv : h.Valid) (x : Nat) (hx : x ∈ h.recorded) :
    x ∈ (flowLoop skip d l h c).1.recorded := by
  have := flowLoop_induct (fun h1 => h1.Valid ∧ x ∈ h1.recorded) skip d l h c ⟨hv, hx⟩
    (fun h1 t _ _ ⟨hv1, hr⟩ => ⟨hv1.add_type t d, recorded_subset_add_type hv1 t d x hr⟩)
  exact this.2

theorem add_type_saturated {h : TypeflowHistory} (hv : h.Valid) (t d : Nat) (hd : d ≠ u8_max)
    (hs : h.is_saturated = true) : (h.add_type t d).1.is_saturated = true := by
  unfold TypeflowHistory.is_saturated at hs ⊢
  rw [hv.add_type_saturated_dist]
  split
  · simpa using hd
  · exact hs

/-- A saturated record stays saturated when the distance is not the sentinel. -/
theorem flowLoop_saturated (skip : Nat → Bool) (d : Nat) (l : List Nat) (h : TypeflowHistory)
    (c : Bool) (hv : h.Valid) (hd : d ≠ u8_max) (hs : h.is_saturated = true) :
    (flowLoop skip d l h c).1.is_saturated = true := by
  have := flowLoop_induct (fun h1 => h1.Valid ∧ h1.is_saturated = true) skip d l h c ⟨hv, hs⟩
    (fun h1 t _ _ ⟨hv1, hr⟩ => ⟨hv1.add_type t d, add_type_saturated hv1 t d hd hr⟩)
  exact this.2

/-- A loop that reports no change has left the record as it was. -/
theorem flowLoop_unchanged (skip : Nat → Bool) (d : Nat) :
    ∀ (l : List Nat) (h : TypeflowHistory) (c : Bool), h.Valid →
      (flowLoop skip d l h c).2 = false → (flowLoop skip d l h c).1 = h ∧ c = false := by
  intro l
  induction l with
  | nil => intro h c _ hf; exact ⟨rfl, hf⟩
  | cons t rest ih =>
    intro h c hv hf
    unfold flowLoop at hf ⊢
    by_cases hs : skip t = true
    · rw [if_pos hs] at hf ⊢
      exact ih h c hv hf
    · rw [if_neg hs] at hf ⊢
      dsimp only at hf ⊢
      by_cases hsat : (h.add_type t d).1.is_saturated = true
      · rw [if_pos hsat] at hf ⊢
        simp only [Bool.or_eq_false_iff] at hf
        exact ⟨hv.add_type_unchanged t d hf.2, hf.1⟩
      · rw [if_neg hsat] at hf ⊢
        obtain ⟨h1, h2⟩ := ih _ _ (hv.add_type t d) hf
        simp only [Bool.or_eq_false_iff] at h2
        rw [h1]
        exact ⟨hv.add_type_unchanged t d h2.2, h2.1⟩

/-- The flag only accumulates. -/
theorem flowLoop_flag_of_true (skip : Nat → Bool) (d : Nat) :
    ∀ (l : List Nat) (h : TypeflowHistory), (flowLoop skip d l h true).2 = true := by
  intro l
  induction l with
  | nil => intro h; rfl
  | cons t rest ih =>
    intro h
    unfold flowLoop
    split
    · exact ih h
    · dsimp only
      split
      · rfl
      · simpa using ih _

/-- A loop left without saturation has recorded every admitted element of the list. -/
theorem flowLoop_complete (skip : Nat → Bool) (d : Nat) (hd : d ≠ u8_max) :
    ∀ (l : List Nat) (h : TypeflowHistory) (c : Bool), h.Valid →
      (flowLoop skip d l h c).1.is_saturated = false →
      ∀ t ∈ l, skip t = false → t ≠ type_max → t ∈ (flowLoop skip d l h c).1.recorded := by
  intro l
  induction l with
  | nil => intro h c _ _ t ht; simp at ht
  | cons t0 rest ih =>
    intro h c hv hns t ht hst hne
    unfold flowLoop at hns ⊢
    by_cases hs : skip t0 = true
    · rw [if_pos hs] at hns ⊢
      rcases List.mem_cons.1 ht with h1 | h1
      · subst h1; rw [hst] at hs; exact absurd hs (by simp)
      · exact ih h c hv hns t h1 hst hne
    · rw [if_neg hs] at hns ⊢
      dsimp only at hns ⊢
      by_cases hsat : (h.add_type t0 d).1.is_saturated = true
      · rw [if_pos hsat] at hns
        rw [hsat] at hns; exact absurd hns (by simp)
      · rw [if_neg hsat] at hns ⊢
        rcases List.mem_cons.1 ht with h1 | h1
        · subst h1
          apply flowLoop_mono _ _ _ _ _ (hv.add_type t d)
          rw [hv.recorded_add_type]
          by_cases hin : t ∈ h.recorded
          · simp [hin]
          · by_cases hfull : saturation_cutoff ≤ h.recorded.length
            · exfalso
              apply hsat
              unfold TypeflowHistory.is_saturated
              rw [hv.add_type_saturated_dist, if_pos ⟨hin, hfull⟩]
              simpa using hd
            · simp [hin, hfull, hne]
        · exact ih _ _ (hv.add_type t0 d) hns t h1 hst hne

theorem Bitset.get_lt_size (b : Bitset) (i : Nat) (h : b.get i = true) : i < b.size := by
  unfold Bitset.get at h
  unfold Bitset.size
  by_contra hc
  rw [List.getD_eq_getElem?_getD, List.getElem?_eq_none (Nat.le_of_not_lt hc)] at h
  simp at h

/-- The result of `findFrom`: the least member from `start` on, or the domain size. -/
theorem Bitset.findFrom_spec (b : Bitset) (start : Nat) :
    (b.findFrom start < b.size ∧ start ≤ b.findFrom start ∧ b.get (b.findFrom start) = true ∧
      ∀ j, start ≤ j → j < b.findFrom start → b.get j = false) ∨
    (b.findFrom start = b.size ∧ ∀ j, start ≤ j → b.get j = false) := by
  unfold Bitset.findFrom
  cases hf : (List.range b.size).find? (fun i => decide (start ≤ i) && b.get i) with
  | some r =>
    left
    rw [List.find?_range_eq_some] at hf
    obtain ⟨h1, h2, h3⟩ := hf
    simp only [Bool.and_eq_true, decide_eq_true_eq] at h1
    simp only [Option.getD_some]
    refine ⟨List.mem_range.1 h2, h1.1, h1.2, fun j hj hjr => ?_⟩
    have := h3 j hjr
    simp only [Bool.not_eq_true', Bool.and_eq_false_iff, decide_eq_false_iff_not] at this
    rcases this with h | h
    · exact absurd hj h
    · exact h
  | none =>
    right
    rw [List.find?_eq_none] at hf
    simp only [Option.getD_none, true_and]
    intro j hj
    by_cases hjs : j < b.size
    · have := hf j (List.mem_range.2 hjs)
      simpa [hj] using this
    · by_contra hg
      exact hjs (b.get_lt_size j (by simpa using hg))

theorem count_one_unique : ∀ (l : List Bool) (i j : Nat), l.count true = 1 →
    l.getD i false = true → l.getD j false = true → i = j := by
  intro l
  induction l with
  | nil => intro i j h; simp at h
  | cons x xs ih =>
    intro i j hc hi hj
    cases x with
    | true =>
      have h0 : xs.count true = 0 := by simpa using hc
      have hno : ∀ k, xs.getD k false = false := by
        intro k
        by_contra hk
        have hk1 : xs.getD k false = true := by simpa using hk
        have hlt : k < xs.length := by
          by_contra hc2
          rw [List.getD_eq_getElem?_getD, List.getElem?_eq_none (Nat.le_of_not_lt hc2)] at hk1
          simp at hk1
        have hmem : true ∈ xs := by
          rw [List.getD_eq_getElem?_getD, List.getElem?_eq_getElem hlt] at hk1
          simp only [Option.getD_some] at hk1
          exact hk1 ▸ List.getElem_mem hlt
        exact absurd h0 (Nat.pos_iff_ne_zero.1 (List.count_pos_iff.2 hmem))
      cases i with
      | zero =>
        cases j with
        | zero => rfl
        | succ j => rw [List.getD_cons_succ, hno] at hj; exact absurd hj (by simp)
      | succ i => rw [List.getD_cons_succ, hno] at hi; exact absurd hi (by simp)
    | false =>
      have h0 : xs.count true = 1 := by simpa using hc
      cases i with
      | zero => simp at hi
      | succ i =>
        cases j with
        | zero => simp at hj
        | succ j =>
          rw [List.getD_cons_succ] at hi hj
          rw [ih i j h0 hi hj]

theorem count_pos_exists (l : List Bool) (h : 0 < l.count true) : ∃ i, l.getD i false = true := by
  have hmem : true ∈ l := List.count_pos_iff.1 h
  obtain ⟨n, hn, he⟩ := List.getElem_of_mem hmem
  exact ⟨n, by rw [List.getD_eq_getElem?_getD, List.getElem?_eq_getElem hn]; simpa using he⟩

/-- The canonical type set of a bitset has the members of the bitset. -/
theorem TypeSet.ofBitset_get (b : Bitset) (i : Nat) : (TypeSet.ofBitset b).get i = b.get i := by
  unfold TypeSet.ofBitset
  by_cases hc : b.count = 1
  · rw [if_pos hc]
    show decide (b.first = i) = b.get i
    have hc1 : b.bits.count true = 1 := hc
    obtain ⟨k, hk⟩ := count_pos_exists b.bits (by omega)
    have hfirst : b.get b.first = true := by
      rcases b.findFrom_spec 0 with h | h
      · exact h.2.2.1
      · have := h.2 k (Nat.zero_le _)
        unfold Bitset.get at this
        rw [hk] at this; exact absurd this (by simp)
    by_cases hi : b.get i = true
    · rw [hi]
      have := count_one_unique b.bits _ _ hc1 hfirst hi
      simpa using this
    · have hi2 : b.get i = false := by simpa using hi
      rw [hi2]
      simp only [decide_eq_false_iff_not]
      intro h
      rw [h] at hfirst
      exact hi hfirst
  · rw [if_neg hc]
    rfl

theorem TypeSet.ofBitset_count (b : Bitset) : (TypeSet.ofBitset b).count = b.count := by
  unfold TypeSet.ofBitset
  by_cases hc : b.count = 1
  · rw [if_pos hc, hc]; rfl
  · rw [if_neg hc]; rfl

theorem TypeSet.ofBitset_first (b : Bitset) : (TypeSet.ofBitset b).first = b.first := by
  unfold TypeSet.ofBitset
  by_cases hc : b.count = 1
  · rw [if_pos hc]; rfl
  · rw [if_neg hc]; rfl

theorem membersFrom_nil (F : TypeSet) (n a : Nat)
    (h : ∀ j, a ≤ j → j < n → F.get j = false) : membersFrom F n a = [] := by
  unfold membersFrom
  rw [List.filter_eq_nil_iff]
  intro j hj
  rw [List.mem_range'_1] at hj
  have := h j hj.1 (by omega)
  simp [this]

theorem membersFrom_cons (F : TypeSet) (n a t : Nat) (hat : a ≤ t) (htn : t < n)
    (ht : F.get t = true) (hno : ∀ j, a ≤ j → j < t → F.get j = false) :
    membersFrom F n a = t :: membersFrom F n (t + 1) := by
  unfold membersFrom
  have h1 : List.range' a (n - a) = List.range' a (t - a) ++ List.range' t (n - t) := by
    have : List.range' t (n - t) = List.range' (a + (t - a)) (n - t) := by
      congr 1; omega
    rw [this, List.range'_append_1]
    congr 1; omega
  have h2 : List.range' t (n - t) = t :: List.range' (t + 1) (n - (t + 1)) := by
    have : n - t = (n - (t + 1)) + 1 := by omega
    rw [this, List.range'_succ]
  rw [h1, h2, List.filter_append, List.filter_cons, if_pos ht]
  have h3 : (List.range' a (t - a)).filter (fun i => F.get i) = [] := by
    rw [List.filter_eq_nil_iff]
    intro j hj
    rw [List.mem_range'_1] at hj
    have := hno j hj.1 (by omega)
    simp [this]
  rw [h3, List.nil_append]

theorem membersFrom_zero (F : TypeSet) (n : Nat) :
    membersFrom F n 0 = (List.range n).filter (fun i => F.get i) := by
  unfold membersFrom
  rw [List.range_eq_range']
  rfl

theorem mem_membersFrom (F : TypeSet) (n a t : Nat) :
    t ∈ membersFrom F n a ↔ a ≤ t ∧ t < n ∧ F.get t = true := by
  unfold membersFrom
  rw [List.mem_filter, List.mem_range'_1]
  constructor
  · rintro ⟨⟨h1, h2⟩, h3⟩; exact ⟨h1, by omega, h3⟩
  · rintro ⟨h1, h2, h3⟩; exact ⟨⟨h1, by omega⟩, h3⟩

/-- The `first`/`next` loop over a bitset visits the members below `n` in increasing order. -/
theorem seedLoop_multi (b : Bitset) (n : Nat) (skip : Nat → Bool) (d : Nat) (hn : n ≤ b.size) :
    ∀ (fuel a : Nat) (h : TypeflowHistory) (c : Bool) (r : TypeflowHistory × Bool),
      seedLoop (TypeSet.multi b) n skip d fuel (b.findFrom a) h c = some r →
      r = flowLoop skip d (membersFrom (TypeSet.multi b) n a) h c := by
  intro fuel
  induction fuel with
  | zero => intro a h c r hr; simp [seedLoop] at hr
  | succ fuel ih =>
    intro a h c r hr
    unfold seedLoop at hr
    by_cases htn : b.findFrom a < n
    · rw [if_pos htn] at hr
      have hspec : a ≤ b.findFrom a ∧ b.get (b.findFrom a) = true ∧
          ∀ j, a ≤ j → j < b.findFrom a → b.get j = false := by
        rcases b.findFrom_spec a with h1 | h1
        · exact ⟨h1.2.1, h1.2.2.1, h1.2.2.2⟩
        · omega
      rw [membersFrom_cons (TypeSet.multi b) n a (b.findFrom a) hspec.1 htn hspec.2.1 hspec.2.2]
      unfold flowLoop
      by_cases hs : skip (b.findFrom a) = true
      · rw [if_pos hs] at hr ⊢
        exact ih _ h c r hr
      · rw [if_neg hs] at hr ⊢
        dsimp only at hr ⊢
        by_cases hsat : (h.add_type (b.findFrom a) d).1.is_saturated = true
        · rw [if_pos hsat] at hr ⊢
          exact (Option.some.inj hr).symm
        · rw [if_neg hsat] at hr ⊢
          exact ih _ _ _ r hr
    · rw [if_neg htn] at hr
      have hnil : membersFrom (TypeSet.multi b) n a = [] := by
        apply membersFrom_nil
        intro j hj hjn
        rcases b.findFrom_spec a with h1 | h1
        · exact h1.2.2.2 j hj (by omega)
        · exact h1.2 j hj
      rw [hnil]
      exact (Option.some.inj hr).symm

/-- The `first`/`next` loop over an inlined single type visits that type if it is below `n`. -/
theorem seedLoop_single (t0 n : Nat) (skip : Nat → Bool) (d : Nat) (hn : n ≤ type_max)
    (fuel : Nat) (h : TypeflowHistory) (c : Bool) (r : TypeflowHistory × Bool)
    (hr : seedLoop (TypeSet.single t0) n skip d fuel t0 h c = some r) :
    r = flowLoop skip d (membersFrom (TypeSet.single t0) n 0) h c := by
  have hexit : ∀ fuel h c r,
      seedLoop (TypeSet.single t0) n skip d fuel type_max h c = some r → r = (h, c) := by
    intro fuel h c r hr
    cases fuel with
    | zero => simp [seedLoop] at hr
    | succ fuel =>
      unfold seedLoop at hr
      rw [if_neg (by omega)] at hr
      exact (Option.some.inj hr).symm
  cases fuel with
  | zero => simp [seedLoop] at hr
  | succ fuel =>
    unfold seedLoop at hr
    by_cases htn : t0 < n
    · rw [if_pos htn] at hr
      have hm : membersFrom (TypeSet.single t0) n 0 = [t0] := by
        rw [membersFrom_cons (TypeSet.single t0) n 0 t0 (Nat.zero_le _) htn (by simp [TypeSet.get])
          (fun j _ hj => by simp [TypeSet.get]; omega)]
        rw [membersFrom_nil]
        intro j hj _
        simp [TypeSet.get]; omega
      rw [hm]
      unfold flowLoop
      by_cases hs : skip t0 = true
      · rw [if_pos hs] at hr ⊢
        exact hexit _ _ _ _ hr
      · rw [if_neg hs] at hr ⊢
        dsimp only at hr ⊢
        by_cases hsat : (h.add_type t0 d).1.is_saturated = true
        · rw [if_pos hsat] at hr ⊢
          exact (Option.some.inj hr).symm
        · rw [if_neg hsat] at hr ⊢
          exact hexit _ _ _ _ hr
    · rw [if_neg htn] at hr
      have hm : membersFrom (TypeSet.single t0) n 0 = [] := by
        apply membersFrom_nil
        intro j _ hj
        simp [TypeSet.get]; omega
      rw [hm]
      exact (Option.some.inj hr).symm

/-- Both `first`/`next` loops of the solver add the members of the filter below `n_types`, in
increasing order. -/
theorem seedLoop_eq (F : TypeSet) (n : Nat) (skip : Nat → Bool) (d : Nat) (hfit : F.fits n)
    (fuel : Nat) (h : TypeflowHistory) (c : Bool) (r : TypeflowHistory × Bool)
    (hr : seedLoop F n skip d fuel F.first h c = some r) :
    r = flowLoop skip d (membersFrom F n 0) h c := by
  cases F with
  | single t0 => exact seedLoop_single t0 n skip d hfit fuel h c r hr
  | multi b => exact seedLoop_multi b n skip d hfit fuel 0 h c r hr

theorem TypeSet.ofBitset_fits (b : Bitset) (n : Nat) (h1 : n ≤ b.size) (h2 : n ≤ type_max) :
    (TypeSet.ofBitset b).fits n := by
  unfold TypeSet.ofBitset
  split
  · exact h2
  · exact h1

theorem getD_mem {α : Type} (l : List α) (i : Nat) (d : α) (h : i < l.length) :
    l.getD i d ∈ l := by
  rw [List.getD_eq_getElem?_getD, List.getElem?_eq_getElem h]
  exact List.getElem_mem h

theorem getD_default {α : Type} (l : List α) (i : Nat) (d : α) (h : l.length ≤ i) :
    l.getD i d = d := by
  rw [List.getD_eq_getElem?_getD, List.getElem?_eq_none h]; rfl

theorem Adjacency.flow_mem (adj : Adjacency) (v : Nat) (h : v < adj.n_typeflows) :
    adj.flow v ∈ adj.flows := getD_mem _ _ _ h

theorem Adjacency.method_mem (adj : Adjacency) (m : Nat) (h : m < adj.n_methods) :
    adj.method m ∈ adj.methods := getD_mem _ _ _ h

theorem Adjacency.wf.flow_edge {adj : Adjacency} (hw : adj.wf) (u v : Nat)
    (hv : v ∈ (adj.flow u).forward_edges) : v < adj.n_typeflows := by
  by_cases hu : u < adj.n_typeflows
  · exact (hw.2.2.2.2.2.1 _ (adj.flow_mem u hu)).1 v hv
  · unfold Adjacency.flow at hv
    rw [getD_default _ _ _ (Nat.le_of_not_lt hu)] at hv
    simp [default] at hv

theorem Adjacency.wf.method_edge {adj : Adjacency} (hw : adj.wf) (u v : Nat)
    (hv : v ∈ (adj.method u).forward_edges) : v < adj.n_methods := by
  by_cases hu : u < adj.n_methods
  · exact (hw.2.2.2.2.1 _ (adj.method_mem u hu)).1 v hv
  · unfold Adjacency.method at hv
    rw [getD_default _ _ _ (Nat.le_of_not_lt hu)] at hv
    simp [default] at hv

theorem Adjacency.wf.dependent_edge {adj : Adjacency} (hw : adj.wf) (u v : Nat)
    (hv : v ∈ (adj.method u).dependent_typeflows) : v < adj.n_typeflows := by
  by_cases hu : u < adj.n_methods
  · exact (hw.2.2.2.2.1 _ (adj.method_mem u hu)).2 v hv
  · unfold Adjacency.method at hv
    rw [getD_default _ _ _ (Nat.le_of_not_lt hu)] at hv
    simp [default] at hv

theorem Adjacency.wf.reaching_lt {adj : Adjacency} (hw : adj.wf) (u : Nat) :
    (adj.flow u).method.reaching < adj.n_methods := by
  by_cases hu : u < adj.n_typeflows
  · exact (hw.2.2.2.2.2.1 _ (adj.flow_mem u hu)).2.2.1
  · unfold Adjacency.flow
    rw [getD_default _ _ _ (Nat.le_of_not_lt hu)]
    exact hw.1

theorem Adjacency.wf.dependent_lt {adj : Adjacency} (hw : adj.wf) (u : Nat) :
    (adj.flow u).method.dependent < adj.n_methods := by
  by_cases hu : u < adj.n_typeflows
  · exact (hw.2.2.2.2.2.1 _ (adj.flow_mem u hu)).2.2.2
  · unfold Adjacency.flow
    rw [getD_default _ _ _ (Nat.le_of_not_lt hu)]
    exact hw.1

theorem Adjacency.wf.filterOf_size {adj : Adjacency} (hw : adj.wf) (v : Nat)
    (hv : v < adj.n_typeflows) : (adj.filterOf v).size = adj.n_types :=
  hw.2.2.2.2.2.2 _ (getD_mem _ _ _ (hw.2.2.2.2.2.1 _ (adj.flow_mem v hv)).2.1)

theorem foldl_min_le (l : List Nat) : ∀ (a : Nat), l.foldl min a ≤ a ∧ ∀ x ∈ l, l.foldl min a ≤ x := by
  induction l with
  | nil => intro a; simp
  | cons y ys ih =>
    intro a
    simp only [List.foldl_cons, List.mem_cons]
    obtain ⟨h1, h2⟩ := ih (min a y)
    refine ⟨le_trans h1 (Nat.min_le_left _ _), ?_⟩
    rintro x (rfl | hx)
    · exact le_trans h1 (Nat.min_le_right _ _)
    · exact h2 x hx

theorem le_foldl_max (l : List Nat) : ∀ (a : Nat), a ≤ l.foldl max a ∧ ∀ x ∈ l, x ≤ l.foldl max a := by
  induction l with
  | nil => intro a; simp
  | cons y ys ih =>
    intro a
    simp only [List.foldl_cons, List.mem_cons]
    obtain ⟨h1, h2⟩ := ih (max a y)
    refine ⟨le_trans (Nat.le_max_left _ _) h1, ?_⟩
    rintro x (rfl | hx)
    · exact le_trans (Nat.le_max_right _ _) h1
    · exact h2 x hx

theorem BFS.create_adj (adj : Adjacency) : (BFS.create adj).adj = adj := rfl

theorem BFS.create_range (adj : Adjacency) (v : Nat) (hv : v < adj.n_typeflows) :
    (BFS.create adj).filters_begin ≤ (adj.flow v).filter ∧
    (BFS.create adj).filterIndex v < (BFS.create adj).filter_filters.length := by
  have hmem : (adj.flow v).filter ∈ adj.flows.map (fun f => f.filter) :=
    List.mem_map.2 ⟨_, adj.flow_mem v hv, rfl⟩
  have h1 := (foldl_min_le (adj.flows.map (fun f => f.filter))
    ((adj.flows.map (fun f => f.filter)).headD 0)).2 _ hmem
  have h2 := (le_foldl_max (adj.flows.map (fun f => f.filter))
    ((adj.flows.map (fun f => f.filter)).headD 0)).2 _ hmem
  refine ⟨h1, ?_⟩
  show (adj.flow v).filter - _ < List.length (List.map _ (List.range _))
  rw [List.length_map, List.length_range]
  show (adj.flow v).filter - (List.foldl min _ _) < (List.foldl max _ _) + 1 - (List.foldl min _ _)
  omega

theorem BFS.create_filter_filters (adj : Adjacency) (v : Nat) (hv : v < adj.n_typeflows) :
    (BFS.create adj).filter_filters.getD ((BFS.create adj).filterIndex v) default =
      TypeSet.ofBitset (adj.filterOf v) := by
  obtain ⟨h1, h2⟩ := BFS.create_range adj v hv
  rw [List.getD_eq_getElem?_getD, List.getElem?_eq_getElem h2]
  show (List.map _ (List.range _))[_] = _
  rw [List.getElem_map, List.getElem_range]
  show TypeSet.ofBitset (adj.filters.getD ((BFS.create adj).filters_begin +
    ((adj.flow v).filter - (BFS.create adj).filters_begin)) default) = _
  rw [Nat.add_sub_cancel' h1]
  rfl

theorem BFS.create_typeflow_filters (adj : Adjacency) (v : Nat) (hv : v < adj.n_typeflows) :
    (BFS.create adj).typeflow_filters.getD v default = TypeSet.ofBitset (adj.filterOf v) := by
  rw [← BFS.create_filter_filters adj v hv]
  have hfl : adj.flow v = adj.flows[v] := by
    unfold Adjacency.flow
    rw [List.getD_eq_getElem?_getD, List.getElem?_eq_getElem hv]
    rfl
  have hlen : v < ((BFS.create adj).typeflow_filters).length := by
    show v < (List.map _ adj.flows).length
    simpa using hv
  rw [List.getD_eq_getElem?_getD, List.getElem?_eq_getElem hlen, Option.getD_some]
  unfold BFS.filterIndex
  rw [BFS.create_adj, hfl]
  show (List.map _ adj.flows)[v] = _
  rw [List.getElem_map]
  rfl

theorem BFS.create_canonical (adj : Adjacency) (hw : adj.wf) : (BFS.create adj).Canonical :=
  ⟨hw, BFS.create_typeflow_filters adj, BFS.create_filter_filters adj,
    fun v hv => (BFS.create_range adj v hv).2⟩

theorem BFS.Canonical.filter_get {bfs : BFS} (hc : bfs.Canonical) (v t : Nat)
    (hv : v < bfs.adj.n_typeflows) :
    (bfs.typeflow_filters.getD v default).get t = bfs.adj.admits v t := by
  rw [hc.typeflow_filter v hv, TypeSet.ofBitset_get]; rfl

theorem BFS.Canonical.filter_fits {bfs : BFS} (hc : bfs.Canonical) (v : Nat)
    (hv : v < bfs.adj.n_typeflows) :
    (bfs.typeflow_filters.getD v default).fits bfs.adj.n_types := by
  rw [hc.typeflow_filter v hv]
  exact TypeSet.ofBitset_fits _ _ (le_of_eq (hc.wf.filterOf_size v hv).symm) hc.wf.2.2.1

theorem forM_opt_inv {α σ : Type} (P : σ → Prop) (f : σ → α → Option σ) :
    ∀ (l : List α) (s s1 : σ), P s → (∀ s x s1, x ∈ l → P s → f s x = some s1 → P s1) →
      forM_opt f l s = some s1 → P s1 := by
  intro l
  induction l with
  | nil => intro s s1 h0 _ hr; simp only [forM_opt] at hr; exact (Option.some.inj hr) ▸ h0
  | cons x xs ih =>
    intro s s1 h0 hf hr
    simp only [forM_opt] at hr
    cases hx : f s x with
    | none => rw [hx] at hr; simp at hr
    | some s2 =>
      rw [hx] at hr
      exact ih s2 s1 (hf s x s2 (List.mem_cons_self _ _) h0 hx)
        (fun s y s1 hy => hf s y s1 (List.mem_cons_of_mem _ hy)) hr

theorem isEmpty_false_iff {α : Type} (l : List α) : l.isEmpty = false ↔ l ≠ [] := by
  cases l <;> simp

theorem methodPhase_phased {bfs : BFS} {dm : Bool} {I : Phase → State → Prop}
    (hI : Phased bfs dm I) :
    ∀ (fuel : Nat) (s s1 : State), (I Phase.head s ∨ (dm = false ∧ I Phase.methods s)) →
      s.method_worklist ≠ [] → methodPhase bfs.adj dm fuel s = some s1 →
      I Phase.methods s1 ∧ (dm = true ∨ s1.method_worklist = []) := by
  intro fuel
  induction fuel with
  | zero => intro s s1 _ _ hr; simp [methodPhase] at hr
  | succ fuel ih =>
    intro s s1 h0 hne hr
    have h1 : I Phase.methods (methodLayer bfs.adj s) := by
      rcases h0 with h | ⟨hd, h⟩
      · exact hI.layer s h hne
      · exact hI.relayer s hd h hne
    unfold methodPhase at hr
    dsimp only at hr
    split at hr
    · rename_i hc
      simp only [Bool.and_eq_true, Bool.not_eq_true', isEmpty_false_iff] at hc
      exact ih _ _ (Or.inr ⟨hc.1, h1⟩) hc.2 hr
    · rename_i hc
      have hs := Option.some.inj hr
      subst hs
      refine ⟨h1, ?_⟩
      cases dm with
      | true => exact Or.inl rfl
      | false =>
        right
        simp only [Bool.not_false, Bool.true_and, Bool.not_eq_true', Bool.not_eq_false] at hc
        simpa using hc

theorem drainTypeflows_phased {bfs : BFS} {dm : Bool} {I : Phase → State → Prop}
    (hI : Phased bfs dm I) :
    ∀ (fuel : Nat) (s s1 : State), I Phase.flows s → drainTypeflows bfs fuel s = some s1 →
      I Phase.flows s1 ∧ s1.typeflow_worklist = [] := by
  intro fuel
  induction fuel with
  | zero => intro s s1 _ hr; simp [drainTypeflows] at hr
  | succ fuel ih =>
    intro s s1 h0 hr
    unfold drainTypeflows at hr
    split at hr
    · rename_i hw
      have hs := Option.some.inj hr
      subst hs
      exact ⟨h0, hw⟩
    · rename_i u rest hw
      split at hr
      · simp at hr
      · rename_i s2 hp
        exact ih s2 s1 (hI.pop fuel s u rest s2 h0 hw hp) hr

theorem typeflowPhase_phased {bfs : BFS} {dm : Bool} {I : Phase → State → Prop}
    (hI : Phased bfs dm I) :
    ∀ (fuel : Nat) (s s1 : State), I Phase.flows s →
      typeflowPhase bfs dm fuel s = some s1 → I Phase.head s1 := by
  intro fuel
  induction fuel with
  | zero => intro s s1 _ hr; simp [typeflowPhase] at hr
  | succ fuel ih =>
    intro s s1 h0 hr
    unfold typeflowPhase at hr
    split at hr
    · simp at hr
    · rename_i s2 hd
      obtain ⟨h2, hw2⟩ := drainTypeflows_phased hI fuel s s2 h0 hd
      split at hr
      · rename_i hc
        simp only [Bool.and_eq_true, Bool.not_eq_true', isEmpty_false_iff] at hc
        have hs := Option.some.inj hr
        subst hs
        exact hI.exit _ h2 hw2 (Or.inl hc)
      · rename_i hc
        split at hr
        · rename_i he
          have hs := Option.some.inj hr
          subst hs
          exact hI.exit _ h2 hw2 (Or.inr (by simpa using he))
        · rename_i he
          have hne : s2.instantiated_since_last_iteration ≠ [] := by
            intro h; rw [h] at he; simp at he
          have hdm : dm = true ∨ s2.method_worklist = [] := by
            cases dm with
            | true => exact Or.inl rfl
            | false =>
              right
              simp only [Bool.not_false, Bool.true_and, Bool.not_eq_true', Bool.not_eq_false] at hc
              simpa using hc
          exact ih _ _ (hI.prop s2 h2 hw2 hne hdm) hr

/-- Every phased family that holds before the outer loop holds when the loop is left, and
the method worklist is then empty. -/
theorem outerLoop_phased {bfs : BFS} {dm : Bool} {I : Phase → State → Prop}
    (hI : Phased bfs dm I) :
    ∀ (fuel : Nat) (s s1 : State), I Phase.head s → outerLoop bfs dm fuel s = some s1 →
      I Phase.head s1 ∧ s1.method_worklist = [] := by
  intro fuel
  induction fuel with
  | zero => intro s s1 _ hr; simp [outerLoop] at hr
  | succ fuel ih =>
    intro s s1 h0 hr
    unfold outerLoop at hr
    split at hr
    · rename_i he
      have hs := Option.some.inj hr
      subst hs
      exact ⟨h0, by simpa using he⟩
    · rename_i he
      have hne : s.method_worklist ≠ [] := by
        intro h; rw [h] at he; simp at he
      split at hr
      · simp at hr
      · rename_i s2 hm
        obtain ⟨h2, hd2⟩ := methodPhase_phased hI fuel s s2 (Or.inl h0) hne hm
        split at hr
        · simp at hr
        · rename_i s3 ht
          have h3 := typeflowPhase_phased hI fuel _ s3 (hI.bump s2 h2 hd2) ht
          exact ih s3 s1 h3 hr

theorem State.hist_setHist (s : State) (v w : Nat) (h : TypeflowHistory) :
    (s.setHist v h).hist w = if v = w ∧ v < s.typeflow_visited.length then h else s.hist w := by
  unfold State.setHist State.hist
  exact getD_set _ _ _ _ _

theorem State.hist_setHist_self (s : State) (v : Nat) (h : TypeflowHistory)
    (hv : v < s.typeflow_visited.length) : (s.setHist v h).hist v = h := by
  rw [State.hist_setHist, if_pos ⟨rfl, hv⟩]

theorem State.hist_setHist_ne (s : State) (v w : Nat) (h : TypeflowHistory) (hne : v ≠ w) :
    (s.setHist v h).hist w = s.hist w := by
  rw [State.hist_setHist, if_neg (fun hc => hne hc.1)]

theorem foldl_field {α β : Type} (proj : State → β) (f : State → α → State)
    (hf : ∀ s x, proj (f s x) = proj s) (l : List α) (s : State) :
    proj (l.foldl f s) = proj s :=
  foldl_inv (fun s1 => proj s1 = proj s) f l s rfl (fun s1 x _ h => (hf s1 x).trans h)

theorem forM_opt_field {α β : Type} (proj : State → β) (f : State → α → Option State)
    (hf : ∀ s x s1, f s x = some s1 → proj s1 = proj s) (l : List α) (s s1 : State)
    (hr : forM_opt f l s = some s1) : proj s1 = proj s :=
  forM_opt_inv (fun s2 => proj s2 = proj s) f l s s1 rfl
    (fun s2 x s3 _ h hx => (hf s2 x s3 hx).trans h) hr

theorem State.methodPart_visited {s s1 : State} (h : s1.methodPart = s.methodPart) :
    s1.method_visited = s.method_visited := congrArg (fun p => p.1) h

theorem State.methodPart_history {s s1 : State} (h : s1.methodPart = s.methodPart) :
    s1.method_history = s.method_history := congrArg (fun p => p.2.1) h

theorem State.methodPart_worklist {s s1 : State} (h : s1.methodPart = s.methodPart) :
    s1.method_worklist = s.method_worklist := congrArg (fun p => p.2.2.1) h

theorem State.methodPart_next {s s1 : State} (h : s1.methodPart = s.methodPart) :
    s1.next_method_worklist = s.next_method_worklist := congrArg (fun p => p.2.2.2.1) h

theorem State.methodPart_dist {s s1 : State} (h : s1.methodPart = s.methodPart) :
    s1.dist = s.dist := congrArg (fun p => p.2.2.2.2) h

theorem State.flowPart_hists {s s1 : State} (h : s1.flowPart = s.flowPart) :
    s1.typeflow_visited = s.typeflow_visited := congrArg (fun p => p.1) h

theorem State.flowPart_hist {s s1 : State} (h : s1.flowPart = s.flowPart) (v : Nat) :
    s1.hist v = s.hist v := by
  unfold State.hist; rw [State.flowPart_hists h]

theorem State.flowPart_inst {s s1 : State} (h : s1.flowPart = s.flowPart) :
    s1.allInstantiated = s.allInstantiated := congrArg (fun p => p.2.1) h

theorem State.flowPart_since {s s1 : State} (h : s1.flowPart = s.flowPart) :
    s1.instantiated_since_last_iteration = s.instantiated_since_last_iteration :=
  congrArg (fun p => p.2.2.1) h

theorem State.flowPart_uses {s s1 : State} (h : s1.flowPart = s.flowPart) :
    s1.saturation_uses_by_filter = s.saturation_uses_by_filter := congrArg (fun p => p.2.2.2.1) h

theorem State.flowPart_included {s s1 : State} (h : s1.flowPart = s.flowPart) :
    s1.included_in_saturation_uses = s.included_in_saturation_uses :=
  congrArg (fun p => p.2.2.2.2) h

theorem State.visited_of_methodPart {s s1 : State} (h : s1.methodPart = s.methodPart) (m : Nat) :
    s1.visited m = s.visited m := by
  unfold State.visited; rw [State.methodPart_visited h]

theorem State.history_of_methodPart {s s1 : State} (h : s1.methodPart = s.methodPart) (m : Nat) :
    s1.history m = s.history m := by
  unfold State.history; rw [State.methodPart_history h]

theorem State.pushIf_methodPart (s : State) (c : Bool) (v : Nat) :
    (s.pushIf c v).methodPart = s.methodPart := by
  unfold State.pushIf; split <;> rfl

theorem State.pushIf_flowPart (s : State) (c : Bool) (v : Nat) :
    (s.pushIf c v).flowPart = s.flowPart := by
  unfold State.pushIf; split <;> rfl

theorem State.pushIf_hist (s : State) (c : Bool) (v w : Nat) :
    (s.pushIf c v).hist w = s.hist w := State.flowPart_hist (s.pushIf_flowPart c v) w

theorem State.pushIf_worklist (s : State) (c : Bool) (v : Nat) :
    (s.pushIf c v).typeflow_worklist =
      if c then s.typeflow_worklist ++ [v] else s.typeflow_worklist := by
  unfold State.pushIf; split <;> rfl

theorem State.setUses_methodPart (s : State) (f : Nat) (l : List Nat) :
    (s.setUses f l).methodPart = s.methodPart := rfl

theorem clearInstantiated_methodPart (s : State) :
    (clearInstantiated s).methodPart = s.methodPart := rfl

theorem swapWorklists_flowPart (s : State) : (swapWorklists s).flowPart = s.flowPart := rfl

theorem instantiate_methodPart (s : State) (t : Nat) :
    (instantiate s t).methodPart = s.methodPart := by
  unfold instantiate; split <;> rfl

theorem feedInstantiated_methodPart (bfs : BFS) (u : Nat) (s : State) (v : Nat) :
    (feedInstantiated bfs u s v).methodPart = s.methodPart := by
  unfold feedInstantiated
  split
  · exact foldl_field _ _ instantiate_methodPart _ _
  · rfl

theorem flowInto_methodPart (bfs : BFS) (u : Nat) (s : State) (v : Nat) :
    (flowInto bfs u s v).methodPart = s.methodPart := by
  unfold flowInto
  split
  · rfl
  · exact State.pushIf_methodPart _ _ _

theorem flowEdge_methodPart (bfs : BFS) (u : Nat) (s : State) (v : Nat) :
    (flowEdge bfs u s v).methodPart = s.methodPart := by
  unfold flowEdge
  rw [flowInto_methodPart, feedInstantiated_methodPart]

theorem joinUses_methodPart (bfs : BFS) (s : State) (v : Nat) :
    (joinUses bfs s v).methodPart = s.methodPart := by
  unfold joinUses; split <;> rfl

theorem saturatedEdge_methodPart (bfs : BFS) (fuel : Nat) (s : State) (v : Nat) (s1 : State)
    (hr : saturatedEdge bfs fuel s v = some s1) : s1.methodPart = s.methodPart := by
  unfold saturatedEdge at hr
  split at hr
  · exact Option.some.inj hr ▸ rfl
  · split at hr
    · exact Option.some.inj hr ▸ rfl
    · obtain ⟨r, _, hs⟩ := Option.map_eq_some'.1 hr
      rw [← hs, State.pushIf_methodPart, joinUses_methodPart]
      rfl

theorem replayUse_methodPart (bfs : BFS) (filtered : List Nat) (acc : State × List Nat) (v : Nat) :
    (replayUse bfs filtered acc v).1.methodPart = acc.1.methodPart := by
  unfold replayUse
  split
  · rfl
  · exact State.pushIf_methodPart _ _ _

theorem replayUses_methodPart (bfs : BFS) (s : State) (f : Nat) (filtered : List Nat) :
    (replayUses bfs s f filtered).methodPart = s.methodPart := by
  unfold replayUses
  rw [State.setUses_methodPart]
  exact foldl_inv (fun acc : State × List Nat => acc.1.methodPart = s.methodPart)
    (replayUse bfs filtered) _ (s, []) rfl
    (fun acc x _ h => (replayUse_methodPart bfs _ acc x).trans h)

theorem propagateFilter_methodPart (bfs : BFS) (s : State) (f : Nat) :
    (propagateFilter bfs s f).methodPart = s.methodPart := by
  unfold propagateFilter
  split
  · rfl
  · split
    · rfl
    · split
      · rfl
      · rw [replayUses_methodPart]; rfl

theorem propagate_methodPart (bfs : BFS) (s : State) :
    (propagate bfs s).methodPart = s.methodPart := by
  unfold propagate
  rw [clearInstantiated_methodPart]
  exact foldl_field _ _ (propagateFilter_methodPart bfs) _ _

theorem processTypeflow_methodPart (bfs : BFS) (fuel : Nat) (s : State) (u : Nat) (s1 : State)
    (hr : processTypeflow bfs fuel s u = some s1) :
    s1.methodPart = (reachMethod s (bfs.adj.flow u).method.reaching).methodPart := by
  unfold processTypeflow at hr
  split at hr
  · rw [← Option.some.inj hr]
    exact foldl_field _ _ (flowEdge_methodPart bfs u) _ _
  · exact forM_opt_field _ _ (saturatedEdge_methodPart bfs fuel) _ _ _ hr

theorem wakeDependent_flowPart (s : State) (v : Nat) : (wakeDependent s v).flowPart = s.flowPart :=
  State.pushIf_flowPart _ _ _

theorem visitMethod_flowPart (s : State) (v : Nat) : (visitMethod s v).flowPart = s.flowPart := by
  unfold visitMethod; split <;> rfl

theorem methodBody_flowPart (adj : Adjacency) (s : State) (u : Nat) :
    (methodBody adj s u).flowPart = s.flowPart := by
  unfold methodBody
  rw [foldl_field _ _ visitMethod_flowPart, foldl_field _ _ wakeDependent_flowPart]
  rfl

theorem methodLayer_flowPart (adj : Adjacency) (s : State) :
    (methodLayer adj s).flowPart = s.flowPart := by
  unfold methodLayer
  rw [swapWorklists_flowPart]
  exact foldl_field _ _ (methodBody_flowPart adj) _ _

theorem bumpDist_flowPart (dm : Bool) (s : State) : (bumpDist dm s).flowPart = s.flowPart := by
  unfold bumpDist; split <;> rfl

theorem reachMethod_flowPart (s : State) (m : Nat) : (reachMethod s m).flowPart = s.flowPart := by
  unfold reachMethod; split <;> rfl

theorem reachMethod_typeflow_worklist (s : State) (m : Nat) :
    (reachMethod s m).typeflow_worklist = s.typeflow_worklist := by
  unfold reachMethod; split <;> rfl

theorem TypeSet.first_sound (F : TypeSet) (n : Nat) (hfit : F.fits n) (h : F.first < n) :
    F.get F.first = true := by
  cases F with
  | single t => simp [TypeSet.get, TypeSet.first]
  | multi b =>
    rcases b.findFrom_spec 0 with h1 | h1
    · exact h1.2.2.1
    · have h2 : b.first = b.size := h1.1
      have h3 : n ≤ b.size := hfit
      have h4 : b.first < n := h
      omega

theorem TypeSet.next_sound (F : TypeSet) (n x : Nat) (hfit : F.fits n) (h : F.next x < n) :
    F.get (F.next x) = true := by
  cases F with
  | single t =>
    have h3 : n ≤ type_max := hfit
    have h4 : type_max < n := h
    omega
  | multi b =>
    rcases b.findFrom_spec (x + 1) with h1 | h1
    · exact h1.2.2.1
    · have h2 : b.next x = b.size := h1.1
      have h3 : n ≤ b.size := hfit
      have h4 : b.next x < n := h
      omega

theorem smallFilterLoop_sound (F : TypeSet) (inst : List Nat) (P : Nat → Prop)
    (hnext : ∀ x, F.next x ∈ inst → P (F.next x)) :
    ∀ (fuel i type : Nat) (acc : List Nat), (type ∈ inst → P type) → (∀ t ∈ acc, P t ∧ t ∈ inst) →
      ∀ t ∈ smallFilterLoop F inst fuel i type acc, P t ∧ t ∈ inst := by
  intro fuel
  induction fuel with
  | zero => intro i type acc _ hacc t ht; exact hacc t ht
  | succ fuel ih =>
    intro i type acc hty hacc
    have hacc1 : ∀ t ∈ (if type ∈ inst then acc ++ [type] else acc), P t ∧ t ∈ inst := by
      intro t ht
      split at ht
      · rename_i hin
        rcases List.mem_append.1 ht with h | h
        · exact hacc t h
        · have : t = type := by simpa using h
          subst this; exact ⟨hty hin, hin⟩
      · exact hacc t ht
    unfold smallFilterLoop
    split
    · exact hacc1
    · exact ih _ _ _ (hnext type) hacc1

/-- Every type of the filtered list is a new instantiation admitted by the filter. -/
theorem filterDelta_sound (F : TypeSet) (inst : List Nat) (n : Nat) (hfit : F.fits n)
    (hinst : ∀ t ∈ inst, t < n) : ∀ t ∈ filterDelta F inst, F.get t = true ∧ t ∈ inst := by
  unfold filterDelta
  split
  · exact smallFilterLoop_sound F inst (fun t => F.get t = true)
      (fun x hx => F.next_sound n x hfit (hinst _ hx)) 4 0 F.first []
      (fun hx => F.first_sound n hfit (hinst _ hx)) (fun t ht => by simp at ht)
  · intro t ht
    rw [List.mem_filter] at ht
    exact ⟨ht.2, ht.1⟩

theorem FlowShape.fs_of_flowPart {bfs : BFS} {s s1 : State} (h : s1.flowPart = s.flowPart)
    (hs : FlowShape bfs s) : FlowShape bfs s1 := by
  have e1 := State.flowPart_hists h
  have e2 := State.flowPart_inst h
  have e3 := State.flowPart_since h
  have e4 := State.flowPart_uses h
  have e5 := State.flowPart_included h
  have e6 := State.flowPart_hist h
  exact ⟨e1 ▸ hs.hist_len, e5 ▸ hs.included_len, e4 ▸ hs.uses_len, e2 ▸ hs.inst_size,
    fun v => (e6 v) ▸ hs.valid v, fun v t ht => hs.honored v t ((e6 v) ▸ ht),
    fun t ht => e2 ▸ hs.since_inst t (e3 ▸ ht), fun f v hv => hs.uses_index f v (e4 ▸ hv)⟩

theorem Adjacency.admits_lt {adj : Adjacency} (hw : adj.wf) (v t : Nat) (hv : v < adj.n_typeflows)
    (h : adj.admits v t = true) : t < adj.n_types := by
  rw [← hw.filterOf_size v hv]
  exact (adj.filterOf v).get_lt_size t h

theorem FlowShape.fs_recorded_lt {bfs : BFS} {s : State} (hc : bfs.Canonical) (hs : FlowShape bfs s)
    (v t : Nat) (ht : t ∈ (s.hist v).recorded) : t < bfs.adj.n_types := by
  by_cases hv : v < bfs.adj.n_typeflows
  · exact Adjacency.admits_lt hc.wf v t hv (hs.honored v t ht)
  · have : s.hist v = TypeflowHistory.fresh := by
      unfold State.hist
      rw [getD_default _ _ _ (by rw [hs.hist_len]; omega)]
      rfl
    rw [this, TypeflowHistory.holds_fresh.recorded_eq] at ht
    simp at ht

theorem FlowShape.fs_setHist {bfs : BFS} {s : State} (hs : FlowShape bfs s) (v : Nat)
    (h : TypeflowHistory) (hv : h.Valid) (hh : ∀ t ∈ h.recorded, bfs.adj.admits v t = true) :
    FlowShape bfs (s.setHist v h) := by
  refine ⟨?_, hs.included_len, hs.uses_len, hs.inst_size, ?_, ?_, hs.since_inst, hs.uses_index⟩
  · show (s.typeflow_visited.set v h).length = _
    rw [List.length_set]; exact hs.hist_len
  · intro w
    rw [State.hist_setHist]
    split
    · exact hv
    · exact hs.valid w
  · intro w t ht
    rw [State.hist_setHist] at ht
    split at ht
    · rename_i hc; rw [← hc.1]; exact hh t ht
    · exact hs.honored w t ht

theorem Bitset.get_set (b : Bitset) (i j : Nat) :
    (b.set i).get j = (b.get j || decide (i = j ∧ i < b.size)) := by
  unfold Bitset.set Bitset.get Bitset.size
  rw [getD_set]
  by_cases h : i = j ∧ i < b.bits.length
  · rw [if_pos h, decide_eq_true h, Bool.or_true]
  · rw [if_neg h, decide_eq_false h, Bool.or_false]

theorem FlowShape.fs_instantiate {bfs : BFS} {s : State} (hs : FlowShape bfs s) (t : Nat)
    (ht : t < bfs.adj.n_types) : FlowShape bfs (instantiate s t) := by
  unfold CausalityGraph.instantiate
  split
  · refine ⟨hs.hist_len, hs.included_len, hs.uses_len, ?_, hs.valid, hs.honored, ?_,
      hs.uses_index⟩
    · show (s.allInstantiated.set t).size = _
      unfold Bitset.set Bitset.size
      rw [List.length_set]; exact hs.inst_size
    · intro x hx
      show (s.allInstantiated.set t).get x = true
      rw [Bitset.get_set]
      rcases List.mem_append.1 hx with h | h
      · rw [hs.since_inst x h]; rfl
      · have : x = t := by simpa using h
        subst this
        simp [hs.inst_size, ht]
  · exact hs

theorem FlowShape.fs_feedInstantiated {bfs : BFS} {s : State} (hc : bfs.Canonical)
    (hs : FlowShape bfs s) (u v : Nat) : FlowShape bfs (feedInstantiated bfs u s v) := by
  unfold CausalityGraph.feedInstantiated
  split
  · exact foldl_inv (FlowShape bfs) _ _ _ hs
      (fun s1 t ht h1 => h1.fs_instantiate t (hs.fs_recorded_lt hc u t ht))
  · exact hs

theorem feedInstantiated_hist (bfs : BFS) (u : Nat) (s : State) (v w : Nat) :
    (feedInstantiated bfs u s v).hist w = s.hist w := by
  unfold feedInstantiated
  split
  · apply foldl_field (fun s => s.hist w)
    intro s1 t
    unfold instantiate; split <;> rfl
  · rfl

theorem FlowShape.fs_flowInto {bfs : BFS} {s : State} (hc : bfs.Canonical)
    (hs : FlowShape bfs s) (u v : Nat) (hv : v < bfs.adj.n_typeflows) :
    FlowShape bfs (flowInto bfs u s v) := by
  unfold CausalityGraph.flowInto
  split
  · exact hs
  · apply FlowShape.fs_of_flowPart (State.pushIf_flowPart _ _ _)
    apply hs.fs_setHist v _ (flowLoop_valid _ _ _ _ _ (hs.valid v))
    intro t ht
    rcases flowLoop_sound _ _ _ _ _ (hs.valid v) t ht with h | h
    · exact hs.honored v t h
    · rw [← hc.filter_get v t hv]
      simpa using h.2

theorem FlowShape.fs_flowEdge {bfs : BFS} {s : State} (hc : bfs.Canonical)
    (hs : FlowShape bfs s) (u v : Nat) (hv : v < bfs.adj.n_typeflows) :
    FlowShape bfs (flowEdge bfs u s v) :=
  (hs.fs_feedInstantiated hc u v).fs_flowInto hc u v hv

theorem FlowShape.fs_includeUse {bfs : BFS} {s : State} (hs : FlowShape bfs s) (v : Nat) :
    FlowShape bfs (includeUse s v) := by
  refine ⟨hs.hist_len, ?_, hs.uses_len, hs.inst_size, hs.valid, hs.honored, hs.since_inst,
    hs.uses_index⟩
  show (s.included_in_saturation_uses.set v true).length = _
  rw [List.length_set]; exact hs.included_len

theorem FlowShape.fs_setUses {bfs : BFS} {s : State} (hs : FlowShape bfs s) (f : Nat)
    (l : List Nat) (hl : ∀ v ∈ l, v < bfs.adj.n_typeflows ∧ bfs.filterIndex v = f) :
    FlowShape bfs (s.setUses f l) := by
  refine ⟨hs.hist_len, hs.included_len, ?_, hs.inst_size, hs.valid, hs.honored, hs.since_inst, ?_⟩
  · show (s.saturation_uses_by_filter.set f l).length = _
    rw [List.length_set]; exact hs.uses_len
  · intro g v hv
    have hv' : v ∈ (s.saturation_uses_by_filter.set f l).getD g [] := hv
    rw [getD_set] at hv'
    split at hv'
    · rename_i hfg; rw [← hfg.1]; exact hl v hv'
    · exact hs.uses_index g v hv'

theorem FlowShape.fs_joinUses {bfs : BFS} {s : State} (hs : FlowShape bfs s) (v : Nat)
    (hv : v < bfs.adj.n_typeflows) : FlowShape bfs (joinUses bfs s v) := by
  unfold CausalityGraph.joinUses
  split
  · apply hs.fs_setUses
    intro w hw
    rcases List.mem_append.1 hw with h | h
    · exact hs.uses_index _ w h
    · have : w = v := by simpa using h
      subst this; exact ⟨hv, rfl⟩
  · exact hs

theorem FlowShape.fs_seeded {bfs : BFS} {s : State} (hc : bfs.Canonical) (hs : FlowShape bfs s)
    (v : Nat) (hv : v < bfs.adj.n_typeflows) (skip : Nat → Bool) (d fuel : Nat)
    (r : TypeflowHistory × Bool)
    (hr : seedLoop (bfs.typeflow_filters.getD v default) bfs.adj.n_types skip d fuel
      (bfs.typeflow_filters.getD v default).first (s.hist v) false = some r) :
    r.1.Valid ∧ ∀ t ∈ r.1.recorded, bfs.adj.admits v t = true := by
  have he := seedLoop_eq _ _ _ _ (hc.filter_fits v hv) _ _ _ _ hr
  subst he
  refine ⟨flowLoop_valid _ _ _ _ _ (hs.valid v), fun t ht => ?_⟩
  rcases flowLoop_sound _ _ _ _ _ (hs.valid v) t ht with h | h
  · exact hs.honored v t h
  · rw [← hc.filter_get v t hv]
    exact ((mem_membersFrom _ _ _ _).1 h.1).2.2

theorem FlowShape.fs_saturatedEdge {bfs : BFS} {s s1 : State} (hc : bfs.Canonical)
    (hs : FlowShape bfs s) (fuel v : Nat) (hv : v < bfs.adj.n_typeflows)
    (hr : saturatedEdge bfs fuel s v = some s1) : FlowShape bfs s1 := by
  unfold CausalityGraph.saturatedEdge at hr
  split at hr
  · exact Option.some.inj hr ▸ hs
  · split at hr
    · exact Option.some.inj hr ▸ hs
    · obtain ⟨r, hr1, hr2⟩ := Option.map_eq_some'.1 hr
      rw [← hr2]
      obtain ⟨hv1, hv2⟩ := hs.fs_seeded hc v hv _ _ _ r hr1
      apply FlowShape.fs_of_flowPart (State.pushIf_flowPart _ _ _)
      exact ((hs.fs_includeUse v).fs_setHist v r.1 hv1 hv2).fs_joinUses v hv

theorem FlowShape.fs_whiteHoleStep {bfs : BFS} {s s1 : State} (hc : bfs.Canonical)
    (hs : FlowShape bfs s) (fuel v : Nat) (hv : v < bfs.adj.n_typeflows)
    (hr : whiteHoleStep bfs fuel s v = some s1) : FlowShape bfs s1 := by
  unfold CausalityGraph.whiteHoleStep at hr
  obtain ⟨r, hr1, hr2⟩ := Option.map_eq_some'.1 hr
  rw [← hr2]
  obtain ⟨hv1, hv2⟩ := hs.fs_seeded hc v hv _ _ _ r hr1
  exact FlowShape.fs_of_flowPart (State.pushIf_flowPart _ _ _) (hs.fs_setHist v r.1 hv1 hv2)

theorem FlowShape.fs_processTypeflow {bfs : BFS} {s s1 : State} (hc : bfs.Canonical)
    (hs : FlowShape bfs s) (fuel u : Nat) (hr : processTypeflow bfs fuel s u = some s1) :
    FlowShape bfs s1 := by
  have h0 : FlowShape bfs (reachMethod s (bfs.adj.flow u).method.reaching) :=
    FlowShape.fs_of_flowPart (reachMethod_flowPart _ _) hs
  unfold CausalityGraph.processTypeflow at hr
  split at hr
  · rw [← Option.some.inj hr]
    exact foldl_inv (FlowShape bfs) _ _ _ h0
      (fun s2 v hv h2 => h2.fs_flowEdge hc u v (hc.wf.flow_edge u v hv))
  · exact forM_opt_inv (FlowShape bfs) _ _ _ _ h0
      (fun s2 v s3 hv h2 h3 => h2.fs_saturatedEdge hc fuel v (hc.wf.flow_edge u v hv) h3) hr

theorem FlowShape.fs_since_lt {bfs : BFS} {s : State} (hs : FlowShape bfs s) (t : Nat)
    (ht : t ∈ s.instantiated_since_last_iteration) : t < bfs.adj.n_types := by
  rw [← hs.inst_size]
  exact s.allInstantiated.get_lt_size t (hs.since_inst t ht)

theorem FlowShape.fs_compactUses {bfs : BFS} {s : State} (hs : FlowShape bfs s) (f : Nat) :
    FlowShape bfs (compactUses s f) := by
  unfold CausalityGraph.compactUses
  apply hs.fs_setUses
  intro v hv
  exact hs.uses_index f v (List.mem_filter.1 hv).1

theorem compactUses_since (s : State) (f : Nat) :
    (compactUses s f).instantiated_since_last_iteration = s.instantiated_since_last_iteration :=
  rfl

theorem FlowShape.fs_replayUse {bfs : BFS} {acc : State × List Nat} (hs : FlowShape bfs acc.1)
    (filtered : List Nat) (v : Nat) (hf : ∀ t ∈ filtered, bfs.adj.admits v t = true) :
    FlowShape bfs (replayUse bfs filtered acc v).1 := by
  unfold CausalityGraph.replayUse
  split
  · exact hs
  · apply FlowShape.fs_of_flowPart (State.pushIf_flowPart _ _ _)
    apply hs.fs_setHist v _ (flowLoop_valid _ _ _ _ _ (hs.valid v))
    intro t ht
    rcases flowLoop_sound _ _ _ _ _ (hs.valid v) t ht with h | h
    · exact hs.honored v t h
    · exact hf t h.1

theorem replayUse_kept (bfs : BFS) (filtered : List Nat) (acc : State × List Nat) (v w : Nat)
    (hw : w ∈ (replayUse bfs filtered acc v).2) : w ∈ acc.2 ∨ w = v := by
  unfold replayUse at hw
  split at hw
  · exact Or.inl hw
  · rcases List.mem_append.1 hw with h | h
    · exact Or.inl h
    · exact Or.inr (by simpa using h)

theorem FlowShape.fs_replayUses {bfs : BFS} {s : State} (hs : FlowShape bfs s) (f : Nat)
    (filtered : List Nat)
    (hf : ∀ v ∈ s.saturation_uses_by_filter.getD f [], ∀ t ∈ filtered,
      bfs.adj.admits v t = true) :
    FlowShape bfs (replayUses bfs s f filtered) := by
  unfold CausalityGraph.replayUses
  have := foldl_inv
    (fun acc : State × List Nat => FlowShape bfs acc.1 ∧
      ∀ w ∈ acc.2, w ∈ s.saturation_uses_by_filter.getD f [])
    (CausalityGraph.replayUse bfs filtered) (s.saturation_uses_by_filter.getD f []) (s, [])
    ⟨hs, fun w hw => by simp at hw⟩
    (fun acc v hv h => ⟨h.1.fs_replayUse filtered v (hf v hv), fun w hw => by
      rcases replayUse_kept bfs filtered acc v w hw with h1 | h1
      · exact h.2 w h1
      · subst h1; exact hv⟩)
  exact this.1.fs_setUses f _ (fun v hv => hs.uses_index f v (this.2 v hv))

theorem FlowShape.fs_propagateFilter {bfs : BFS} {s : State} (hc : bfs.Canonical)
    (hs : FlowShape bfs s) (f : Nat) : FlowShape bfs (propagateFilter bfs s f) := by
  unfold CausalityGraph.propagateFilter
  split
  · exact hs
  · split
    · exact hs.fs_compactUses f
    · split
      · exact hs.fs_compactUses f
      · apply (hs.fs_compactUses f).fs_replayUses
        intro v hv t ht
        obtain ⟨hv1, hv2⟩ := (hs.fs_compactUses f).uses_index f v hv
        have hF : bfs.filter_filters.getD f default = TypeSet.ofBitset (bfs.adj.filterOf v) := by
          rw [← hv2]; exact hc.filter_filter v hv1
        rw [hF] at ht
        have hfit : (TypeSet.ofBitset (bfs.adj.filterOf v)).fits bfs.adj.n_types :=
          TypeSet.ofBitset_fits _ _ (le_of_eq (hc.wf.filterOf_size v hv1).symm) hc.wf.2.2.1
        have := (filterDelta_sound _ _ _ hfit (fun x hx => hs.fs_since_lt x hx) t ht).1
        rw [TypeSet.ofBitset_get] at this
        exact this

theorem FlowShape.fs_propagate {bfs : BFS} {s : State} (hc : bfs.Canonical)
    (hs : FlowShape bfs s) : FlowShape bfs (propagate bfs s) := by
  unfold CausalityGraph.propagate
  have h1 : FlowShape bfs
      ((List.range bfs.filter_filters.length).foldl (CausalityGraph.propagateFilter bfs) s) :=
    foldl_inv (FlowShape bfs) _ _ _ hs (fun s1 f _ h => h.fs_propagateFilter hc f)
  exact ⟨h1.hist_len, h1.included_len, h1.uses_len, h1.inst_size, h1.valid, h1.honored,
    fun t ht => by simp [clearInstantiated] at ht, h1.uses_index⟩

theorem startState_hist (bfs : BFS) (purged : List Nat) (v : Nat) :
    (startState bfs purged).hist v = TypeflowHistory.fresh := by
  unfold State.hist startState
  exact getD_replicate _ _ _

theorem recorded_fresh : TypeflowHistory.fresh.recorded = [] := by
  rw [TypeflowHistory.holds_fresh.recorded_eq]; rfl

theorem FlowShape.fs_start (bfs : BFS) (purged : List Nat) : FlowShape bfs (startState bfs purged) := by
  refine ⟨by simp [startState], by simp [startState], by simp [startState],
    by simp [startState, Bitset.zeros, Bitset.size], ?_, ?_, ?_, ?_⟩
  · intro v; rw [startState_hist]; exact TypeflowHistory.valid_fresh
  · intro v t ht
    rw [startState_hist, recorded_fresh] at ht
    simp at ht
  · intro t ht; simp [startState] at ht
  · intro f v hv
    have : (startState bfs purged).saturation_uses_by_filter.getD f [] = [] := by
      unfold startState
      exact getD_replicate _ _ _
    rw [this] at hv
    simp at hv

theorem FlowShape.fs_init {bfs : BFS} (hc : bfs.Canonical) (purged : List Nat) (fuel : Nat)
    (s : State) (hr : initState bfs purged fuel = some s) : FlowShape bfs s := by
  unfold initState at hr
  exact forM_opt_inv (FlowShape bfs) _ _ _ _ (FlowShape.fs_start bfs purged)
    (fun s2 v s3 hv h2 h3 => h2.fs_whiteHoleStep hc fuel v (hc.wf.flow_edge 0 v hv) h3) hr

/-- The type-recording invariants are carried through the whole run. -/
theorem FlowShape.fs_phased {bfs : BFS} (hc : bfs.Canonical) (dm : Bool) :
    Phased bfs dm (fun _ s => FlowShape bfs s) where
  layer := fun _ h _ => FlowShape.fs_of_flowPart (methodLayer_flowPart _ _) h
  relayer := fun _ _ h _ => FlowShape.fs_of_flowPart (methodLayer_flowPart _ _) h
  bump := fun _ h _ => FlowShape.fs_of_flowPart (bumpDist_flowPart _ _) h
  pop := fun fuel s u rest _ h _ hp =>
    FlowShape.fs_processTypeflow hc (s := popTypeflow s rest)
      (FlowShape.fs_of_flowPart (s := s) rfl h) fuel u hp
  prop := fun _ h _ _ _ => h.fs_propagate hc
  exit := fun _ h _ _ => h

theorem solve_flowShape {bfs : BFS} (hc : bfs.Canonical) (purged : List Nat) (dm : Bool)
    (fuel : Nat) (s : State) (hr : solve bfs purged dm fuel = some s) : FlowShape bfs s := by
  unfold solve at hr
  split at hr
  · simp at hr
  · rename_i s0 h0
    exact (outerLoop_phased (FlowShape.fs_phased hc dm) fuel s0 s (FlowShape.fs_init hc purged fuel s0 h0)
      hr).1

theorem foldl_establish {α σ : Type} (I : σ → Prop) (P : α → σ → Prop) (f : σ → α → σ)
    (l : List α) (s : σ) (h0 : I s)
    (hstep : ∀ s x, x ∈ l → I s → I (f s x) ∧ P x (f s x))
    (hstable : ∀ s x y, y ∈ l → I s → P x s → P x (f s y)) :
    I (l.foldl f s) ∧ ∀ x ∈ l, P x (l.foldl f s) := by
  induction l generalizing s with
  | nil => exact ⟨h0, fun x hx => by simp at hx⟩
  | cons a as ih =>
    simp only [List.foldl_cons]
    obtain ⟨h1, h2⟩ := hstep s a (List.mem_cons_self _ _) h0
    obtain ⟨h3, h4⟩ := ih (f s a) h1
      (fun s x hx => hstep s x (List.mem_cons_of_mem _ hx))
      (fun s x y hy => hstable s x y (List.mem_cons_of_mem _ hy))
    refine ⟨h3, fun x hx => ?_⟩
    rcases List.mem_cons.1 hx with h | h
    · subst h
      have := foldl_inv (fun s1 => I s1 ∧ P x s1) f as (f s x) ⟨h1, h2⟩
        (fun s1 y hy hs1 => ⟨(hstep s1 y (List.mem_cons_of_mem _ hy) hs1.1).1,
          hstable s1 x y (List.mem_cons_of_mem _ hy) hs1.1 hs1.2⟩)
      exact this.2
    · exact h4 x h

theorem wakeDependent_methodPart (s : State) (v : Nat) :
    (wakeDependent s v).methodPart = s.methodPart := State.pushIf_methodPart _ _ _

theorem recordDistance_worklist (s : State) (u : Nat) :
    (recordDistance s u).method_worklist = s.method_worklist := rfl

theorem visitMethod_worklist (s : State) (v : Nat) :
    (visitMethod s v).method_worklist = s.method_worklist := by
  unfold visitMethod; split <;> rfl

theorem methodBody_worklist (adj : Adjacency) (s : State) (u : Nat) :
    (methodBody adj s u).method_worklist = s.method_worklist := by
  unfold methodBody
  rw [foldl_field _ _ visitMethod_worklist,
    foldl_field _ _ (fun s v => State.methodPart_worklist (wakeDependent_methodPart s v))]
  rfl

/-- An invariant of the loop body of the method phase that is kept by its three kinds of
statements is kept by the whole body. -/
theorem methodBody_inv (I : State → Prop) (adj : Adjacency) (s : State) (u : Nat)
    (h0 : I s)
    (hrec : I s → I (recordDistance s u))
    (hwake : ∀ s1 v, v ∈ (adj.method u).dependent_typeflows → I s1 → I (wakeDependent s1 v))
    (hvisit : ∀ s1 v, v ∈ (adj.method u).forward_edges → I s1 → I (visitMethod s1 v)) :
    I (methodBody adj s u) := by
  unfold methodBody
  exact foldl_inv I _ _ _ (foldl_inv I _ _ _ (hrec h0) hwake) hvisit

/-- The same for the loop over the method worklist. -/
theorem methodFold_inv (I : State → Prop) (adj : Adjacency) (s : State) (h0 : I s)
    (hrec : ∀ s1 u, u ∈ s1.method_worklist → I s1 → I (recordDistance s1 u))
    (hwake : ∀ s1 u v, v ∈ (adj.method u).dependent_typeflows → I s1 → I (wakeDependent s1 v))
    (hvisit : ∀ s1 u v, v ∈ (adj.method u).forward_edges → I s1 → I (visitMethod s1 v)) :
    I (s.method_worklist.foldl (methodBody adj) s) := by
  have := foldl_inv (fun s1 => I s1 ∧ s1.method_worklist = s.method_worklist) (methodBody adj)
    s.method_worklist s ⟨h0, rfl⟩
    (fun s1 u hu h1 => ⟨methodBody_inv I adj s1 u h1.1 (hrec s1 u (h1.2 ▸ hu))
      (hwake · u) (hvisit · u), (methodBody_worklist adj s1 u).trans h1.2⟩)
  exact this.1

/-- A family of predicates on the method part is phased when the statements of the method
phase and the marking of a reaching method keep it. -/
theorem phased_of_method {bfs : BFS} {dm : Bool} (I : Phase → State → Prop)
    (hresp : ∀ p s s1, s1.methodPart = s.methodPart → I p s → I p s1)
    (hlayer : ∀ s, I Phase.head s → s.method_worklist ≠ [] →
      I Phase.methods (methodLayer bfs.adj s))
    (hrelayer : ∀ s, dm = false → I Phase.methods s → s.method_worklist ≠ [] →
      I Phase.methods (methodLayer bfs.adj s))
    (hbump : ∀ s, I Phase.methods s → (dm = true ∨ s.method_worklist = []) →
      I Phase.flows (bumpDist dm s))
    (hreach : ∀ s u, I Phase.flows s →
      I Phase.flows (reachMethod s (bfs.adj.flow u).method.reaching))
    (hexit : ∀ s, I Phase.flows s → I Phase.head s) : Phased bfs dm I where
  layer := hlayer
  relayer := hrelayer
  bump := hbump
  pop := fun fuel s u rest s1 h _ hp =>
    hresp _ _ _ (processTypeflow_methodPart bfs fuel _ u s1 hp)
      (hreach _ u (hresp _ s (popTypeflow s rest) rfl h))
  prop := fun s h _ _ _ => hresp _ _ _ (propagate_methodPart bfs s) h
  exit := fun s h _ _ => hexit s h

theorem visited_set_true (s : State) (v m : Nat) :
    (s.method_visited.set v true).getD m false =
      (s.visited m || decide (v = m ∧ v < s.method_visited.length)) := by
  unfold State.visited
  rw [getD_set]
  by_cases h : v = m ∧ v < s.method_visited.length
  · rw [if_pos h, decide_eq_true h, Bool.or_true]
  · rw [if_neg h, decide_eq_false h, Bool.or_false]

theorem visitMethod_visited (s : State) (v m : Nat) :
    (visitMethod s v).visited m =
      (s.visited m || decide (v = m ∧ v < s.method_visited.length)) := by
  unfold visitMethod
  split
  · exact visited_set_true s v m
  · rename_i h
    have hv : s.visited v = true := by simpa using h
    by_cases h2 : v = m ∧ v < s.method_visited.length
    · rw [decide_eq_true h2, Bool.or_true, ← h2.1, hv]
    · rw [decide_eq_false h2, Bool.or_false]

theorem reachMethod_visited (s : State) (v m : Nat) :
    (reachMethod s v).visited m =
      (s.visited m || decide (v = m ∧ v < s.method_visited.length)) := by
  unfold reachMethod
  split
  · exact visited_set_true s v m
  · rename_i h
    have hv : s.visited v = true := by simpa using h
    by_cases h2 : v = m ∧ v < s.method_visited.length
    · rw [decide_eq_true h2, Bool.or_true, ← h2.1, hv]
    · rw [decide_eq_false h2, Bool.or_false]

theorem visitMethod_mono (s : State) (v m : Nat) (h : s.visited m = true) :
    (visitMethod s v).visited m = true := by
  rw [visitMethod_visited, h]; rfl

theorem reachMethod_mono (s : State) (v m : Nat) (h : s.visited m = true) :
    (reachMethod s v).visited m = true := by
  rw [reachMethod_visited, h]; rfl

theorem visitMethod_next (s : State) (v m : Nat) (h : m ∈ (visitMethod s v).next_method_worklist) :
    m ∈ s.next_method_worklist ∨ (m = v ∧ s.visited v = false) := by
  unfold visitMethod at h
  split at h
  · rename_i hv
    rcases List.mem_append.1 h with h1 | h1
    · exact Or.inl h1
    · exact Or.inr ⟨by simpa using h1, by simpa using hv⟩
  · exact Or.inl h

theorem reachMethod_worklist (s : State) (v m : Nat) (h : m ∈ (reachMethod s v).method_worklist) :
    m ∈ s.method_worklist ∨ (m = v ∧ s.visited v = false) := by
  unfold reachMethod at h
  split at h
  · rename_i hv
    rcases List.mem_append.1 h with h1 | h1
    · exact Or.inl h1
    · exact Or.inr ⟨by simpa using h1, by simpa using hv⟩
  · exact Or.inl h

theorem reachMethod_next (s : State) (v : Nat) :
    (reachMethod s v).next_method_worklist = s.next_method_worklist := by
  unfold reachMethod; split <;> rfl

theorem reachMethod_history (s : State) (v : Nat) :
    (reachMethod s v).method_history = s.method_history := by
  unfold reachMethod; split <;> rfl

theorem reachMethod_dist (s : State) (v : Nat) : (reachMethod s v).dist = s.dist := by
  unfold reachMethod; split <;> rfl

theorem reachMethod_visited_len (s : State) (v : Nat) :
    (reachMethod s v).method_visited.length = s.method_visited.length := by
  unfold reachMethod; split
  · exact List.length_set _ _ _
  · rfl

theorem visitMethod_history (s : State) (v : Nat) :
    (visitMethod s v).method_history = s.method_history := by
  unfold visitMethod; split <;> rfl

theorem visitMethod_dist (s : State) (v : Nat) : (visitMethod s v).dist = s.dist := by
  unfold visitMethod; split <;> rfl

theorem visitMethod_visited_len (s : State) (v : Nat) :
    (visitMethod s v).method_visited.length = s.method_visited.length := by
  unfold visitMethod; split
  · exact List.length_set _ _ _
  · rfl

theorem bumpDist_fields (dm : Bool) (s : State) :
    (bumpDist dm s).method_visited = s.method_visited ∧
    (bumpDist dm s).method_history = s.method_history ∧
    (bumpDist dm s).method_worklist = s.method_worklist ∧
    (bumpDist dm s).next_method_worklist = s.next_method_worklist ∧
    (bumpDist dm s).typeflow_worklist = s.typeflow_worklist := by
  unfold bumpDist; split <;> exact ⟨rfl, rfl, rfl, rfl, rfl⟩

theorem PurgeInv.pu_of_methodPart {adj : Adjacency} {purged : List Nat} {s s1 : State}
    (h : s1.methodPart = s.methodPart) (hs : PurgeInv adj purged s) : PurgeInv adj purged s1 := by
  have e1 := State.methodPart_visited h
  have e2 := State.methodPart_history h
  have e3 := State.methodPart_worklist h
  have e4 := State.methodPart_next h
  refine ⟨e2 ▸ hs.history_len, fun p hp hl => ?_, fun m hm hp => ?_, fun p hp h0 => ?_⟩
  · rw [State.visited_of_methodPart h]; exact hs.purged_visited p hp hl
  · rw [e3, e4] at hm; exact hs.worklists m hm hp
  · rw [State.history_of_methodPart h]; exact hs.purged_history p hp h0

theorem PurgeInv.pu_record {adj : Adjacency} {purged : List Nat} {s : State}
    (hs : PurgeInv adj purged s) (u : Nat) (hu : u ∈ s.method_worklist) :
    PurgeInv adj purged (recordDistance s u) := by
  refine ⟨?_, hs.purged_visited, hs.worklists, fun p hp h0 => ?_⟩
  · show (s.method_history.set u s.dist).length = _
    rw [List.length_set]; exact hs.history_len
  · show (s.method_history.set u s.dist).getD p u8_max = u8_max
    rw [getD_set]
    split
    · rename_i hc
      rcases hs.worklists u (Or.inl hu) (hc.1 ▸ hp) with h | h
      · exact absurd (hc.1 ▸ h) h0
      · have := hs.history_len; omega
    · exact hs.purged_history p hp h0

theorem PurgeInv.pu_visit {adj : Adjacency} {purged : List Nat} {s : State}
    (hs : PurgeInv adj purged s) (v : Nat) : PurgeInv adj purged (visitMethod s v) := by
  refine ⟨?_, fun p hp hl => visitMethod_mono s v p (hs.purged_visited p hp hl),
    fun m hm hp => ?_, fun p hp h0 => ?_⟩
  · rw [visitMethod_history]; exact hs.history_len
  · rw [visitMethod_worklist] at hm
    rcases hm with hm | hm
    · exact hs.worklists m (Or.inl hm) hp
    · rcases visitMethod_next s v m hm with h | ⟨h1, h2⟩
      · exact hs.worklists m (Or.inr h) hp
      · right
        by_contra hc
        have := hs.purged_visited m hp (by omega)
        rw [h1, h2] at this
        exact absurd this (by simp)
  · show (visitMethod s v).method_history.getD p u8_max = u8_max
    rw [visitMethod_history]; exact hs.purged_history p hp h0

theorem PurgeInv.pu_reach {adj : Adjacency} {purged : List Nat} {s : State}
    (hs : PurgeInv adj purged s) (v : Nat) : PurgeInv adj purged (reachMethod s v) := by
  refine ⟨?_, fun p hp hl => reachMethod_mono s v p (hs.purged_visited p hp hl),
    fun m hm hp => ?_, fun p hp h0 => ?_⟩
  · rw [reachMethod_history]; exact hs.history_len
  · rw [reachMethod_next] at hm
    rcases hm with hm | hm
    · rcases reachMethod_worklist s v m hm with h | ⟨h1, h2⟩
      · exact hs.worklists m (Or.inl h) hp
      · right
        by_contra hc
        have := hs.purged_visited m hp (by omega)
        rw [h1, h2] at this
        exact absurd this (by simp)
    · exact hs.worklists m (Or.inr hm) hp
  · show (reachMethod s v).method_history.getD p u8_max = u8_max
    rw [reachMethod_history]; exact hs.purged_history p hp h0

theorem PurgeInv.pu_layer {adj : Adjacency} {purged : List Nat} {s : State}
    (hs : PurgeInv adj purged s) : PurgeInv adj purged (methodLayer adj s) := by
  have h1 := methodFold_inv (PurgeInv adj purged) adj s hs
    (fun s1 u hu h => h.pu_record u hu)
    (fun s1 u v _ h => PurgeInv.pu_of_methodPart (wakeDependent_methodPart s1 v) h)
    (fun s1 u v _ h => h.pu_visit v)
  unfold methodLayer
  refine ⟨h1.history_len, h1.purged_visited, fun m hm hp => ?_, h1.purged_history⟩
  rcases hm with hm | hm
  · exact h1.worklists m (Or.inr hm) hp
  · simp [swapWorklists] at hm

theorem PurgeInv.pu_bump {adj : Adjacency} {purged : List Nat} {s : State} (dm : Bool)
    (hs : PurgeInv adj purged s) : PurgeInv adj purged (bumpDist dm s) := by
  obtain ⟨e1, e2, e3, e4, _⟩ := bumpDist_fields dm s
  refine ⟨e2 ▸ hs.history_len, fun p hp hl => ?_, fun m hm hp => ?_, fun p hp h0 => ?_⟩
  · unfold State.visited; rw [e1]; exact hs.purged_visited p hp hl
  · rw [e3, e4] at hm; exact hs.worklists m hm hp
  · unfold State.history; rw [e2]; exact hs.purged_history p hp h0

theorem PurgeInv.pu_phased (bfs : BFS) (purged : List Nat) (dm : Bool) :
    Phased bfs dm (fun _ s => PurgeInv bfs.adj purged s) :=
  phased_of_method _ (fun _ _ _ h hs => PurgeInv.pu_of_methodPart h hs)
    (fun _ h _ => h.pu_layer) (fun _ _ h _ => h.pu_layer) (fun _ h _ => h.pu_bump dm)
    (fun _ _ h => h.pu_reach _) (fun _ h => h)

theorem foldl_set_length {α : Type} (a : α) (l : List Nat) (mv : List α) :
    (l.foldl (fun mv p => mv.set p a) mv).length = mv.length :=
  foldl_inv (fun m => m.length = mv.length) _ l mv rfl
    (fun m p _ h => by show (m.set p a).length = mv.length; rw [List.length_set]; exact h)

theorem foldl_set_true (l : List Nat) : ∀ (mv : List Bool) (m : Nat),
    (l.foldl (fun mv p => mv.set p true) mv).getD m false =
      (mv.getD m false || decide (m ∈ l ∧ m < mv.length)) := by
  induction l with
  | nil => intro mv m; simp
  | cons p ps ih =>
    intro mv m
    rw [List.foldl_cons, ih, getD_set, List.length_set]
    by_cases h1 : p = m ∧ p < mv.length
    · rw [if_pos h1]
      have : m ∈ p :: ps ∧ m < mv.length := ⟨h1.1 ▸ List.mem_cons_self _ _, h1.1 ▸ h1.2⟩
      rw [decide_eq_true this]
      simp
    · rw [if_neg h1]
      congr 1
      apply decide_eq_decide.2
      constructor
      · rintro ⟨h2, h3⟩; exact ⟨List.mem_cons_of_mem _ h2, h3⟩
      · rintro ⟨h2, h3⟩
        rcases List.mem_cons.1 h2 with h4 | h4
        · exact absurd ⟨h4.symm, h4 ▸ h3⟩ h1
        · exact ⟨h4, h3⟩

theorem foldl_set_false (l : List Nat) : ∀ (mv : List Bool) (m : Nat),
    (l.foldl (fun mv p => mv.set p false) mv).getD m false =
      (mv.getD m false && !decide (m ∈ l)) := by
  induction l with
  | nil => intro mv m; simp
  | cons p ps ih =>
    intro mv m
    rw [List.foldl_cons, ih, getD_set]
    by_cases h1 : p = m
    · subst h1
      have : p ∈ p :: ps := List.mem_cons_self _ _
      rw [decide_eq_true this, Bool.not_true, Bool.and_false]
      by_cases h2 : p < mv.length
      · rw [if_pos ⟨rfl, h2⟩, Bool.false_and]
      · rw [if_neg (fun hc => h2 hc.2), getD_default _ _ _ (Nat.le_of_not_lt h2), Bool.false_and]
    · rw [if_neg (fun hc => h1 hc.1)]
      congr 2
      apply decide_eq_decide.2
      constructor
      · exact fun h2 => List.mem_cons_of_mem _ h2
      · intro h2
        rcases List.mem_cons.1 h2 with h4 | h4
        · exact absurd h4.symm h1
        · exact h4

/-- The vector `method_visited` that is returned: the purged entries are reset. -/
theorem finish_visited (purged : List Nat) (s : State) (m : Nat) :
    (finish purged s).method_visited.getD m false = (s.visited m && !decide (m ∈ purged)) :=
  foldl_set_false purged s.method_visited m

theorem run_eq_some {adj : Adjacency} {purged : List Nat} {dm : Bool} {fuel : Nat} {r : Result}
    (hr : run adj purged dm fuel = some r) :
    ∃ s, solve (BFS.create adj) purged dm fuel = some s ∧ r = finish purged s := by
  unfold run at hr
  obtain ⟨s, h1, h2⟩ := Option.map_eq_some'.1 hr
  exact ⟨s, h1, h2.symm⟩

/-- Every phased family that holds after the white-hole seeding holds when the outer loop has
been left, where the method worklist is empty. -/
theorem solve_phased {bfs : BFS} {dm : Bool} {I : Phase → State → Prop} (hI : Phased bfs dm I)
    (purged : List Nat) (fuel : Nat)
    (hinit : ∀ s0, initState bfs purged fuel = some s0 → I Phase.head s0) (s : State)
    (hr : solve bfs purged dm fuel = some s) : I Phase.head s ∧ s.method_worklist = [] := by
  unfold solve at hr
  split at hr
  · simp at hr
  · rename_i s0 h0
    exact outerLoop_phased hI fuel s0 s (hinit s0 h0) hr

theorem whiteHoleStep_methodPart (bfs : BFS) (fuel : Nat) (s : State) (v : Nat) (s1 : State)
    (hr : whiteHoleStep bfs fuel s v = some s1) : s1.methodPart = s.methodPart := by
  unfold whiteHoleStep at hr
  obtain ⟨r, _, hs⟩ := Option.map_eq_some'.1 hr
  rw [← hs, State.pushIf_methodPart]
  rfl

theorem initState_methodPart (bfs : BFS) (purged : List Nat) (fuel : Nat) (s : State)
    (hr : initState bfs purged fuel = some s) :
    s.methodPart = (startState bfs purged).methodPart :=
  forM_opt_field _ _ (whiteHoleStep_methodPart bfs fuel) _ _ _ hr

theorem startState_visited (bfs : BFS) (purged : List Nat) (m : Nat) :
    (startState bfs purged).visited m =
      decide ((m = 0 ∨ m ∈ purged) ∧ m < bfs.adj.n_methods) := by
  unfold State.visited startState
  simp only
  rw [foldl_set_true, getD_set, List.length_set, List.length_replicate, getD_replicate]
  by_cases h0 : 0 = m ∧ 0 < bfs.adj.n_methods
  · rw [if_pos h0]
    simp only [Bool.true_or]
    symm
    exact decide_eq_true ⟨Or.inl h0.1.symm, h0.1 ▸ h0.2⟩
  · rw [if_neg h0, Bool.false_or]
    apply decide_eq_decide.2
    constructor
    · rintro ⟨h1, h2⟩; exact ⟨Or.inr h1, h2⟩
    · rintro ⟨h1 | h1, h2⟩
      · exact absurd ⟨h1.symm, h1 ▸ h2⟩ h0
      · exact ⟨h1, h2⟩

theorem startState_history (bfs : BFS) (purged : List Nat) (m : Nat) :
    (startState bfs purged).history m = if m = 0 ∧ 0 < bfs.adj.n_methods then 0 else u8_max := by
  unfold State.history startState
  simp only
  rw [getD_set, List.length_replicate, getD_replicate]
  by_cases h : m = 0
  · subst h; simp
  · have : ¬ (0 = m) := fun hc => h hc.symm
    simp [h, this]

theorem PurgeInv.pu_start (bfs : BFS) (purged : List Nat) :
    PurgeInv bfs.adj purged (startState bfs purged) := by
  refine ⟨by simp [startState], fun p hp hl => ?_, fun m hm _ => ?_, fun p _ h0 => ?_⟩
  · rw [startState_visited]
    exact decide_eq_true ⟨Or.inr hp, hl⟩
  · left
    rcases hm with hm | hm
    · simpa [startState] using hm
    · simp [startState] at hm
  · rw [startState_history, if_neg (fun hc => h0 hc.1)]

theorem solve_purgeInv (bfs : BFS) (purged : List Nat) (dm : Bool) (fuel : Nat) (s : State)
    (hr : solve bfs purged dm fuel = some s) : PurgeInv bfs.adj purged s :=
  (solve_phased (PurgeInv.pu_phased bfs purged dm) purged fuel
    (fun s0 h0 => PurgeInv.pu_of_methodPart (initState_methodPart bfs purged fuel s0 h0)
      (PurgeInv.pu_start bfs purged)) s hr).1

theorem RootInv.ro_of_methodPart {adj : Adjacency} {s s1 : State}
    (h : s1.methodPart = s.methodPart) (hs : RootInv adj s) : RootInv adj s1 := by
  have e1 := State.methodPart_visited h
  have e2 := State.methodPart_history h
  have e3 := State.methodPart_worklist h
  have e4 := State.methodPart_next h
  have e5 := State.methodPart_dist h
  refine ⟨e1 ▸ hs.visited_len, e2 ▸ hs.history_len, ?_, ?_, e4 ▸ hs.root_next, ?_⟩
  · rw [State.visited_of_methodPart h]; exact hs.root_visited
  · rw [State.history_of_methodPart h]; exact hs.root_history
  · rw [e3, e5]; exact hs.root_worklist

theorem RootInv.ro_record {adj : Adjacency} {s : State}
    (hs : RootInv adj s) (u : Nat) (hu : u ∈ s.method_worklist) :
    RootInv adj (recordDistance s u) := by
  refine ⟨hs.visited_len, ?_, hs.root_visited, ?_, hs.root_next, hs.root_worklist⟩
  · show (s.method_history.set u s.dist).length = _
    rw [List.length_set]; exact hs.history_len
  · show (s.method_history.set u s.dist).getD 0 u8_max = 0
    rw [getD_set]
    split
    · rename_i hc
      exact hs.root_worklist (hc.1 ▸ hu)
    · exact hs.root_history

theorem RootInv.ro_visit {adj : Adjacency} {s : State} (hs : RootInv adj s) (v : Nat) :
    RootInv adj (visitMethod s v) := by
  refine ⟨?_, ?_, visitMethod_mono s v 0 hs.root_visited, ?_, ?_, ?_⟩
  · rw [visitMethod_visited_len]; exact hs.visited_len
  · rw [visitMethod_history]; exact hs.history_len
  · show (visitMethod s v).method_history.getD 0 u8_max = 0
    rw [visitMethod_history]; exact hs.root_history
  · intro h
    rcases visitMethod_next s v 0 h with h1 | ⟨h1, h2⟩
    · exact hs.root_next h1
    · rw [← h1, hs.root_visited] at h2; exact absurd h2 (by simp)
  · rw [visitMethod_worklist, visitMethod_dist]; exact hs.root_worklist

theorem RootInv.ro_reach {adj : Adjacency} {s : State} (hs : RootInv adj s)
    (h0 : 0 ∉ s.method_worklist) (v : Nat) :
    RootInv adj (reachMethod s v) ∧ 0 ∉ (reachMethod s v).method_worklist := by
  have hw : 0 ∉ (reachMethod s v).method_worklist := by
    intro h
    rcases reachMethod_worklist s v 0 h with h1 | ⟨h1, h2⟩
    · exact h0 h1
    · rw [← h1, hs.root_visited] at h2; exact absurd h2 (by simp)
  refine ⟨⟨?_, ?_, reachMethod_mono s v 0 hs.root_visited, ?_, ?_, fun h => absurd h hw⟩, hw⟩
  · rw [reachMethod_visited_len]; exact hs.visited_len
  · rw [reachMethod_history]; exact hs.history_len
  · show (reachMethod s v).method_history.getD 0 u8_max = 0
    rw [reachMethod_history]; exact hs.root_history
  · rw [reachMethod_next]; exact hs.root_next

theorem RootInv.ro_layer {adj : Adjacency} {s : State} (hs : RootInv adj s) :
    RootInv adj (methodLayer adj s) ∧ 0 ∉ (methodLayer adj s).method_worklist := by
  have h1 := methodFold_inv (RootInv adj) adj s hs
    (fun s1 u hu h => h.ro_record u hu)
    (fun s1 u v _ h => RootInv.ro_of_methodPart (wakeDependent_methodPart s1 v) h)
    (fun s1 u v _ h => h.ro_visit v)
  unfold methodLayer
  exact ⟨⟨h1.visited_len, h1.history_len, h1.root_visited, h1.root_history,
    by simp [swapWorklists], fun h => absurd h h1.root_next⟩, h1.root_next⟩

theorem RootInv.ro_bump {adj : Adjacency} {s : State} (dm : Bool) (hs : RootInv adj s)
    (h0 : 0 ∉ s.method_worklist) :
    RootInv adj (bumpDist dm s) ∧ 0 ∉ (bumpDist dm s).method_worklist := by
  obtain ⟨e1, e2, e3, e4, _⟩ := bumpDist_fields dm s
  refine ⟨⟨e1 ▸ hs.visited_len, e2 ▸ hs.history_len, ?_, ?_, e4 ▸ hs.root_next, ?_⟩, e3 ▸ h0⟩
  · unfold State.visited; rw [e1]; exact hs.root_visited
  · unfold State.history; rw [e2]; exact hs.root_history
  · intro h; rw [e3] at h; exact absurd h h0

theorem RootPhase.rp_phased (bfs : BFS) (dm : Bool) :
    Phased bfs dm (RootPhase bfs.adj) :=
  phased_of_method _
    (fun p s s1 h hs => by
      cases p with
      | head => exact RootInv.ro_of_methodPart h hs
      | methods => exact ⟨RootInv.ro_of_methodPart h hs.1, State.methodPart_worklist h ▸ hs.2⟩
      | flows => exact ⟨RootInv.ro_of_methodPart h hs.1, State.methodPart_worklist h ▸ hs.2⟩)
    (fun _ h _ => h.ro_layer) (fun _ _ h _ => h.1.ro_layer) (fun _ h _ => h.1.ro_bump dm h.2)
    (fun _ _ h => h.1.ro_reach h.2 _) (fun _ h => h.1)

theorem startState_visited_len (bfs : BFS) (purged : List Nat) :
    (startState bfs purged).method_visited.length = bfs.adj.n_methods := by
  unfold startState
  simp only
  rw [foldl_set_length]; simp

theorem RootInv.ro_start (bfs : BFS) (hn : 0 < bfs.adj.n_methods) (purged : List Nat) :
    RootInv bfs.adj (startState bfs purged) := by
  refine ⟨?_, by simp [startState], ?_, ?_, by simp [startState], fun _ => rfl⟩
  · exact startState_visited_len bfs purged
  · rw [startState_visited]; exact decide_eq_true ⟨Or.inl rfl, hn⟩
  · rw [startState_history, if_pos ⟨rfl, hn⟩]

theorem solve_rootInv (bfs : BFS) (hn : 0 < bfs.adj.n_methods) (purged : List Nat) (dm : Bool)
    (fuel : Nat) (s : State) (hr : solve bfs purged dm fuel = some s) : RootInv bfs.adj s :=
  (solve_phased (RootPhase.rp_phased bfs dm) purged fuel
    (fun s0 h0 => RootInv.ro_of_methodPart (initState_methodPart bfs purged fuel s0 h0)
      (RootInv.ro_start bfs hn purged)) s hr).1

theorem ClosedInv.cl_of_methodPart {adj : Adjacency} {purged : List Nat} {s s1 : State}
    (h : s1.methodPart = s.methodPart) (hs : ClosedInv adj purged s) :
    ClosedInv adj purged s1 := by
  have e1 := State.methodPart_visited h
  have e3 := State.methodPart_worklist h
  have e4 := State.methodPart_next h
  refine ⟨e1 ▸ hs.visited_len, fun m hm => ?_⟩
  rw [State.visited_of_methodPart h] at hm
  rw [e3, e4]
  rcases hs.closed m hm with h1 | h1 | h1 | h1
  · exact Or.inl h1
  · exact Or.inr (Or.inl h1)
  · exact Or.inr (Or.inr (Or.inl h1))
  · exact Or.inr (Or.inr (Or.inr (fun v hv => by
      rw [State.visited_of_methodPart h]; exact h1 v hv)))

theorem visitMethod_next_mem (s : State) (v : Nat) (h : s.visited v = false) :
    v ∈ (visitMethod s v).next_method_worklist := by
  unfold visitMethod
  rw [if_pos (by simpa using h)]
  exact List.mem_append_right _ (List.mem_singleton_self v)

theorem visitMethod_next_sub (s : State) (v m : Nat) (h : m ∈ s.next_method_worklist) :
    m ∈ (visitMethod s v).next_method_worklist := by
  unfold visitMethod
  split
  · exact List.mem_append_left _ h
  · exact h

theorem reachMethod_worklist_mem (s : State) (v : Nat) (h : s.visited v = false) :
    v ∈ (reachMethod s v).method_worklist := by
  unfold reachMethod
  rw [if_pos (by simpa using h)]
  exact List.mem_append_right _ (List.mem_singleton_self v)

theorem reachMethod_worklist_sub (s : State) (v m : Nat) (h : m ∈ s.method_worklist) :
    m ∈ (reachMethod s v).method_worklist := by
  unfold reachMethod
  split
  · exact List.mem_append_left _ h
  · exact h

theorem ClosedInv.cl_visit {adj : Adjacency} {purged : List Nat} {s : State}
    (hs : ClosedInv adj purged s) (v : Nat) : ClosedInv adj purged (visitMethod s v) := by
  refine ⟨by rw [visitMethod_visited_len]; exact hs.visited_len, fun m hm => ?_⟩
  rw [visitMethod_worklist]
  by_cases hold : s.visited m = true
  · rcases hs.closed m hold with h1 | h1 | h1 | h1
    · exact Or.inl h1
    · exact Or.inr (Or.inl h1)
    · exact Or.inr (Or.inr (Or.inl (visitMethod_next_sub s v m h1)))
    · exact Or.inr (Or.inr (Or.inr (fun w hw => visitMethod_mono s v w (h1 w hw))))
  · rw [visitMethod_visited] at hm
    have hold' : s.visited m = false := by simpa using hold
    rw [hold', Bool.false_or] at hm
    have hvm : v = m := (of_decide_eq_true hm).1
    subst hvm
    exact Or.inr (Or.inr (Or.inl (visitMethod_next_mem s v hold')))

theorem ClosedInv.cl_reach {adj : Adjacency} {purged : List Nat} {s : State}
    (hs : ClosedInv adj purged s) (v : Nat) : ClosedInv adj purged (reachMethod s v) := by
  refine ⟨by rw [reachMethod_visited_len]; exact hs.visited_len, fun m hm => ?_⟩
  rw [reachMethod_next]
  by_cases hold : s.visited m = true
  · rcases hs.closed m hold with h1 | h1 | h1 | h1
    · exact Or.inl h1
    · exact Or.inr (Or.inl (reachMethod_worklist_sub s v m h1))
    · exact Or.inr (Or.inr (Or.inl h1))
    · exact Or.inr (Or.inr (Or.inr (fun w hw => reachMethod_mono s v w (h1 w hw))))
  · rw [reachMethod_visited] at hm
    have hold' : s.visited m = false := by simpa using hold
    rw [hold', Bool.false_or] at hm
    have hvm : v = m := (of_decide_eq_true hm).1
    subst hvm
    exact Or.inr (Or.inl (reachMethod_worklist_mem s v hold'))

/-- After the body of the method loop for `u` all successors of `u` are marked. -/
theorem methodBody_closes {adj : Adjacency} (hw : adj.wf) {purged : List Nat} {s : State}
    (hs : ClosedInv adj purged s) (u : Nat) :
    ClosedInv adj purged (methodBody adj s u) ∧
      ∀ v ∈ (adj.method u).forward_edges, (methodBody adj s u).visited v = true := by
  unfold methodBody
  have h1 : ClosedInv adj purged
      ((adj.method u).dependent_typeflows.foldl wakeDependent (recordDistance s u)) :=
    foldl_inv (ClosedInv adj purged) _ _ _
      (⟨hs.visited_len, hs.closed⟩ : ClosedInv adj purged (recordDistance s u))
      (fun s1 v _ h => ClosedInv.cl_of_methodPart (wakeDependent_methodPart s1 v) h)
  refine foldl_establish (ClosedInv adj purged) (fun v s1 => s1.visited v = true) visitMethod _ _
    h1 (fun s1 v hv h => ⟨h.cl_visit v, ?_⟩) (fun s1 x y _ _ hx => visitMethod_mono s1 y x hx)
  show (visitMethod s1 v).visited v = true
  rw [visitMethod_visited]
  have : v = v ∧ v < s1.method_visited.length :=
    ⟨rfl, by rw [h.visited_len]; exact hw.method_edge u v hv⟩
  rw [decide_eq_true this, Bool.or_true]

theorem methodBody_mono (adj : Adjacency) (s : State) (u m : Nat) (h : s.visited m = true) :
    (methodBody adj s u).visited m = true := by
  unfold methodBody
  refine foldl_inv (fun s1 => s1.visited m = true) _ _ _ ?_
    (fun s1 v _ h1 => visitMethod_mono s1 v m h1)
  show State.visited (List.foldl wakeDependent (recordDistance s u) _) m = true
  rw [State.visited_of_methodPart (foldl_field _ _ wakeDependent_methodPart _ _)]
  exact h

theorem ClosedInv.cl_layer {adj : Adjacency} (hw : adj.wf) {purged : List Nat} {s : State}
    (hs : ClosedInv adj purged s) : ClosedInv adj purged (methodLayer adj s) := by
  have h1 := foldl_establish
    (fun s1 => ClosedInv adj purged s1 ∧ s1.method_worklist = s.method_worklist)
    (fun u s1 => ∀ v ∈ (adj.method u).forward_edges, s1.visited v = true)
    (methodBody adj) s.method_worklist s ⟨hs, rfl⟩
    (fun s1 u _ h => ⟨⟨(methodBody_closes hw h.1 u).1, (methodBody_worklist adj s1 u).trans h.2⟩,
      (methodBody_closes hw h.1 u).2⟩)
    (fun s1 x y _ _ hx v hv => methodBody_mono adj s1 y v (hx v hv))
  unfold methodLayer
  refine ⟨h1.1.1.visited_len, fun m hm => ?_⟩
  rcases h1.1.1.closed m hm with h2 | h2 | h2 | h2
  · exact Or.inl h2
  · rw [h1.1.2] at h2
    exact Or.inr (Or.inr (Or.inr (h1.2 m h2)))
  · exact Or.inr (Or.inl h2)
  · exact Or.inr (Or.inr (Or.inr h2))

theorem ClosedInv.cl_bump {adj : Adjacency} {purged : List Nat} {s : State} (dm : Bool)
    (hs : ClosedInv adj purged s) : ClosedInv adj purged (bumpDist dm s) := by
  obtain ⟨e1, _, e3, e4, _⟩ := bumpDist_fields dm s
  refine ⟨e1 ▸ hs.visited_len, fun m hm => ?_⟩
  have hv : ∀ x, (bumpDist dm s).visited x = s.visited x := fun x => by
    unfold State.visited; rw [e1]
  rw [hv] at hm
  rw [e3, e4]
  rcases hs.closed m hm with h1 | h1 | h1 | h1
  · exact Or.inl h1
  · exact Or.inr (Or.inl h1)
  · exact Or.inr (Or.inr (Or.inl h1))
  · exact Or.inr (Or.inr (Or.inr (fun v hv' => by rw [hv]; exact h1 v hv')))

theorem methodLayer_next (adj : Adjacency) (s : State) :
    (methodLayer adj s).next_method_worklist = [] := rfl

theorem ClosedInv.cl_phased (bfs : BFS) (hw : bfs.adj.wf) (purged : List Nat) (dm : Bool) :
    Phased bfs dm (fun _ s => ClosedInv bfs.adj purged s ∧ s.next_method_worklist = []) :=
  phased_of_method _
    (fun _ _ _ h hs => ⟨ClosedInv.cl_of_methodPart h hs.1, State.methodPart_next h ▸ hs.2⟩)
    (fun _ h _ => ⟨h.1.cl_layer hw, rfl⟩) (fun _ _ h _ => ⟨h.1.cl_layer hw, rfl⟩)
    (fun s h _ => ⟨h.1.cl_bump dm, (bumpDist_fields dm s).2.2.2.1 ▸ h.2⟩)
    (fun _ _ h => ⟨h.1.cl_reach _, (reachMethod_next _ _).trans h.2⟩) (fun _ h => h)

theorem ClosedInv.cl_start (bfs : BFS) (purged : List Nat) :
    ClosedInv bfs.adj purged (startState bfs purged) := by
  refine ⟨?_, fun m hm => ?_⟩
  · exact startState_visited_len bfs purged
  · rw [startState_visited] at hm
    rcases (of_decide_eq_true hm).1 with h | h
    · exact Or.inr (Or.inl (by simp [startState, h]))
    · exact Or.inl h

theorem solve_closedInv (bfs : BFS) (hw : bfs.adj.wf) (purged : List Nat) (dm : Bool)
    (fuel : Nat) (s : State) (hr : solve bfs purged dm fuel = some s) :
    ClosedInv bfs.adj purged s ∧ s.next_method_worklist = [] ∧ s.method_worklist = [] := by
  have := solve_phased (ClosedInv.cl_phased bfs hw purged dm) purged fuel
    (fun s0 h0 => ⟨ClosedInv.cl_of_methodPart (initState_methodPart bfs purged fuel s0 h0)
      (ClosedInv.cl_start bfs purged),
      (State.methodPart_next (initState_methodPart bfs purged fuel s0 h0)).trans rfl⟩) s hr
  exact ⟨this.1.1, this.1.2, this.2⟩

/-- A family `K` that is carried by every transition from states that satisfy a phased family
`I` can be added to `I`. -/
theorem Phased.extend {bfs : BFS} {dm : Bool} {I : Phase → State → Prop} (hI : Phased bfs dm I)
    (K : Phase → State → Prop)
    (layer : ∀ s, I Phase.head s → K Phase.head s → s.method_worklist ≠ [] →
      K Phase.methods (methodLayer bfs.adj s))
    (relayer : ∀ s, dm = false → I Phase.methods s → K Phase.methods s →
      s.method_worklist ≠ [] → K Phase.methods (methodLayer bfs.adj s))
    (bump : ∀ s, I Phase.methods s → K Phase.methods s →
      (dm = true ∨ s.method_worklist = []) → K Phase.flows (bumpDist dm s))
    (pop : ∀ fuel s u rest s1, I Phase.flows s → K Phase.flows s →
      s.typeflow_worklist = u :: rest →
      processTypeflow bfs fuel (popTypeflow s rest) u = some s1 → K Phase.flows s1)
    (prop : ∀ s, I Phase.flows s → K Phase.flows s → s.typeflow_worklist = [] →
      s.instantiated_since_last_iteration ≠ [] → (dm = true ∨ s.method_worklist = []) →
      K Phase.flows (propagate bfs s))
    (exit : ∀ s, I Phase.flows s → K Phase.flows s → s.typeflow_worklist = [] →
      ((dm = false ∧ s.method_worklist ≠ []) ∨ s.instantiated_since_last_iteration = []) →
      K Phase.head s) :
    Phased bfs dm (fun p s => I p s ∧ K p s) where
  layer := fun s h hne => ⟨hI.layer s h.1 hne, layer s h.1 h.2 hne⟩
  relayer := fun s hd h hne => ⟨hI.relayer s hd h.1 hne, relayer s hd h.1 h.2 hne⟩
  bump := fun s h hd => ⟨hI.bump s h.1 hd, bump s h.1 h.2 hd⟩
  pop := fun fuel s u rest s1 h hw hp =>
    ⟨hI.pop fuel s u rest s1 h.1 hw hp, pop fuel s u rest s1 h.1 h.2 hw hp⟩
  prop := fun s h hw hne hd => ⟨hI.prop s h.1 hw hne hd, prop s h.1 h.2 hw hne hd⟩
  exit := fun s h hw hc => ⟨hI.exit s h.1 hw hc, exit s h.1 h.2 hw hc⟩

theorem Phased.and {bfs : BFS} {dm : Bool} {I J : Phase → State → Prop} (hI : Phased bfs dm I)
    (hJ : Phased bfs dm J) : Phased bfs dm (fun p s => I p s ∧ J p s) :=
  hI.extend J (fun s _ => hJ.layer s) (fun s hd _ => hJ.relayer s hd) (fun s _ => hJ.bump s)
    (fun fuel s u rest s1 _ => hJ.pop fuel s u rest s1) (fun s _ => hJ.prop s)
    (fun s _ => hJ.exit s)

theorem Base.ba_phased {bfs : BFS} (hc : bfs.Canonical) (purged : List Nat) (dm : Bool) :
    Phased bfs dm (Base bfs purged) :=
  ((FlowShape.fs_phased hc dm).and (RootPhase.rp_phased bfs dm)).and
    ((PurgeInv.pu_phased bfs purged dm).and (ClosedInv.cl_phased bfs hc.wf purged dm))

theorem Base.ba_flowShape {bfs : BFS} {purged : List Nat} {p : Phase} {s : State}
    (h : Base bfs purged p s) : FlowShape bfs s := h.1.1

theorem Base.ba_rootInv {bfs : BFS} {purged : List Nat} {p : Phase} {s : State}
    (h : Base bfs purged p s) : RootInv bfs.adj s := by
  cases p with
  | head => exact h.1.2
  | methods => exact h.1.2.1
  | flows => exact h.1.2.1

theorem Base.ba_purgeInv {bfs : BFS} {purged : List Nat} {p : Phase} {s : State}
    (h : Base bfs purged p s) : PurgeInv bfs.adj purged s := h.2.1

theorem Base.ba_closedInv {bfs : BFS} {purged : List Nat} {p : Phase} {s : State}
    (h : Base bfs purged p s) : ClosedInv bfs.adj purged s := h.2.2.1

theorem Base.ba_init {bfs : BFS} (hc : bfs.Canonical) (purged : List Nat) (fuel : Nat) (s0 : State)
    (h0 : initState bfs purged fuel = some s0) : Base bfs purged Phase.head s0 :=
  have hm := initState_methodPart bfs purged fuel s0 h0
  ⟨⟨FlowShape.fs_init hc purged fuel s0 h0, RootInv.ro_of_methodPart hm (RootInv.ro_start bfs hc.wf.1 purged)⟩,
    PurgeInv.pu_of_methodPart hm (PurgeInv.pu_start bfs purged),
    ClosedInv.cl_of_methodPart hm (ClosedInv.cl_start bfs purged), (State.methodPart_next hm).trans rfl⟩

theorem State.pushIf_worklist_sub (s : State) (c : Bool) (v u : Nat)
    (h : u ∈ s.typeflow_worklist) : u ∈ (s.pushIf c v).typeflow_worklist := by
  rw [State.pushIf_worklist]
  split
  · exact List.mem_append_left _ h
  · exact h

theorem State.pushIf_worklist_mem (s : State) (v : Nat) :
    v ∈ (s.pushIf true v).typeflow_worklist := by
  rw [State.pushIf_worklist, if_pos rfl]
  exact List.mem_append_right _ (List.mem_singleton_self v)

theorem State.pushIf_worklist_cases (s : State) (c : Bool) (v u : Nat)
    (h : u ∈ (s.pushIf c v).typeflow_worklist) :
    u ∈ s.typeflow_worklist ∨ (u = v ∧ c = true) := by
  rw [State.pushIf_worklist] at h
  split at h
  · rename_i hc
    rcases List.mem_append.1 h with h1 | h1
    · exact Or.inl h1
    · exact Or.inr ⟨by simpa using h1, hc⟩
  · exact Or.inl h

theorem visitMethod_typeflow_worklist (s : State) (v : Nat) :
    (visitMethod s v).typeflow_worklist = s.typeflow_worklist := by
  unfold visitMethod; split <;> rfl

theorem methodBody_worklist_sub (adj : Adjacency) (s : State) (u x : Nat)
    (h : x ∈ s.typeflow_worklist) : x ∈ (methodBody adj s u).typeflow_worklist := by
  unfold methodBody
  rw [foldl_field _ _ visitMethod_typeflow_worklist]
  exact foldl_inv (fun s1 => x ∈ s1.typeflow_worklist) wakeDependent _ (recordDistance s u) h
    (fun s1 v _ h1 => State.pushIf_worklist_sub s1 _ v x h1)

theorem methodLayer_worklist_sub (adj : Adjacency) (s : State) (x : Nat)
    (h : x ∈ s.typeflow_worklist) : x ∈ (methodLayer adj s).typeflow_worklist := by
  unfold methodLayer
  show x ∈ (List.foldl (methodBody adj) s s.method_worklist).typeflow_worklist
  exact foldl_inv (fun s1 => x ∈ s1.typeflow_worklist) _ _ _ h
    (fun s1 u _ h1 => methodBody_worklist_sub adj s1 u x h1)

theorem methodLayer_mono (adj : Adjacency) (s : State) (m : Nat) (h : s.visited m = true) :
    (methodLayer adj s).visited m = true := by
  unfold methodLayer
  show State.visited (List.foldl (methodBody adj) s s.method_worklist) m = true
  exact foldl_inv (fun s1 => s1.visited m = true) _ _ _ h
    (fun s1 u _ h1 => methodBody_mono adj s1 u m h1)

theorem methodLayer_hist (adj : Adjacency) (s : State) (v : Nat) :
    (methodLayer adj s).hist v = s.hist v := State.flowPart_hist (methodLayer_flowPart adj s) v

theorem gateOpen_of_methodPart {adj : Adjacency} {s s1 : State}
    (h : s1.methodPart = s.methodPart) (v : Nat) : gateOpen adj s1 v = gateOpen adj s v := by
  unfold gateOpen; rw [State.history_of_methodPart h]

theorem recordStep_basic (s : State) (v : Nat) (r : TypeflowHistory × Bool) (c : Bool)
    (hv : v < s.typeflow_visited.length) :
    RecordStep s ((s.setHist v r.1).pushIf c v) v r c where
  hist_self := by rw [State.pushIf_hist, State.hist_setHist_self _ _ _ hv]
  hist_other := fun w hw => by rw [State.pushIf_hist, State.hist_setHist_ne _ _ _ _ (Ne.symm hw)]
  worklist := by rw [State.pushIf_worklist]; rfl
  methodPart := by rw [State.pushIf_methodPart]; rfl
  inst := by rw [State.flowPart_inst (State.pushIf_flowPart _ _ _)]; rfl
  since := by rw [State.flowPart_since (State.pushIf_flowPart _ _ _)]; rfl

/-- The step of `flowInto` on a successor that is not saturated. -/
theorem flowInto_step (bfs : BFS) (u : Nat) (s : State) (v : Nat)
    (hv : v < s.typeflow_visited.length) (hns : (s.hist v).is_saturated = false) :
    RecordStep s (flowInto bfs u s v) v
      (flowLoop (fun t => !(bfs.typeflow_filters.getD v default).get t) s.dist
        (s.hist u).recorded (s.hist v) false)
      ((flowLoop (fun t => !(bfs.typeflow_filters.getD v default).get t) s.dist
        (s.hist u).recorded (s.hist v) false).2 && gateOpen bfs.adj s v) := by
  unfold flowInto
  rw [if_neg (by rw [hns]; exact Bool.false_ne_true)]
  exact recordStep_basic s v _ _ hv

theorem flowInto_saturated (bfs : BFS) (u : Nat) (s : State) (v : Nat)
    (hs : (s.hist v).is_saturated = true) : flowInto bfs u s v = s := by
  unfold flowInto
  rw [if_pos hs]

theorem joinUses_flowFields (bfs : BFS) (s : State) (v : Nat) :
    (joinUses bfs s v).typeflow_visited = s.typeflow_visited ∧
    (joinUses bfs s v).typeflow_worklist = s.typeflow_worklist ∧
    (joinUses bfs s v).allInstantiated = s.allInstantiated ∧
    (joinUses bfs s v).instantiated_since_last_iteration = s.instantiated_since_last_iteration ∧
    (joinUses bfs s v).included_in_saturation_uses = s.included_in_saturation_uses := by
  unfold joinUses; split <;> exact ⟨rfl, rfl, rfl, rfl, rfl⟩

theorem joinUses_hist (bfs : BFS) (s : State) (v w : Nat) : (joinUses bfs s v).hist w = s.hist w := by
  unfold State.hist; rw [(joinUses_flowFields bfs s v).1]

/-- The step of `saturatedEdge` on a successor that is seeded. -/
theorem saturatedEdge_step {bfs : BFS} (hc : bfs.Canonical) (fuel : Nat) (s : State) (v : Nat)
    (hv : v < bfs.adj.n_typeflows) (hlen : v < s.typeflow_visited.length) (s1 : State)
    (hns : (s.hist v).is_saturated = false)
    (hni : s.included_in_saturation_uses.getD v false = false)
    (hr : saturatedEdge bfs fuel s v = some s1) :
    RecordStep s s1 v
      (flowLoop (fun t => !s.allInstantiated.get t) s.dist
        (membersFrom (bfs.typeflow_filters.getD v default) bfs.adj.n_types 0) (s.hist v) false)
      ((flowLoop (fun t => !s.allInstantiated.get t) s.dist
        (membersFrom (bfs.typeflow_filters.getD v default) bfs.adj.n_types 0) (s.hist v) false).2
          && gateOpen bfs.adj s v) := by
  unfold saturatedEdge at hr
  rw [if_neg (by rw [hns]; exact Bool.false_ne_true),
    if_neg (by rw [hni]; exact Bool.false_ne_true)] at hr
  obtain ⟨r, hr1, hr2⟩ := Option.map_eq_some'.1 hr
  have he := seedLoop_eq _ _ _ _ (hc.filter_fits v hv) _ _ _ _ hr1
  subst he
  rw [← hr2]
  have hmp : ∀ h, (joinUses bfs ((includeUse s v).setHist v h) v).methodPart = s.methodPart := by
    intro h
    rw [joinUses_methodPart]
    rfl
  have hg : ∀ h, gateOpen bfs.adj (joinUses bfs ((includeUse s v).setHist v h) v) v =
      gateOpen bfs.adj s v := fun h => gateOpen_of_methodPart (hmp h) v
  rw [hg]
  constructor
  · rw [State.pushIf_hist, joinUses_hist]
    exact State.hist_setHist_self (includeUse s v) v _ hlen
  · intro w hw
    rw [State.pushIf_hist, joinUses_hist]
    exact State.hist_setHist_ne (includeUse s v) v w _ (Ne.symm hw)
  · rw [State.pushIf_worklist, (joinUses_flowFields _ _ _).2.1]; rfl
  · rw [State.pushIf_methodPart, joinUses_methodPart]; rfl
  · rw [State.flowPart_inst (State.pushIf_flowPart _ _ _), (joinUses_flowFields _ _ _).2.2.1]; rfl
  · rw [State.flowPart_since (State.pushIf_flowPart _ _ _), (joinUses_flowFields _ _ _).2.2.2.1]
    rfl

theorem saturatedEdge_skip (bfs : BFS) (fuel : Nat) (s : State) (v : Nat) (s1 : State)
    (h : (s.hist v).is_saturated = true ∨ s.included_in_saturation_uses.getD v false = true)
    (hr : saturatedEdge bfs fuel s v = some s1) : s1 = s := by
  unfold saturatedEdge at hr
  split at hr
  · exact (Option.some.inj hr).symm
  · split at hr
    · exact (Option.some.inj hr).symm
    · rename_i h1 h2
      rcases h with h | h
      · exact absurd h h1
      · exact absurd h h2

/-- The step of `replayUse` on an entry that is not saturated. -/
theorem replayUse_step (bfs : BFS) (filtered : List Nat) (acc : State × List Nat) (v : Nat)
    (hv : v < acc.1.typeflow_visited.length) (hns : (acc.1.hist v).is_saturated = false) :
    RecordStep acc.1 (replayUse bfs filtered acc v).1 v
      (flowLoop (fun _ => false) acc.1.dist filtered (acc.1.hist v) false)
      ((flowLoop (fun _ => false) acc.1.dist filtered (acc.1.hist v) false).2 &&
        gateOpen bfs.adj acc.1 v) := by
  unfold replayUse
  rw [if_neg (by rw [hns]; exact Bool.false_ne_true)]
  exact recordStep_basic acc.1 v _ _ hv

theorem replayUse_saturated (bfs : BFS) (filtered : List Nat) (acc : State × List Nat) (v : Nat)
    (hs : (acc.1.hist v).is_saturated = true) : replayUse bfs filtered acc v = acc := by
  unfold replayUse
  rw [if_pos hs]

/-- The step of the white-hole seeding. -/
theorem whiteHoleStep_step {bfs : BFS} (hc : bfs.Canonical) (fuel : Nat) (s : State) (v : Nat)
    (hv : v < bfs.adj.n_typeflows) (hlen : v < s.typeflow_visited.length) (s1 : State)
    (hr : whiteHoleStep bfs fuel s v = some s1) :
    RecordStep s s1 v
      (flowLoop (fun _ => false) 0
        (membersFrom (bfs.typeflow_filters.getD v default) bfs.adj.n_types 0) (s.hist v) false)
      ((flowLoop (fun _ => false) 0
        (membersFrom (bfs.typeflow_filters.getD v default) bfs.adj.n_types 0) (s.hist v) false).2
          && (bfs.adj.flow v).method.dependent == 0) := by
  unfold whiteHoleStep at hr
  obtain ⟨r, hr1, hr2⟩ := Option.map_eq_some'.1 hr
  have he := seedLoop_eq _ _ _ _ (hc.filter_fits v hv) _ _ _ _ hr1
  subst he
  rw [← hr2]
  exact recordStep_basic s v _ _ hlen

theorem feedInstantiated_worklist (bfs : BFS) (u : Nat) (s : State) (v : Nat) :
    (feedInstantiated bfs u s v).typeflow_worklist = s.typeflow_worklist := by
  unfold feedInstantiated
  split
  · apply foldl_field (fun s => s.typeflow_worklist)
    intro s1 t
    unfold instantiate; split <;> rfl
  · rfl

theorem feedInstantiated_hists (bfs : BFS) (u : Nat) (s : State) (v : Nat) :
    (feedInstantiated bfs u s v).typeflow_visited = s.typeflow_visited := by
  unfold feedInstantiated
  split
  · apply foldl_field (fun s => s.typeflow_visited)
    intro s1 t
    unfold instantiate; split <;> rfl
  · rfl

theorem add_type_present {h : TypeflowHistory} (hv : h.Valid) (t d : Nat) (ht : t ∈ h.recorded) :
    h.add_type t d = (h, false) := by
  have h1 : (h.add_type t d).2 = false := by
    rw [hv.add_type_flag]; simp [ht]
  have h2 := hv.add_type_unchanged t d h1
  exact Prod.ext h2 h1

theorem flowLoop_present (skip : Nat → Bool) (d : Nat) (h : TypeflowHistory) (hv : h.Valid)
    (hns : h.is_saturated = false) :
    ∀ (l : List Nat) (c : Bool), (∀ t ∈ l, t ∈ h.recorded) → flowLoop skip d l h c = (h, c) := by
  intro l
  induction l with
  | nil => intro c _; rfl
  | cons t rest ih =>
    intro c hl
    unfold flowLoop
    split
    · exact ih c (fun x hx => hl x (List.mem_cons_of_mem _ hx))
    · simp only [add_type_present hv t d (hl t (List.mem_cons_self _ _)), hns, Bool.or_false]
      exact ih c (fun x hx => hl x (List.mem_cons_of_mem _ hx))

/-- Adding the recorded types of a record to itself changes nothing. -/
theorem flowLoop_self (skip : Nat → Bool) (d : Nat) (h : TypeflowHistory) (hv : h.Valid)
    (hns : h.is_saturated = false) : flowLoop skip d h.recorded h false = (h, false) :=
  flowLoop_present skip d h hv hns h.recorded false (fun _ ht => ht)

theorem State.setHist_self_hist (s : State) (v w : Nat) :
    (s.setHist v (s.hist v)).hist w = s.hist w := by
  rw [State.hist_setHist]
  split
  · rename_i h; rw [h.1]
  · rfl

theorem flowInto_hist_source {bfs : BFS} {s : State} (hs : FlowShape bfs s) (u v : Nat) :
    (flowInto bfs u s v).hist u = s.hist u := by
  by_cases hsat : (s.hist v).is_saturated = true
  · rw [flowInto_saturated bfs u s v hsat]
  · have hns : (s.hist v).is_saturated = false := by simpa using hsat
    unfold flowInto
    rw [if_neg hsat, State.pushIf_hist]
    by_cases huv : u = v
    · subst huv
      rw [flowLoop_self _ _ _ (hs.valid u) hns]
      exact State.setHist_self_hist s u u
    · exact State.hist_setHist_ne _ _ _ _ (Ne.symm huv)

theorem flowEdge_hist_source {bfs : BFS} {s : State} (hc : bfs.Canonical) (hs : FlowShape bfs s)
    (u v : Nat) : (flowEdge bfs u s v).hist u = s.hist u := by
  unfold flowEdge
  rw [flowInto_hist_source (hs.fs_feedInstantiated hc u v), feedInstantiated_hist]

theorem saturatedEdge_hist_source {bfs : BFS} {s s1 : State} (hc : bfs.Canonical)
    (hs : FlowShape bfs s) (fuel u v : Nat)
    (hv : v < bfs.adj.n_typeflows) (hu : (s.hist u).is_saturated = true)
    (hr : saturatedEdge bfs fuel s v = some s1) : s1.hist u = s.hist u := by
  by_cases hskip : (s.hist v).is_saturated = true ∨
      s.included_in_saturation_uses.getD v false = true
  · rw [saturatedEdge_skip bfs fuel s v s1 hskip hr]
  · have h1 : (s.hist v).is_saturated = false := by
      by_contra hc1; exact hskip (Or.inl (by simpa using hc1))
    have h2 : s.included_in_saturation_uses.getD v false = false := by
      by_contra hc1; exact hskip (Or.inr (by simpa using hc1))
    have hstep := saturatedEdge_step hc fuel s v hv (hs.hist_len ▸ hv) s1 h1 h2 hr
    apply hstep.hist_other
    intro huv
    rw [huv, h1] at hu
    exact absurd hu (by simp)

/-- Induction over the processing of a popped typeflow `u`: the predicate holds after the reaching
method has been marked and is kept by the step for every successor. -/
theorem processTypeflow_inv {bfs : BFS} (hc : bfs.Canonical) (K : State → Prop) (fuel : Nat)
    (s : State) (u : Nat) (s1 : State) (hr : processTypeflow bfs fuel s u = some s1)
    (hs : FlowShape bfs s)
    (h0 : K (reachMethod s (bfs.adj.flow u).method.reaching))
    (hflow : ∀ s2 v, v ∈ (bfs.adj.flow u).forward_edges → FlowShape bfs s2 → K s2 →
      s2.hist u = s.hist u → (s.hist u).is_saturated = false → K (flowEdge bfs u s2 v))
    (hsat : ∀ s2 v s3, v ∈ (bfs.adj.flow u).forward_edges → FlowShape bfs s2 → K s2 →
      s2.hist u = s.hist u → (s.hist u).is_saturated = true →
      saturatedEdge bfs fuel s2 v = some s3 → K s3) : K s1 := by
  have hsh : FlowShape bfs (reachMethod s (bfs.adj.flow u).method.reaching) :=
    FlowShape.fs_of_flowPart (reachMethod_flowPart _ _) hs
  have hhu : (reachMethod s (bfs.adj.flow u).method.reaching).hist u = s.hist u :=
    State.flowPart_hist (reachMethod_flowPart _ _) u
  unfold processTypeflow at hr
  rw [hhu] at hr
  split at hr
  · rename_i hns
    have hns' : (s.hist u).is_saturated = false := by simpa using hns
    rw [← Option.some.inj hr]
    have := foldl_inv (fun s2 => FlowShape bfs s2 ∧ K s2 ∧ s2.hist u = s.hist u)
      (flowEdge bfs u) (bfs.adj.flow u).forward_edges _ ⟨hsh, h0, hhu⟩
      (fun s2 v hv h => ⟨h.1.fs_flowEdge hc u v (hc.wf.flow_edge u v hv),
        hflow s2 v hv h.1 h.2.1 h.2.2 hns',
        (flowEdge_hist_source hc h.1 u v).trans h.2.2⟩)
    exact this.2.1
  · rename_i hns
    have hsat' : (s.hist u).is_saturated = true := by simpa using hns
    have := forM_opt_inv (fun s2 => FlowShape bfs s2 ∧ K s2 ∧ s2.hist u = s.hist u)
      (saturatedEdge bfs fuel) (bfs.adj.flow u).forward_edges _ s1 ⟨hsh, h0, hhu⟩
      (fun s2 v s3 hv h h3 => ⟨h.1.fs_saturatedEdge hc fuel v (hc.wf.flow_edge u v hv) h3,
        hsat s2 v s3 hv h.1 h.2.1 h.2.2 hsat' h3,
        (saturatedEdge_hist_source hc h.1 fuel u v (hc.wf.flow_edge u v hv)
          (h.2.2 ▸ hsat') h3).trans h.2.2⟩) hr
    exact this.2.1

theorem replayUse_flowShape_hist {bfs : BFS} (filtered : List Nat) (acc : State × List Nat)
    (v w : Nat) (hw : w ≠ v) : (replayUse bfs filtered acc v).1.hist w = acc.1.hist w := by
  unfold replayUse
  split
  · rfl
  · rw [State.pushIf_hist]
    exact State.hist_setHist_ne _ _ _ _ (Ne.symm hw)

/-- Induction over one round of saturation propagation: the predicate is kept by the writes to
the saturation-uses lists, by the replay of the filtered instantiations into an entry, and by
the final `clear`. -/
theorem propagate_inv {bfs : BFS} (hc : bfs.Canonical) (K : State → Prop) (s : State)
    (hs : FlowShape bfs s) (hk : K s)
    (huses : ∀ s2 f l, K s2 → K (s2.setUses f l))
    (hreplay : ∀ s2 v filtered kept, FlowShape bfs s2 → K s2 → v < bfs.adj.n_typeflows →
      (s2.hist v).is_saturated = false →
      (∀ t ∈ filtered, bfs.adj.admits v t = true ∧
        t ∈ s2.instantiated_since_last_iteration) →
      K (replayUse bfs filtered (s2, kept) v).1)
    (hclear : ∀ s2, FlowShape bfs s2 → K s2 → K (clearInstantiated s2)) :
    K (propagate bfs s) := by
  have hfilter : ∀ s2 f, FlowShape bfs s2 → K s2 →
      FlowShape bfs (propagateFilter bfs s2 f) ∧ K (propagateFilter bfs s2 f) := by
    intro s2 f hs2 hk2
    refine ⟨hs2.fs_propagateFilter hc f, ?_⟩
    have hk3 : K (compactUses s2 f) := huses s2 f _ hk2
    have hs3 : FlowShape bfs (compactUses s2 f) := hs2.fs_compactUses f
    unfold propagateFilter
    split
    · exact hk2
    · split
      · exact hk3
      · split
        · exact hk3
        · unfold replayUses
          apply huses
          have hadm : ∀ v ∈ (compactUses s2 f).saturation_uses_by_filter.getD f [],
              ∀ t ∈ filterDelta (bfs.filter_filters.getD f default)
                s2.instantiated_since_last_iteration,
              bfs.adj.admits v t = true ∧ t ∈ s2.instantiated_since_last_iteration := by
            intro v hv t ht
            obtain ⟨hv1, hv2⟩ := hs3.uses_index f v hv
            have hF : bfs.filter_filters.getD f default =
                TypeSet.ofBitset (bfs.adj.filterOf v) := by
              rw [← hv2]; exact hc.filter_filter v hv1
            rw [hF] at ht
            have hfit : (TypeSet.ofBitset (bfs.adj.filterOf v)).fits bfs.adj.n_types :=
              TypeSet.ofBitset_fits _ _ (le_of_eq (hc.wf.filterOf_size v hv1).symm) hc.wf.2.2.1
            have := filterDelta_sound _ _ _ hfit (fun x hx => hs2.fs_since_lt x hx) t ht
            rw [TypeSet.ofBitset_get] at this
            exact this
          have := foldl_inv
            (fun acc : State × List Nat => FlowShape bfs acc.1 ∧ K acc.1 ∧
              acc.1.instantiated_since_last_iteration = s2.instantiated_since_last_iteration)
            (replayUse bfs (filterDelta (bfs.filter_filters.getD f default)
              s2.instantiated_since_last_iteration))
            ((compactUses s2 f).saturation_uses_by_filter.getD f []) (compactUses s2 f, [])
            ⟨hs3, hk3, rfl⟩
            (fun acc v hv h => by
              have hv1 := (hs3.uses_index f v hv).1
              refine ⟨h.1.fs_replayUse _ v (fun t ht => (hadm v hv t ht).1), ?_, ?_⟩
              · by_cases hsat : (acc.1.hist v).is_saturated = true
                · rw [replayUse_saturated _ _ _ _ hsat]; exact h.2.1
                · exact hreplay acc.1 v _ acc.2 h.1 h.2.1 hv1 (by simpa using hsat)
                    (fun t ht => ⟨(hadm v hv t ht).1, h.2.2 ▸ (hadm v hv t ht).2⟩)
              · by_cases hsat : (acc.1.hist v).is_saturated = true
                · rw [replayUse_saturated _ _ _ _ hsat]; exact h.2.2
                · exact ((replayUse_step bfs _ acc v (h.1.hist_len ▸ hv1)
                    (by simpa using hsat)).since).trans h.2.2)
          exact this.2.1
  unfold propagate
  have := foldl_inv (fun s2 => FlowShape bfs s2 ∧ K s2) (propagateFilter bfs)
    (List.range bfs.filter_filters.length) s ⟨hs, hk⟩
    (fun s2 f _ h => hfilter s2 f h.1 h.2)
  exact hclear _ this.1 this.2

theorem gateOpen_reaching {adj : Adjacency} {s : State} (hroot : s.history 0 = 0) (v m : Nat)
    (hrole : (adj.flow v).method = MethodRole.Reaching m) : gateOpen adj s v = true := by
  unfold gateOpen
  rw [hrole]
  show (s.history 0 != u8_max) = true
  rw [hroot]
  decide

/-- A record step keeps the invariant when it pushes every changed reaching typeflow. -/
theorem ReachInv.re_record {adj : Adjacency} {s s2 : State} (hk : ReachInv adj s) (v : Nat)
    (skip : Nat → Bool) (d : Nat) (l : List Nat) (c : Bool) (hv : (s.hist v).Valid)
    (hc : (flowLoop skip d l (s.hist v) false).2 = true →
      (adj.flow v).method.dependent = 0 → c = true)
    (hstep : RecordStep s s2 v (flowLoop skip d l (s.hist v) false) c) : ReachInv adj s2 := by
  intro u m hrole hne
  have hvis : s2.visited m = s.visited m := State.visited_of_methodPart hstep.methodPart m
  have hsub : ∀ x, x ∈ s.typeflow_worklist → x ∈ s2.typeflow_worklist := by
    intro x hx
    rw [hstep.worklist]
    split
    · exact List.mem_append_left _ hx
    · exact hx
  by_cases huv : u = v
  · subst huv
    rw [hstep.hist_self] at hne
    by_cases hflag : (flowLoop skip d l (s.hist u) false).2 = true
    · left
      have hdep : (adj.flow u).method.dependent = 0 := by rw [hrole]; rfl
      rw [hstep.worklist, if_pos (hc hflag hdep)]
      exact List.mem_append_right _ (List.mem_singleton_self u)
    · have hun := (flowLoop_unchanged skip d l (s.hist u) false hv (by simpa using hflag)).1
      rw [hun] at hne
      rcases hk u m hrole hne with h | h
      · exact Or.inl (hsub u h)
      · exact Or.inr (hvis ▸ h)
  · rw [hstep.hist_other u huv] at hne
    rcases hk u m hrole hne with h | h
    · exact Or.inl (hsub u h)
    · exact Or.inr (hvis ▸ h)

theorem ReachInv.re_gated {adj : Adjacency} {s s2 : State} (hk : ReachInv adj s)
    (hroot : s.history 0 = 0) (v : Nat) (skip : Nat → Bool) (d : Nat) (l : List Nat)
    (hv : (s.hist v).Valid)
    (hstep : RecordStep s s2 v (flowLoop skip d l (s.hist v) false)
      ((flowLoop skip d l (s.hist v) false).2 && gateOpen adj s v)) : ReachInv adj s2 := by
  refine hk.re_record v skip d l _ hv (fun hflag hdep => ?_) hstep
  rw [hflag, Bool.true_and]
  unfold gateOpen
  rw [hdep, hroot]
  decide

theorem ReachInv.re_of_eq {adj : Adjacency} {s s2 : State} (hk : ReachInv adj s)
    (h1 : s2.typeflow_visited = s.typeflow_visited)
    (h2 : s2.typeflow_worklist = s.typeflow_worklist)
    (h3 : s2.method_visited = s.method_visited) : ReachInv adj s2 := by
  intro u m hrole hne
  unfold State.hist State.visited at *
  rw [h1] at hne
  rw [h2, h3]
  exact hk u m hrole hne

theorem ReachInv.re_flowEdge {bfs : BFS} {s : State} (hs : FlowShape bfs s)
    (hc : bfs.Canonical) (hroot : s.history 0 = 0)
    (hk : ReachInv bfs.adj s) (u v : Nat) (hv : v < bfs.adj.n_typeflows) :
    ReachInv bfs.adj (flowEdge bfs u s v) := by
  unfold CausalityGraph.flowEdge
  have hs1 := hs.fs_feedInstantiated hc u v
  have hk1 : ReachInv bfs.adj (feedInstantiated bfs u s v) :=
    hk.re_of_eq (feedInstantiated_hists bfs u s v) (feedInstantiated_worklist bfs u s v)
      (State.methodPart_visited (feedInstantiated_methodPart bfs u s v))
  have hroot1 : (feedInstantiated bfs u s v).history 0 = 0 := by
    rw [State.history_of_methodPart (feedInstantiated_methodPart bfs u s v)]; exact hroot
  by_cases hsat : ((feedInstantiated bfs u s v).hist v).is_saturated = true
  · rw [flowInto_saturated _ _ _ _ hsat]; exact hk1
  · exact hk1.re_gated hroot1 v _ _ _ (hs1.valid v)
      (flowInto_step bfs u _ v (hs1.hist_len ▸ hv) (by simpa using hsat))

theorem ReachInv.re_saturatedEdge {bfs : BFS} {s s1 : State} (hs : FlowShape bfs s)
    (hc : bfs.Canonical) (hroot : s.history 0 = 0) (hk : ReachInv bfs.adj s) (fuel v : Nat)
    (hv : v < bfs.adj.n_typeflows) (hr : saturatedEdge bfs fuel s v = some s1) :
    ReachInv bfs.adj s1 := by
  by_cases hskip : (s.hist v).is_saturated = true ∨
      s.included_in_saturation_uses.getD v false = true
  · rw [saturatedEdge_skip bfs fuel s v s1 hskip hr]; exact hk
  · have h1 : (s.hist v).is_saturated = false := by
      by_contra hc1; exact hskip (Or.inl (by simpa using hc1))
    have h2 : s.included_in_saturation_uses.getD v false = false := by
      by_contra hc1; exact hskip (Or.inr (by simpa using hc1))
    exact hk.re_gated hroot v _ _ _ (hs.valid v)
      (saturatedEdge_step hc fuel s v hv (hs.hist_len ▸ hv) s1 h1 h2 hr)

theorem reachMethod_visits (s : State) (m : Nat) (hm : m < s.method_visited.length) :
    (reachMethod s m).visited m = true := by
  rw [reachMethod_visited]
  have : m = m ∧ m < s.method_visited.length := ⟨rfl, hm⟩
  rw [decide_eq_true this, Bool.or_true]

theorem ReachInv.re_pop {bfs : BFS} {purged : List Nat} {s s1 : State} (hc : bfs.Canonical)
    (hb : Base bfs purged Phase.flows s) (hk : ReachInv bfs.adj s) (fuel u : Nat)
    (rest : List Nat) (hw : s.typeflow_worklist = u :: rest)
    (hr : processTypeflow bfs fuel (popTypeflow s rest) u = some s1) : ReachInv bfs.adj s1 := by
  have hroot := hb.ba_rootInv.root_history
  refine (processTypeflow_inv hc (fun s2 => ReachInv bfs.adj s2 ∧ s2.history 0 = 0) fuel
    (popTypeflow s rest) u s1 hr (FlowShape.fs_of_flowPart (s := s) rfl hb.ba_flowShape) ⟨?_, ?_⟩
    (fun s2 v hv hs2 h _ _ => ⟨h.1.re_flowEdge hs2 hc h.2 u v (hc.wf.flow_edge u v hv), by
      rw [State.history_of_methodPart (flowEdge_methodPart bfs u s2 v)]; exact h.2⟩)
    (fun s2 v s3 hv hs2 h _ _ h3 =>
      ⟨h.1.re_saturatedEdge hs2 hc h.2 fuel v (hc.wf.flow_edge u v hv) h3, by
        rw [State.history_of_methodPart (saturatedEdge_methodPart bfs fuel s2 v s3 h3)]
        exact h.2⟩)).1
  · intro x m hrole hne
    have hne' : (s.hist x).recorded ≠ [] := by
      rw [State.flowPart_hist (reachMethod_flowPart _ _) x] at hne
      exact hne
    rw [reachMethod_typeflow_worklist]
    rcases hk x m hrole hne' with h | h
    · rw [hw] at h
      rcases List.mem_cons.1 h with h1 | h1
      · right
        subst h1
        have hm : (bfs.adj.flow x).method.reaching = m := by rw [hrole]; rfl
        rw [hm]
        apply reachMethod_visits
        show m < s.method_visited.length
        rw [hb.ba_rootInv.visited_len, ← hm]
        exact hc.wf.reaching_lt x
      · exact Or.inl h1
    · exact Or.inr (reachMethod_mono _ _ m h)
  · show (reachMethod (popTypeflow s rest) _).method_history.getD 0 u8_max = 0
    rw [reachMethod_history]; exact hroot

theorem ReachInv.re_propagate {bfs : BFS} {purged : List Nat} {s : State} (hc : bfs.Canonical)
    (hb : Base bfs purged Phase.flows s) (hk : ReachInv bfs.adj s) :
    ReachInv bfs.adj (propagate bfs s) := by
  have hroot := hb.ba_rootInv.root_history
  refine (propagate_inv hc (fun s2 => ReachInv bfs.adj s2 ∧ s2.history 0 = 0) s hb.ba_flowShape
    ⟨hk, hroot⟩ (fun s2 f l h => ⟨h.1.re_of_eq rfl rfl rfl, h.2⟩)
    (fun s2 v filtered kept hs2 h hv hns _ => ⟨h.1.re_gated h.2 v _ _ _ (hs2.valid v)
      (replayUse_step bfs filtered (s2, kept) v (hs2.hist_len ▸ hv) hns), by
        rw [State.history_of_methodPart (replayUse_methodPart bfs filtered (s2, kept) v)]
        exact h.2⟩)
    (fun s2 _ h => ⟨h.1.re_of_eq rfl rfl rfl, h.2⟩)).1

theorem ReachInv.re_layer {adj : Adjacency} {s : State} (hk : ReachInv adj s) :
    ReachInv adj (methodLayer adj s) := by
  intro u m hrole hne
  rw [methodLayer_hist] at hne
  rcases hk u m hrole hne with h | h
  · exact Or.inl (methodLayer_worklist_sub adj s u h)
  · exact Or.inr (methodLayer_mono adj s m h)

theorem ReachInv.re_bump {adj : Adjacency} {s : State} (dm : Bool) (hk : ReachInv adj s) :
    ReachInv adj (bumpDist dm s) :=
  hk.re_of_eq (State.flowPart_hists (bumpDist_flowPart dm s)) (bumpDist_fields dm s).2.2.2.2
    (bumpDist_fields dm s).1

/-- The invariants so far with the reaching invariant. -/
theorem ReachInv.re_phased {bfs : BFS} (hc : bfs.Canonical) (purged : List Nat) (dm : Bool) :
    Phased bfs dm (fun p s => Base bfs purged p s ∧ ReachInv bfs.adj s) :=
  (Base.ba_phased hc purged dm).extend (fun _ s => ReachInv bfs.adj s)
    (fun _ _ hk _ => hk.re_layer) (fun _ _ _ hk _ => hk.re_layer) (fun _ _ hk _ => hk.re_bump dm)
    (fun fuel _ u rest _ hb hk hw hr => ReachInv.re_pop hc hb hk fuel u rest hw hr)
    (fun _ hb hk _ _ _ => ReachInv.re_propagate hc hb hk) (fun _ _ hk _ _ => hk)

theorem ReachInv.re_init {bfs : BFS} (hc : bfs.Canonical) (purged : List Nat) (fuel : Nat)
    (s0 : State) (h0 : initState bfs purged fuel = some s0) : ReachInv bfs.adj s0 := by
  unfold initState at h0
  have := forM_opt_inv (fun s => FlowShape bfs s ∧ ReachInv bfs.adj s)
    (whiteHoleStep bfs fuel) (bfs.adj.flow 0).forward_edges (startState bfs purged) s0
    ⟨FlowShape.fs_start bfs purged, fun u m _ hne => by
      rw [startState_hist, recorded_fresh] at hne; exact absurd rfl hne⟩
    (fun s v s1 hv h h1 => ⟨h.1.fs_whiteHoleStep hc fuel v (hc.wf.flow_edge 0 v hv) h1,
      h.2.re_record v _ _ _ _ (h.1.valid v) (fun hflag hdep => by
        rw [hflag, hdep]; rfl)
        (whiteHoleStep_step hc fuel s v (hc.wf.flow_edge 0 v hv)
          (h.1.hist_len ▸ hc.wf.flow_edge 0 v hv) s1 h1)⟩) h0
  exact this.2

theorem solve_final {bfs : BFS} (hc : bfs.Canonical) (purged : List Nat) (dm : Bool) (fuel : Nat)
    (s : State) (hr : solve bfs purged dm fuel = some s) : Final bfs purged s := by
  have hI := (ReachInv.re_phased hc purged dm).extend
    (fun p s => p = Phase.head → (s.method_worklist = [] →
      s.typeflow_worklist = [] ∧ s.instantiated_since_last_iteration = []))
    (fun _ _ _ _ h => by cases h) (fun _ _ _ _ _ h => by cases h) (fun _ _ _ _ h => by cases h)
    (fun _ _ _ _ _ _ _ _ _ h => by cases h) (fun _ _ _ _ _ _ h => by cases h)
    (fun s _ _ hw hcase _ hm => by
      refine ⟨hw, ?_⟩
      rcases hcase with h | h
      · exact absurd hm h.2
      · exact h)
  have := solve_phased hI purged fuel (fun s0 h0 => ⟨⟨Base.ba_init hc purged fuel s0 h0,
    ReachInv.re_init hc purged fuel s0 h0⟩, fun _ hm => by
      have := State.methodPart_worklist (initState_methodPart bfs purged fuel s0 h0)
      rw [this] at hm
      simp [startState] at hm⟩) s hr
  exact ⟨this.1.1.1, this.1.1.2, this.2, (this.1.2 rfl this.2).1, (this.1.2 rfl this.2).2⟩

theorem Justified.grows {adj : Adjacency} {purged : List Nat} {s s2 : State} {m : Nat}
    (hg : HistGrows s s2) (h : Justified adj purged s m) : Justified adj purged s2 m := by
  obtain ⟨src, hsrc, hp⟩ := h
  refine ⟨src, ?_, hp⟩
  rcases hsrc with h0 | ⟨u, hu, hne⟩
  · exact Or.inl h0
  · exact Or.inr ⟨u, hu, hg u hne⟩

theorem HistGrows.refl (s : State) : HistGrows s s := fun _ h => h

theorem HistGrows.of_eq {s s2 : State} (h : s2.typeflow_visited = s.typeflow_visited) :
    HistGrows s s2 := by
  intro u hu
  unfold State.hist at *
  rw [h]; exact hu

/-- The general transfer of the invariant along a step. -/
theorem JustInv.ju_step {adj : Adjacency} {purged : List Nat} {s s2 : State}
    (hk : JustInv adj purged s) (hg : HistGrows s s2)
    (hvis : ∀ m, s2.visited m = true → m ∉ purged →
      s.visited m = true ∨ Justified adj purged s2 m)
    (hwl : ∀ m, (m ∈ s2.method_worklist ∨ m ∈ s2.next_method_worklist) → m ∉ purged →
      (m ∈ s.method_worklist ∨ m ∈ s.next_method_worklist) ∨ Justified adj purged s2 m)
    (hq : ∀ u ∈ s2.typeflow_worklist, u ∈ s.typeflow_worklist ∨ (s2.hist u).recorded ≠ []) :
    JustInv adj purged s2 := by
  refine ⟨fun m hm hp => ?_, fun m hm hp => ?_, fun u hu => ?_⟩
  · rcases hvis m hm hp with h | h
    · exact (hk.marked m h hp).grows hg
    · exact h
  · rcases hwl m hm hp with h | h
    · exact (hk.waiting m h hp).grows hg
    · exact h
  · rcases hq u hu with h | h
    · exact hg u (hk.queued u h)
    · exact h

theorem JustInv.ju_of_methodPart {adj : Adjacency} {purged : List Nat} {s s2 : State}
    (hk : JustInv adj purged s) (h1 : s2.methodPart = s.methodPart)
    (h2 : s2.typeflow_visited = s.typeflow_visited)
    (h3 : s2.typeflow_worklist = s.typeflow_worklist) : JustInv adj purged s2 :=
  hk.ju_step (HistGrows.of_eq h2)
    (fun m hm _ => Or.inl (by rw [← State.visited_of_methodPart h1]; exact hm))
    (fun m hm _ => Or.inl (by
      rw [← State.methodPart_worklist h1, ← State.methodPart_next h1]; exact hm))
    (fun u hu => Or.inl (h3 ▸ hu))

/-- A loop that reports a change leaves a record that holds a type. -/
theorem flowLoop_flag_nonempty (skip : Nat → Bool) (d : Nat) :
    ∀ (l : List Nat) (h : TypeflowHistory), h.Valid →
      (∀ t ∈ l, skip t = false → t ≠ type_max) →
      (flowLoop skip d l h false).2 = true → (flowLoop skip d l h false).1.recorded ≠ [] := by
  intro l
  induction l with
  | nil => intro h _ _ hf; simp [flowLoop] at hf
  | cons t rest ih =>
    intro h hv hl hf
    unfold flowLoop at hf ⊢
    by_cases hs : skip t = true
    · rw [if_pos hs] at hf ⊢
      exact ih h hv (fun x hx => hl x (List.mem_cons_of_mem _ hx)) hf
    · rw [if_neg hs] at hf ⊢
      dsimp only at hf ⊢
      have hne : t ≠ type_max := hl t (List.mem_cons_self _ _) (by simpa using hs)
      have hadd : (h.add_type t d).2 = true → (h.add_type t d).1.recorded ≠ [] := by
        intro hflag
        rw [hv.add_type_flag] at hflag
        have hnin : t ∉ h.recorded := by simpa using hflag
        rw [hv.recorded_add_type]
        by_cases hfull : saturation_cutoff ≤ h.recorded.length
        · rw [if_pos (Or.inr (Or.inl hfull))]
          intro hnil
          rw [hnil] at hfull
          simp [saturation_cutoff] at hfull
        · rw [if_neg (by simp only [hnin, hfull, hne, or_self, not_false_iff])]
          simp
      simp only [Bool.false_or] at hf ⊢
      by_cases hsat : (h.add_type t d).1.is_saturated = true
      · rw [if_pos hsat] at hf ⊢
        exact hadd hf
      · rw [if_neg hsat] at hf ⊢
        by_cases hflag : (h.add_type t d).2 = true
        · have h1 := hadd hflag
          intro hnil
          cases hrec : (h.add_type t d).1.recorded with
          | nil => exact h1 hrec
          | cons x xs =>
            have := flowLoop_mono skip d rest _ (h.add_type t d).2 (hv.add_type t d) x
              (by rw [hrec]; exact List.mem_cons_self _ _)
            rw [hnil] at this
            simp at this
        · have hflag' : (h.add_type t d).2 = false := by simpa using hflag
          rw [hflag'] at hf ⊢
          exact ih _ (hv.add_type t d) (fun x hx => hl x (List.mem_cons_of_mem _ hx)) hf

theorem flowLoop_nonempty_mono (skip : Nat → Bool) (d : Nat) (l : List Nat)
    (h : TypeflowHistory) (c : Bool) (hv : h.Valid) (hne : h.recorded ≠ []) :
    (flowLoop skip d l h c).1.recorded ≠ [] := by
  cases hrec : h.recorded with
  | nil => exact absurd hrec hne
  | cons x xs =>
    intro hnil
    have := flowLoop_mono skip d l h c hv x (by rw [hrec]; exact List.mem_cons_self _ _)
    rw [hnil] at this
    simp at this

/-- A record step keeps the invariant. -/
theorem JustInv.ju_record {adj : Adjacency} {purged : List Nat} {s s2 : State}
    (hk : JustInv adj purged s) (v : Nat) (skip : Nat → Bool) (d : Nat) (l : List Nat)
    (g : Bool) (hv : (s.hist v).Valid) (hl : ∀ t ∈ l, skip t = false → t ≠ type_max)
    (hstep : RecordStep s s2 v (flowLoop skip d l (s.hist v) false)
      ((flowLoop skip d l (s.hist v) false).2 && g)) : JustInv adj purged s2 := by
  have hg : HistGrows s s2 := by
    intro u hu
    by_cases huv : u = v
    · subst huv
      rw [hstep.hist_self]
      exact flowLoop_nonempty_mono _ _ _ _ _ hv hu
    · rw [hstep.hist_other u huv]; exact hu
  refine hk.ju_step hg
    (fun m hm _ => Or.inl (by rw [← State.visited_of_methodPart hstep.methodPart]; exact hm))
    (fun m hm _ => Or.inl (by
      rw [← State.methodPart_worklist hstep.methodPart,
        ← State.methodPart_next hstep.methodPart]; exact hm))
    (fun u hu => ?_)
  rw [hstep.worklist] at hu
  split at hu
  · rename_i hc
    rcases List.mem_append.1 hu with h | h
    · exact Or.inl h
    · right
      have : u = v := by simpa using h
      subst this
      rw [hstep.hist_self]
      have hflag : (flowLoop skip d l (s.hist u) false).2 = true := by
        simp only [Bool.and_eq_true] at hc; exact hc.1
      exact flowLoop_flag_nonempty skip d l _ hv hl hflag
  · exact Or.inl hu

theorem wakeDependent_worklist (s : State) (v : Nat) :
    (wakeDependent s v).method_worklist = s.method_worklist :=
  State.methodPart_worklist (wakeDependent_methodPart s v)

/-- Induction over the body of the method loop that remembers that `u` is in the worklist. -/
theorem methodBody_inv_mem (I : State → Prop) (adj : Adjacency) (s : State) (u : Nat)
    (hu : u ∈ s.method_worklist) (h0 : I s)
    (hrec : I s → I (recordDistance s u))
    (hwake : ∀ s1 v, v ∈ (adj.method u).dependent_typeflows → u ∈ s1.method_worklist →
      I s1 → I (wakeDependent s1 v))
    (hvisit : ∀ s1 v, v ∈ (adj.method u).forward_edges → u ∈ s1.method_worklist →
      I s1 → I (visitMethod s1 v)) :
    I (methodBody adj s u) := by
  unfold methodBody
  have h1 := foldl_inv (fun s1 => I s1 ∧ u ∈ s1.method_worklist) wakeDependent
    (adj.method u).dependent_typeflows (recordDistance s u) ⟨hrec h0, hu⟩
    (fun s1 v hv h => ⟨hwake s1 v hv h.2 h.1, by rw [wakeDependent_worklist]; exact h.2⟩)
  have h2 := foldl_inv (fun s1 => I s1 ∧ u ∈ s1.method_worklist) visitMethod
    (adj.method u).forward_edges _ h1
    (fun s1 v hv h => ⟨hvisit s1 v hv h.2 h.1, by rw [visitMethod_worklist]; exact h.2⟩)
  exact h2.1

/-- The same for the loop over the method worklist. -/
theorem methodFold_inv_mem (I : State → Prop) (adj : Adjacency) (s : State) (h0 : I s)
    (hrec : ∀ s1 u, u ∈ s1.method_worklist → I s1 → I (recordDistance s1 u))
    (hwake : ∀ s1 u v, v ∈ (adj.method u).dependent_typeflows → u ∈ s1.method_worklist →
      I s1 → I (wakeDependent s1 v))
    (hvisit : ∀ s1 u v, v ∈ (adj.method u).forward_edges → u ∈ s1.method_worklist →
      I s1 → I (visitMethod s1 v)) :
    I (s.method_worklist.foldl (methodBody adj) s) := by
  have := foldl_inv (fun s1 => I s1 ∧ s1.method_worklist = s.method_worklist) (methodBody adj)
    s.method_worklist s ⟨h0, rfl⟩
    (fun s1 u hu h1 => ⟨methodBody_inv_mem I adj s1 u (h1.2 ▸ hu) h1.1 (hrec s1 u (h1.2 ▸ hu))
      (hwake · u) (hvisit · u), (methodBody_worklist adj s1 u).trans h1.2⟩)
  exact this.1

theorem method_default_edges (adj : Adjacency) (u v : Nat)
    (hv : v ∈ (adj.method u).forward_edges) : u < adj.n_methods := by
  by_contra hc
  unfold Adjacency.method at hv
  rw [getD_default _ _ _ (Nat.le_of_not_lt hc)] at hv
  simp [default] at hv

theorem JustInv.ju_visit {adj : Adjacency} {purged : List Nat} {s : State}
    (hroot : 0 ∉ purged) (hk : JustInv adj purged s) (hp : PurgeInv adj purged s) (u v : Nat)
    (hu : u ∈ s.method_worklist) (hv : v ∈ (adj.method u).forward_edges) :
    JustInv adj purged (visitMethod s v) := by
  have hup : u ∉ purged := by
    intro hc
    rcases hp.worklists u (Or.inl hu) hc with h | h
    · exact hroot (h ▸ hc)
    · have := method_default_edges adj u v hv; omega
  have hju : Justified adj purged s u := hk.waiting u (Or.inl hu) hup
  have hg : HistGrows s (visitMethod s v) :=
    HistGrows.of_eq (State.flowPart_hists (visitMethod_flowPart s v))
  have hnew : v ∉ purged → Justified adj purged (visitMethod s v) v := by
    intro hvp
    obtain ⟨src, hsrc, hpath⟩ := hju.grows hg
    exact ⟨src, hsrc, PurgeFreePath.step src u v hpath hv hvp⟩
  refine hk.ju_step hg (fun m hm hmp => ?_) (fun m hm hmp => ?_)
    (fun x hx => Or.inl (by rw [visitMethod_typeflow_worklist] at hx; exact hx))
  · rw [visitMethod_visited] at hm
    by_cases hold : s.visited m = true
    · exact Or.inl hold
    · have hold' : s.visited m = false := by simpa using hold
      rw [hold', Bool.false_or] at hm
      have hvm : v = m := (of_decide_eq_true hm).1
      subst hvm
      exact Or.inr (hnew hmp)
  · rw [visitMethod_worklist] at hm
    rcases hm with hm | hm
    · exact Or.inl (Or.inl hm)
    · rcases visitMethod_next s v m hm with h | ⟨h1, _⟩
      · exact Or.inl (Or.inr h)
      · subst h1; exact Or.inr (hnew hmp)

theorem JustInv.ju_wake {adj : Adjacency} {purged : List Nat} {s : State}
    (hk : JustInv adj purged s) (hv : ∀ u, (s.hist u).Valid) (v : Nat) :
    JustInv adj purged (wakeDependent s v) := by
  refine hk.ju_step (HistGrows.of_eq (State.flowPart_hists (wakeDependent_flowPart s v)))
    (fun m hm _ => Or.inl (by
      rw [← State.visited_of_methodPart (wakeDependent_methodPart s v)]; exact hm))
    (fun m hm _ => Or.inl (by
      rw [← State.methodPart_worklist (wakeDependent_methodPart s v),
        ← State.methodPart_next (wakeDependent_methodPart s v)]; exact hm))
    (fun u hu => ?_)
  rcases State.pushIf_worklist_cases s _ v u hu with h | ⟨h1, h2⟩
  · exact Or.inl h
  · right
    subst h1
    rw [State.flowPart_hist (wakeDependent_flowPart s u)]
    exact ((hv u).any_iff).1 h2

theorem JustInv.ju_layer {bfs : BFS} {purged : List Nat} {s : State} (hroot : 0 ∉ purged)
    (hk : JustInv bfs.adj purged s) (hp : PurgeInv bfs.adj purged s) (hs : FlowShape bfs s) :
    JustInv bfs.adj purged (methodLayer bfs.adj s) := by
  have h1 := methodFold_inv_mem
    (fun s1 => JustInv bfs.adj purged s1 ∧ PurgeInv bfs.adj purged s1 ∧ FlowShape bfs s1)
    bfs.adj s ⟨hk, hp, hs⟩
    (fun s1 u hu h => ⟨h.1.ju_step (HistGrows.refl _) (fun m hm _ => Or.inl hm)
      (fun m hm _ => Or.inl hm) (fun x hx => Or.inl hx), h.2.1.pu_record u hu,
      FlowShape.fs_of_flowPart (s := s1) rfl h.2.2⟩)
    (fun s1 u v _ _ h => ⟨h.1.ju_wake h.2.2.valid v,
      PurgeInv.pu_of_methodPart (wakeDependent_methodPart s1 v) h.2.1,
      FlowShape.fs_of_flowPart (wakeDependent_flowPart s1 v) h.2.2⟩)
    (fun s1 u v hv hu h => ⟨h.1.ju_visit hroot h.2.1 u v hu hv, h.2.1.pu_visit v,
      FlowShape.fs_of_flowPart (visitMethod_flowPart s1 v) h.2.2⟩)
  unfold methodLayer
  refine h1.1.ju_step (HistGrows.refl _) (fun m hm _ => Or.inl hm) (fun m hm _ => ?_)
    (fun x hx => Or.inl hx)
  rcases hm with hm | hm
  · exact Or.inl (Or.inr hm)
  · simp [swapWorklists] at hm

theorem JustInv.ju_bump {adj : Adjacency} {purged : List Nat} {s : State} (dm : Bool)
    (hk : JustInv adj purged s) : JustInv adj purged (bumpDist dm s) := by
  obtain ⟨e1, _, e3, e4, e5⟩ := bumpDist_fields dm s
  refine hk.ju_step (HistGrows.of_eq (State.flowPart_hists (bumpDist_flowPart dm s)))
    (fun m hm _ => Or.inl (by unfold State.visited at *; rw [← e1]; exact hm))
    (fun m hm _ => Or.inl (by rw [← e3, ← e4]; exact hm))
    (fun x hx => Or.inl (e5 ▸ hx))

theorem JustInv.ju_reach {adj : Adjacency} {purged : List Nat} {s : State}
    (hk : JustInv adj purged s) (u : Nat) (hu : (s.hist u).recorded ≠ []) :
    JustInv adj purged (reachMethod s (adj.flow u).method.reaching) := by
  have hg : HistGrows s (reachMethod s (adj.flow u).method.reaching) :=
    HistGrows.of_eq (State.flowPart_hists (reachMethod_flowPart _ _))
  have hnew : (adj.flow u).method.reaching ∉ purged →
      Justified adj purged (reachMethod s (adj.flow u).method.reaching)
        (adj.flow u).method.reaching := by
    intro hp
    refine ⟨_, ?_, PurgeFreePath.refl _ hp⟩
    cases hrole : (adj.flow u).method with
    | Reaching m =>
      right
      refine ⟨u, hrole, ?_⟩
      rw [State.flowPart_hist (reachMethod_flowPart _ _)]
      rw [hrole] at hg
      exact hu
    | Dependent m => exact Or.inl rfl
  refine hk.ju_step hg (fun m hm hmp => ?_) (fun m hm hmp => ?_)
    (fun x hx => Or.inl (by rw [reachMethod_typeflow_worklist] at hx; exact hx))
  · rw [reachMethod_visited] at hm
    by_cases hold : s.visited m = true
    · exact Or.inl hold
    · have hold' : s.visited m = false := by simpa using hold
      rw [hold', Bool.false_or] at hm
      have hvm := (of_decide_eq_true hm).1
      rw [← hvm] at hmp ⊢
      exact Or.inr (hnew hmp)
  · rw [reachMethod_next] at hm
    rcases hm with hm | hm
    · rcases reachMethod_worklist s _ m hm with h | ⟨h1, _⟩
      · exact Or.inl (Or.inl h)
      · rw [h1] at hmp ⊢; exact Or.inr (hnew hmp)
    · exact Or.inl (Or.inr hm)

theorem lt_types_ne_max {bfs : BFS} (hc : bfs.Canonical) (t : Nat) (ht : t < bfs.adj.n_types) :
    t ≠ type_max := by
  have := hc.wf.2.2.1
  omega

theorem JustInv.ju_flowEdge {bfs : BFS} {purged : List Nat} {s : State} (hc : bfs.Canonical)
    (hs : FlowShape bfs s) (hk : JustInv bfs.adj purged s) (u v : Nat)
    (hv : v < bfs.adj.n_typeflows) : JustInv bfs.adj purged (flowEdge bfs u s v) := by
  unfold flowEdge
  have hs1 := hs.fs_feedInstantiated hc u v
  have hk1 : JustInv bfs.adj purged (feedInstantiated bfs u s v) :=
    hk.ju_of_methodPart (feedInstantiated_methodPart bfs u s v) (feedInstantiated_hists bfs u s v)
      (feedInstantiated_worklist bfs u s v)
  by_cases hsat : ((feedInstantiated bfs u s v).hist v).is_saturated = true
  · rw [flowInto_saturated _ _ _ _ hsat]; exact hk1
  · exact hk1.ju_record v _ _ _ _ (hs1.valid v)
      (fun t ht _ => (hs1.valid u).recorded_ne_max t ht)
      (flowInto_step bfs u _ v (hs1.hist_len ▸ hv) (by simpa using hsat))

theorem JustInv.ju_saturatedEdge {bfs : BFS} {purged : List Nat} {s s1 : State}
    (hc : bfs.Canonical) (hs : FlowShape bfs s) (hk : JustInv bfs.adj purged s) (fuel v : Nat)
    (hv : v < bfs.adj.n_typeflows) (hr : saturatedEdge bfs fuel s v = some s1) :
    JustInv bfs.adj purged s1 := by
  by_cases hskip : (s.hist v).is_saturated = true ∨
      s.included_in_saturation_uses.getD v false = true
  · rw [saturatedEdge_skip bfs fuel s v s1 hskip hr]; exact hk
  · have h1 : (s.hist v).is_saturated = false := by
      by_contra hc1; exact hskip (Or.inl (by simpa using hc1))
    have h2 : s.included_in_saturation_uses.getD v false = false := by
      by_contra hc1; exact hskip (Or.inr (by simpa using hc1))
    exact hk.ju_record v _ _ _ _ (hs.valid v)
      (fun t ht _ => lt_types_ne_max hc t ((mem_membersFrom _ _ _ _).1 ht).2.1)
      (saturatedEdge_step hc fuel s v hv (hs.hist_len ▸ hv) s1 h1 h2 hr)

theorem JustInv.ju_pop {bfs : BFS} {purged : List Nat} {s s1 : State} (hc : bfs.Canonical)
    (hs : FlowShape bfs s) (hk : JustInv bfs.adj purged s) (fuel u : Nat) (rest : List Nat)
    (hw : s.typeflow_worklist = u :: rest)
    (hr : processTypeflow bfs fuel (popTypeflow s rest) u = some s1) :
    JustInv bfs.adj purged s1 := by
  have hpop : JustInv bfs.adj purged (popTypeflow s rest) :=
    hk.ju_step (HistGrows.refl _) (fun m hm _ => Or.inl hm) (fun m hm _ => Or.inl hm)
      (fun x hx => Or.inl (by rw [hw]; exact List.mem_cons_of_mem _ hx))
  have hu : ((popTypeflow s rest).hist u).recorded ≠ [] :=
    hk.queued u (by rw [hw]; exact List.mem_cons_self _ _)
  exact processTypeflow_inv hc (JustInv bfs.adj purged) fuel (popTypeflow s rest) u s1 hr
    (FlowShape.fs_of_flowPart (s := s) rfl hs) (hpop.ju_reach u hu)
    (fun s2 v hv hs2 h _ _ => h.ju_flowEdge hc hs2 u v (hc.wf.flow_edge u v hv))
    (fun s2 v s3 hv hs2 h _ _ h3 => h.ju_saturatedEdge hc hs2 fuel v (hc.wf.flow_edge u v hv) h3)

theorem JustInv.ju_propagate {bfs : BFS} {purged : List Nat} {s : State} (hc : bfs.Canonical)
    (hs : FlowShape bfs s) (hk : JustInv bfs.adj purged s) :
    JustInv bfs.adj purged (propagate bfs s) :=
  propagate_inv hc (JustInv bfs.adj purged) s hs hk
    (fun _ _ _ h => h.ju_of_methodPart rfl rfl rfl)
    (fun s2 v filtered kept hs2 h hv hns hf => h.ju_record v _ _ _ _ (hs2.valid v)
      (fun t ht _ => lt_types_ne_max hc t (hs2.fs_since_lt t (hf t ht).2))
      (replayUse_step bfs filtered (s2, kept) v (hs2.hist_len ▸ hv) hns))
    (fun _ _ h => h.ju_of_methodPart rfl rfl rfl)

theorem JustInv.ju_phased {bfs : BFS} (hc : bfs.Canonical) (purged : List Nat)
    (hroot : 0 ∉ purged) (dm : Bool) :
    Phased bfs dm (fun p s => Base bfs purged p s ∧ JustInv bfs.adj purged s) :=
  (Base.ba_phased hc purged dm).extend (fun _ s => JustInv bfs.adj purged s)
    (fun _ hb hk _ => hk.ju_layer hroot hb.ba_purgeInv hb.ba_flowShape)
    (fun _ _ hb hk _ => hk.ju_layer hroot hb.ba_purgeInv hb.ba_flowShape)
    (fun _ _ hk _ => hk.ju_bump dm)
    (fun fuel _ u rest _ hb hk hw hr => hk.ju_pop hc hb.ba_flowShape fuel u rest hw hr)
    (fun _ hb hk _ _ _ => hk.ju_propagate hc hb.ba_flowShape) (fun _ _ hk _ _ => hk)

theorem JustInv.ju_start (bfs : BFS) (purged : List Nat) :
    JustInv bfs.adj purged (startState bfs purged) := by
  refine ⟨fun m hm hp => ?_, fun m hm hp => ?_, fun u hu => by simp [startState] at hu⟩
  · rw [startState_visited] at hm
    rcases (of_decide_eq_true hm).1 with h | h
    · subst h; exact ⟨0, Or.inl rfl, PurgeFreePath.refl 0 hp⟩
    · exact absurd h hp
  · have : m = 0 := by
      rcases hm with hm | hm
      · simpa [startState] using hm
      · simp [startState] at hm
    subst this
    exact ⟨0, Or.inl rfl, PurgeFreePath.refl 0 hp⟩

theorem JustInv.ju_init {bfs : BFS} (hc : bfs.Canonical) (purged : List Nat) (fuel : Nat)
    (s0 : State) (h0 : initState bfs purged fuel = some s0) : JustInv bfs.adj purged s0 := by
  unfold initState at h0
  have := forM_opt_inv (fun s => FlowShape bfs s ∧ JustInv bfs.adj purged s)
    (whiteHoleStep bfs fuel) (bfs.adj.flow 0).forward_edges (startState bfs purged) s0
    ⟨FlowShape.fs_start bfs purged, JustInv.ju_start bfs purged⟩
    (fun s v s1 hv h h1 => ⟨h.1.fs_whiteHoleStep hc fuel v (hc.wf.flow_edge 0 v hv) h1,
      h.2.ju_record v _ _ _ _ (h.1.valid v)
        (fun t ht _ => lt_types_ne_max hc t ((mem_membersFrom _ _ _ _).1 ht).2.1)
        (whiteHoleStep_step hc fuel s v (hc.wf.flow_edge 0 v hv)
          (h.1.hist_len ▸ hc.wf.flow_edge 0 v hv) s1 h1)⟩) h0
  exact this.2

theorem solve_justInv {bfs : BFS} (hc : bfs.Canonical) (purged : List Nat) (hroot : 0 ∉ purged)
    (dm : Bool) (fuel : Nat) (s : State) (hr : solve bfs purged dm fuel = some s) :
    JustInv bfs.adj purged s ∧ FlowShape bfs s :=
  have h := (solve_phased (JustInv.ju_phased hc purged hroot dm) purged fuel
    (fun s0 h0 => ⟨Base.ba_init hc purged fuel s0 h0, JustInv.ju_init hc purged fuel s0 h0⟩) s
    hr).1
  ⟨h.2, h.1.ba_flowShape⟩

/-- A path without purged methods from the root cannot exist for a method that every path from
the root reaches only through a purged method; without typeflow sources only the root starts
such paths. -/
theorem justified_root_only {adj : Adjacency} {purged : List Nat} {s : State} {m : Nat}
    (hnone : ∀ u, (s.hist u).recorded = []) (h : Justified adj purged s m) :
    PurgeFreePath adj purged 0 m := by
  obtain ⟨src, hsrc, hp⟩ := h
  rcases hsrc with h0 | ⟨u, _, hne⟩
  · exact h0 ▸ hp
  · exact absurd (hnone u) hne

theorem QueueInv.qu_of_methodPart {adj : Adjacency} {purged : List Nat} {s s1 : State}
    (h : s1.methodPart = s.methodPart) (hs : QueueInv adj purged s) : QueueInv adj purged s1 := by
  refine ⟨fun m hm => ?_, fun m hm => ?_⟩
  · rw [State.methodPart_worklist h, State.methodPart_next h] at hm
    rw [State.visited_of_methodPart h]
    exact hs.waiting m hm
  · rw [State.history_of_methodPart h] at hm
    rw [State.visited_of_methodPart h]
    exact hs.dequeued m hm

theorem QueueInv.qu_record {adj : Adjacency} {purged : List Nat} {s : State}
    (hs : QueueInv adj purged s) (hp : PurgeInv adj purged s) (u : Nat)
    (hu : u ∈ s.method_worklist) : QueueInv adj purged (recordDistance s u) := by
  refine ⟨hs.waiting, fun m hm => ?_⟩
  have hm' : (s.method_history.set u s.dist).getD m u8_max ≠ u8_max := hm
  rw [getD_set] at hm'
  split at hm'
  · rename_i hc
    have hw := hs.waiting u (Or.inl hu)
    by_cases h0 : m = 0
    · exact Or.inl h0
    · right
      rw [← hc.1]
      refine ⟨hw.2, fun hpu => ?_⟩
      rcases hp.worklists u (Or.inl hu) hpu with h | h
      · exact h0 (hc.1 ▸ h)
      · omega
  · exact hs.dequeued m hm'

theorem QueueInv.qu_visit {adj : Adjacency} {purged : List Nat} {s : State}
    (hs : QueueInv adj purged s) (hlen : s.method_visited.length = adj.n_methods) (v : Nat)
    (hv : v < adj.n_methods) : QueueInv adj purged (visitMethod s v) := by
  refine ⟨fun m hm => ?_, fun m hm => ?_⟩
  · rw [visitMethod_worklist] at hm
    rcases hm with hm | hm
    · exact ⟨(hs.waiting m (Or.inl hm)).1, visitMethod_mono s v m (hs.waiting m (Or.inl hm)).2⟩
    · rcases visitMethod_next s v m hm with h | ⟨h1, _⟩
      · exact ⟨(hs.waiting m (Or.inr h)).1, visitMethod_mono s v m (hs.waiting m (Or.inr h)).2⟩
      · subst h1
        refine ⟨hv, ?_⟩
        rw [visitMethod_visited]
        have : m = m ∧ m < s.method_visited.length := ⟨rfl, hlen ▸ hv⟩
        rw [decide_eq_true this, Bool.or_true]
  · have hm' : s.history m ≠ u8_max := by
      unfold State.history at *; rw [visitMethod_history] at hm; exact hm
    rcases hs.dequeued m hm' with h | h
    · exact Or.inl h
    · exact Or.inr ⟨visitMethod_mono s v m h.1, h.2⟩

theorem QueueInv.qu_reach {adj : Adjacency} {purged : List Nat} {s : State}
    (hs : QueueInv adj purged s) (hlen : s.method_visited.length = adj.n_methods) (v : Nat)
    (hv : v < adj.n_methods) : QueueInv adj purged (reachMethod s v) := by
  refine ⟨fun m hm => ?_, fun m hm => ?_⟩
  · rw [reachMethod_next] at hm
    rcases hm with hm | hm
    · rcases reachMethod_worklist s v m hm with h | ⟨h1, _⟩
      · exact ⟨(hs.waiting m (Or.inl h)).1, reachMethod_mono s v m (hs.waiting m (Or.inl h)).2⟩
      · subst h1
        refine ⟨hv, ?_⟩
        rw [reachMethod_visited]
        have : m = m ∧ m < s.method_visited.length := ⟨rfl, hlen ▸ hv⟩
        rw [decide_eq_true this, Bool.or_true]
    · exact ⟨(hs.waiting m (Or.inr hm)).1, reachMethod_mono s v m (hs.waiting m (Or.inr hm)).2⟩
  · have hm' : s.history m ≠ u8_max := by
      unfold State.history at *; rw [reachMethod_history] at hm; exact hm
    rcases hs.dequeued m hm' with h | h
    · exact Or.inl h
    · exact Or.inr ⟨reachMethod_mono s v m h.1, h.2⟩

theorem QueueInv.qu_layer {adj : Adjacency} (hw : adj.wf) {purged : List Nat} {s : State}
    (hs : QueueInv adj purged s) (hp : PurgeInv adj purged s) (hc : ClosedInv adj purged s) :
    QueueInv adj purged (methodLayer adj s) := by
  have h1 := methodFold_inv
    (fun s1 => QueueInv adj purged s1 ∧ PurgeInv adj purged s1 ∧
      s1.method_visited.length = adj.n_methods) adj s ⟨hs, hp, hc.visited_len⟩
    (fun s1 u hu h => ⟨h.1.qu_record h.2.1 u hu, h.2.1.pu_record u hu, h.2.2⟩)
    (fun s1 u v _ h => ⟨QueueInv.qu_of_methodPart (wakeDependent_methodPart s1 v) h.1,
      PurgeInv.pu_of_methodPart (wakeDependent_methodPart s1 v) h.2.1,
      (State.methodPart_visited (wakeDependent_methodPart s1 v)) ▸ h.2.2⟩)
    (fun s1 u v hv h => ⟨h.1.qu_visit h.2.2 v (hw.method_edge u v hv), h.2.1.pu_visit v,
      (visitMethod_visited_len s1 v).trans h.2.2⟩)
  unfold methodLayer
  refine ⟨fun m hm => ?_, h1.1.dequeued⟩
  rcases hm with hm | hm
  · exact h1.1.waiting m (Or.inr hm)
  · simp [swapWorklists] at hm

theorem QueueInv.qu_bump {adj : Adjacency} {purged : List Nat} {s : State} (dm : Bool)
    (hs : QueueInv adj purged s) : QueueInv adj purged (bumpDist dm s) := by
  obtain ⟨e1, e2, e3, e4, _⟩ := bumpDist_fields dm s
  refine ⟨fun m hm => ?_, fun m hm => ?_⟩
  · rw [e3, e4] at hm
    unfold State.visited; rw [e1]
    exact hs.waiting m hm
  · unfold State.history at hm; rw [e2] at hm
    unfold State.visited; rw [e1]
    exact hs.dequeued m hm

theorem QueueInv.qu_start (bfs : BFS) (hn : 0 < bfs.adj.n_methods) (purged : List Nat) :
    QueueInv bfs.adj purged (startState bfs purged) := by
  refine ⟨fun m hm => ?_, fun m hm => ?_⟩
  · have : m = 0 := by
      rcases hm with hm | hm
      · simpa [startState] using hm
      · simp [startState] at hm
    subst this
    exact ⟨hn, by rw [startState_visited]; exact decide_eq_true ⟨Or.inl rfl, hn⟩⟩
  · rw [startState_history] at hm
    left
    by_contra h0
    rw [if_neg (fun hc => h0 hc.1)] at hm
    exact hm rfl

theorem Base2.b2_phased {bfs : BFS} (hc : bfs.Canonical) (purged : List Nat) (dm : Bool) :
    Phased bfs dm (Base2 bfs purged) :=
  (Base.ba_phased hc purged dm).extend (fun _ s => QueueInv bfs.adj purged s)
    (fun _ hb hk _ => hk.qu_layer hc.wf hb.ba_purgeInv hb.ba_closedInv)
    (fun _ _ hb hk _ => hk.qu_layer hc.wf hb.ba_purgeInv hb.ba_closedInv)
    (fun _ _ hk _ => hk.qu_bump dm)
    (fun fuel s u rest s1 hb hk _ hr =>
      QueueInv.qu_of_methodPart (processTypeflow_methodPart bfs fuel _ u s1 hr)
        ((show QueueInv bfs.adj purged (popTypeflow s rest) from
          QueueInv.qu_of_methodPart (show (popTypeflow s rest).methodPart = s.methodPart from rfl)
            hk).qu_reach
          hb.ba_closedInv.visited_len _ (hc.wf.reaching_lt u)))
    (fun s _ hk _ _ _ => QueueInv.qu_of_methodPart (propagate_methodPart bfs s) hk)
    (fun _ _ hk _ _ => hk)

theorem Base2.b2_init {bfs : BFS} (hc : bfs.Canonical) (purged : List Nat) (fuel : Nat)
    (s0 : State) (h0 : initState bfs purged fuel = some s0) : Base2 bfs purged Phase.head s0 :=
  ⟨Base.ba_init hc purged fuel s0 h0,
    QueueInv.qu_of_methodPart (initState_methodPart bfs purged fuel s0 h0)
      (QueueInv.qu_start bfs hc.wf.1 purged)⟩

theorem State.pushIf_uses (s : State) (c : Bool) (v : Nat) :
    (s.pushIf c v).saturation_uses_by_filter = s.saturation_uses_by_filter :=
  State.flowPart_uses (s.pushIf_flowPart c v)

theorem State.pushIf_included (s : State) (c : Bool) (v : Nat) :
    (s.pushIf c v).included_in_saturation_uses = s.included_in_saturation_uses :=
  State.flowPart_included (s.pushIf_flowPart c v)

theorem feedInstantiated_uses (bfs : BFS) (u : Nat) (s : State) (v : Nat) :
    (feedInstantiated bfs u s v).saturation_uses_by_filter = s.saturation_uses_by_filter ∧
    (feedInstantiated bfs u s v).included_in_saturation_uses = s.included_in_saturation_uses := by
  unfold feedInstantiated
  split
  · constructor
    · apply foldl_field (fun s => s.saturation_uses_by_filter)
      intro s1 t
      unfold instantiate; split <;> rfl
    · apply foldl_field (fun s => s.included_in_saturation_uses)
      intro s1 t
      unfold instantiate; split <;> rfl
  · exact ⟨rfl, rfl⟩

theorem flowInto_uses (bfs : BFS) (u : Nat) (s : State) (v : Nat) :
    (flowInto bfs u s v).saturation_uses_by_filter = s.saturation_uses_by_filter ∧
    (flowInto bfs u s v).included_in_saturation_uses = s.included_in_saturation_uses := by
  unfold flowInto
  split
  · exact ⟨rfl, rfl⟩
  · exact ⟨by rw [State.pushIf_uses]; rfl, by rw [State.pushIf_included]; rfl⟩

theorem flowEdge_uses (bfs : BFS) (u : Nat) (s : State) (v : Nat) :
    (flowEdge bfs u s v).saturation_uses_by_filter = s.saturation_uses_by_filter ∧
    (flowEdge bfs u s v).included_in_saturation_uses = s.included_in_saturation_uses := by
  unfold flowEdge
  exact ⟨(flowInto_uses bfs u _ v).1.trans (feedInstantiated_uses bfs u s v).1,
    (flowInto_uses bfs u _ v).2.trans (feedInstantiated_uses bfs u s v).2⟩

theorem replayUse_uses (bfs : BFS) (filtered : List Nat) (acc : State × List Nat) (v : Nat) :
    (replayUse bfs filtered acc v).1.saturation_uses_by_filter =
      acc.1.saturation_uses_by_filter ∧
    (replayUse bfs filtered acc v).1.included_in_saturation_uses =
      acc.1.included_in_saturation_uses := by
  unfold replayUse
  split
  · exact ⟨rfl, rfl⟩
  · exact ⟨by rw [State.pushIf_uses]; rfl, by rw [State.pushIf_included]; rfl⟩

theorem whiteHoleStep_uses (bfs : BFS) (fuel : Nat) (s : State) (v : Nat) (s1 : State)
    (hr : whiteHoleStep bfs fuel s v = some s1) :
    s1.saturation_uses_by_filter = s.saturation_uses_by_filter ∧
    s1.included_in_saturation_uses = s.included_in_saturation_uses := by
  unfold whiteHoleStep at hr
  obtain ⟨r, _, hr2⟩ := Option.map_eq_some'.1 hr
  rw [← hr2]
  exact ⟨by rw [State.pushIf_uses]; rfl, by rw [State.pushIf_included]; rfl⟩

/-- The uses lists and the inclusion flags after the seeding under a saturated predecessor. -/
theorem saturatedEdge_uses (bfs : BFS) (fuel : Nat) (s : State) (v : Nat) (s1 : State)
    (hlen : v < s.typeflow_visited.length)
    (hns : (s.hist v).is_saturated = false)
    (hni : s.included_in_saturation_uses.getD v false = false)
    (hr : saturatedEdge bfs fuel s v = some s1) :
    s1.included_in_saturation_uses = s.included_in_saturation_uses.set v true ∧
    s1.saturation_uses_by_filter =
      if (s1.hist v).is_saturated then s.saturation_uses_by_filter
      else s.saturation_uses_by_filter.set (bfs.filterIndex v)
        (s.saturation_uses_by_filter.getD (bfs.filterIndex v) [] ++ [v]) := by
  unfold saturatedEdge at hr
  rw [if_neg (by rw [hns]; exact Bool.false_ne_true),
    if_neg (by rw [hni]; exact Bool.false_ne_true)] at hr
  obtain ⟨r, _, hr2⟩ := Option.map_eq_some'.1 hr
  rw [← hr2]
  have hh : ((includeUse s v).setHist v r.1).hist v = r.1 :=
    State.hist_setHist_self (includeUse s v) v _ hlen
  constructor
  · rw [State.pushIf_included, (joinUses_flowFields _ _ _).2.2.2.2]; rfl
  · rw [State.pushIf_uses, State.pushIf_hist, joinUses_hist, hh]
    unfold joinUses
    rw [hh]
    by_cases hsat : r.1.is_saturated = true
    · rw [if_pos hsat, if_neg (by rw [hsat]; exact fun h => Bool.false_ne_true h)]
      rfl
    · have hsat' : r.1.is_saturated = false := by simpa using hsat
      rw [if_neg hsat, if_pos (by rw [hsat']; rfl)]
      rfl

/-- Induction over the saturation propagation that remembers, at each replay, that the
typeflow is an entry of a uses list, and that the new lists hold old entries only. -/
theorem propagate_inv_mem {bfs : BFS} (hc : bfs.Canonical) (K : State → Prop) (s : State)
    (hs : FlowShape bfs s) (hk : K s)
    (huses : ∀ s2 f l, K s2 → (∀ v ∈ l, v ∈ s2.saturation_uses_by_filter.getD f []) →
      K (s2.setUses f l))
    (hreplay : ∀ s2 v filtered kept f, FlowShape bfs s2 → K s2 → v < bfs.adj.n_typeflows →
      v ∈ s2.saturation_uses_by_filter.getD f [] →
      (s2.hist v).is_saturated = false →
      (∀ t ∈ filtered, bfs.adj.admits v t = true ∧
        t ∈ s2.instantiated_since_last_iteration) →
      K (replayUse bfs filtered (s2, kept) v).1)
    (hclear : ∀ s2, FlowShape bfs s2 → K s2 → K (clearInstantiated s2)) :
    K (propagate bfs s) := by
  have hfilter : ∀ s2 f, FlowShape bfs s2 → K s2 →
      FlowShape bfs (propagateFilter bfs s2 f) ∧ K (propagateFilter bfs s2 f) := by
    intro s2 f hs2 hk2
    refine ⟨hs2.fs_propagateFilter hc f, ?_⟩
    have hk3 : K (compactUses s2 f) :=
      huses s2 f _ hk2 (fun v hv => (List.mem_filter.1 hv).1)
    have hs3 : FlowShape bfs (compactUses s2 f) := hs2.fs_compactUses f
    unfold propagateFilter
    split
    · exact hk2
    · split
      · exact hk3
      · split
        · exact hk3
        · unfold replayUses
          have hadm : ∀ v ∈ (compactUses s2 f).saturation_uses_by_filter.getD f [],
              ∀ t ∈ filterDelta (bfs.filter_filters.getD f default)
                s2.instantiated_since_last_iteration,
              bfs.adj.admits v t = true ∧ t ∈ s2.instantiated_since_last_iteration := by
            intro v hv t ht
            obtain ⟨hv1, hv2⟩ := hs3.uses_index f v hv
            have hF : bfs.filter_filters.getD f default =
                TypeSet.ofBitset (bfs.adj.filterOf v) := by
              rw [← hv2]; exact hc.filter_filter v hv1
            rw [hF] at ht
            have hfit : (TypeSet.ofBitset (bfs.adj.filterOf v)).fits bfs.adj.n_types :=
              TypeSet.ofBitset_fits _ _ (le_of_eq (hc.wf.filterOf_size v hv1).symm) hc.wf.2.2.1
            have := filterDelta_sound _ _ _ hfit (fun x hx => hs2.fs_since_lt x hx) t ht
            rw [TypeSet.ofBitset_get] at this
            exact this
          have := foldl_inv
            (fun acc : State × List Nat => FlowShape bfs acc.1 ∧ K acc.1 ∧
              acc.1.instantiated_since_last_iteration = s2.instantiated_since_last_iteration ∧
              acc.1.saturation_uses_by_filter = (compactUses s2 f).saturation_uses_by_filter ∧
              ∀ w ∈ acc.2, w ∈ (compactUses s2 f).saturation_uses_by_filter.getD f [])
            (replayUse bfs (filterDelta (bfs.filter_filters.getD f default)
              s2.instantiated_since_last_iteration))
            ((compactUses s2 f).saturation_uses_by_filter.getD f []) (compactUses s2 f, [])
            ⟨hs3, hk3, rfl, rfl, fun w hw => by simp at hw⟩
            (fun acc v hv h => by
              have hv1 := (hs3.uses_index f v hv).1
              refine ⟨h.1.fs_replayUse _ v (fun t ht => (hadm v hv t ht).1), ?_, ?_,
                (replayUse_uses bfs _ acc v).1.trans h.2.2.2.1, fun w hw => ?_⟩
              · by_cases hsat : (acc.1.hist v).is_saturated = true
                · rw [replayUse_saturated _ _ _ _ hsat]; exact h.2.1
                · exact hreplay acc.1 v _ acc.2 f h.1 h.2.1 hv1 (by rw [h.2.2.2.1]; exact hv)
                    (by simpa using hsat)
                    (fun t ht => ⟨(hadm v hv t ht).1, h.2.2.1 ▸ (hadm v hv t ht).2⟩)
              · by_cases hsat : (acc.1.hist v).is_saturated = true
                · rw [replayUse_saturated _ _ _ _ hsat]; exact h.2.2.1
                · exact ((replayUse_step bfs _ acc v (h.1.hist_len ▸ hv1)
                    (by simpa using hsat)).since).trans h.2.2.1
              · rcases replayUse_kept bfs _ acc v w hw with h1 | h1
                · exact h.2.2.2.2 w h1
                · exact h1 ▸ hv)
          exact huses _ f _ this.2.1 (fun v hv => by rw [this.2.2.2.1]; exact this.2.2.2.2 v hv)
  unfold propagate
  have := foldl_inv (fun s2 => FlowShape bfs s2 ∧ K s2) (propagateFilter bfs)
    (List.range bfs.filter_filters.length) s ⟨hs, hk⟩
    (fun s2 f _ h => hfilter s2 f h.1 h.2)
  exact hclear _ this.1 this.2

theorem Live.li_mono {adj : Adjacency} {purged : List Nat} {s s2 : State} {u : Nat}
    (hvis : ∀ m, s.visited m = true → s2.visited m = true) (h : Live adj purged s u) :
    Live adj purged s2 u := by
  rcases h with h | h
  · exact Or.inl h
  · exact Or.inr ⟨hvis _ h.1, h.2⟩

theorem Fed.fe_mono {adj : Adjacency} {purged : List Nat} {s s2 : State} {v : Nat}
    (hg : HistGrows s s2) (hvis : ∀ m, s.visited m = true → s2.visited m = true)
    (h : Fed adj purged s v) : Fed adj purged s2 v := by
  obtain ⟨u, hu, h1⟩ := h
  refine ⟨u, hu, ?_⟩
  rcases h1 with h1 | h1
  · exact Or.inl h1
  · exact Or.inr ⟨hg u h1.1, h1.2.li_mono hvis⟩

/-- The general transfer of the invariant along a step. -/
theorem GateInv.ga_step {adj : Adjacency} {purged : List Nat} {s s2 : State}
    (hk : GateInv adj purged s) (hg : HistGrows s s2)
    (hvis : ∀ m, s.visited m = true → s2.visited m = true)
    (hrec : ∀ v, (s2.hist v).recorded ≠ [] → (s.hist v).recorded ≠ [] ∨ Fed adj purged s2 v)
    (huses : ∀ f v, v ∈ s2.saturation_uses_by_filter.getD f [] →
      v ∈ s.saturation_uses_by_filter.getD f [] ∨ Fed adj purged s2 v)
    (hq : ∀ u ∈ s2.typeflow_worklist, u ∈ s.typeflow_worklist ∨
      (Live adj purged s2 u ∧ (s2.hist u).recorded ≠ [])) :
    GateInv adj purged s2 := by
  refine ⟨fun v hv => ?_, fun f v hv => ?_, fun u hu => ?_⟩
  · rcases hrec v hv with h | h
    · exact (hk.recorded v h).fe_mono hg hvis
    · exact h
  · rcases huses f v hv with h | h
    · exact (hk.uses f v h).fe_mono hg hvis
    · exact h
  · rcases hq u hu with h | h
    · exact ⟨(hk.queued u h).1.li_mono hvis, hg u (hk.queued u h).2⟩
    · exact h

theorem GateInv.ga_frame {adj : Adjacency} {purged : List Nat} {s s2 : State}
    (hk : GateInv adj purged s) (h1 : s2.methodPart = s.methodPart)
    (h2 : s2.typeflow_visited = s.typeflow_visited)
    (h3 : s2.typeflow_worklist = s.typeflow_worklist)
    (h4 : s2.saturation_uses_by_filter = s.saturation_uses_by_filter) :
    GateInv adj purged s2 :=
  hk.ga_step (HistGrows.of_eq h2)
    (fun m hm => by rw [State.visited_of_methodPart h1]; exact hm)
    (fun v hv => Or.inl (by unfold State.hist at *; rw [← h2]; exact hv))
    (fun f v hv => Or.inl (by rw [← h4]; exact hv))
    (fun u hu => Or.inl (h3 ▸ hu))

/-- A record step into a fed typeflow keeps the invariant. -/
theorem GateInv.ga_record {adj : Adjacency} {purged : List Nat} {s s2 : State}
    (hk : GateInv adj purged s) (v : Nat) (skip : Nat → Bool) (d : Nat) (l : List Nat)
    (g : Bool) (hv : (s.hist v).Valid) (hl : ∀ t ∈ l, skip t = false → t ≠ type_max)
    (hstep : RecordStep s s2 v (flowLoop skip d l (s.hist v) false)
      ((flowLoop skip d l (s.hist v) false).2 && g))
    (hgate : g = true → Live adj purged s v) (hfed : Fed adj purged s v)
    (huses : ∀ f w, w ∈ s2.saturation_uses_by_filter.getD f [] →
      w ∈ s.saturation_uses_by_filter.getD f [] ∨ w = v) : GateInv adj purged s2 := by
  have hg : HistGrows s s2 := by
    intro u hu
    by_cases huv : u = v
    · subst huv
      rw [hstep.hist_self]
      exact flowLoop_nonempty_mono _ _ _ _ _ hv hu
    · rw [hstep.hist_other u huv]; exact hu
  have hvis : ∀ m, s.visited m = true → s2.visited m = true := fun m hm => by
    rw [State.visited_of_methodPart hstep.methodPart]; exact hm
  have hfed2 : Fed adj purged s2 v := hfed.fe_mono hg hvis
  refine hk.ga_step hg hvis (fun w hw => ?_) (fun f w hw => ?_) (fun u hu => ?_)
  · by_cases hwv : w = v
    · exact Or.inr (hwv ▸ hfed2)
    · rw [hstep.hist_other w hwv] at hw; exact Or.inl hw
  · rcases huses f w hw with h | h
    · exact Or.inl h
    · exact Or.inr (h ▸ hfed2)
  · rw [hstep.worklist] at hu
    split at hu
    · rename_i hc
      rcases List.mem_append.1 hu with h | h
      · exact Or.inl h
      · right
        have : u = v := by simpa using h
        subst this
        simp only [Bool.and_eq_true] at hc
        refine ⟨(hgate hc.2).li_mono hvis, ?_⟩
        rw [hstep.hist_self]
        exact flowLoop_flag_nonempty skip d l _ hv hl hc.1
    · exact Or.inl hu

theorem gateOpen_live {adj : Adjacency} {purged : List Nat} {s : State}
    (hq : QueueInv adj purged s) (v : Nat) (h : gateOpen adj s v = true) :
    Live adj purged s v := by
  unfold gateOpen at h
  have hne : s.history (adj.flow v).method.dependent ≠ u8_max := by simpa using h
  exact hq.dequeued _ hne

theorem GateInv.ga_wake {adj : Adjacency} {purged : List Nat} {s : State}
    (hk : GateInv adj purged s) (hq : QueueInv adj purged s) (hp : PurgeInv adj purged s)
    (hval : ∀ u, (s.hist u).Valid) (ha : adj.dependentsAgree) (u v : Nat)
    (hu : u ∈ s.method_worklist) (hv : v ∈ (adj.method u).dependent_typeflows) :
    GateInv adj purged (wakeDependent s v) := by
  have hmp := wakeDependent_methodPart s v
  have hfp := wakeDependent_flowPart s v
  refine hk.ga_step (HistGrows.of_eq (State.flowPart_hists hfp))
    (fun m hm => by rw [State.visited_of_methodPart hmp]; exact hm)
    (fun w hw => Or.inl (by rw [State.flowPart_hist hfp] at hw; exact hw))
    (fun f w hw => Or.inl (by rw [State.flowPart_uses hfp] at hw; exact hw))
    (fun w hw => ?_)
  rcases State.pushIf_worklist_cases s _ v w hw with h | ⟨h1, h2⟩
  · exact Or.inl h
  · right
    subst h1
    have hwait := hq.waiting u (Or.inl hu)
    have hdep := ha u hwait.1 w hv
    constructor
    · by_cases h0 : u = 0
      · exact Or.inl (hdep.trans h0)
      · right
        rw [hdep, State.visited_of_methodPart hmp]
        refine ⟨hwait.2, fun hpu => ?_⟩
        rcases hp.worklists u (Or.inl hu) hpu with h | h
        · exact h0 h
        · omega
    · rw [State.flowPart_hist hfp]
      exact ((hval w).any_iff).1 h2

theorem GateInv.ga_layer {bfs : BFS} {purged : List Nat} {s : State}
    (hw : bfs.adj.wf) (ha : bfs.adj.dependentsAgree)
    (hk : GateInv bfs.adj purged s) (hq : QueueInv bfs.adj purged s)
    (hp : PurgeInv bfs.adj purged s) (hlen : s.method_visited.length = bfs.adj.n_methods)
    (hs : FlowShape bfs s) : GateInv bfs.adj purged (methodLayer bfs.adj s) := by
  have h1 := methodFold_inv_mem
    (fun s1 => GateInv bfs.adj purged s1 ∧ QueueInv bfs.adj purged s1 ∧
      PurgeInv bfs.adj purged s1 ∧ s1.method_visited.length = bfs.adj.n_methods ∧
      FlowShape bfs s1)
    bfs.adj s ⟨hk, hq, hp, hlen, hs⟩
    (fun s1 u hu h => ⟨h.1.ga_step (HistGrows.refl _) (fun m hm => hm) (fun v hv => Or.inl hv)
      (fun f v hv => Or.inl hv) (fun x hx => Or.inl hx), h.2.1.qu_record h.2.2.1 u hu,
      h.2.2.1.pu_record u hu, h.2.2.2.1, FlowShape.fs_of_flowPart (s := s1) rfl h.2.2.2.2⟩)
    (fun s1 u v hv hu h => ⟨h.1.ga_wake h.2.1 h.2.2.1 h.2.2.2.2.valid ha u v hu hv,
      QueueInv.qu_of_methodPart (wakeDependent_methodPart s1 v) h.2.1,
      PurgeInv.pu_of_methodPart (wakeDependent_methodPart s1 v) h.2.2.1,
      (State.methodPart_visited (wakeDependent_methodPart s1 v)) ▸ h.2.2.2.1,
      FlowShape.fs_of_flowPart (wakeDependent_flowPart s1 v) h.2.2.2.2⟩)
    (fun s1 u v hv hu h => ⟨h.1.ga_step
        (HistGrows.of_eq (State.flowPart_hists (visitMethod_flowPart s1 v)))
        (fun m hm => visitMethod_mono s1 v m hm)
        (fun w hw => Or.inl (by rw [State.flowPart_hist (visitMethod_flowPart s1 v)] at hw; exact hw))
        (fun f w hw => Or.inl (by rw [State.flowPart_uses (visitMethod_flowPart s1 v)] at hw; exact hw))
        (fun x hx => Or.inl (by rw [visitMethod_typeflow_worklist] at hx; exact hx)),
      h.2.1.qu_visit h.2.2.2.1 v (hw.method_edge u v hv), h.2.2.1.pu_visit v,
      (visitMethod_visited_len s1 v).trans h.2.2.2.1,
      FlowShape.fs_of_flowPart (visitMethod_flowPart s1 v) h.2.2.2.2⟩)
  unfold methodLayer
  exact h1.1.ga_step (HistGrows.refl _) (fun m hm => hm) (fun v hv => Or.inl hv)
    (fun f v hv => Or.inl hv) (fun x hx => Or.inl hx)

theorem GateInv.ga_bump {adj : Adjacency} {purged : List Nat} {s : State} (dm : Bool)
    (hk : GateInv adj purged s) : GateInv adj purged (bumpDist dm s) := by
  obtain ⟨e1, _, _, _, e5⟩ := bumpDist_fields dm s
  have hfp := bumpDist_flowPart dm s
  exact hk.ga_step (HistGrows.of_eq (State.flowPart_hists hfp))
    (fun m hm => by unfold State.visited at *; rw [e1]; exact hm)
    (fun w hw => Or.inl (by rw [State.flowPart_hist hfp] at hw; exact hw))
    (fun f w hw => Or.inl (by rw [State.flowPart_uses hfp] at hw; exact hw))
    (fun x hx => Or.inl (e5 ▸ hx))

theorem Live.li_of_methodPart {adj : Adjacency} {purged : List Nat} {s s2 : State} {u : Nat}
    (h1 : s2.methodPart = s.methodPart) (h : Live adj purged s u) : Live adj purged s2 u :=
  h.li_mono (fun m hm => by rw [State.visited_of_methodPart h1]; exact hm)

theorem GateInv.ga_flowEdge {bfs : BFS} {purged : List Nat} {s : State} (hc : bfs.Canonical)
    (hs : FlowShape bfs s) (hk : GateInv bfs.adj purged s) (hq : QueueInv bfs.adj purged s)
    (u v : Nat) (hv : v ∈ (bfs.adj.flow u).forward_edges) (hu : (s.hist u).recorded ≠ [])
    (hlive : Live bfs.adj purged s u) : GateInv bfs.adj purged (flowEdge bfs u s v) := by
  have hvlt := hc.wf.flow_edge u v hv
  unfold flowEdge
  have hs1 := hs.fs_feedInstantiated hc u v
  have hmp1 := feedInstantiated_methodPart bfs u s v
  have hk1 : GateInv bfs.adj purged (feedInstantiated bfs u s v) :=
    hk.ga_frame hmp1 (feedInstantiated_hists bfs u s v) (feedInstantiated_worklist bfs u s v)
      (feedInstantiated_uses bfs u s v).1
  by_cases hsat : ((feedInstantiated bfs u s v).hist v).is_saturated = true
  · rw [flowInto_saturated _ _ _ _ hsat]; exact hk1
  · refine hk1.ga_record v _ _ _ _ (hs1.valid v)
      (fun t ht _ => (hs1.valid u).recorded_ne_max t ht)
      (flowInto_step bfs u _ v (hs1.hist_len ▸ hvlt) (by simpa using hsat))
      (fun hg => gateOpen_live (QueueInv.qu_of_methodPart hmp1 hq) v hg)
      ⟨u, hv, Or.inr ⟨by rw [feedInstantiated_hist]; exact hu, hlive.li_of_methodPart hmp1⟩⟩
      (fun f w hw => Or.inl (by rw [(flowInto_uses bfs u _ v).1] at hw; exact hw))

theorem GateInv.ga_saturatedEdge {bfs : BFS} {purged : List Nat} {s s1 : State}
    (hc : bfs.Canonical) (hs : FlowShape bfs s) (hk : GateInv bfs.adj purged s)
    (hq : QueueInv bfs.adj purged s) (fuel u v : Nat)
    (hv : v ∈ (bfs.adj.flow u).forward_edges) (hu : (s.hist u).recorded ≠ [])
    (hlive : Live bfs.adj purged s u) (hr : saturatedEdge bfs fuel s v = some s1) :
    GateInv bfs.adj purged s1 := by
  have hvlt := hc.wf.flow_edge u v hv
  by_cases hskip : (s.hist v).is_saturated = true ∨
      s.included_in_saturation_uses.getD v false = true
  · rw [saturatedEdge_skip bfs fuel s v s1 hskip hr]; exact hk
  · have h1 : (s.hist v).is_saturated = false := by
      by_contra hc1; exact hskip (Or.inl (by simpa using hc1))
    have h2 : s.included_in_saturation_uses.getD v false = false := by
      by_contra hc1; exact hskip (Or.inr (by simpa using hc1))
    refine hk.ga_record v _ _ _ _ (hs.valid v)
      (fun t ht _ => lt_types_ne_max hc t ((mem_membersFrom _ _ _ _).1 ht).2.1)
      (saturatedEdge_step hc fuel s v hvlt (hs.hist_len ▸ hvlt) s1 h1 h2 hr)
      (fun hg => gateOpen_live hq v hg) ⟨u, hv, Or.inr ⟨hu, hlive⟩⟩ (fun f w hw => ?_)
    rw [(saturatedEdge_uses bfs fuel s v s1 (hs.hist_len ▸ hvlt) h1 h2 hr).2] at hw
    split at hw
    · exact Or.inl hw
    · rw [getD_set] at hw
      split at hw
      · rename_i hf
        rcases List.mem_append.1 hw with h | h
        · exact Or.inl (hf.1 ▸ h)
        · exact Or.inr (by simpa using h)
      · exact Or.inl hw

theorem GateInv.ga_pop {bfs : BFS} {purged : List Nat} {s s1 : State} (hc : bfs.Canonical)
    (hs : FlowShape bfs s) (hk : GateInv bfs.adj purged s) (hq : QueueInv bfs.adj purged s)
    (hlen : s.method_visited.length = bfs.adj.n_methods)
    (fuel u : Nat) (rest : List Nat) (hw : s.typeflow_worklist = u :: rest)
    (hr : processTypeflow bfs fuel (popTypeflow s rest) u = some s1) :
    GateInv bfs.adj purged s1 := by
  have hu := hk.queued u (by rw [hw]; exact List.mem_cons_self _ _)
  have hvis : ∀ m, s.visited m = true →
      (reachMethod (popTypeflow s rest) (bfs.adj.flow u).method.reaching).visited m = true :=
    fun m hm => reachMethod_mono (popTypeflow s rest) _ m hm
  have hfp : (reachMethod (popTypeflow s rest) (bfs.adj.flow u).method.reaching).flowPart =
      s.flowPart := reachMethod_flowPart _ _
  have hk0 : GateInv bfs.adj purged
      (reachMethod (popTypeflow s rest) (bfs.adj.flow u).method.reaching) :=
    hk.ga_step (HistGrows.of_eq (State.flowPart_hists hfp)) hvis
      (fun w hw1 => Or.inl (by rw [State.flowPart_hist hfp] at hw1; exact hw1))
      (fun f w hw1 => Or.inl (by rw [State.flowPart_uses hfp] at hw1; exact hw1))
      (fun x hx => Or.inl (by
        rw [reachMethod_typeflow_worklist] at hx
        rw [hw]; exact List.mem_cons_of_mem _ hx))
  have hq0 : QueueInv bfs.adj purged
      (reachMethod (popTypeflow s rest) (bfs.adj.flow u).method.reaching) :=
    (show QueueInv bfs.adj purged (popTypeflow s rest) from
      QueueInv.qu_of_methodPart (show (popTypeflow s rest).methodPart = s.methodPart from rfl)
        hq).qu_reach hlen _ (hc.wf.reaching_lt u)
  have hl0 : Live bfs.adj purged
      (reachMethod (popTypeflow s rest) (bfs.adj.flow u).method.reaching) u :=
    hu.1.li_mono hvis
  have hne : ((popTypeflow s rest).hist u).recorded ≠ [] := hu.2
  have := processTypeflow_inv hc
    (fun s2 => GateInv bfs.adj purged s2 ∧ QueueInv bfs.adj purged s2 ∧
      Live bfs.adj purged s2 u) fuel (popTypeflow s rest) u s1 hr
    (FlowShape.fs_of_flowPart (s := s) rfl hs) ⟨hk0, hq0, hl0⟩
    (fun s2 v hv hs2 h he _ => ⟨h.1.ga_flowEdge hc hs2 h.2.1 u v hv (he ▸ hne) h.2.2,
      QueueInv.qu_of_methodPart (flowEdge_methodPart bfs u s2 v) h.2.1,
      h.2.2.li_of_methodPart (flowEdge_methodPart bfs u s2 v)⟩)
    (fun s2 v s3 hv hs2 h he _ h3 =>
      ⟨h.1.ga_saturatedEdge hc hs2 h.2.1 fuel u v hv (he ▸ hne) h.2.2 h3,
        QueueInv.qu_of_methodPart (saturatedEdge_methodPart bfs fuel s2 v s3 h3) h.2.1,
        h.2.2.li_of_methodPart (saturatedEdge_methodPart bfs fuel s2 v s3 h3)⟩)
  exact this.1

theorem GateInv.ga_propagate {bfs : BFS} {purged : List Nat} {s : State} (hc : bfs.Canonical)
    (hs : FlowShape bfs s) (hk : GateInv bfs.adj purged s) (hq : QueueInv bfs.adj purged s) :
    GateInv bfs.adj purged (propagate bfs s) := by
  have := propagate_inv_mem hc
    (fun s2 => GateInv bfs.adj purged s2 ∧ QueueInv bfs.adj purged s2) s hs ⟨hk, hq⟩
    (fun s2 f l h hl => ⟨h.1.ga_step (HistGrows.refl _) (fun m hm => hm)
      (fun v hv => Or.inl hv)
      (fun f1 v hv => Or.inl (by
        have hv1 : v ∈ (s2.saturation_uses_by_filter.set f l).getD f1 [] := hv
        rw [getD_set] at hv1
        split at hv1
        · rename_i hf; exact hf.1 ▸ hl v hv1
        · exact hv1))
      (fun x hx => Or.inl hx),
      QueueInv.qu_of_methodPart (State.setUses_methodPart s2 f l) h.2⟩)
    (fun s2 v filtered kept f hs2 h hv hmem hns hf =>
      ⟨h.1.ga_record v _ _ _ _ (hs2.valid v)
        (fun t ht _ => lt_types_ne_max hc t (hs2.fs_since_lt t (hf t ht).2))
        (replayUse_step bfs filtered (s2, kept) v (hs2.hist_len ▸ hv) hns)
        (fun hg => gateOpen_live h.2 v hg) (h.1.uses f v hmem)
        (fun f1 w hw => Or.inl (by
          rw [(replayUse_uses bfs filtered (s2, kept) v).1] at hw; exact hw)),
        QueueInv.qu_of_methodPart (replayUse_methodPart bfs filtered (s2, kept) v) h.2⟩)
    (fun s2 _ h => ⟨h.1.ga_frame rfl rfl rfl rfl,
      QueueInv.qu_of_methodPart (clearInstantiated_methodPart s2) h.2⟩)
  exact this.1

theorem GateInv.ga_phased {bfs : BFS} (hc : bfs.Canonical) (ha : bfs.adj.dependentsAgree)
    (purged : List Nat) (dm : Bool) :
    Phased bfs dm (fun p s => Base2 bfs purged p s ∧ GateInv bfs.adj purged s) :=
  (Base2.b2_phased hc purged dm).extend (fun _ s => GateInv bfs.adj purged s)
    (fun _ hb hk _ => hk.ga_layer hc.wf ha hb.2 hb.1.ba_purgeInv hb.1.ba_closedInv.visited_len
      hb.1.ba_flowShape)
    (fun _ _ hb hk _ => hk.ga_layer hc.wf ha hb.2 hb.1.ba_purgeInv
      hb.1.ba_closedInv.visited_len hb.1.ba_flowShape)
    (fun _ _ hk _ => hk.ga_bump dm)
    (fun fuel _ u rest _ hb hk hw hr => hk.ga_pop hc hb.1.ba_flowShape hb.2
      hb.1.ba_closedInv.visited_len fuel u rest hw hr)
    (fun _ hb hk _ _ _ => hk.ga_propagate hc hb.1.ba_flowShape hb.2) (fun _ _ hk _ _ => hk)

theorem GateInv.ga_start (bfs : BFS) (purged : List Nat) :
    GateInv bfs.adj purged (startState bfs purged) := by
  refine ⟨fun v hv => ?_, fun f v hv => ?_, fun u hu => by simp [startState] at hu⟩
  · rw [startState_hist, recorded_fresh] at hv
    exact absurd rfl hv
  · have : (startState bfs purged).saturation_uses_by_filter.getD f [] = [] :=
      getD_replicate _ _ _
    rw [this] at hv
    simp at hv

theorem GateInv.ga_init {bfs : BFS} (hc : bfs.Canonical) (purged : List Nat) (fuel : Nat)
    (s0 : State) (h0 : initState bfs purged fuel = some s0) : GateInv bfs.adj purged s0 := by
  unfold initState at h0
  have := forM_opt_inv (fun s => FlowShape bfs s ∧ GateInv bfs.adj purged s)
    (whiteHoleStep bfs fuel) (bfs.adj.flow 0).forward_edges (startState bfs purged) s0
    ⟨FlowShape.fs_start bfs purged, GateInv.ga_start bfs purged⟩
    (fun s v s1 hv h h1 => ⟨h.1.fs_whiteHoleStep hc fuel v (hc.wf.flow_edge 0 v hv) h1,
      h.2.ga_record v _ _ _ _ (h.1.valid v)
        (fun t ht _ => lt_types_ne_max hc t ((mem_membersFrom _ _ _ _).1 ht).2.1)
        (whiteHoleStep_step hc fuel s v (hc.wf.flow_edge 0 v hv)
          (h.1.hist_len ▸ hc.wf.flow_edge 0 v hv) s1 h1)
        (fun hg => Or.inl (by simpa using hg)) ⟨0, hv, Or.inl rfl⟩
        (fun f w hw => Or.inl (by
          rw [(whiteHoleStep_uses bfs fuel s v s1 h1).1] at hw; exact hw))⟩) h0
  exact this.2

theorem solve_gateInv {bfs : BFS} (hc : bfs.Canonical) (ha : bfs.adj.dependentsAgree)
    (purged : List Nat) (dm : Bool) (fuel : Nat) (s : State)
    (hr : solve bfs purged dm fuel = some s) :
    GateInv bfs.adj purged s ∧ FlowShape bfs s :=
  have h := (solve_phased (GateInv.ga_phased hc ha purged dm) purged fuel
    (fun s0 h0 => ⟨Base2.b2_init hc purged fuel s0 h0, GateInv.ga_init hc purged fuel s0 h0⟩) s
    hr).1
  ⟨h.2, h.1.1.ba_flowShape⟩

theorem foldl_set_getD (d : Nat) (l : List Nat) : ∀ (h : List Nat) (m x : Nat),
    (l.foldl (fun h u => h.set u d) h).getD m x =
      if m ∈ l ∧ m < h.length then d else h.getD m x := by
  induction l with
  | nil => intro h m x; simp
  | cons p ps ih =>
    intro h m x
    rw [List.foldl_cons, ih, List.length_set]
    by_cases h1 : m ∈ ps ∧ m < h.length
    · rw [if_pos h1, if_pos ⟨List.mem_cons_of_mem _ h1.1, h1.2⟩]
    · rw [if_neg h1, getD_set]
      by_cases h2 : p = m ∧ p < h.length
      · rw [if_pos h2, if_pos ⟨h2.1 ▸ List.mem_cons_self _ _, h2.1 ▸ h2.2⟩]
      · rw [if_neg h2, if_neg]
        rintro ⟨h3, h4⟩
        rcases List.mem_cons.1 h3 with h5 | h5
        · exact h2 ⟨h5.symm, h5 ▸ h4⟩
        · exact h1 ⟨h5, h4⟩

theorem methodBody_history (adj : Adjacency) (s : State) (u : Nat) :
    (methodBody adj s u).method_history = s.method_history.set u s.dist ∧
    (methodBody adj s u).dist = s.dist := by
  unfold methodBody
  constructor
  · rw [foldl_field (fun s => s.method_history) visitMethod visitMethod_history,
      foldl_field (fun s => s.method_history) wakeDependent
        (fun s1 v => State.methodPart_history (wakeDependent_methodPart s1 v))]
    rfl
  · rw [foldl_field (fun s => s.dist) visitMethod visitMethod_dist,
      foldl_field (fun s => s.dist) wakeDependent
        (fun s1 v => State.methodPart_dist (wakeDependent_methodPart s1 v))]
    rfl

theorem methodFold_history (adj : Adjacency) (l : List Nat) : ∀ s : State,
    (l.foldl (methodBody adj) s).method_history =
      l.foldl (fun h u => h.set u s.dist) s.method_history ∧
    (l.foldl (methodBody adj) s).dist = s.dist := by
  induction l with
  | nil => intro s; exact ⟨rfl, rfl⟩
  | cons u us ih =>
    intro s
    rw [List.foldl_cons, List.foldl_cons]
    obtain ⟨h1, h2⟩ := ih (methodBody adj s u)
    rw [h1, h2, (methodBody_history adj s u).1, (methodBody_history adj s u).2]
    exact ⟨rfl, rfl⟩

/-- The distance vector after a layer: the methods of the worklist get the current distance. -/
theorem methodLayer_history (adj : Adjacency) (s : State) (m : Nat) :
    (methodLayer adj s).history m =
      if m ∈ s.method_worklist ∧ m < s.method_history.length then s.dist else s.history m := by
  unfold methodLayer State.history
  show (s.method_worklist.foldl (methodBody adj) s).method_history.getD m u8_max = _
  rw [(methodFold_history adj s.method_worklist s).1, foldl_set_getD]

theorem methodLayer_dist (adj : Adjacency) (s : State) : (methodLayer adj s).dist = s.dist :=
  (methodFold_history adj s.method_worklist s).2

theorem methodLayer_history_len (adj : Adjacency) (s : State) :
    (methodLayer adj s).method_history.length = s.method_history.length := by
  unfold methodLayer
  show (s.method_worklist.foldl (methodBody adj) s).method_history.length = _
  rw [(methodFold_history adj s.method_worklist s).1]
  exact foldl_set_length _ _ _

/-- The methods of the new worklist were not marked before the layer. -/
theorem methodLayer_new (adj : Adjacency) (s : State) (hn : s.next_method_worklist = [])
    (m : Nat) (hm : m ∈ (methodLayer adj s).method_worklist) : s.visited m = false := by
  have h1 := methodFold_inv
    (fun s1 => (∀ x, s.visited x = true → s1.visited x = true) ∧
      ∀ x ∈ s1.next_method_worklist, s.visited x = false) adj s
    ⟨fun x hx => hx, fun x hx => by rw [hn] at hx; simp at hx⟩
    (fun s1 u _ h => h)
    (fun s1 u v _ h => ⟨fun x hx => by
        rw [State.visited_of_methodPart (wakeDependent_methodPart s1 v)]; exact h.1 x hx,
      fun x hx => by
        rw [State.methodPart_next (wakeDependent_methodPart s1 v)] at hx; exact h.2 x hx⟩)
    (fun s1 u v _ h => ⟨fun x hx => visitMethod_mono s1 v x (h.1 x hx), fun x hx => by
      rcases visitMethod_next s1 v x hx with h2 | ⟨h2, h3⟩
      · exact h.2 x h2
      · subst h2
        by_contra hc
        have := h.1 x (by simpa using hc)
        rw [h3] at this
        exact Bool.false_ne_true this⟩)
  exact h1.2 m hm

/-- A method marked by a layer is in the new worklist. -/
theorem methodLayer_marks (adj : Adjacency) (s : State) (m : Nat) (hm : (methodLayer adj s).visited m = true) :
    s.visited m = true ∨ m ∈ (methodLayer adj s).method_worklist := by
  have h1 := methodFold_inv
    (fun s1 => ∀ x, s1.visited x = true → s.visited x = true ∨ x ∈ s1.next_method_worklist)
    adj s (fun x hx => Or.inl hx)
    (fun s1 u _ h => h)
    (fun s1 u v _ h => fun x hx => by
      rw [State.visited_of_methodPart (wakeDependent_methodPart s1 v)] at hx
      rw [State.methodPart_next (wakeDependent_methodPart s1 v)]
      exact h x hx)
    (fun s1 u v _ h => fun x hx => by
      rw [visitMethod_visited] at hx
      by_cases hold : s1.visited x = true
      · rcases h x hold with h2 | h2
        · exact Or.inl h2
        · exact Or.inr (visitMethod_next_sub s1 v x h2)
      · have hold' : s1.visited x = false := by simpa using hold
        rw [hold', Bool.false_or] at hx
        have hvx : v = x := (of_decide_eq_true hx).1
        subst hvx
        exact Or.inr (visitMethod_next_mem s1 v hold'))
  exact h1 m hm

theorem distCount_le (n : Nat) (s : State) : distCount n s ≤ n := by
  unfold distCount
  exact (Finset.card_filter_le _ _).trans (by rw [Finset.card_range])

theorem distCount_mono (n : Nat) (s s2 : State)
    (h : ∀ m, m < n → s.history m ≠ u8_max → s2.history m ≠ u8_max) :
    distCount n s ≤ distCount n s2 := by
  unfold distCount
  apply Finset.card_le_card
  intro m hm
  rw [Finset.mem_filter] at hm ⊢
  exact ⟨hm.1, h m (Finset.mem_range.1 hm.1) hm.2⟩

theorem distCount_lt (n : Nat) (s s2 : State)
    (h : ∀ m, m < n → s.history m ≠ u8_max → s2.history m ≠ u8_max) (u : Nat) (hu : u < n)
    (h1 : s.history u = u8_max) (h2 : s2.history u ≠ u8_max) :
    distCount n s < distCount n s2 := by
  unfold distCount
  apply Finset.card_lt_card
  rw [Finset.ssubset_iff_of_subset]
  · exact ⟨u, Finset.mem_filter.2 ⟨Finset.mem_range.2 hu, h2⟩,
      fun hc => (Finset.mem_filter.1 hc).2 h1⟩
  · intro m hm
    rw [Finset.mem_filter] at hm ⊢
    exact ⟨hm.1, h m (Finset.mem_range.1 hm.1) hm.2⟩

theorem Counted.co_of_methodPart {adj : Adjacency} {s s1 : State} {k : Nat}
    (h : s1.methodPart = s.methodPart) (hs : Counted adj s k) : Counted adj s1 k := by
  have hh : ∀ m, s1.history m = s.history m := State.history_of_methodPart h
  refine ⟨?_, fun m hm hm0 => ?_⟩
  · rw [State.methodPart_dist h]
    exact hs.bound.trans (distCount_mono _ _ _ (fun m _ hm => by rw [hh]; exact hm))
  · rw [State.methodPart_worklist h] at hm
    rw [hh]; exact hs.unset m hm hm0

theorem spare_head (s : State) :
    spare Phase.head s = if 0 ∈ s.method_worklist then 1 else 0 := rfl

theorem spare_le (p : Phase) (s : State) : spare p s ≤ 1 := by
  cases p with
  | head => rw [spare_head]; split <;> omega
  | methods => exact Nat.le_refl 1
  | flows => exact Nat.zero_le 1

/-- The counter is below the sentinel when there are fewer than 255 methods. -/
theorem NoWrap.nw_dist_lt {adj : Adjacency} {dm : Bool} {p : Phase} {s : State}
    (hn : dm = true → adj.n_methods < 255) (h : NoWrap adj dm p s) : s.dist + spare p s < 255 := by
  cases dm with
  | false =>
    have h1 := h.1 rfl
    have h2 := spare_le p s
    omega
  | true =>
    have h1 := (h.2 rfl).bound
    have h2 := distCount_le adj.n_methods s
    have h3 := hn rfl
    omega

theorem NoWrap.nw_dist_ne {adj : Adjacency} {dm : Bool} {p : Phase} {s : State}
    (hn : dm = true → adj.n_methods < 255) (h : NoWrap adj dm p s) : s.dist ≠ u8_max := by
  have := h.nw_dist_lt hn
  unfold u8_max
  omega

theorem NoWrap.nw_relayer {adj : Adjacency} {s : State}
    (h : NoWrap adj false Phase.methods s) :
    NoWrap adj false Phase.methods (methodLayer adj s) :=
  ⟨fun hdm => by rw [methodLayer_dist]; exact h.1 hdm, fun hdm => by simp at hdm⟩

theorem NoWrap.nw_layer {adj : Adjacency} {dm : Bool} {purged : List Nat} {s : State}
    (hn : dm = true → adj.n_methods < 255) (h : NoWrap adj dm Phase.head s)
    (hq : QueueInv adj purged s) (hlen : s.method_history.length = adj.n_methods)
    (hnext : s.next_method_worklist = []) (hne : s.method_worklist ≠ []) :
    NoWrap adj dm Phase.methods (methodLayer adj s) := by
  have hd := h.nw_dist_ne hn
  refine ⟨fun hdm => by rw [methodLayer_dist]; exact h.1 hdm, fun hdm => ?_⟩
  have hc := h.2 hdm
  have hmono : ∀ m, m < adj.n_methods → s.history m ≠ u8_max →
      (methodLayer adj s).history m ≠ u8_max := by
    intro m _ hm
    rw [methodLayer_history]
    split
    · exact hd
    · exact hm
  refine ⟨?_, fun m hm hm0 => ?_⟩
  · rw [methodLayer_dist]
    show s.dist + 1 ≤ _
    have hb : s.dist + (if 0 ∈ s.method_worklist then 1 else 0) ≤ distCount adj.n_methods s :=
      hc.bound
    by_cases h0 : 0 ∈ s.method_worklist
    · rw [if_pos h0] at hb
      exact hb.trans (distCount_mono _ _ _ hmono)
    · rw [if_neg h0] at hb
      obtain ⟨u, hu⟩ := List.exists_mem_of_ne_nil _ hne
      have hu0 : u ≠ 0 := fun hc0 => h0 (hc0 ▸ hu)
      have hult := (hq.waiting u (Or.inl hu)).1
      have hlt := distCount_lt _ s (methodLayer adj s) hmono u hult (hc.unset u hu hu0)
        (by rw [methodLayer_history, if_pos ⟨hu, hlen ▸ hult⟩]; exact hd)
      omega
  · have hv := methodLayer_new adj s hnext m hm
    rw [methodLayer_history]
    have hnot : ¬ (m ∈ s.method_worklist ∧ m < s.method_history.length) := by
      rintro ⟨h1, _⟩
      have := (hq.waiting m (Or.inl h1)).2
      rw [hv] at this
      exact Bool.false_ne_true this
    rw [if_neg hnot]
    by_contra hc1
    rcases hq.dequeued m hc1 with h1 | h1
    · exact hm0 h1
    · rw [hv] at h1
      exact Bool.false_ne_true h1.1

theorem NoWrap.nw_bump {adj : Adjacency} {dm : Bool} {s : State}
    (hn : dm = true → adj.n_methods < 255)
    (h : NoWrap adj dm Phase.methods s) : NoWrap adj dm Phase.flows (bumpDist dm s) := by
  have hlt := h.nw_dist_lt hn
  have hsp : spare Phase.methods s = 1 := rfl
  rw [hsp] at hlt
  obtain ⟨_, e2, e3, _, _⟩ := bumpDist_fields dm s
  refine ⟨fun hdm => ?_, fun hdm => ?_⟩
  · subst hdm; exact h.1 rfl
  · subst hdm
    have hc := h.2 rfl
    have hb : s.dist + 1 ≤ distCount adj.n_methods s := hc.bound
    have hdist : (bumpDist true s).dist = s.dist + 1 := by
      show (s.dist + 1) % 256 = s.dist + 1
      exact Nat.mod_eq_of_lt (by omega)
    have hh : ∀ m, (bumpDist true s).history m = s.history m := fun m => by
      unfold State.history; rw [e2]
    refine ⟨?_, fun m hm hm0 => ?_⟩
    · show (bumpDist true s).dist + 0 ≤ _
      rw [hdist]
      exact hb.trans (distCount_mono _ _ _ (fun m _ hm => by rw [hh]; exact hm))
    · rw [e3] at hm
      rw [hh]; exact hc.unset m hm hm0

theorem NoWrap.nw_of_methodPart {adj : Adjacency} {dm : Bool} {s s1 : State}
    (hmp : s1.methodPart = s.methodPart) (h : NoWrap adj dm Phase.flows s) :
    NoWrap adj dm Phase.flows s1 :=
  ⟨fun hdm => by rw [State.methodPart_dist hmp]; exact h.1 hdm,
    fun hdm => (h.2 hdm).co_of_methodPart hmp⟩

theorem NoWrap.nw_reach {adj : Adjacency} {dm : Bool} {purged : List Nat} {s : State}
    (h : NoWrap adj dm Phase.flows s) (hq : QueueInv adj purged s) (v : Nat) :
    NoWrap adj dm Phase.flows (reachMethod s v) := by
  have hh : ∀ m, (reachMethod s v).history m = s.history m := fun m => by
    unfold State.history; rw [reachMethod_history]
  refine ⟨fun hdm => by rw [reachMethod_dist]; exact h.1 hdm, fun hdm => ?_⟩
  have hc := h.2 hdm
  refine ⟨?_, fun m hm hm0 => ?_⟩
  · rw [reachMethod_dist]
    exact hc.bound.trans (distCount_mono _ _ _ (fun m _ hm => by rw [hh]; exact hm))
  · rw [hh]
    rcases reachMethod_worklist s v m hm with h1 | ⟨h1, h2⟩
    · exact hc.unset m h1 hm0
    · by_contra hc1
      rcases hq.dequeued m hc1 with h3 | h3
      · exact hm0 h3
      · rw [h1, h2] at h3
        exact Bool.false_ne_true h3.1

theorem NoWrap.nw_exit {adj : Adjacency} {dm : Bool} {s : State}
    (h : NoWrap adj dm Phase.flows s) (h0 : 0 ∉ s.method_worklist) :
    NoWrap adj dm Phase.head s := by
  refine ⟨h.1, fun hdm => ?_⟩
  have hsp : spare Phase.head s = 0 := by rw [spare_head, if_neg h0]
  rw [hsp]
  exact h.2 hdm

theorem NoWrap.nw_start (bfs : BFS) (dm : Bool) (purged : List Nat)
    (hn : 0 < bfs.adj.n_methods) : NoWrap bfs.adj dm Phase.head (startState bfs purged) := by
  refine ⟨fun _ => rfl, fun _ => ⟨?_, fun m hm hm0 => ?_⟩⟩
  · have hsp : spare Phase.head (startState bfs purged) = 1 := by
      rw [spare_head, if_pos (by simp [startState])]
    rw [hsp]
    show 0 + 1 ≤ _
    unfold distCount
    rw [Nat.zero_add, Nat.succ_le_iff, Finset.card_pos]
    refine ⟨0, Finset.mem_filter.2 ⟨Finset.mem_range.2 hn, ?_⟩⟩
    rw [startState_history, if_pos ⟨rfl, hn⟩]
    unfold u8_max; omega
  · have : m = 0 := by simpa [startState] using hm
    exact absurd this hm0

theorem Base3.b3_phased {bfs : BFS} (hc : bfs.Canonical) (purged : List Nat) (dm : Bool)
    (hn : dm = true → bfs.adj.n_methods < 255) : Phased bfs dm (Base3 bfs purged dm) :=
  (Base2.b2_phased hc purged dm).extend (NoWrap bfs.adj dm)
    (fun _ hb hk hne => hk.nw_layer hn hb.2 hb.1.ba_purgeInv.history_len hb.1.2.2.2 hne)
    (fun _ hdm _ hk _ => by subst hdm; exact hk.nw_relayer)
    (fun _ _ hk _ => hk.nw_bump hn)
    (fun fuel s u rest s1 hb hk _ hr =>
      NoWrap.nw_of_methodPart (processTypeflow_methodPart bfs fuel _ u s1 hr)
        ((NoWrap.nw_of_methodPart (show (popTypeflow s rest).methodPart = s.methodPart from rfl)
          hk).nw_reach (QueueInv.qu_of_methodPart
            (show (popTypeflow s rest).methodPart = s.methodPart from rfl) hb.2) _))
    (fun s _ hk _ _ _ => NoWrap.nw_of_methodPart (propagate_methodPart bfs s) hk)
    (fun _ hb hk _ _ => hk.nw_exit hb.1.1.2.2)

theorem Base3.b3_init {bfs : BFS} (hc : bfs.Canonical) (purged : List Nat) (dm : Bool)
    (fuel : Nat) (s0 : State) (h0 : initState bfs purged fuel = some s0) :
    Base3 bfs purged dm Phase.head s0 := by
  refine ⟨Base2.b2_init hc purged fuel s0 h0, ?_⟩
  have hmp := initState_methodPart bfs purged fuel s0 h0
  have hs := NoWrap.nw_start bfs dm purged hc.wf.1
  refine ⟨fun hdm => by rw [State.methodPart_dist hmp]; exact hs.1 hdm, fun hdm => ?_⟩
  have hsp : spare Phase.head s0 = spare Phase.head (startState bfs purged) := by
    rw [spare_head, spare_head, State.methodPart_worklist hmp]
  rw [hsp]
  exact (hs.2 hdm).co_of_methodPart hmp

theorem DoneInv.dn_of_methodPart {purged : List Nat} {s s1 : State}
    (h : s1.methodPart = s.methodPart) (hs : DoneInv purged s) : DoneInv purged s1 := by
  intro m hm hp
  rw [State.visited_of_methodPart h] at hm
  rw [State.methodPart_worklist h, State.history_of_methodPart h]
  exact hs m hm hp

theorem DoneInv.dn_layer {adj : Adjacency} {purged : List Nat} {s : State}
    (hs : DoneInv purged s) (hd : s.dist ≠ u8_max) (hq : QueueInv adj purged s)
    (hlen : s.method_history.length = adj.n_methods) :
    DoneInv purged (methodLayer adj s) := by
  intro m hm hp
  rcases methodLayer_marks adj s m hm with h | h
  · right
    rw [methodLayer_history]
    split
    · exact hd
    · rename_i hnot
      rcases hs m h hp with h1 | h1
      · exact absurd ⟨h1, hlen ▸ (hq.waiting m (Or.inl h1)).1⟩ hnot
      · exact h1
  · exact Or.inl h

theorem DoneInv.dn_bump {purged : List Nat} {s : State} (dm : Bool) (hs : DoneInv purged s) :
    DoneInv purged (bumpDist dm s) := by
  obtain ⟨e1, e2, e3, _, _⟩ := bumpDist_fields dm s
  intro m hm hp
  unfold State.visited at hm
  rw [e1] at hm
  unfold State.history
  rw [e2, e3]
  exact hs m hm hp

theorem DoneInv.dn_reach {purged : List Nat} {s : State} (hs : DoneInv purged s) (v : Nat) :
    DoneInv purged (reachMethod s v) := by
  intro m hm hp
  unfold State.history
  rw [reachMethod_history]
  rw [reachMethod_visited] at hm
  by_cases hold : s.visited m = true
  · rcases hs m hold hp with h | h
    · exact Or.inl (reachMethod_worklist_sub s v m h)
    · exact Or.inr h
  · have hold' : s.visited m = false := by simpa using hold
    rw [hold', Bool.false_or] at hm
    have hvm : v = m := (of_decide_eq_true hm).1
    subst hvm
    exact Or.inl (reachMethod_worklist_mem s v hold')

theorem DoneInv.dn_start (bfs : BFS) (purged : List Nat) :
    DoneInv purged (startState bfs purged) := by
  intro m hm hp
  rw [startState_visited] at hm
  rcases (of_decide_eq_true hm).1 with h | h
  · left; subst h; simp [startState]
  · exact absurd h hp

theorem Core.co_phased {bfs : BFS} (hc : bfs.Canonical) (purged : List Nat) (dm : Bool)
    (hn : dm = true → bfs.adj.n_methods < 255) : Phased bfs dm (Core bfs purged dm) :=
  (Base3.b3_phased hc purged dm hn).extend (fun _ s => DoneInv purged s)
    (fun _ hb hk _ => hk.dn_layer (hb.2.nw_dist_ne hn) hb.1.2 hb.1.1.ba_purgeInv.history_len)
    (fun _ _ hb hk _ => hk.dn_layer (hb.2.nw_dist_ne hn) hb.1.2
      hb.1.1.ba_purgeInv.history_len)
    (fun _ _ hk _ => hk.dn_bump dm)
    (fun fuel s u rest s1 _ hk _ hr =>
      DoneInv.dn_of_methodPart (processTypeflow_methodPart bfs fuel _ u s1 hr)
        ((DoneInv.dn_of_methodPart (show (popTypeflow s rest).methodPart = s.methodPart from rfl)
          hk).dn_reach _))
    (fun s _ hk _ _ _ => DoneInv.dn_of_methodPart (propagate_methodPart bfs s) hk)
    (fun _ _ hk _ _ => hk)

theorem Core.co_init {bfs : BFS} (hc : bfs.Canonical) (purged : List Nat) (dm : Bool)
    (fuel : Nat) (s0 : State) (h0 : initState bfs purged fuel = some s0) :
    Core bfs purged dm Phase.head s0 :=
  ⟨Base3.b3_init hc purged dm fuel s0 h0,
    DoneInv.dn_of_methodPart (initState_methodPart bfs purged fuel s0 h0)
      (DoneInv.dn_start bfs purged)⟩

theorem Core.co_flowShape {bfs : BFS} {purged : List Nat} {dm : Bool} {p : Phase} {s : State}
    (h : Core bfs purged dm p s) : FlowShape bfs s := h.1.1.1.ba_flowShape

theorem Core.co_queueInv {bfs : BFS} {purged : List Nat} {dm : Bool} {p : Phase} {s : State}
    (h : Core bfs purged dm p s) : QueueInv bfs.adj purged s := h.1.1.2

theorem Core.co_rootInv {bfs : BFS} {purged : List Nat} {dm : Bool} {p : Phase} {s : State}
    (h : Core bfs purged dm p s) : RootInv bfs.adj s := h.1.1.1.ba_rootInv

theorem Core.co_dist_ne {bfs : BFS} {purged : List Nat} {dm : Bool} {p : Phase} {s : State}
    (hn : dm = true → bfs.adj.n_methods < 255) (h : Core bfs purged dm p s) : s.dist ≠ u8_max :=
  h.1.2.nw_dist_ne hn

theorem forM_opt_establish {α σ : Type} (I : σ → Prop) (P : α → σ → Prop)
    (f : σ → α → Option σ) :
    ∀ (l : List α) (s s1 : σ), I s →
      (∀ s x s1, x ∈ l → I s → f s x = some s1 → I s1 ∧ P x s1) →
      (∀ s x y s1, y ∈ l → I s → P x s → f s y = some s1 → P x s1) →
      forM_opt f l s = some s1 → I s1 ∧ ∀ x ∈ l, P x s1 := by
  intro l
  induction l with
  | nil =>
    intro s s1 h0 _ _ hr
    simp only [forM_opt] at hr
    exact ⟨(Option.some.inj hr) ▸ h0, fun x hx => by simp at hx⟩
  | cons a as ih =>
    intro s s1 h0 hstep hstable hr
    simp only [forM_opt] at hr
    cases ha : f s a with
    | none => rw [ha] at hr; simp at hr
    | some s2 =>
      rw [ha] at hr
      obtain ⟨h1, h2⟩ := hstep s a s2 (List.mem_cons_self _ _) h0 ha
      obtain ⟨h3, h4⟩ := ih s2 s1 h1
        (fun s x s1 hx => hstep s x s1 (List.mem_cons_of_mem _ hx))
        (fun s x y s1 hy => hstable s x y s1 (List.mem_cons_of_mem _ hy)) hr
      refine ⟨h3, fun x hx => ?_⟩
      rcases List.mem_cons.1 hx with h | h
      · subst h
        have := forM_opt_inv (fun s => I s ∧ P x s) f as s2 s1 ⟨h1, h2⟩
          (fun s y s1 hy hs hf => ⟨(hstep s y s1 (List.mem_cons_of_mem _ hy) hs.1 hf).1,
            hstable s x y s1 (List.mem_cons_of_mem _ hy) hs.1 hs.2 hf⟩) hr
        exact this.2
      · exact h4 x h

theorem RecordStep.rs_sat_mono {s s2 : State} {v : Nat} {skip : Nat → Bool} {d : Nat}
    {l : List Nat} {c : Bool}
    (hstep : RecordStep s s2 v (flowLoop skip d l (s.hist v) false) c)
    (hv : (s.hist v).Valid) (hd : d ≠ u8_max) (w : Nat)
    (h : (s.hist w).is_saturated = true) : (s2.hist w).is_saturated = true := by
  by_cases hwv : w = v
  · subst hwv
    rw [hstep.hist_self]
    exact flowLoop_saturated skip d l _ false hv hd h
  · rw [hstep.hist_other w hwv]; exact h

theorem RecordStep.rs_rec_mono {s s2 : State} {v : Nat} {skip : Nat → Bool} {d : Nat}
    {l : List Nat} {c : Bool}
    (hstep : RecordStep s s2 v (flowLoop skip d l (s.hist v) false) c)
    (hv : (s.hist v).Valid) (w t : Nat)
    (h : t ∈ (s.hist w).recorded) : t ∈ (s2.hist w).recorded := by
  by_cases hwv : w = v
  · subst hwv
    rw [hstep.hist_self]
    exact flowLoop_mono skip d l _ false hv t h
  · rw [hstep.hist_other w hwv]; exact h

theorem RecordStep.rs_worklist_sub {s s2 : State} {v : Nat} {r : TypeflowHistory × Bool}
    {c : Bool} (hstep : RecordStep s s2 v r c) (x : Nat) (h : x ∈ s.typeflow_worklist) :
    x ∈ s2.typeflow_worklist := by
  rw [hstep.worklist]
  split
  · exact List.mem_append_left _ h
  · exact h

/-- A record step that changes the history of an open typeflow pushes it. -/
theorem RecordStep.rs_changed {s s2 : State} {v : Nat} {skip : Nat → Bool} {d : Nat}
    {l : List Nat} {g : Bool}
    (hstep : RecordStep s s2 v (flowLoop skip d l (s.hist v) false)
      ((flowLoop skip d l (s.hist v) false).2 && g))
    (hv : (s.hist v).Valid) (hne : s2.hist v ≠ s.hist v) (hg : g = true) :
    v ∈ s2.typeflow_worklist := by
  have hflag : (flowLoop skip d l (s.hist v) false).2 = true := by
    by_contra hc
    have := (flowLoop_unchanged skip d l (s.hist v) false hv (by simpa using hc)).1
    exact hne (hstep.hist_self.trans this)
  rw [hstep.worklist, hflag, hg]
  exact List.mem_append_right _ (List.mem_singleton_self v)

theorem instantiate_inst (s : State) (t : Nat) :
    (∀ x ∈ s.instantiated_since_last_iteration,
      x ∈ (instantiate s t).instantiated_since_last_iteration) ∧
    (∀ x, (instantiate s t).allInstantiated.get x = true →
      s.allInstantiated.get x = true ∨
        x ∈ (instantiate s t).instantiated_since_last_iteration) := by
  unfold instantiate
  split
  · refine ⟨fun x hx => List.mem_append_left _ hx, fun x hx => ?_⟩
    have hx1 : (s.allInstantiated.set t).get x = true := hx
    rw [Bitset.get_set] at hx1
    rcases Bool.or_eq_true_iff.1 hx1 with h | h
    · exact Or.inl h
    · right
      have := (of_decide_eq_true h).1
      subst this
      exact List.mem_append_right _ (List.mem_singleton_self _)
  · exact ⟨fun x hx => hx, fun x hx => Or.inl hx⟩

/-- The types set in `allInstantiated` by a step are appended to the new instantiations. -/
theorem feedInstantiated_inst (bfs : BFS) (u : Nat) (s : State) (v : Nat) :
    (∀ x ∈ s.instantiated_since_last_iteration,
      x ∈ (feedInstantiated bfs u s v).instantiated_since_last_iteration) ∧
    (∀ x, (feedInstantiated bfs u s v).allInstantiated.get x = true →
      s.allInstantiated.get x = true ∨
        x ∈ (feedInstantiated bfs u s v).instantiated_since_last_iteration) := by
  unfold feedInstantiated
  split
  · exact foldl_inv (fun s1 =>
      (∀ x ∈ s.instantiated_since_last_iteration, x ∈ s1.instantiated_since_last_iteration) ∧
      (∀ x, s1.allInstantiated.get x = true →
        s.allInstantiated.get x = true ∨ x ∈ s1.instantiated_since_last_iteration))
      instantiate _ s ⟨fun x hx => hx, fun x hx => Or.inl hx⟩
      (fun s1 t _ h => ⟨fun x hx => (instantiate_inst s1 t).1 x (h.1 x hx), fun x hx => by
        rcases (instantiate_inst s1 t).2 x hx with h1 | h1
        · rcases h.2 x h1 with h2 | h2
          · exact Or.inl h2
          · exact Or.inr ((instantiate_inst s1 t).1 x h2)
        · exact Or.inr h1⟩)
  · exact ⟨fun x hx => hx, fun x hx => Or.inl hx⟩

/-- A dependent typeflow of a dequeued method that records a type is pushed by the layer. -/
theorem methodLayer_wakes (adj : Adjacency) (s : State) (m v : Nat)
    (hm : m ∈ s.method_worklist) (hv : v ∈ (adj.method m).dependent_typeflows)
    (hany : (s.hist v).any = true) : v ∈ (methodLayer adj s).typeflow_worklist := by
  have h := foldl_establish (fun s1 : State => s1.flowPart = s.flowPart)
    (fun x s1 => x = m → v ∈ s1.typeflow_worklist) (methodBody adj) s.method_worklist s rfl
    (fun s1 x _ h1 => ⟨(methodBody_flowPart adj s1 x).trans h1, fun hx => by
      subst hx
      unfold methodBody
      rw [foldl_field _ _ visitMethod_typeflow_worklist]
      have h2 := foldl_establish (fun s2 : State => s2.flowPart = s.flowPart)
        (fun y s2 => y = v → v ∈ s2.typeflow_worklist) wakeDependent
        (adj.method x).dependent_typeflows (recordDistance s1 x) h1
        (fun s2 y _ h3 => ⟨(wakeDependent_flowPart s2 y).trans h3, fun hy => by
          subst hy
          unfold wakeDependent
          rw [State.flowPart_hist h3, hany]
          exact State.pushIf_worklist_mem s2 y⟩)
        (fun s2 y z _ _ h3 hy => State.pushIf_worklist_sub s2 _ z v (h3 hy))
      exact h2.2 v hv rfl⟩)
    (fun s1 x y _ _ h1 hx => methodBody_worklist_sub adj s1 y v (h1 hx))
  exact h.2 m hm rfl

theorem filter_range_getD_length : ∀ l : List Bool,
    ((List.range l.length).filter (fun i => l.getD i false)).length = l.count true := by
  intro l
  induction l with
  | nil => rfl
  | cons x xs ih =>
    rw [List.length_cons, List.range_succ_eq_map, List.filter_cons, List.filter_map,
      List.count_cons]
    have hf : ((fun i => (x :: xs).getD i false) ∘ Nat.succ) = fun i => xs.getD i false := by
      funext i; simp
    rw [hf]
    cases x with
    | true => simp [-List.getD_eq_getElem?_getD, ih]
    | false => simp [-List.getD_eq_getElem?_getD, ih]

theorem membersFrom_length (b : Bitset) :
    (membersFrom (TypeSet.multi b) b.size 0).length = b.count := by
  rw [membersFrom_zero]
  exact filter_range_getD_length b.bits

theorem smallFilterLoop_acc (F : TypeSet) (inst : List Nat) :
    ∀ (fuel i type : Nat) (acc : List Nat) (t : Nat), t ∈ acc →
      t ∈ smallFilterLoop F inst fuel i type acc := by
  intro fuel
  induction fuel with
  | zero => intro i type acc t ht; exact ht
  | succ fuel ih =>
    intro i type acc t ht
    have h1 : t ∈ (if type ∈ inst then acc ++ [type] else acc) := by
      split
      · exact List.mem_append_left _ ht
      · exact ht
    unfold smallFilterLoop
    split
    · exact h1
    · exact ih _ _ _ t h1

theorem smallFilterLoop_complete (b : Bitset) (inst : List Nat) :
    ∀ (fuel i a : Nat) (acc : List Nat),
      (membersFrom (TypeSet.multi b) b.size a).length + i = b.count →
      b.count - i ≤ fuel → 0 < (membersFrom (TypeSet.multi b) b.size a).length →
      ∀ t, t ∈ membersFrom (TypeSet.multi b) b.size a → t ∈ inst →
        t ∈ smallFilterLoop (TypeSet.multi b) inst fuel i (b.findFrom a) acc := by
  intro fuel
  induction fuel with
  | zero => intro i a acc h1 h2 h3; omega
  | succ fuel ih =>
    intro i a acc h1 h2 h3 t ht hin
    rcases b.findFrom_spec a with ⟨hlt, hle, hget, hno⟩ | ⟨_, hno⟩
    · have hcons := membersFrom_cons (TypeSet.multi b) b.size a (b.findFrom a) hle hlt hget
        (fun j hj1 hj2 => hno j hj1 hj2)
      rw [hcons] at h1 h3 ht
      rw [List.length_cons] at h1
      unfold smallFilterLoop
      have hcount : (TypeSet.multi b).count = b.count := rfl
      rw [hcount]
      by_cases hlast : i + 1 ≥ b.count
      · rw [if_pos hlast]
        have hnil : membersFrom (TypeSet.multi b) b.size (b.findFrom a + 1) = [] :=
          List.eq_nil_of_length_eq_zero (by omega)
        rw [hnil] at ht
        have : t = b.findFrom a := by simpa using ht
        subst this
        rw [if_pos hin]
        exact List.mem_append_right _ (List.mem_singleton_self _)
      · rw [if_neg hlast]
        rcases List.mem_cons.1 ht with h | h
        · apply smallFilterLoop_acc
          subst h
          rw [if_pos hin]
          exact List.mem_append_right _ (List.mem_singleton_self _)
        · exact ih (i + 1) (b.findFrom a + 1) _ (by omega) (by omega) (by omega) t h hin
    · rw [membersFrom_nil (TypeSet.multi b) b.size a (fun j hj _ => hno j hj)] at h3
      simp at h3

/-- Every new instantiation that the filter admits is in the filtered list. -/
theorem filterDelta_complete (b : Bitset) (inst : List Nat) (t : Nat) (ht : t ∈ inst)
    (hg : b.get t = true) : t ∈ filterDelta (TypeSet.ofBitset b) inst := by
  have hget := TypeSet.ofBitset_get b t
  unfold TypeSet.ofBitset at hget ⊢
  by_cases h1 : b.count = 1
  · rw [if_pos h1] at hget ⊢
    have hft : b.first = t := by
      rw [hg] at hget
      exact of_decide_eq_true hget
    unfold filterDelta
    rw [if_pos (by show 1 ≤ 4; omega)]
    unfold smallFilterLoop
    rw [if_pos (by show 0 + 1 ≥ 1; omega), hft]
    have hf1 : (TypeSet.single t).first = t := rfl
    rw [hf1, if_pos ht]
    simp
  · rw [if_neg h1]
    unfold filterDelta
    have hcount : (TypeSet.multi b).count = b.count := rfl
    rw [hcount]
    have hmem : t ∈ membersFrom (TypeSet.multi b) b.size 0 :=
      (mem_membersFrom _ _ _ _).2 ⟨Nat.zero_le _, b.get_lt_size t hg, hg⟩
    by_cases h4 : b.count ≤ 4
    · rw [if_pos h4]
      have hlen := membersFrom_length b
      exact smallFilterLoop_complete b inst 4 0 0 [] (by omega) (by omega)
        (by rw [hlen]; rw [← hlen]; exact List.length_pos_of_mem hmem) t hmem ht
    · rw [if_neg h4]
      exact List.mem_filter.2 ⟨ht, hg⟩

theorem SatInv.sa_frame {bfs : BFS} {E : Nat → Prop} {s s2 : State} (hk : SatInv bfs E s)
    (h1 : s2.flowPart = s.flowPart) (h2 : s2.method_history = s.method_history)
    (h3 : ∀ x ∈ s.typeflow_worklist, x ∈ s2.typeflow_worklist) : SatInv bfs E s2 := by
  have e1 := State.flowPart_hist h1
  have e2 := State.flowPart_inst h1
  have e3 := State.flowPart_since h1
  have e4 := State.flowPart_uses h1
  have e5 := State.flowPart_included h1
  refine ⟨fun v hv hi hns => ?_, fun u hu hg => ?_⟩
  · rw [e5] at hi
    rw [e1] at hns ⊢
    rw [e4, e2, e3]
    exact hk.complete v hv hi hns
  · rw [e1] at hu
    have hg1 : gateOpen bfs.adj s u = true := by
      unfold gateOpen State.history at hg ⊢; rw [h2] at hg; exact hg
    rcases hk.processed u hu hg1 with h | h | h
    · exact Or.inl (h3 u h)
    · refine Or.inr (Or.inl (fun v hv => ?_))
      unfold Done
      rw [e1, e5]
      exact h v hv
    · exact Or.inr (Or.inr h)

/-- The record steps that leave the saturation uses alone keep the invariant. -/
theorem SatInv.sa_record {bfs : BFS} {E : Nat → Prop} {s s2 : State} (hk : SatInv bfs E s)
    (v : Nat) (skip : Nat → Bool) (d : Nat) (l : List Nat) (g : Bool) (hd : d ≠ u8_max)
    (hv : (s.hist v).Valid)
    (hstep : RecordStep s s2 v (flowLoop skip d l (s.hist v) false)
      ((flowLoop skip d l (s.hist v) false).2 && g))
    (hg : gateOpen bfs.adj s v = true → g = true)
    (hincl : s2.included_in_saturation_uses = s.included_in_saturation_uses)
    (huses : s2.saturation_uses_by_filter = s.saturation_uses_by_filter) :
    SatInv bfs E s2 := by
  refine ⟨fun w hw hi hns => ?_, fun u hu hgu => ?_⟩
  · rw [hincl] at hi
    have hns1 : (s.hist w).is_saturated = false := by
      by_contra hc
      have := hstep.rs_sat_mono hv hd w (by simpa using hc)
      rw [hns] at this
      exact Bool.false_ne_true this
    obtain ⟨h1, h2⟩ := hk.complete w hw hi hns1
    rw [huses, hstep.inst, hstep.since]
    refine ⟨h1, fun t ht ha => ?_⟩
    rcases h2 t ht ha with h | h
    · exact Or.inl (hstep.rs_rec_mono hv w t h)
    · exact Or.inr h
  · have hgu1 : gateOpen bfs.adj s u = true := by
      rw [← gateOpen_of_methodPart hstep.methodPart]; exact hgu
    by_cases hold : (s.hist u).is_saturated = true
    · rcases hk.processed u hold hgu1 with h | h | h
      · exact Or.inl (hstep.rs_worklist_sub u h)
      · refine Or.inr (Or.inl (fun x hx => ?_))
        rcases h x hx with h1 | h1
        · exact Or.inl (hstep.rs_sat_mono hv hd x h1)
        · exact Or.inr (by rw [hincl]; exact h1)
      · exact Or.inr (Or.inr h)
    · have huv : u = v := by
        by_contra hne
        rw [hstep.hist_other u hne] at hu
        exact hold hu
      subst huv
      left
      exact hstep.rs_changed hv (fun hc => hold (hc ▸ hu)) (hg hgu1)

theorem SatInv.sa_feed {bfs : BFS} {E : Nat → Prop} {s : State} (hk : SatInv bfs E s)
    (u v : Nat) : SatInv bfs E (feedInstantiated bfs u s v) := by
  have e1 : ∀ w, (feedInstantiated bfs u s v).hist w = s.hist w := feedInstantiated_hist bfs u s v
  obtain ⟨e2, e3⟩ := feedInstantiated_uses bfs u s v
  obtain ⟨e4, e5⟩ := feedInstantiated_inst bfs u s v
  refine ⟨fun w hw hi hns => ?_, fun x hx hg => ?_⟩
  · rw [e3] at hi
    rw [e1] at hns ⊢
    obtain ⟨h1, h2⟩ := hk.complete w hw hi hns
    rw [e2]
    refine ⟨h1, fun t ht ha => ?_⟩
    rcases e5 t ht with h | h
    · rcases h2 t h ha with h3 | h3
      · exact Or.inl h3
      · exact Or.inr (e4 t h3)
    · exact Or.inr h
  · rw [e1] at hx
    rw [gateOpen_of_methodPart (feedInstantiated_methodPart bfs u s v)] at hg
    rcases hk.processed x hx hg with h | h | h
    · exact Or.inl (by rw [feedInstantiated_worklist]; exact h)
    · refine Or.inr (Or.inl (fun y hy => ?_))
      unfold Done
      rw [e1, e3]
      exact h y hy
    · exact Or.inr (Or.inr h)

theorem SatInv.sa_flowEdge {bfs : BFS} {E : Nat → Prop} {s : State} (hc : bfs.Canonical)
    (hs : FlowShape bfs s) (hk : SatInv bfs E s) (hd : s.dist ≠ u8_max) (u v : Nat)
    (hv : v < bfs.adj.n_typeflows) : SatInv bfs E (flowEdge bfs u s v) := by
  unfold flowEdge
  have hs1 := hs.fs_feedInstantiated hc u v
  have hk1 := hk.sa_feed u v
  by_cases hsat : ((feedInstantiated bfs u s v).hist v).is_saturated = true
  · rw [flowInto_saturated _ _ _ _ hsat]; exact hk1
  · have hd1 : (feedInstantiated bfs u s v).dist ≠ u8_max := by
      rw [State.methodPart_dist (feedInstantiated_methodPart bfs u s v)]; exact hd
    exact hk1.sa_record v _ _ _ _ hd1 (hs1.valid v)
      (flowInto_step bfs u _ v (hs1.hist_len ▸ hv) (by simpa using hsat)) (fun h => h)
      (flowInto_uses bfs u _ v).2 (flowInto_uses bfs u _ v).1

/-- The seeding under a saturated predecessor keeps the invariant and deals with `v`. -/
theorem SatInv.sa_saturatedEdge {bfs : BFS} {E : Nat → Prop} {s s1 : State}
    (hc : bfs.Canonical) (hs : FlowShape bfs s) (hk : SatInv bfs E s) (hd : s.dist ≠ u8_max)
    (fuel v : Nat) (hv : v < bfs.adj.n_typeflows)
    (hr : saturatedEdge bfs fuel s v = some s1) : SatInv bfs E s1 ∧ Done s1 v := by
  by_cases hskip : (s.hist v).is_saturated = true ∨
      s.included_in_saturation_uses.getD v false = true
  · rw [saturatedEdge_skip bfs fuel s v s1 hskip hr]; exact ⟨hk, hskip⟩
  · have h1 : (s.hist v).is_saturated = false := by
      by_contra hc1; exact hskip (Or.inl (by simpa using hc1))
    have h2 : s.included_in_saturation_uses.getD v false = false := by
      by_contra hc1; exact hskip (Or.inr (by simpa using hc1))
    have hlen : v < s.typeflow_visited.length := hs.hist_len ▸ hv
    have hstep := saturatedEdge_step hc fuel s v hv hlen s1 h1 h2 hr
    obtain ⟨hincl, huses⟩ := saturatedEdge_uses bfs fuel s v s1 hlen h1 h2 hr
    have hval := hs.valid v
    have hi : ∀ w, s1.included_in_saturation_uses.getD w false =
        (if v = w then true else s.included_in_saturation_uses.getD w false) := by
      intro w
      rw [hincl, getD_set]
      by_cases hvw : v = w
      · rw [if_pos ⟨hvw, hs.included_len ▸ hv⟩, if_pos hvw]
      · rw [if_neg (fun h => hvw h.1), if_neg hvw]
    have hdone : ∀ w, Done s w → Done s1 w := by
      intro w hw
      rcases hw with hw | hw
      · exact Or.inl (hstep.rs_sat_mono hval hd w hw)
      · right
        rw [hi]
        split
        · rfl
        · exact hw
    refine ⟨⟨fun w hw hiw hns => ?_, fun u hu hgu => ?_⟩, Or.inr (by rw [hi, if_pos rfl])⟩
    · rw [hstep.inst, hstep.since]
      by_cases hwv : w = v
      · subst hwv
        constructor
        · rw [huses, if_neg (by rw [hns]; exact Bool.false_ne_true), getD_set,
            if_pos ⟨rfl, hs.uses_len ▸ hc.index_lt w hw⟩]
          exact List.mem_append_right _ (List.mem_singleton_self w)
        · intro t ht ha
          left
          rw [hstep.hist_self] at hns ⊢
          have hlt := Adjacency.admits_lt hc.wf w t hw ha
          exact flowLoop_complete _ _ hd _ _ false hval hns t
            ((mem_membersFrom _ _ _ _).2 ⟨Nat.zero_le _, hlt, by rw [hc.filter_get w t hw]; exact ha⟩)
            (by rw [ht]; rfl) (lt_types_ne_max hc t hlt)
      · rw [hi, if_neg (fun h => hwv h.symm)] at hiw
        rw [hstep.hist_other w hwv] at hns ⊢
        obtain ⟨h3, h4⟩ := hk.complete w hw hiw hns
        refine ⟨?_, h4⟩
        rw [huses]
        split
        · exact h3
        · rw [getD_set]
          split
          · rename_i hf
            rw [hf.1]
            exact List.mem_append_left _ h3
          · exact h3
    · have hgu1 : gateOpen bfs.adj s u = true := by
        rw [← gateOpen_of_methodPart hstep.methodPart]; exact hgu
      by_cases hold : (s.hist u).is_saturated = true
      · rcases hk.processed u hold hgu1 with h | h | h
        · exact Or.inl (hstep.rs_worklist_sub u h)
        · exact Or.inr (Or.inl (fun x hx => hdone x (h x hx)))
        · exact Or.inr (Or.inr h)
      · have huv : u = v := by
          by_contra hne
          rw [hstep.hist_other u hne] at hu
          exact hold hu
        subst huv
        left
        exact hstep.rs_changed hval (fun hc1 => hold (hc1 ▸ hu)) hgu1

theorem hist_saturated_lt {bfs : BFS} {s : State} (hs : FlowShape bfs s) (u : Nat)
    (h : (s.hist u).is_saturated = true) : u < bfs.adj.n_typeflows := by
  by_contra hc
  have : s.hist u = TypeflowHistory.fresh := by
    unfold State.hist
    rw [getD_default _ _ _ (by rw [hs.hist_len]; omega)]
    rfl
  rw [this] at h
  exact absurd h (by decide)

theorem saturated_any {h : TypeflowHistory} (hs : h.is_saturated = true) : h.any = true := by
  unfold TypeflowHistory.any
  rw [hs]
  rfl

/-- The method layer wakes the saturated typeflows whose gate it opens. -/
theorem SatInv.sa_layer {bfs : BFS} {s : State} (hl : bfs.adj.dependentsListed)
    (hk : SatInv bfs (fun _ => False) s) (hs : FlowShape bfs s) (hroot : RootInv bfs.adj s) :
    SatInv bfs (fun _ => False) (methodLayer bfs.adj s) := by
  have h1 := methodLayer_flowPart bfs.adj s
  have e1 := State.flowPart_hist h1
  have e2 := State.flowPart_inst h1
  have e3 := State.flowPart_since h1
  have e4 := State.flowPart_uses h1
  have e5 := State.flowPart_included h1
  refine ⟨fun v hv hi hns => ?_, fun u hu hg => ?_⟩
  · rw [e5] at hi
    rw [e1] at hns ⊢
    rw [e4, e2, e3]
    exact hk.complete v hv hi hns
  · rw [e1] at hu
    by_cases hold : gateOpen bfs.adj s u = true
    · rcases hk.processed u hu hold with h | h | h
      · exact Or.inl (methodLayer_worklist_sub bfs.adj s u h)
      · refine Or.inr (Or.inl (fun v hv => ?_))
        unfold Done
        rw [e1, e5]
        exact h v hv
      · exact absurd h id
    · left
      have hclosed : s.history (bfs.adj.flow u).method.dependent = u8_max := by
        unfold gateOpen at hold
        simpa using hold
      have hopen : (methodLayer bfs.adj s).history (bfs.adj.flow u).method.dependent ≠
          u8_max := by
        unfold gateOpen at hg
        simpa using hg
      rw [methodLayer_history] at hopen
      split at hopen
      · rename_i hm
        have hne : (bfs.adj.flow u).method.dependent ≠ 0 := by
          intro h0
          rw [h0, hroot.root_history] at hclosed
          exact absurd hclosed (by decide)
        exact methodLayer_wakes bfs.adj s _ u hm.1
          (hl u (hist_saturated_lt hs u hu) hne) (saturated_any hu)
      · exact absurd hclosed hopen

theorem saturatedEdge_done_mono {bfs : BFS} {s s1 : State} (hc : bfs.Canonical)
    (hs : FlowShape bfs s) (hd : s.dist ≠ u8_max) (fuel v : Nat)
    (hv : v < bfs.adj.n_typeflows) (hr : saturatedEdge bfs fuel s v = some s1) (w : Nat)
    (hw : Done s w) : Done s1 w := by
  by_cases hskip : (s.hist v).is_saturated = true ∨
      s.included_in_saturation_uses.getD v false = true
  · rw [saturatedEdge_skip bfs fuel s v s1 hskip hr]; exact hw
  · have h1 : (s.hist v).is_saturated = false := by
      by_contra hc1; exact hskip (Or.inl (by simpa using hc1))
    have h2 : s.included_in_saturation_uses.getD v false = false := by
      by_contra hc1; exact hskip (Or.inr (by simpa using hc1))
    have hlen : v < s.typeflow_visited.length := hs.hist_len ▸ hv
    have hstep := saturatedEdge_step hc fuel s v hv hlen s1 h1 h2 hr
    rcases hw with hw | hw
    · exact Or.inl (hstep.rs_sat_mono (hs.valid v) hd w hw)
    · right
      rw [(saturatedEdge_uses bfs fuel s v s1 hlen h1 h2 hr).1, getD_set]
      split
      · rfl
      · exact hw

theorem SatInv.sa_pop {bfs : BFS} {s s1 : State} (hc : bfs.Canonical)
    (hs : FlowShape bfs s) (hk : SatInv bfs (fun _ => False) s) (hd : s.dist ≠ u8_max)
    (fuel u : Nat) (rest : List Nat) (hw : s.typeflow_worklist = u :: rest)
    (hr : processTypeflow bfs fuel (popTypeflow s rest) u = some s1) :
    SatInv bfs (fun _ => False) s1 := by
  have hfp : (reachMethod (popTypeflow s rest) (bfs.adj.flow u).method.reaching).flowPart =
      s.flowPart := reachMethod_flowPart _ _
  have e1 := State.flowPart_hist hfp
  have hs0 : FlowShape bfs (reachMethod (popTypeflow s rest) (bfs.adj.flow u).method.reaching) :=
    FlowShape.fs_of_flowPart hfp hs
  have hd0 : (reachMethod (popTypeflow s rest) (bfs.adj.flow u).method.reaching).dist ≠
      u8_max := by rw [reachMethod_dist]; exact hd
  have hk0 : SatInv bfs (fun w => w = u)
      (reachMethod (popTypeflow s rest) (bfs.adj.flow u).method.reaching) := by
    refine ⟨fun v hv hi hns => ?_, fun w hws hg => ?_⟩
    · rw [State.flowPart_included hfp] at hi
      rw [e1] at hns ⊢
      rw [State.flowPart_uses hfp, State.flowPart_inst hfp, State.flowPart_since hfp]
      exact hk.complete v hv hi hns
    · rw [e1] at hws
      have hg1 : gateOpen bfs.adj s w = true := by
        unfold gateOpen State.history at hg ⊢
        rw [reachMethod_history] at hg
        exact hg
      rcases hk.processed w hws hg1 with h | h | h
      · rw [hw] at h
        rcases List.mem_cons.1 h with h2 | h2
        · exact Or.inr (Or.inr h2)
        · exact Or.inl (by rw [reachMethod_typeflow_worklist]; exact h2)
      · refine Or.inr (Or.inl (fun v hv => ?_))
        unfold Done
        rw [e1, State.flowPart_included hfp]
        exact h v hv
      · exact absurd h id
  unfold processTypeflow at hr
  split at hr
  · rename_i hns
    have hns' : ((reachMethod (popTypeflow s rest) (bfs.adj.flow u).method.reaching).hist
        u).is_saturated = false := by simpa using hns
    rw [← Option.some.inj hr]
    have := foldl_inv (fun s2 => FlowShape bfs s2 ∧ SatInv bfs (fun w => w = u) s2 ∧
        s2.dist ≠ u8_max ∧ (s2.hist u).is_saturated = false)
      (flowEdge bfs u) (bfs.adj.flow u).forward_edges _ ⟨hs0, hk0, hd0, hns'⟩
      (fun s2 v hv h => ⟨h.1.fs_flowEdge hc u v (hc.wf.flow_edge u v hv),
        h.2.1.sa_flowEdge hc h.1 h.2.2.1 u v (hc.wf.flow_edge u v hv),
        by rw [State.methodPart_dist (flowEdge_methodPart bfs u s2 v)]; exact h.2.2.1,
        by rw [flowEdge_hist_source hc h.1 u v]; exact h.2.2.2⟩)
    refine ⟨this.2.1.complete, fun w hws hg => ?_⟩
    rcases this.2.1.processed w hws hg with h | h | h
    · exact Or.inl h
    · exact Or.inr (Or.inl h)
    · rw [h, this.2.2.2] at hws
      exact absurd hws (by decide)
  · have := forM_opt_establish
      (fun s2 => FlowShape bfs s2 ∧ SatInv bfs (fun w => w = u) s2 ∧ s2.dist ≠ u8_max)
      (fun v s2 => Done s2 v) (saturatedEdge bfs fuel) (bfs.adj.flow u).forward_edges _ s1
      ⟨hs0, hk0, hd0⟩
      (fun s2 v s3 hv h h3 =>
        ⟨⟨h.1.fs_saturatedEdge hc fuel v (hc.wf.flow_edge u v hv) h3,
          (h.2.1.sa_saturatedEdge hc h.1 h.2.2 fuel v (hc.wf.flow_edge u v hv) h3).1,
          by rw [State.methodPart_dist (saturatedEdge_methodPart bfs fuel s2 v s3 h3)]
             exact h.2.2⟩,
          (h.2.1.sa_saturatedEdge hc h.1 h.2.2 fuel v (hc.wf.flow_edge u v hv) h3).2⟩)
      (fun s2 x y s3 hy h hx h3 =>
        saturatedEdge_done_mono hc h.1 h.2.2 fuel y (hc.wf.flow_edge u y hy) h3 x hx) hr
    refine ⟨this.1.2.1.complete, fun w hws hg => ?_⟩
    rcases this.1.2.1.processed w hws hg with h | h | h
    · exact Or.inl h
    · exact Or.inr (Or.inl h)
    · exact Or.inr (Or.inl (h ▸ this.2))

theorem Grows.gr_refl (s : State) : Grows s s :=
  ⟨fun _ h => h, fun _ _ h => h, rfl, rfl, rfl, rfl⟩

theorem Grows.gr_trans {s s2 s3 : State} (h1 : Grows s s2) (h2 : Grows s2 s3) : Grows s s3 :=
  ⟨fun w h => h2.sat w (h1.sat w h), fun w t h => h2.types w t (h1.types w t h),
    h2.included.trans h1.included, h2.inst.trans h1.inst, h2.since.trans h1.since,
    h2.dist.trans h1.dist⟩

theorem Grows.gr_unsat {s s2 : State} (h : Grows s s2) (w : Nat)
    (hw : (s2.hist w).is_saturated = false) : (s.hist w).is_saturated = false := by
  by_contra hc
  have := h.sat w (by simpa using hc)
  rw [hw] at this
  exact Bool.false_ne_true this

theorem replayUse_grows {bfs : BFS} (filtered : List Nat) (acc : State × List Nat) (v : Nat)
    (hs : FlowShape bfs acc.1) (hv : v < bfs.adj.n_typeflows) (hd : acc.1.dist ≠ u8_max) :
    Grows acc.1 (replayUse bfs filtered acc v).1 := by
  by_cases hsat : (acc.1.hist v).is_saturated = true
  · rw [replayUse_saturated _ _ _ _ hsat]; exact Grows.gr_refl _
  · have hstep := replayUse_step bfs filtered acc v (hs.hist_len ▸ hv) (by simpa using hsat)
    exact ⟨hstep.rs_sat_mono (hs.valid v) hd, hstep.rs_rec_mono (hs.valid v),
      (replayUse_uses bfs filtered acc v).2, hstep.inst, hstep.since,
      State.methodPart_dist hstep.methodPart⟩

theorem SatInv.sa_replayUse {bfs : BFS} {E : Nat → Prop} (filtered : List Nat)
    (acc : State × List Nat) (v : Nat) (hs : FlowShape bfs acc.1) (hk : SatInv bfs E acc.1)
    (hv : v < bfs.adj.n_typeflows) (hd : acc.1.dist ≠ u8_max) :
    SatInv bfs E (replayUse bfs filtered acc v).1 := by
  by_cases hsat : (acc.1.hist v).is_saturated = true
  · rw [replayUse_saturated _ _ _ _ hsat]; exact hk
  · exact hk.sa_record v _ _ _ _ hd (hs.valid v)
      (replayUse_step bfs filtered acc v (hs.hist_len ▸ hv) (by simpa using hsat))
      (fun h => h) (replayUse_uses bfs filtered acc v).2 (replayUse_uses bfs filtered acc v).1

theorem replayUse_kept_mono (bfs : BFS) (filtered : List Nat) (acc : State × List Nat)
    (v w : Nat) (hw : w ∈ acc.2) : w ∈ (replayUse bfs filtered acc v).2 := by
  unfold replayUse
  split
  · exact hw
  · exact List.mem_append_left _ hw

/-- A typeflow that is not saturated after its replay is kept and holds the filtered types. -/
theorem replayUse_establish {bfs : BFS} (filtered : List Nat) (acc : State × List Nat) (v : Nat)
    (hs : FlowShape bfs acc.1) (hv : v < bfs.adj.n_typeflows) (hd : acc.1.dist ≠ u8_max)
    (hf : ∀ t ∈ filtered, t ≠ type_max)
    (hns : ((replayUse bfs filtered acc v).1.hist v).is_saturated = false) :
    v ∈ (replayUse bfs filtered acc v).2 ∧
    ∀ t ∈ filtered, t ∈ ((replayUse bfs filtered acc v).1.hist v).recorded := by
  have hns0 := (replayUse_grows filtered acc v hs hv hd).gr_unsat v hns
  have hstep := replayUse_step bfs filtered acc v (hs.hist_len ▸ hv) hns0
  constructor
  · unfold replayUse
    rw [if_neg (by rw [hns0]; exact Bool.false_ne_true)]
    exact List.mem_append_right _ (List.mem_singleton_self v)
  · intro t ht
    rw [hstep.hist_self] at hns ⊢
    exact flowLoop_complete _ _ hd _ _ false (hs.valid v) hns t ht rfl (hf t ht)

theorem SatInv.sa_setUses {bfs : BFS} {E : Nat → Prop} {s : State} (hk : SatInv bfs E s)
    (f : Nat) (l : List Nat)
    (hl : ∀ v ∈ s.saturation_uses_by_filter.getD f [], (s.hist v).is_saturated = false →
      v ∈ l) : SatInv bfs E (s.setUses f l) := by
  refine ⟨fun v hv hi hns => ?_, hk.processed⟩
  obtain ⟨h1, h2⟩ := hk.complete v hv hi hns
  refine ⟨?_, h2⟩
  show v ∈ (s.saturation_uses_by_filter.set f l).getD (bfs.filterIndex v) []
  rw [getD_set]
  split
  · rename_i hf
    exact hl v (hf.1 ▸ h1) hns
  · exact h1

/-- One filter of the saturation propagation: the invariant is kept, the histories grow, and
the included typeflows of this filter that stay unsaturated hold every instantiated type
that the filter admits. -/
theorem SatInv.sa_propagateFilter {bfs : BFS} {E : Nat → Prop} {s : State}
    (hc : bfs.Canonical) (hs : FlowShape bfs s) (hk : SatInv bfs E s) (hd : s.dist ≠ u8_max)
    (f : Nat) :
    SatInv bfs E (propagateFilter bfs s f) ∧ Grows s (propagateFilter bfs s f) ∧
    ∀ v, v < bfs.adj.n_typeflows → bfs.filterIndex v = f →
      s.included_in_saturation_uses.getD v false = true →
      ((propagateFilter bfs s f).hist v).is_saturated = false →
      ∀ t, s.allInstantiated.get t = true → bfs.adj.admits v t = true →
        t ∈ ((propagateFilter bfs s f).hist v).recorded := by
  have hk3 : SatInv bfs E (compactUses s f) :=
    hk.sa_setUses f _ (fun v hv hns => List.mem_filter.2 ⟨hv, by rw [hns]; rfl⟩)
  have hs3 : FlowShape bfs (compactUses s f) := hs.fs_compactUses f
  have hg3 : Grows s (compactUses s f) := ⟨fun _ h => h, fun _ _ h => h, rfl, rfl, rfl, rfl⟩
  have hdelta : ∀ v, v < bfs.adj.n_typeflows → bfs.filterIndex v = f →
      ∀ t ∈ s.instantiated_since_last_iteration, bfs.adj.admits v t = true →
        t ∈ filterDelta (bfs.filter_filters.getD f default)
          s.instantiated_since_last_iteration := by
    intro v hv hfv t ht ha
    rw [← hfv, hc.filter_filter v hv]
    exact filterDelta_complete _ _ t ht ha
  unfold propagateFilter
  split
  · rename_i hemp
    refine ⟨hk, Grows.gr_refl s, fun v hv hfv hi hns t ht ha => ?_⟩
    have := (hk.complete v hv hi hns).1
    rw [hfv, List.isEmpty_iff.1 hemp] at this
    simp at this
  · split
    · rename_i hemp
      refine ⟨hk3, hg3, fun v hv hfv hi hns t ht ha => ?_⟩
      have := (hk3.complete v hv hi hns).1
      rw [hfv, List.isEmpty_iff.1 hemp] at this
      simp at this
    · split
      · rename_i hemp
        refine ⟨hk3, hg3, fun v hv hfv hi hns t ht ha => ?_⟩
        rcases (hk3.complete v hv hi hns).2 t ht ha with h | h
        · exact h
        · have := hdelta v hv hfv t h ha
          rw [List.isEmpty_iff.1 hemp] at this
          simp at this
      · have hadm : ∀ v ∈ (compactUses s f).saturation_uses_by_filter.getD f [],
            ∀ t ∈ filterDelta (bfs.filter_filters.getD f default)
              s.instantiated_since_last_iteration,
            bfs.adj.admits v t = true ∧ t ∈ s.instantiated_since_last_iteration := by
          intro v hv t ht
          obtain ⟨hv1, hv2⟩ := hs3.uses_index f v hv
          have hF : bfs.filter_filters.getD f default =
              TypeSet.ofBitset (bfs.adj.filterOf v) := by
            rw [← hv2]; exact hc.filter_filter v hv1
          rw [hF] at ht
          have hfit : (TypeSet.ofBitset (bfs.adj.filterOf v)).fits bfs.adj.n_types :=
            TypeSet.ofBitset_fits _ _ (le_of_eq (hc.wf.filterOf_size v hv1).symm) hc.wf.2.2.1
          have := filterDelta_sound _ _ _ hfit (fun x hx => hs.fs_since_lt x hx) t ht
          rw [TypeSet.ofBitset_get] at this
          exact this
        have hfold := foldl_establish
          (fun acc : State × List Nat => FlowShape bfs acc.1 ∧ SatInv bfs E acc.1 ∧
            Grows (compactUses s f) acc.1 ∧
            acc.1.saturation_uses_by_filter = (compactUses s f).saturation_uses_by_filter)
          (fun v acc => (acc.1.hist v).is_saturated = false →
            v ∈ acc.2 ∧ ∀ t ∈ filterDelta (bfs.filter_filters.getD f default)
              s.instantiated_since_last_iteration, t ∈ (acc.1.hist v).recorded)
          (replayUse bfs (filterDelta (bfs.filter_filters.getD f default)
            s.instantiated_since_last_iteration))
          ((compactUses s f).saturation_uses_by_filter.getD f []) (compactUses s f, [])
          ⟨hs3, hk3, Grows.gr_refl _, rfl⟩
          (fun acc v hv h => by
            have hv1 := (hs3.uses_index f v hv).1
            have hd1 : acc.1.dist ≠ u8_max := by rw [h.2.2.1.dist]; exact hd
            exact ⟨⟨h.1.fs_replayUse _ v (fun t ht => (hadm v hv t ht).1),
              h.2.1.sa_replayUse _ acc v h.1 hv1 hd1,
              h.2.2.1.gr_trans (replayUse_grows _ acc v h.1 hv1 hd1),
              (replayUse_uses bfs _ acc v).1.trans h.2.2.2⟩,
              replayUse_establish _ acc v h.1 hv1 hd1
                (fun t ht => lt_types_ne_max hc t (hs.fs_since_lt t (hadm v hv t ht).2))⟩)
          (fun acc x y hy h hx hns => by
            have hy1 := (hs3.uses_index f y hy).1
            have hd1 : acc.1.dist ≠ u8_max := by rw [h.2.2.1.dist]; exact hd
            have hg := replayUse_grows (filterDelta (bfs.filter_filters.getD f default)
              s.instantiated_since_last_iteration) acc y h.1 hy1 hd1
            obtain ⟨h1, h2⟩ := hx (hg.gr_unsat x hns)
            exact ⟨replayUse_kept_mono bfs _ acc y x h1, fun t ht => hg.types x t (h2 t ht)⟩)
        obtain ⟨⟨hsf, hkf, hgf, huf⟩, hP⟩ := hfold
        unfold replayUses
        refine ⟨hkf.sa_setUses f _ (fun v hv hns => ?_),
          hg3.gr_trans (hgf.gr_trans ⟨fun _ h => h, fun _ _ h => h, rfl, rfl, rfl, rfl⟩),
          fun v hv hfv hi hns t ht ha => ?_⟩
        · rw [huf] at hv
          exact (hP v hv hns).1
        · have hns1 : ((List.foldl (replayUse bfs (filterDelta
              (bfs.filter_filters.getD f default) s.instantiated_since_last_iteration))
              (compactUses s f, [])
              ((compactUses s f).saturation_uses_by_filter.getD f [])).1.hist
                v).is_saturated = false := hns
          have hns3 := hgf.gr_unsat v hns1
          obtain ⟨h1, h2⟩ := hk3.complete v hv hi hns3
          rw [hfv] at h1
          show t ∈ ((List.foldl (replayUse bfs (filterDelta
              (bfs.filter_filters.getD f default) s.instantiated_since_last_iteration))
              (compactUses s f, [])
              ((compactUses s f).saturation_uses_by_filter.getD f [])).1.hist v).recorded
          rcases h2 t ht ha with h | h
          · exact hgf.types v t h
          · exact (hP v h1 hns1).2 t (hdelta v hv hfv t h ha)

/-- After a round of the saturation propagation every included typeflow that is not saturated
holds every instantiated type that its filter admits. -/
theorem SatInv.sa_propagate {bfs : BFS} {E : Nat → Prop} {s : State} (hc : bfs.Canonical)
    (hs : FlowShape bfs s) (hk : SatInv bfs E s) (hd : s.dist ≠ u8_max) :
    SatInv bfs E (propagate bfs s) := by
  have hfold := foldl_establish
    (fun s2 : State => FlowShape bfs s2 ∧ SatInv bfs E s2 ∧ Grows s s2)
    (fun f s2 => ∀ v, v < bfs.adj.n_typeflows → bfs.filterIndex v = f →
      s.included_in_saturation_uses.getD v false = true →
      (s2.hist v).is_saturated = false →
      ∀ t, s.allInstantiated.get t = true → bfs.adj.admits v t = true →
        t ∈ (s2.hist v).recorded)
    (propagateFilter bfs) (List.range bfs.filter_filters.length) s
    ⟨hs, hk, Grows.gr_refl s⟩
    (fun s2 f _ h => by
      have hd2 : s2.dist ≠ u8_max := by rw [h.2.2.dist]; exact hd
      obtain ⟨h1, h2, h3⟩ := h.2.1.sa_propagateFilter hc h.1 hd2 f
      refine ⟨⟨h.1.fs_propagateFilter hc f, h1, h.2.2.gr_trans h2⟩, ?_⟩
      intro v hv hfv hi hns t ht ha
      exact h3 v hv hfv (by rw [h.2.2.included]; exact hi) hns t
        (by rw [h.2.2.inst]; exact ht) ha)
    (fun s2 x y _ h hx v hv hfv hi hns t ht ha => by
      have hd2 : s2.dist ≠ u8_max := by rw [h.2.2.dist]; exact hd
      obtain ⟨_, h2, _⟩ := h.2.1.sa_propagateFilter hc h.1 hd2 y
      exact h2.types v t (hx v hv hfv hi (h2.gr_unsat v hns) t ht ha))
  obtain ⟨⟨_, hk4, hg4⟩, hP⟩ := hfold
  unfold propagate
  refine ⟨fun v hv hi hns => ?_, hk4.processed⟩
  have hi4 : (List.foldl (propagateFilter bfs) s
      (List.range bfs.filter_filters.length)).included_in_saturation_uses.getD v false =
      true := hi
  have hns4 : ((List.foldl (propagateFilter bfs) s
      (List.range bfs.filter_filters.length)).hist v).is_saturated = false := hns
  refine ⟨(hk4.complete v hv hi4 hns4).1, fun t ht ha => Or.inl ?_⟩
  have ht4 : (List.foldl (propagateFilter bfs) s
      (List.range bfs.filter_filters.length)).allInstantiated.get t = true := ht
  exact hP (bfs.filterIndex v) (List.mem_range.2 (hc.index_lt v hv)) v hv rfl
    (by rw [← hg4.included]; exact hi4) hns4 t (by rw [← hg4.inst]; exact ht4) ha

theorem SatInv.sa_phased {bfs : BFS} (hc : bfs.Canonical) (hl : bfs.adj.dependentsListed)
    (purged : List Nat) (dm : Bool) (hn : dm = true → bfs.adj.n_methods < 255) :
    Phased bfs dm (fun p s => Core bfs purged dm p s ∧ SatInv bfs (fun _ => False) s) :=
  (Core.co_phased hc purged dm hn).extend (fun _ s => SatInv bfs (fun _ => False) s)
    (fun _ hb hk _ => hk.sa_layer hl hb.co_flowShape hb.co_rootInv)
    (fun _ _ hb hk _ => hk.sa_layer hl hb.co_flowShape hb.co_rootInv)
    (fun s _ hk _ => hk.sa_frame (bumpDist_flowPart dm s) (bumpDist_fields dm s).2.1
      (fun x hx => by rw [(bumpDist_fields dm s).2.2.2.2]; exact hx))
    (fun fuel _ u rest _ hb hk hw hr =>
      hk.sa_pop hc hb.co_flowShape (hb.co_dist_ne hn) fuel u rest hw hr)
    (fun _ hb hk _ _ _ => hk.sa_propagate hc hb.co_flowShape (hb.co_dist_ne hn))
    (fun _ _ hk _ _ => hk)

theorem SatInv.sa_start (bfs : BFS) (purged : List Nat) :
    SatInv bfs (fun _ => False) (startState bfs purged) := by
  refine ⟨fun v _ hi _ => ?_, fun u hu _ => ?_⟩
  · have : (startState bfs purged).included_in_saturation_uses.getD v false = false :=
      getD_replicate _ _ _
    rw [this] at hi
    exact absurd hi (by decide)
  · rw [startState_hist] at hu
    exact absurd hu (by decide)

theorem SatInv.sa_init {bfs : BFS} (hc : bfs.Canonical) (purged : List Nat) (fuel : Nat)
    (s0 : State) (h0 : initState bfs purged fuel = some s0) :
    SatInv bfs (fun _ => False) s0 := by
  unfold initState at h0
  have := forM_opt_inv (fun s => FlowShape bfs s ∧ SatInv bfs (fun _ => False) s ∧
      s.methodPart = (startState bfs purged).methodPart)
    (whiteHoleStep bfs fuel) (bfs.adj.flow 0).forward_edges (startState bfs purged) s0
    ⟨FlowShape.fs_start bfs purged, SatInv.sa_start bfs purged, rfl⟩
    (fun s v s1 hv h h1 => ⟨h.1.fs_whiteHoleStep hc fuel v (hc.wf.flow_edge 0 v hv) h1,
      h.2.1.sa_record v _ 0 _ _ (by decide) (h.1.valid v)
        (whiteHoleStep_step hc fuel s v (hc.wf.flow_edge 0 v hv)
          (h.1.hist_len ▸ hc.wf.flow_edge 0 v hv) s1 h1)
        (fun hg => by
          unfold gateOpen at hg
          rw [State.history_of_methodPart h.2.2, startState_history] at hg
          by_cases hd : (bfs.adj.flow v).method.dependent = 0
          · rw [hd]; rfl
          · rw [if_neg (fun hc1 => hd hc1.1)] at hg
            exact absurd hg (by decide))
        (whiteHoleStep_uses bfs fuel s v s1 h1).2 (whiteHoleStep_uses bfs fuel s v s1 h1).1,
      (whiteHoleStep_methodPart bfs fuel s v s1 h1).trans h.2.2⟩) h0
  exact this.2.1

theorem solve_satInv {bfs : BFS} (hc : bfs.Canonical) (hl : bfs.adj.dependentsListed)
    (purged : List Nat) (dm : Bool) (hn : dm = true → bfs.adj.n_methods < 255) (fuel : Nat)
    (s : State) (hr : solve bfs purged dm fuel = some s) :
    SatInv bfs (fun _ => False) s :=
  (solve_phased (SatInv.sa_phased hc hl purged dm hn) purged fuel
    (fun s0 h0 => ⟨Core.co_init hc purged dm fuel s0 h0, SatInv.sa_init hc purged fuel s0 h0⟩)
    s hr).1.2

theorem SoundInv.so_frame {adj : Adjacency} {s s2 : State} (hk : SoundInv adj s)
    (h1 : s2.typeflow_visited = s.typeflow_visited)
    (h4 : s2.saturation_uses_by_filter = s.saturation_uses_by_filter)
    (h2 : s2.method_visited = s.method_visited)
    (h3 : ∀ x ∈ s2.typeflow_worklist, x ∈ s.typeflow_worklist) : SoundInv adj s2 := by
  have e1 : ∀ w, s2.hist w = s.hist w := fun w => by unfold State.hist; rw [h1]
  refine ⟨fun m hm => ?_, fun v t ht => ?_, fun u hu => ?_, fun f => ?_⟩
  · unfold State.visited at hm; rw [h2] at hm; exact hk.methods m hm
  · rw [e1] at ht; exact hk.types v t ht
  · rw [e1]; exact hk.queued u (h3 u hu)
  · rw [h4]; exact hk.unused f

/-- A record step that adds derivable types keeps the invariant. -/
theorem SoundInv.so_record {adj : Adjacency} {s s2 : State} (hk : SoundInv adj s)
    (v : Nat) (skip : Nat → Bool) (d : Nat) (l : List Nat) (g : Bool)
    (hv : (s.hist v).Valid) (hl : ∀ t ∈ l, skip t = false → t ≠ type_max)
    (hstep : RecordStep s s2 v (flowLoop skip d l (s.hist v) false)
      ((flowLoop skip d l (s.hist v) false).2 && g))
    (hnew : ∀ t ∈ l, skip t = false → Derivable adj (Fact.type v t))
    (hg : g = true → Derivable adj (Fact.method (adj.flow v).method.dependent))
    (huses : s2.saturation_uses_by_filter = s.saturation_uses_by_filter) :
    SoundInv adj s2 := by
  refine ⟨fun m hm => ?_, fun w t ht => ?_, fun u hu => ?_, fun f => ?_⟩
  · rw [State.visited_of_methodPart hstep.methodPart] at hm; exact hk.methods m hm
  · by_cases hwv : w = v
    · subst hwv
      rw [hstep.hist_self] at ht
      rcases flowLoop_sound skip d l _ false hv t ht with h | h
      · exact hk.types w t h
      · exact hnew t h.1 h.2
    · rw [hstep.hist_other w hwv] at ht; exact hk.types w t ht
  · rw [hstep.worklist] at hu
    have hold : u ∈ s.typeflow_worklist →
        Derivable adj (Fact.method (adj.flow u).method.dependent) ∧
          (s2.hist u).recorded ≠ [] := by
      intro h
      refine ⟨(hk.queued u h).1, ?_⟩
      by_cases huv : u = v
      · subst huv
        rw [hstep.hist_self]
        exact flowLoop_nonempty_mono _ _ _ _ _ hv (hk.queued u h).2
      · rw [hstep.hist_other u huv]; exact (hk.queued u h).2
    split at hu
    · rename_i hc
      rcases List.mem_append.1 hu with h | h
      · exact hold h
      · have : u = v := by simpa using h
        subst this
        simp only [Bool.and_eq_true] at hc
        refine ⟨hg hc.2, ?_⟩
        rw [hstep.hist_self]
        exact flowLoop_flag_nonempty skip d l _ hv hl hc.1
    · exact hold hu
  · rw [huses]; exact hk.unused f

theorem SoundInv.so_wake {adj : Adjacency} {s : State} (hk : SoundInv adj s)
    (hq : QueueInv adj [] s) (hval : ∀ u, (s.hist u).Valid) (ha : adj.dependentsAgree)
    (u v : Nat) (hu : u ∈ s.method_worklist) (hv : v ∈ (adj.method u).dependent_typeflows) :
    SoundInv adj (wakeDependent s v) := by
  have hmp := wakeDependent_methodPart s v
  have hfp := wakeDependent_flowPart s v
  refine ⟨fun m hm => ?_, fun w t ht => ?_, fun w hw => ?_, fun f => ?_⟩
  · rw [State.visited_of_methodPart hmp] at hm; exact hk.methods m hm
  · rw [State.flowPart_hist hfp] at ht; exact hk.types w t ht
  · rw [State.flowPart_hist hfp]
    rcases State.pushIf_worklist_cases s _ v w hw with h | ⟨h1, h2⟩
    · exact hk.queued w h
    · subst h1
      have hwait := hq.waiting u (Or.inl hu)
      rw [ha u hwait.1 w hv]
      exact ⟨hk.methods u hwait.2, ((hval w).any_iff).1 h2⟩
  · rw [State.flowPart_uses hfp]; exact hk.unused f

theorem SoundInv.so_visit {adj : Adjacency} {s : State} (hk : SoundInv adj s)
    (hq : QueueInv adj [] s) (u v : Nat) (hu : u ∈ s.method_worklist)
    (hv : v ∈ (adj.method u).forward_edges) : SoundInv adj (visitMethod s v) := by
  have hfp := visitMethod_flowPart s v
  refine ⟨fun m hm => ?_, fun w t ht => ?_, fun w hw => ?_, fun f => ?_⟩
  · rw [visitMethod_visited] at hm
    by_cases hold : s.visited m = true
    · exact hk.methods m hold
    · have hold' : s.visited m = false := by simpa using hold
      rw [hold', Bool.false_or] at hm
      have hvm : v = m := (of_decide_eq_true hm).1
      subst hvm
      exact Derivable.call u v (hk.methods u (hq.waiting u (Or.inl hu)).2) hv
  · rw [State.flowPart_hist hfp] at ht; exact hk.types w t ht
  · rw [State.flowPart_hist hfp]
    rw [visitMethod_typeflow_worklist] at hw
    exact hk.queued w hw
  · rw [State.flowPart_uses hfp]; exact hk.unused f

theorem SoundInv.so_layer {bfs : BFS} {s : State} (hw : bfs.adj.wf)
    (ha : bfs.adj.dependentsAgree) (hk : SoundInv bfs.adj s) (hq : QueueInv bfs.adj [] s)
    (hp : PurgeInv bfs.adj [] s) (hlen : s.method_visited.length = bfs.adj.n_methods)
    (hs : FlowShape bfs s) : SoundInv bfs.adj (methodLayer bfs.adj s) := by
  have h1 := methodFold_inv_mem
    (fun s1 => SoundInv bfs.adj s1 ∧ QueueInv bfs.adj [] s1 ∧
      PurgeInv bfs.adj [] s1 ∧ s1.method_visited.length = bfs.adj.n_methods ∧
      FlowShape bfs s1)
    bfs.adj s ⟨hk, hq, hp, hlen, hs⟩
    (fun s1 u hu h => ⟨h.1.so_frame rfl rfl rfl (fun x hx => hx), h.2.1.qu_record h.2.2.1 u hu,
      h.2.2.1.pu_record u hu, h.2.2.2.1, FlowShape.fs_of_flowPart (s := s1) rfl h.2.2.2.2⟩)
    (fun s1 u v hv hu h => ⟨h.1.so_wake h.2.1 h.2.2.2.2.valid ha u v hu hv,
      QueueInv.qu_of_methodPart (wakeDependent_methodPart s1 v) h.2.1,
      PurgeInv.pu_of_methodPart (wakeDependent_methodPart s1 v) h.2.2.1,
      (State.methodPart_visited (wakeDependent_methodPart s1 v)) ▸ h.2.2.2.1,
      FlowShape.fs_of_flowPart (wakeDependent_flowPart s1 v) h.2.2.2.2⟩)
    (fun s1 u v hv hu h => ⟨h.1.so_visit h.2.1 u v hu hv,
      h.2.1.qu_visit h.2.2.2.1 v (hw.method_edge u v hv), h.2.2.1.pu_visit v,
      (visitMethod_visited_len s1 v).trans h.2.2.2.1,
      FlowShape.fs_of_flowPart (visitMethod_flowPart s1 v) h.2.2.2.2⟩)
  unfold methodLayer
  exact h1.1.so_frame rfl rfl rfl (fun x hx => hx)

theorem SoundInv.so_reach {adj : Adjacency} {s : State} (hk : SoundInv adj s) (u : Nat)
    (hu : (s.hist u).recorded ≠ []) :
    SoundInv adj (reachMethod s (adj.flow u).method.reaching) := by
  have hfp := reachMethod_flowPart s (adj.flow u).method.reaching
  refine ⟨fun m hm => ?_, fun w t ht => ?_, fun w hw => ?_, fun f => ?_⟩
  · rw [reachMethod_visited] at hm
    by_cases hold : s.visited m = true
    · exact hk.methods m hold
    · have hold' : s.visited m = false := by simpa using hold
      rw [hold', Bool.false_or] at hm
      have hvm := (of_decide_eq_true hm).1
      rw [← hvm]
      obtain ⟨t, ht⟩ := List.exists_mem_of_ne_nil _ hu
      exact Derivable.reach u t (hk.types u t ht)
  · rw [State.flowPart_hist hfp] at ht; exact hk.types w t ht
  · rw [State.flowPart_hist hfp]
    rw [reachMethod_typeflow_worklist] at hw
    exact hk.queued w hw
  · rw [State.flowPart_uses hfp]; exact hk.unused f

theorem HistMono.hm_refl (s : State) : HistMono s s := ⟨fun _ h => h, fun _ _ h => h⟩

theorem HistMono.hm_of_eq {s s2 : State} (h : ∀ w, s2.hist w = s.hist w) : HistMono s s2 :=
  ⟨fun w hw => by rw [h]; exact hw, fun w t ht => by rw [h]; exact ht⟩

theorem HistMono.hm_trans {s s2 s3 : State} (h1 : HistMono s s2) (h2 : HistMono s2 s3) :
    HistMono s s3 :=
  ⟨fun w h => h2.sat w (h1.sat w h), fun w t h => h2.types w t (h1.types w t h)⟩

theorem HistMono.hm_noSat {s s2 : State} (h : HistMono s s2) (hn : NoSat s2) : NoSat s := by
  intro v
  by_contra hc
  have := h.sat v (by simpa using hc)
  rw [hn v] at this
  exact Bool.false_ne_true this

theorem HistMono.hm_step {s s2 : State} {v : Nat} {skip : Nat → Bool} {d : Nat}
    {l : List Nat} {c : Bool}
    (hstep : RecordStep s s2 v (flowLoop skip d l (s.hist v) false) c)
    (hv : (s.hist v).Valid) (hd : d ≠ u8_max) : HistMono s s2 :=
  ⟨hstep.rs_sat_mono hv hd, hstep.rs_rec_mono hv⟩

theorem flowEdge_histMono {bfs : BFS} {s : State} (hc : bfs.Canonical) (hs : FlowShape bfs s)
    (hd : s.dist ≠ u8_max) (u v : Nat) (hv : v < bfs.adj.n_typeflows) :
    HistMono s (flowEdge bfs u s v) := by
  unfold flowEdge
  have hs1 := hs.fs_feedInstantiated hc u v
  have h1 : HistMono s (feedInstantiated bfs u s v) :=
    HistMono.hm_of_eq (feedInstantiated_hist bfs u s v)
  by_cases hsat : ((feedInstantiated bfs u s v).hist v).is_saturated = true
  · rw [flowInto_saturated _ _ _ _ hsat]; exact h1
  · exact h1.hm_trans (HistMono.hm_step
      (flowInto_step bfs u _ v (hs1.hist_len ▸ hv) (by simpa using hsat)) (hs1.valid v)
      (by rw [State.methodPart_dist (feedInstantiated_methodPart bfs u s v)]; exact hd))

theorem saturatedEdge_histMono {bfs : BFS} {s s1 : State} (hc : bfs.Canonical)
    (hs : FlowShape bfs s) (hd : s.dist ≠ u8_max) (fuel v : Nat)
    (hv : v < bfs.adj.n_typeflows) (hr : saturatedEdge bfs fuel s v = some s1) :
    HistMono s s1 := by
  by_cases hskip : (s.hist v).is_saturated = true ∨
      s.included_in_saturation_uses.getD v false = true
  · rw [saturatedEdge_skip bfs fuel s v s1 hskip hr]; exact HistMono.hm_refl s
  · have h1 : (s.hist v).is_saturated = false := by
      by_contra hc1; exact hskip (Or.inl (by simpa using hc1))
    have h2 : s.included_in_saturation_uses.getD v false = false := by
      by_contra hc1; exact hskip (Or.inr (by simpa using hc1))
    exact HistMono.hm_step (saturatedEdge_step hc fuel s v hv (hs.hist_len ▸ hv) s1 h1 h2 hr)
      (hs.valid v) hd

theorem processTypeflow_histMono {bfs : BFS} {s s1 : State} (hc : bfs.Canonical)
    (hs : FlowShape bfs s) (hd : s.dist ≠ u8_max) (fuel u : Nat)
    (hr : processTypeflow bfs fuel s u = some s1) : HistMono s s1 := by
  have := processTypeflow_inv hc (fun s2 => HistMono s s2 ∧ s2.dist ≠ u8_max) fuel s u s1 hr hs
    ⟨HistMono.hm_of_eq (State.flowPart_hist (reachMethod_flowPart _ _)),
      by rw [reachMethod_dist]; exact hd⟩
    (fun s2 v hv hs2 h _ _ => ⟨h.1.hm_trans (flowEdge_histMono hc hs2 h.2 u v
        (hc.wf.flow_edge u v hv)),
      by rw [State.methodPart_dist (flowEdge_methodPart bfs u s2 v)]; exact h.2⟩)
    (fun s2 v s3 hv hs2 h _ _ h3 => ⟨h.1.hm_trans (saturatedEdge_histMono hc hs2 h.2 fuel v
        (hc.wf.flow_edge u v hv) h3),
      by rw [State.methodPart_dist (saturatedEdge_methodPart bfs fuel s2 v s3 h3)]
         exact h.2⟩)
  exact this.1

theorem propagate_histMono {bfs : BFS} {s : State} (hc : bfs.Canonical)
    (hs : FlowShape bfs s) (hd : s.dist ≠ u8_max) : HistMono s (propagate bfs s) := by
  have := propagate_inv hc (fun s2 => HistMono s s2 ∧ s2.dist ≠ u8_max) s hs
    ⟨HistMono.hm_refl s, hd⟩
    (fun s2 f l h => ⟨h.1.hm_trans (HistMono.hm_of_eq (fun _ => rfl)), h.2⟩)
    (fun s2 v filtered kept hs2 h hv hns _ =>
      ⟨h.1.hm_trans (HistMono.hm_step
        (replayUse_step bfs filtered (s2, kept) v (hs2.hist_len ▸ hv) hns) (hs2.valid v) h.2),
        by rw [State.methodPart_dist (replayUse_methodPart bfs filtered (s2, kept) v)]
           exact h.2⟩)
    (fun s2 _ h => ⟨h.1.hm_trans (HistMono.hm_of_eq (fun _ => rfl)), h.2⟩)
  exact this.1

theorem methodLayer_histMono (adj : Adjacency) (s : State) : HistMono s (methodLayer adj s) :=
  HistMono.hm_of_eq (methodLayer_hist adj s)

theorem bumpDist_histMono (dm : Bool) (s : State) : HistMono s (bumpDist dm s) :=
  HistMono.hm_of_eq (State.flowPart_hist (bumpDist_flowPart dm s))

/-- With empty saturation uses a round of the propagation only clears the new
instantiations. -/
theorem propagate_unused (bfs : BFS) (s : State)
    (h : ∀ f, s.saturation_uses_by_filter.getD f [] = []) :
    propagate bfs s = clearInstantiated s := by
  unfold propagate
  have := foldl_inv (fun s2 => s2 = s) (propagateFilter bfs)
    (List.range bfs.filter_filters.length) s rfl
    (fun s2 f _ h2 => by
      subst h2
      unfold propagateFilter
      rw [h f]
      rfl)
  rw [this]

theorem gateOpen_derivable {adj : Adjacency} {s : State} (hk : SoundInv adj s)
    (hq : QueueInv adj [] s) (v : Nat) (h : gateOpen adj s v = true) :
    Derivable adj (Fact.method (adj.flow v).method.dependent) := by
  unfold gateOpen at h
  have hne : s.history (adj.flow v).method.dependent ≠ u8_max := by simpa using h
  rcases hq.dequeued _ hne with h0 | h0
  · rw [h0]; exact Derivable.root
  · exact hk.methods _ h0.1

theorem SoundInv.so_flowEdge {bfs : BFS} {s : State} (hc : bfs.Canonical)
    (hs : FlowShape bfs s) (hk : SoundInv bfs.adj s) (hq : QueueInv bfs.adj [] s)
    (u v : Nat) (hv : v ∈ (bfs.adj.flow u).forward_edges)
    (hlive : Derivable bfs.adj (Fact.method (bfs.adj.flow u).method.dependent)) :
    SoundInv bfs.adj (flowEdge bfs u s v) := by
  have hvlt := hc.wf.flow_edge u v hv
  unfold flowEdge
  have hs1 := hs.fs_feedInstantiated hc u v
  have hmp1 := feedInstantiated_methodPart bfs u s v
  have hk1 : SoundInv bfs.adj (feedInstantiated bfs u s v) :=
    hk.so_frame (feedInstantiated_hists bfs u s v) (feedInstantiated_uses bfs u s v).1
      (State.methodPart_visited hmp1)
      (fun x hx => by rw [feedInstantiated_worklist] at hx; exact hx)
  by_cases hsat : ((feedInstantiated bfs u s v).hist v).is_saturated = true
  · rw [flowInto_saturated _ _ _ _ hsat]; exact hk1
  · exact hk1.so_record v _ _ _ _ (hs1.valid v)
      (fun t ht _ => (hs1.valid u).recorded_ne_max t ht)
      (flowInto_step bfs u _ v (hs1.hist_len ▸ hvlt) (by simpa using hsat))
      (fun t ht hskip => Derivable.flow u v t (hk1.types u t ht) hlive hv (by
        rw [← hc.filter_get v t hvlt]
        simpa using hskip))
      (fun hg => gateOpen_derivable hk1 (QueueInv.qu_of_methodPart hmp1 hq) v hg)
      (flowInto_uses bfs u _ v).1

/-- Processing a typeflow keeps the soundness as long as no history is saturated. -/
theorem SoundInv.so_pop {bfs : BFS} {s s1 : State} (hc : bfs.Canonical)
    (hs : FlowShape bfs s) (hd : s.dist ≠ u8_max) (hq : QueueInv bfs.adj [] s)
    (hlen : s.method_visited.length = bfs.adj.n_methods)
    (hk : NoSat s → SoundInv bfs.adj s) (fuel u : Nat) (rest : List Nat)
    (hw : s.typeflow_worklist = u :: rest)
    (hr : processTypeflow bfs fuel (popTypeflow s rest) u = some s1) (hn1 : NoSat s1) :
    SoundInv bfs.adj s1 := by
  have hfp : (reachMethod (popTypeflow s rest) (bfs.adj.flow u).method.reaching).flowPart =
      s.flowPart := reachMethod_flowPart _ _
  have hq0 : QueueInv bfs.adj []
      (reachMethod (popTypeflow s rest) (bfs.adj.flow u).method.reaching) :=
    (show QueueInv bfs.adj [] (popTypeflow s rest) from
      QueueInv.qu_of_methodPart (show (popTypeflow s rest).methodPart = s.methodPart from rfl)
        hq).qu_reach hlen _ (hc.wf.reaching_lt u)
  have := processTypeflow_inv hc
    (fun s2 => s2.dist ≠ u8_max ∧ QueueInv bfs.adj [] s2 ∧
      (NoSat s2 → SoundInv bfs.adj s2 ∧
        Derivable bfs.adj (Fact.method (bfs.adj.flow u).method.dependent)))
    fuel (popTypeflow s rest) u s1 hr (FlowShape.fs_of_flowPart (s := s) rfl hs)
    ⟨by rw [reachMethod_dist]; exact hd, hq0, fun hn0 => by
      have hns : NoSat s := fun v => by rw [← State.flowPart_hist hfp v]; exact hn0 v
      have hks := hk hns
      have hu := hks.queued u (by rw [hw]; exact List.mem_cons_self _ _)
      have hkp : SoundInv bfs.adj (popTypeflow s rest) :=
        hks.so_frame rfl rfl rfl (fun x hx => by rw [hw]; exact List.mem_cons_of_mem _ hx)
      exact ⟨hkp.so_reach u hu.2, hu.1⟩⟩
    (fun s2 v hv hs2 h _ _ =>
      ⟨by rw [State.methodPart_dist (flowEdge_methodPart bfs u s2 v)]; exact h.1,
        QueueInv.qu_of_methodPart (flowEdge_methodPart bfs u s2 v) h.2.1, fun hn3 => by
          have hn2 := (flowEdge_histMono hc hs2 h.1 u v (hc.wf.flow_edge u v hv)).hm_noSat hn3
          obtain ⟨h4, h5⟩ := h.2.2 hn2
          exact ⟨h4.so_flowEdge hc hs2 h.2.1 u v hv h5, h5⟩⟩)
    (fun s2 v s3 hv hs2 h he hsat h3 =>
      ⟨by rw [State.methodPart_dist (saturatedEdge_methodPart bfs fuel s2 v s3 h3)]
          exact h.1,
        QueueInv.qu_of_methodPart (saturatedEdge_methodPart bfs fuel s2 v s3 h3) h.2.1,
        fun hn3 => by
          have hn2 := (saturatedEdge_histMono hc hs2 h.1 fuel v (hc.wf.flow_edge u v hv)
            h3).hm_noSat hn3
          have := hn2 u
          rw [he, hsat] at this
          exact absurd this (by decide)⟩)
  exact (this.2.2 hn1).1

theorem SoundInv.so_propagate {bfs : BFS} {s : State} (hc : bfs.Canonical)
    (hs : FlowShape bfs s) (hd : s.dist ≠ u8_max) (hk : NoSat s → SoundInv bfs.adj s)
    (hn1 : NoSat (propagate bfs s)) : SoundInv bfs.adj (propagate bfs s) := by
  have hks := hk ((propagate_histMono hc hs hd).hm_noSat hn1)
  rw [propagate_unused bfs s hks.unused]
  exact hks.so_frame rfl rfl rfl (fun x hx => hx)

theorem SoundInv.so_phased {bfs : BFS} (hc : bfs.Canonical) (ha : bfs.adj.dependentsAgree)
    (dm : Bool) (hn : dm = true → bfs.adj.n_methods < 255) :
    Phased bfs dm (fun p s => Core bfs [] dm p s ∧ (NoSat s → SoundInv bfs.adj s)) :=
  (Core.co_phased hc [] dm hn).extend (fun _ s => NoSat s → SoundInv bfs.adj s)
    (fun s hb hk _ hn1 => (hk ((methodLayer_histMono bfs.adj s).hm_noSat hn1)).so_layer hc.wf ha
      hb.co_queueInv hb.1.1.1.ba_purgeInv hb.co_rootInv.visited_len hb.co_flowShape)
    (fun s _ hb hk _ hn1 => (hk ((methodLayer_histMono bfs.adj s).hm_noSat hn1)).so_layer hc.wf
      ha hb.co_queueInv hb.1.1.1.ba_purgeInv hb.co_rootInv.visited_len hb.co_flowShape)
    (fun s _ hk _ hn1 => (hk ((bumpDist_histMono dm s).hm_noSat hn1)).so_frame
      (State.flowPart_hists (bumpDist_flowPart dm s))
      (State.flowPart_uses (bumpDist_flowPart dm s)) (bumpDist_fields dm s).1
      (fun x hx => by rw [(bumpDist_fields dm s).2.2.2.2] at hx; exact hx))
    (fun fuel _ u rest _ hb hk hw hr => SoundInv.so_pop hc hb.co_flowShape (hb.co_dist_ne hn)
      hb.co_queueInv hb.co_rootInv.visited_len hk fuel u rest hw hr)
    (fun _ hb hk _ _ _ => SoundInv.so_propagate hc hb.co_flowShape (hb.co_dist_ne hn) hk)
    (fun _ _ hk _ _ => hk)

theorem SoundInv.so_start (bfs : BFS) : SoundInv bfs.adj (startState bfs []) := by
  refine ⟨fun m hm => ?_, fun v t ht => ?_, fun u hu => by simp [startState] at hu,
    fun f => getD_replicate _ _ _⟩
  · rw [startState_visited] at hm
    rcases (of_decide_eq_true hm).1 with h | h
    · rw [h]; exact Derivable.root
    · simp at h
  · rw [startState_hist, recorded_fresh] at ht
    simp at ht

theorem SoundInv.so_init {bfs : BFS} (hc : bfs.Canonical) (fuel : Nat)
    (s0 : State) (h0 : initState bfs [] fuel = some s0) : SoundInv bfs.adj s0 := by
  unfold initState at h0
  have := forM_opt_inv (fun s => FlowShape bfs s ∧ SoundInv bfs.adj s)
    (whiteHoleStep bfs fuel) (bfs.adj.flow 0).forward_edges (startState bfs []) s0
    ⟨FlowShape.fs_start bfs [], SoundInv.so_start bfs⟩
    (fun s v s1 hv h h1 => ⟨h.1.fs_whiteHoleStep hc fuel v (hc.wf.flow_edge 0 v hv) h1,
      h.2.so_record v _ _ _ _ (h.1.valid v)
        (fun t ht _ => lt_types_ne_max hc t ((mem_membersFrom _ _ _ _).1 ht).2.1)
        (whiteHoleStep_step hc fuel s v (hc.wf.flow_edge 0 v hv)
          (h.1.hist_len ▸ hc.wf.flow_edge 0 v hv) s1 h1)
        (fun t ht _ => Derivable.seed v t hv (by
          rw [← hc.filter_get v t (hc.wf.flow_edge 0 v hv)]
          exact ((mem_membersFrom _ _ _ _).1 ht).2.2))
        (fun hg => by
          have : (bfs.adj.flow v).method.dependent = 0 := by simpa using hg
          rw [this]; exact Derivable.root)
        (whiteHoleStep_uses bfs fuel s v s1 h1).1⟩) h0
  exact this.2

theorem Handed.ha_mono {bfs : BFS} {s s2 : State} {u v : Nat} (h : Handed bfs s u v)
    (hm : HistMono s s2) (hu : s2.hist u = s.hist u) : Handed bfs s2 u v := by
  intro t ht ha
  rw [hu] at ht
  rcases h t ht ha with h1 | h1
  · exact Or.inl (hm.types v t h1)
  · exact Or.inr (hm.sat v h1)

theorem SeedInv.se_mono {bfs : BFS} {s s2 : State} (hm : HistMono s s2)
    (h : SeedInv bfs s) : SeedInv bfs s2 := by
  intro v hv t ha
  rcases h v hv t ha with h1 | h1
  · exact Or.inl (hm.types v t h1)
  · exact Or.inr (hm.sat v h1)

theorem EdgeInv.ed_frame {bfs : BFS} {E : Nat → Prop} {s s2 : State} (hk : EdgeInv bfs E s)
    (h1 : ∀ w, s2.hist w = s.hist w) (h2 : s2.method_history = s.method_history)
    (h3 : ∀ x ∈ s.typeflow_worklist, x ∈ s2.typeflow_worklist) : EdgeInv bfs E s2 := by
  intro u hg hns
  have hg1 : gateOpen bfs.adj s u = true := by
    unfold gateOpen State.history at hg ⊢; rw [h2] at hg; exact hg
  rw [h1] at hns
  rcases hk u hg1 hns with h | h | h
  · exact Or.inl (h3 u h)
  · exact Or.inr (Or.inl (fun v hv => (h v hv).ha_mono (HistMono.hm_of_eq h1) (h1 u)))
  · exact Or.inr (Or.inr h)

/-- Every record step keeps the invariant: a typeflow whose history changes is pushed when
its gate is open. -/
theorem EdgeInv.ed_record {bfs : BFS} {E : Nat → Prop} {s s2 : State} (hk : EdgeInv bfs E s)
    (v : Nat) (skip : Nat → Bool) (d : Nat) (l : List Nat) (g : Bool) (hd : d ≠ u8_max)
    (hv : (s.hist v).Valid)
    (hstep : RecordStep s s2 v (flowLoop skip d l (s.hist v) false)
      ((flowLoop skip d l (s.hist v) false).2 && g))
    (hg : gateOpen bfs.adj s v = true → g = true) : EdgeInv bfs E s2 := by
  have hm : HistMono s s2 := HistMono.hm_step hstep hv hd
  intro u hgu hns
  have hgu1 : gateOpen bfs.adj s u = true := by
    rw [← gateOpen_of_methodPart hstep.methodPart]; exact hgu
  by_cases hch : s2.hist u = s.hist u
  · rw [hch] at hns
    rcases hk u hgu1 hns with h | h | h
    · exact Or.inl (hstep.rs_worklist_sub u h)
    · exact Or.inr (Or.inl (fun x hx => (h x hx).ha_mono hm hch))
    · exact Or.inr (Or.inr h)
  · have huv : u = v := by
      by_contra hne
      exact hch (hstep.hist_other u hne)
    subst huv
    exact Or.inl (hstep.rs_changed hv hch (hg hgu1))

theorem EdgeInv.ed_flowEdge {bfs : BFS} {E : Nat → Prop} {s : State} (hc : bfs.Canonical)
    (hs : FlowShape bfs s) (hk : EdgeInv bfs E s) (hd : s.dist ≠ u8_max) (u v : Nat)
    (hv : v < bfs.adj.n_typeflows) : EdgeInv bfs E (flowEdge bfs u s v) := by
  unfold flowEdge
  have hs1 := hs.fs_feedInstantiated hc u v
  have hk1 : EdgeInv bfs E (feedInstantiated bfs u s v) :=
    hk.ed_frame (feedInstantiated_hist bfs u s v)
      (State.methodPart_history (feedInstantiated_methodPart bfs u s v))
      (fun x hx => by rw [feedInstantiated_worklist]; exact hx)
  by_cases hsat : ((feedInstantiated bfs u s v).hist v).is_saturated = true
  · rw [flowInto_saturated _ _ _ _ hsat]; exact hk1
  · exact hk1.ed_record v _ _ _ _
      (by rw [State.methodPart_dist (feedInstantiated_methodPart bfs u s v)]; exact hd)
      (hs1.valid v) (flowInto_step bfs u _ v (hs1.hist_len ▸ hv) (by simpa using hsat))
      (fun h => h)

theorem EdgeInv.ed_saturatedEdge {bfs : BFS} {E : Nat → Prop} {s s1 : State}
    (hc : bfs.Canonical) (hs : FlowShape bfs s) (hk : EdgeInv bfs E s) (hd : s.dist ≠ u8_max)
    (fuel v : Nat) (hv : v < bfs.adj.n_typeflows)
    (hr : saturatedEdge bfs fuel s v = some s1) : EdgeInv bfs E s1 := by
  by_cases hskip : (s.hist v).is_saturated = true ∨
      s.included_in_saturation_uses.getD v false = true
  · rw [saturatedEdge_skip bfs fuel s v s1 hskip hr]; exact hk
  · have h1 : (s.hist v).is_saturated = false := by
      by_contra hc1; exact hskip (Or.inl (by simpa using hc1))
    have h2 : s.included_in_saturation_uses.getD v false = false := by
      by_contra hc1; exact hskip (Or.inr (by simpa using hc1))
    exact hk.ed_record v _ _ _ _ hd (hs.valid v)
      (saturatedEdge_step hc fuel s v hv (hs.hist_len ▸ hv) s1 h1 h2 hr) (fun h => h)

/-- After the flow along the edge `u → v` the types of `u` are handed to `v`. -/
theorem flowEdge_hands {bfs : BFS} {s : State} (hc : bfs.Canonical) (hs : FlowShape bfs s)
    (hd : s.dist ≠ u8_max) (u v : Nat) (hv : v < bfs.adj.n_typeflows) :
    Handed bfs (flowEdge bfs u s v) u v := by
  intro t ht ha
  rw [flowEdge_hist_source hc hs u v] at ht
  unfold flowEdge
  have hs1 := hs.fs_feedInstantiated hc u v
  have hu1 : (feedInstantiated bfs u s v).hist u = s.hist u := feedInstantiated_hist bfs u s v u
  by_cases hsat : ((feedInstantiated bfs u s v).hist v).is_saturated = true
  · rw [flowInto_saturated _ _ _ _ hsat]; exact Or.inr hsat
  · have hstep := flowInto_step bfs u _ v (hs1.hist_len ▸ hv) (by simpa using hsat)
    rw [hstep.hist_self]
    by_cases hres : (flowLoop (fun t => !(bfs.typeflow_filters.getD v default).get t)
        (feedInstantiated bfs u s v).dist ((feedInstantiated bfs u s v).hist u).recorded
        ((feedInstantiated bfs u s v).hist v) false).1.is_saturated = true
    · exact Or.inr hres
    · left
      exact flowLoop_complete _ _
        (by rw [State.methodPart_dist (feedInstantiated_methodPart bfs u s v)]; exact hd)
        _ _ false (hs1.valid v) (by simpa using hres) t (by rw [hu1]; exact ht)
        (by rw [hc.filter_get v t hv, ha]; rfl) ((hs.valid u).recorded_ne_max t ht)

theorem hist_out_of_range {bfs : BFS} {s : State} (hs : FlowShape bfs s) (u : Nat)
    (hu : ¬ u < bfs.adj.n_typeflows) : (s.hist u).recorded = [] := by
  have : s.hist u = TypeflowHistory.fresh := by
    unfold State.hist
    rw [getD_default _ _ _ (by rw [hs.hist_len]; omega)]
    rfl
  rw [this, recorded_fresh]

/-- The method layer wakes the typeflows whose gate it opens. -/
theorem EdgeInv.ed_layer {bfs : BFS} {s : State} (hl : bfs.adj.dependentsListed)
    (hk : EdgeInv bfs (fun _ => False) s) (hs : FlowShape bfs s) (hroot : RootInv bfs.adj s) :
    EdgeInv bfs (fun _ => False) (methodLayer bfs.adj s) := by
  have e1 := methodLayer_hist bfs.adj s
  intro u hg hns
  rw [e1] at hns
  by_cases hold : gateOpen bfs.adj s u = true
  · rcases hk u hold hns with h | h | h
    · exact Or.inl (methodLayer_worklist_sub bfs.adj s u h)
    · exact Or.inr (Or.inl (fun v hv =>
        (h v hv).ha_mono (methodLayer_histMono bfs.adj s) (e1 u)))
    · exact absurd h id
  · have hclosed : s.history (bfs.adj.flow u).method.dependent = u8_max := by
      unfold gateOpen at hold
      simpa using hold
    have hopen : (methodLayer bfs.adj s).history (bfs.adj.flow u).method.dependent ≠
        u8_max := by
      unfold gateOpen at hg
      simpa using hg
    rw [methodLayer_history] at hopen
    split at hopen
    · rename_i hm
      have hne : (bfs.adj.flow u).method.dependent ≠ 0 := by
        intro h0
        rw [h0, hroot.root_history] at hclosed
        exact absurd hclosed (by decide)
      by_cases hemp : (s.hist u).recorded = []
      · refine Or.inr (Or.inl (fun v _ t ht _ => ?_))
        rw [e1, hemp] at ht
        simp at ht
      · have hult : u < bfs.adj.n_typeflows := by
          by_contra hc1
          exact hemp (hist_out_of_range hs u hc1)
        exact Or.inl (methodLayer_wakes bfs.adj s _ u hm.1 (hl u hult hne)
          (((hs.valid u).any_iff).2 hemp))
    · exact absurd hclosed hopen

theorem EdgeInv.ed_pop {bfs : BFS} {s s1 : State} (hc : bfs.Canonical)
    (hs : FlowShape bfs s) (hk : EdgeInv bfs (fun _ => False) s) (hd : s.dist ≠ u8_max)
    (fuel u : Nat) (rest : List Nat) (hw : s.typeflow_worklist = u :: rest)
    (hr : processTypeflow bfs fuel (popTypeflow s rest) u = some s1) :
    EdgeInv bfs (fun _ => False) s1 := by
  have hfp : (reachMethod (popTypeflow s rest) (bfs.adj.flow u).method.reaching).flowPart =
      s.flowPart := reachMethod_flowPart _ _
  have e1 := State.flowPart_hist hfp
  have hs0 : FlowShape bfs (reachMethod (popTypeflow s rest) (bfs.adj.flow u).method.reaching) :=
    FlowShape.fs_of_flowPart hfp hs
  have hd0 : (reachMethod (popTypeflow s rest) (bfs.adj.flow u).method.reaching).dist ≠
      u8_max := by rw [reachMethod_dist]; exact hd
  have hk0 : EdgeInv bfs (fun w => w = u)
      (reachMethod (popTypeflow s rest) (bfs.adj.flow u).method.reaching) := by
    intro w hg hns
    rw [e1] at hns
    have hg1 : gateOpen bfs.adj s w = true := by
      unfold gateOpen State.history at hg ⊢
      rw [reachMethod_history] at hg
      exact hg
    rcases hk w hg1 hns with h | h | h
    · rw [hw] at h
      rcases List.mem_cons.1 h with h2 | h2
      · exact Or.inr (Or.inr h2)
      · exact Or.inl (by rw [reachMethod_typeflow_worklist]; exact h2)
    · exact Or.inr (Or.inl (fun v hv => (h v hv).ha_mono (HistMono.hm_of_eq e1) (e1 w)))
    · exact absurd h id
  unfold processTypeflow at hr
  split at hr
  · rw [← Option.some.inj hr]
    have := foldl_establish (fun s2 => FlowShape bfs s2 ∧ EdgeInv bfs (fun w => w = u) s2 ∧
        s2.dist ≠ u8_max)
      (fun v s2 => Handed bfs s2 u v)
      (flowEdge bfs u) (bfs.adj.flow u).forward_edges _ ⟨hs0, hk0, hd0⟩
      (fun s2 v hv h => ⟨⟨h.1.fs_flowEdge hc u v (hc.wf.flow_edge u v hv),
        h.2.1.ed_flowEdge hc h.1 h.2.2 u v (hc.wf.flow_edge u v hv),
        by rw [State.methodPart_dist (flowEdge_methodPart bfs u s2 v)]; exact h.2.2⟩,
        flowEdge_hands hc h.1 h.2.2 u v (hc.wf.flow_edge u v hv)⟩)
      (fun s2 x y hy h hx => hx.ha_mono
        (flowEdge_histMono hc h.1 h.2.2 u y (hc.wf.flow_edge u y hy))
        (flowEdge_hist_source hc h.1 u y))
    intro w hg hns
    rcases this.1.2.1 w hg hns with h | h | h
    · exact Or.inl h
    · exact Or.inr (Or.inl h)
    · exact Or.inr (Or.inl (h ▸ this.2))
  · rename_i hsat
    have hsat' : ((reachMethod (popTypeflow s rest) (bfs.adj.flow u).method.reaching).hist
        u).is_saturated = true := by simpa using hsat
    have := forM_opt_inv
      (fun s2 => FlowShape bfs s2 ∧ EdgeInv bfs (fun w => w = u) s2 ∧ s2.dist ≠ u8_max ∧
        (s2.hist u).is_saturated = true)
      (saturatedEdge bfs fuel) (bfs.adj.flow u).forward_edges _ s1 ⟨hs0, hk0, hd0, hsat'⟩
      (fun s2 v s3 hv h h3 => ⟨h.1.fs_saturatedEdge hc fuel v (hc.wf.flow_edge u v hv) h3,
        h.2.1.ed_saturatedEdge hc h.1 h.2.2.1 fuel v (hc.wf.flow_edge u v hv) h3,
        by rw [State.methodPart_dist (saturatedEdge_methodPart bfs fuel s2 v s3 h3)]
           exact h.2.2.1,
        by rw [saturatedEdge_hist_source hc h.1 fuel u v (hc.wf.flow_edge u v hv) h.2.2.2 h3]
           exact h.2.2.2⟩) hr
    intro w hg hns
    rcases this.2.1 w hg hns with h | h | h
    · exact Or.inl h
    · exact Or.inr (Or.inl h)
    · rw [h, this.2.2.2] at hns
      exact absurd hns (by decide)

theorem EdgeInv.ed_propagate {bfs : BFS} {E : Nat → Prop} {s : State} (hc : bfs.Canonical)
    (hs : FlowShape bfs s) (hk : EdgeInv bfs E s) (hd : s.dist ≠ u8_max) :
    EdgeInv bfs E (propagate bfs s) := by
  have := propagate_inv hc (fun s2 => EdgeInv bfs E s2 ∧ s2.dist ≠ u8_max) s hs ⟨hk, hd⟩
    (fun s2 f l h => ⟨h.1.ed_frame (fun _ => rfl) rfl (fun x hx => hx), h.2⟩)
    (fun s2 v filtered kept hs2 h hv hns _ =>
      ⟨h.1.ed_record v _ _ _ _ h.2 (hs2.valid v)
        (replayUse_step bfs filtered (s2, kept) v (hs2.hist_len ▸ hv) hns) (fun hg => hg),
        by rw [State.methodPart_dist (replayUse_methodPart bfs filtered (s2, kept) v)]
           exact h.2⟩)
    (fun s2 _ h => ⟨h.1.ed_frame (fun _ => rfl) rfl (fun x hx => hx), h.2⟩)
  exact this.1

theorem Closing.cg_phased {bfs : BFS} (hc : bfs.Canonical) (hl : bfs.adj.dependentsListed)
    (purged : List Nat) (dm : Bool) (hn : dm = true → bfs.adj.n_methods < 255) :
    Phased bfs dm (fun p s => Core bfs purged dm p s ∧ Closing bfs s) :=
  (Core.co_phased hc purged dm hn).extend (fun _ s => Closing bfs s)
    (fun s hb hk _ => ⟨hk.1.ed_layer hl hb.co_flowShape hb.co_rootInv,
      hk.2.se_mono (methodLayer_histMono bfs.adj s)⟩)
    (fun s _ hb hk _ => ⟨hk.1.ed_layer hl hb.co_flowShape hb.co_rootInv,
      hk.2.se_mono (methodLayer_histMono bfs.adj s)⟩)
    (fun s _ hk _ => ⟨hk.1.ed_frame (State.flowPart_hist (bumpDist_flowPart dm s))
      (bumpDist_fields dm s).2.1
      (fun x hx => by rw [(bumpDist_fields dm s).2.2.2.2]; exact hx),
      hk.2.se_mono (bumpDist_histMono dm s)⟩)
    (fun fuel s u rest s1 hb hk hw hr =>
      ⟨hk.1.ed_pop hc hb.co_flowShape (hb.co_dist_ne hn) fuel u rest hw hr,
        by
          have h1 : FlowShape bfs (popTypeflow s rest) :=
            FlowShape.fs_of_flowPart (s := s) rfl hb.co_flowShape
          have h0 : s.dist ≠ u8_max := hb.co_dist_ne hn
          have h2 : (popTypeflow s rest).dist ≠ u8_max := h0
          have h3 : HistMono (popTypeflow s rest) s1 :=
            processTypeflow_histMono hc h1 h2 fuel u hr
          have h4 : HistMono s (popTypeflow s rest) := HistMono.hm_of_eq (fun _ => rfl)
          exact hk.2.se_mono (h4.hm_trans h3)⟩)
    (fun s hb hk _ _ _ => ⟨hk.1.ed_propagate hc hb.co_flowShape (hb.co_dist_ne hn),
      hk.2.se_mono (propagate_histMono hc hb.co_flowShape (hb.co_dist_ne hn))⟩)
    (fun _ _ hk _ _ => hk)

theorem Closing.cg_init {bfs : BFS} (hc : bfs.Canonical) (purged : List Nat) (fuel : Nat)
    (s0 : State) (h0 : initState bfs purged fuel = some s0) : Closing bfs s0 := by
  unfold initState at h0
  have := forM_opt_establish
    (fun s => FlowShape bfs s ∧ EdgeInv bfs (fun _ => False) s ∧
      s.methodPart = (startState bfs purged).methodPart)
    (fun v s => ∀ t, bfs.adj.admits v t = true →
      t ∈ (s.hist v).recorded ∨ (s.hist v).is_saturated = true)
    (whiteHoleStep bfs fuel) (bfs.adj.flow 0).forward_edges (startState bfs purged) s0
    ⟨FlowShape.fs_start bfs purged, fun u _ _ => Or.inr (Or.inl (fun v _ t ht _ => by
      rw [startState_hist, recorded_fresh] at ht
      simp at ht)), rfl⟩
    (fun s v s1 hv h h1 => by
      have hvlt := hc.wf.flow_edge 0 v hv
      have hstep := whiteHoleStep_step hc fuel s v hvlt (h.1.hist_len ▸ hvlt) s1 h1
      refine ⟨⟨h.1.fs_whiteHoleStep hc fuel v hvlt h1,
        h.2.1.ed_record v _ 0 _ _ (by decide) (h.1.valid v) hstep (fun hg => ?_),
        (whiteHoleStep_methodPart bfs fuel s v s1 h1).trans h.2.2⟩, fun t ha => ?_⟩
      · unfold gateOpen at hg
        rw [State.history_of_methodPart h.2.2, startState_history] at hg
        by_cases hd : (bfs.adj.flow v).method.dependent = 0
        · rw [hd]; rfl
        · rw [if_neg (fun hc1 => hd hc1.1)] at hg
          exact absurd hg (by decide)
      · rw [hstep.hist_self]
        by_cases hres : (flowLoop (fun _ => false) 0
            (membersFrom (bfs.typeflow_filters.getD v default) bfs.adj.n_types 0)
            (s.hist v) false).1.is_saturated = true
        · exact Or.inr hres
        · left
          have hlt := Adjacency.admits_lt hc.wf v t hvlt ha
          exact flowLoop_complete _ _ (by decide) _ _ false (h.1.valid v)
            (by simpa using hres) t
            ((mem_membersFrom _ _ _ _).2
              ⟨Nat.zero_le _, hlt, by rw [hc.filter_get v t hvlt]; exact ha⟩)
            rfl (lt_types_ne_max hc t hlt))
    (fun s x y s1 hy h hx h1 t ha => by
      have hylt := hc.wf.flow_edge 0 y hy
      have hm := HistMono.hm_step
        (whiteHoleStep_step hc fuel s y hylt (h.1.hist_len ▸ hylt) s1 h1) (h.1.valid y)
        (by decide)
      rcases hx t ha with h2 | h2
      · exact Or.inl (hm.types x t h2)
      · exact Or.inr (hm.sat x h2)) h0
  exact ⟨this.1.2.1, this.2⟩

/-- A final state without saturation is closed under the propagation rules. -/
theorem holds_of_derivable {bfs : BFS} {dm : Bool} {s : State}
    (hcore : Core bfs [] dm Phase.head s) (hfin : Final bfs [] s) (hcl : Closing bfs s)
    (hns : NoSat s) (f : Fact) (h : Derivable bfs.adj f) : Holds s f := by
  induction h with
  | root => exact hcore.co_rootInv.root_visited
  | call m v _ hv ih =>
    have hclosed := hfin.base.ba_closedInv.closed m ih
    rw [hfin.methods_done, hfin.base.2.2.2] at hclosed
    rcases hclosed with h1 | h1 | h1 | h1
    · simp at h1
    · simp at h1
    · simp at h1
    · exact h1 v hv
  | reach u t _ ih =>
    have hne : (s.hist u).recorded ≠ [] := List.ne_nil_of_mem ih
    cases hrole : (bfs.adj.flow u).method with
    | Reaching m =>
      rcases hfin.reach u m hrole hne with h1 | h1
      · rw [hfin.flows_done] at h1
        simp at h1
      · exact h1
    | Dependent m => exact hcore.co_rootInv.root_visited
  | seed v t hv ha =>
    rcases hcl.2 v hv t ha with h1 | h1
    · exact h1
    · rw [hns v] at h1
      exact absurd h1 (by decide)
  | flow u v t _ _ hv ha ih1 ih2 =>
    have hgate : gateOpen bfs.adj s u = true := by
      unfold gateOpen
      have hvis : s.visited (bfs.adj.flow u).method.dependent = true := ih2
      rcases hcore.2 _ hvis (by simp) with h1 | h1
      · rw [hfin.methods_done] at h1
        simp at h1
      · simpa using h1
    rcases hcl.1 u hgate (hns u) with h1 | h1 | h1
    · rw [hfin.flows_done] at h1
      simp at h1
    · rcases h1 v hv t ih1 ha with h2 | h2
      · exact h2
      · rw [hns v] at h2
        exact absurd h2 (by decide)
    · exact absurd h1 id

/-- Without a purged method and without saturation the solver computes, in either mode,
exactly the derivable facts. -/
theorem solve_characterized {bfs : BFS} (hc : bfs.Canonical) (ha : bfs.adj.dependentsAgree)
    (hl : bfs.adj.dependentsListed) (dm : Bool) (hn : dm = true → bfs.adj.n_methods < 255)
    (fuel : Nat) (s : State) (hr : solve bfs [] dm fuel = some s) (hns : NoSat s) (f : Fact) :
    Holds s f ↔ Derivable bfs.adj f := by
  have h1 := (solve_phased (SoundInv.so_phased hc ha dm hn) [] fuel
    (fun s0 h0 => ⟨Core.co_init hc [] dm fuel s0 h0, fun _ => SoundInv.so_init hc fuel s0 h0⟩)
    s hr).1
  have h2 := (solve_phased (Closing.cg_phased hc hl [] dm hn) [] fuel
    (fun s0 h0 => ⟨Core.co_init hc [] dm fuel s0 h0, Closing.cg_init hc [] fuel s0 h0⟩)
    s hr).1
  have h3 := solve_final hc [] dm fuel s hr
  constructor
  · intro hf
    cases f with
    | method m => exact (h1.2 hns).methods m hf
    | type v t => exact (h1.2 hns).types v t hf
  · exact holds_of_derivable h1.1 h3 h2.2 hns f

/-- After a layer every successor of a method of the worklist is marked. -/
theorem methodLayer_closes {adj : Adjacency} (hw : adj.wf) {purged : List Nat} {s : State}
    (hs : ClosedInv adj purged s) (u : Nat) (hu : u ∈ s.method_worklist) (v : Nat)
    (hv : v ∈ (adj.method u).forward_edges) : (methodLayer adj s).visited v = true := by
  have h1 := foldl_establish
    (fun s1 => ClosedInv adj purged s1 ∧ s1.method_worklist = s.method_worklist)
    (fun u s1 => ∀ v ∈ (adj.method u).forward_edges, s1.visited v = true)
    (methodBody adj) s.method_worklist s ⟨hs, rfl⟩
    (fun s1 u _ h => ⟨⟨(methodBody_closes hw h.1 u).1, (methodBody_worklist adj s1 u).trans h.2⟩,
      (methodBody_closes hw h.1 u).2⟩)
    (fun s1 x y _ _ hx v hv => methodBody_mono adj s1 y v (hx v hv))
  exact h1.2 u hu v hv

theorem DistInv.di_layer {adj : Adjacency} {purged : List Nat} {s : State} (hw : adj.wf)
    (hk : DistInv adj purged s.dist s) (hd : s.dist ≠ u8_max) (hq : QueueInv adj purged s)
    (hlen : s.method_history.length = adj.n_methods) (hdone : DoneInv purged s)
    (hcl : ClosedInv adj purged s) (hroot : RootInv adj s)
    (hunset : ∀ m ∈ s.method_worklist, m ≠ 0 → s.history m = u8_max) :
    DistInv adj purged (s.dist + 1) (methodLayer adj s) := by
  have hin : ∀ m, m ∈ s.method_worklist → (methodLayer adj s).history m = s.dist := by
    intro m hm
    rw [methodLayer_history, if_pos ⟨hm, hlen ▸ (hq.waiting m (Or.inl hm)).1⟩]
  have hout : ∀ m, m ∉ s.method_worklist → (methodLayer adj s).history m = s.history m := by
    intro m hm
    rw [methodLayer_history, if_neg (fun hc => hm hc.1)]
  have hset : ∀ m, s.history m ≠ u8_max →
      (methodLayer adj s).history m ≠ u8_max ∧ (methodLayer adj s).history m ≤ s.dist := by
    intro m hm
    by_cases hmw : m ∈ s.method_worklist
    · rw [hin m hmw]; exact ⟨hd, Nat.le_refl _⟩
    · rw [hout m hmw]; exact ⟨hm, hk.le_dist m hm⟩
  refine ⟨fun m hm => ?_, fun u hu _ v hv => ?_⟩
  · rw [methodLayer_dist]
    by_cases hmw : m ∈ s.method_worklist
    · rw [hin m hmw]
    · rw [hout m hmw] at hm ⊢
      exact hk.le_dist m hm
  · by_cases huw : u ∈ s.method_worklist
    · rw [hin u huw]
      have hvis := methodLayer_closes hw hcl u huw v hv
      rcases methodLayer_marks adj s v hvis with h | h
      · by_cases hvp : v ∈ purged
        · exact Or.inl hvp
        · right; left
          rcases hdone v h hvp with h1 | h1
          · rw [hin v h1]; exact ⟨hd, Nat.le_succ _⟩
          · exact ⟨(hset v h1).1, Nat.le_succ_of_le (hset v h1).2⟩
      · exact Or.inr (Or.inr ⟨h, Nat.le_refl _⟩)
    · rw [hout u huw] at hu ⊢
      rcases hk.edges u hu huw v hv with h | ⟨h1, h2⟩ | ⟨h1, h2⟩
      · exact Or.inl h
      · right; left
        by_cases hvw : v ∈ s.method_worklist
        · rw [hin v hvw]
          refine ⟨hd, ?_⟩
          have hv0 : v = 0 := by
            by_contra hne
            exact h1 (hunset v hvw hne)
          rw [hroot.root_worklist (hv0 ▸ hvw)]
          exact Nat.zero_le _
        · rw [hout v hvw]; exact ⟨h1, h2⟩
      · right; left
        rw [hin v h1]
        exact ⟨hd, h2⟩

theorem DistInv.di_of_methodPart {adj : Adjacency} {purged : List Nat} {k : Nat}
    {s s1 : State} (h : s1.methodPart = s.methodPart) (hk : DistInv adj purged k s) :
    DistInv adj purged k s1 := by
  have hh : ∀ m, s1.history m = s.history m := State.history_of_methodPart h
  refine ⟨fun m hm => ?_, fun u hu huw v hv => ?_⟩
  · rw [hh] at hm ⊢
    rw [State.methodPart_dist h]
    exact hk.le_dist m hm
  · rw [hh] at hu
    rw [State.methodPart_worklist h] at huw
    rw [hh u, hh v, State.methodPart_worklist h]
    exact hk.edges u hu huw v hv

theorem DistInv.di_bump {adj : Adjacency} {purged : List Nat} {s : State}
    (hk : DistInv adj purged (s.dist + 1) s) (hlt : s.dist + 1 < 256) :
    DistInv adj purged (bumpDist true s).dist (bumpDist true s) := by
  obtain ⟨_, e2, e3, _, _⟩ := bumpDist_fields true s
  have hdist : (bumpDist true s).dist = s.dist + 1 := by
    show (s.dist + 1) % 256 = s.dist + 1
    exact Nat.mod_eq_of_lt hlt
  have hh : ∀ m, (bumpDist true s).history m = s.history m := fun m => by
    unfold State.history; rw [e2]
  refine ⟨fun m hm => ?_, fun u hu huw v hv => ?_⟩
  · rw [hh] at hm ⊢
    rw [hdist]
    exact Nat.le_succ_of_le (hk.le_dist m hm)
  · rw [hh] at hu
    rw [e3] at huw
    rw [hh u, hh v, e3, hdist]
    exact hk.edges u hu huw v hv

theorem DistInv.di_reach {adj : Adjacency} {purged : List Nat} {k : Nat} {s : State}
    (hk : DistInv adj purged k s) (r : Nat) : DistInv adj purged k (reachMethod s r) := by
  have hh : ∀ m, (reachMethod s r).history m = s.history m := fun m => by
    unfold State.history; rw [reachMethod_history]
  refine ⟨fun m hm => ?_, fun u hu huw v hv => ?_⟩
  · rw [hh] at hm ⊢
    rw [reachMethod_dist]
    exact hk.le_dist m hm
  · rw [hh] at hu
    rw [hh u, hh v]
    rcases hk.edges u hu (fun hc => huw (reachMethod_worklist_sub s r u hc)) v hv with
      h | h | h
    · exact Or.inl h
    · exact Or.inr (Or.inl h)
    · exact Or.inr (Or.inr ⟨reachMethod_worklist_sub s r v h.1, h.2⟩)

theorem DistInv.di_phased {bfs : BFS} (hc : bfs.Canonical) (purged : List Nat)
    (hn : bfs.adj.n_methods < 255) :
    Phased bfs true (fun p s => Core bfs purged true p s ∧
      DistInv bfs.adj purged (pendingLevel p s) s) :=
  (Core.co_phased hc purged true (fun _ => hn)).extend
    (fun p s => DistInv bfs.adj purged (pendingLevel p s) s)
    (fun s hb hk _ => by
      have h := hk.di_layer hc.wf (hb.co_dist_ne (fun _ => hn)) hb.co_queueInv
        hb.1.1.1.ba_purgeInv.history_len hb.2 hb.1.1.1.ba_closedInv hb.co_rootInv
        (hb.1.2.2 rfl).unset
      show DistInv bfs.adj purged ((methodLayer bfs.adj s).dist + 1) _
      rw [methodLayer_dist]
      exact h)
    (fun _ hdm _ _ _ => by cases hdm)
    (fun s hb hk _ => by
      have hlt := hb.1.2.nw_dist_lt (fun _ => hn)
      have hsp : spare Phase.methods s = 1 := rfl
      rw [hsp] at hlt
      exact DistInv.di_bump hk (by omega))
    (fun fuel s u rest s1 _ hk _ hr => by
      have hmp := processTypeflow_methodPart bfs fuel (popTypeflow s rest) u s1 hr
      have h1 : DistInv bfs.adj purged s.dist (popTypeflow s rest) :=
        DistInv.di_of_methodPart (show (popTypeflow s rest).methodPart = s.methodPart from rfl)
          hk
      have h3 := DistInv.di_of_methodPart hmp
        (h1.di_reach (bfs.adj.flow u).method.reaching)
      show DistInv bfs.adj purged s1.dist s1
      rw [State.methodPart_dist hmp, reachMethod_dist]
      exact h3)
    (fun s _ hk _ _ _ => by
      have hmp := propagate_methodPart bfs s
      have h1 : DistInv bfs.adj purged s.dist s := hk
      show DistInv bfs.adj purged (propagate bfs s).dist _
      rw [State.methodPart_dist hmp]
      exact DistInv.di_of_methodPart hmp h1)
    (fun _ _ hk _ _ => hk)

theorem DistInv.di_start (bfs : BFS) (purged : List Nat) :
    DistInv bfs.adj purged 0 (startState bfs purged) := by
  have h0 : ∀ m, (startState bfs purged).history m ≠ u8_max → m = 0 := by
    intro m hm
    rw [startState_history] at hm
    by_contra hne
    rw [if_neg (fun hc => hne hc.1)] at hm
    exact hm rfl
  refine ⟨fun m hm => ?_, fun u hu huw => ?_⟩
  · have hm0 := h0 m hm
    subst hm0
    by_cases hpos : 0 < bfs.adj.n_methods
    · rw [startState_history, if_pos ⟨rfl, hpos⟩]
      exact Nat.zero_le _
    · rw [startState_history, if_neg (fun hc => hpos hc.2)] at hm
      exact absurd rfl hm
  · have hu0 := h0 u hu
    subst hu0
    exact absurd (by simp [startState]) huw

/-- The distance law holds as long as the 8-bit counter cannot wrap: with distances and fewer
than 255 methods, for every well-formed adjacency and purged list and every method forward
edge `u → v` with both ends reported reached, `method_history[v] ≤ method_history[u] + 1`. -/
theorem distance_law_below_wrap (adj : Adjacency) (hw : adj.wf) (purged : List Nat)
    (hn : adj.n_methods < 255) (fuel : Nat) (r : Result)
    (hr : run adj purged true fuel = some r) (u v : Nat)
    (hv : v ∈ (adj.method u).forward_edges) (hu : r.method_visited.getD u false = true)
    (hvv : r.method_visited.getD v false = true) :
    r.method_history.getD v u8_max ≤ r.method_history.getD u u8_max + 1 := by
  have hc := BFS.create_canonical adj hw
  obtain ⟨s, h1, rfl⟩ := run_eq_some hr
  have hI := solve_phased (DistInv.di_phased hc purged hn) purged fuel
    (fun s0 h0 => ⟨Core.co_init hc purged true fuel s0 h0, by
      have hmp := initState_methodPart (BFS.create adj) purged fuel s0 h0
      show DistInv _ purged s0.dist s0
      rw [State.methodPart_dist hmp]
      exact DistInv.di_of_methodPart hmp (DistInv.di_start (BFS.create adj) purged)⟩) s h1
  rw [finish_visited] at hu hvv
  have hu1 : s.visited u = true ∧ u ∉ purged := by simpa using hu
  have hv1 : s.visited v = true ∧ v ∉ purged := by simpa using hvv
  have hwl : s.method_worklist = [] := hI.2
  have huset : s.history u ≠ u8_max := by
    rcases hI.1.1.2 u hu1.1 hu1.2 with h | h
    · rw [hwl] at h; simp at h
    · exact h
  rcases hI.1.2.edges u huset (by rw [hwl]; simp) v hv with h | h | h
  · exact absurd h hv1.2
  · exact h.2
  · rw [hwl] at h; simp at h

theorem TypeflowHistory.Reachable.rb_valid {h : TypeflowHistory} (hr : h.Reachable) : h.Valid := by
  induction hr with
  | fresh => exact TypeflowHistory.valid_fresh
  | add h t d _ ih => exact ih.add_type t d

/-- The pairs yielded by the iteration after `add_type`. -/
theorem TypeflowHistory.Valid.iter_add_type {h : TypeflowHistory} (hv : h.Valid) (t d : Nat) :
    (h.add_type t d).1.iter =
      if t ∈ h.recorded ∨ saturation_cutoff ≤ h.recorded.length ∨ t = type_max
      then h.iter else h.iter ++ [(t, d)] := by
  obtain ⟨ps, hp⟩ := hv
  rw [(hp.add_type_holds t d).iter_eq, hp.recorded_eq, hp.iter_eq]
  simp only [List.length_map]

theorem TypeflowHistory.seen_fresh : TypeflowHistory.Seen ∅ TypeflowHistory.fresh := by
  refine ⟨valid_fresh, ?_, ?_, ?_, ?_⟩
  · decide
  · intro t ht
    have hr : TypeflowHistory.fresh.recorded = [] := by decide
    rw [hr] at ht; cases ht
  · intro _ t ht; simp at ht
  · intro h; revert h; decide

theorem TypeflowHistory.Seen.sn_card_le {S : Finset Nat} {h : TypeflowHistory} (hs : Seen S h) :
    h.recorded.length ≤ S.card := by
  rw [← List.toFinset_card_of_nodup hs.nodup]
  apply Finset.card_le_card
  intro t ht
  exact hs.sub t (List.mem_toFinset.1 ht)

theorem TypeflowHistory.Seen.sn_card_eq {S : Finset Nat} {h : TypeflowHistory} (hs : Seen S h)
    (hu : h.is_saturated = false) : S.card = h.recorded.length := by
  rw [← List.toFinset_card_of_nodup hs.nodup]
  congr 1
  ext t
  rw [List.mem_toFinset]
  exact ⟨hs.unsat hu t, hs.sub t⟩

theorem TypeflowHistory.Seen.sn_step {S : Finset Nat} {h : TypeflowHistory} (hs : Seen S h)
    (t d : Nat) (ht : t ≠ type_max) (hd : d ≠ u8_max) :
    Seen (insert t S) (h.add_type t d).1 := by
  have hv := hs.valid
  have hrec := hv.recorded_add_type t d
  have hsd := hv.add_type_saturated_dist t d
  have hlen := hv.recorded_length_le
  by_cases hin : t ∈ h.recorded
  · rw [if_pos (Or.inl hin)] at hrec
    have hsd2 : (h.add_type t d).1.saturated_dist = h.saturated_dist := by
      rw [hsd, if_neg (fun hc => hc.1 hin)]
    have hsat : (h.add_type t d).1.is_saturated = h.is_saturated := by
      unfold is_saturated; rw [hsd2]
    have hS : insert t S = S := Finset.insert_eq_of_mem (hs.sub t hin)
    rw [hS]
    exact ⟨hv.add_type t d, hrec ▸ hs.nodup, hrec ▸ hs.sub, by rw [hsat, hrec]; exact hs.unsat,
      by rw [hsat]; exact hs.sat⟩
  · by_cases hfull : saturation_cutoff ≤ h.recorded.length
    · rw [if_pos (Or.inr (Or.inl hfull))] at hrec
      rw [if_pos ⟨hin, hfull⟩] at hsd
      have hsat : (h.add_type t d).1.is_saturated = true := by
        unfold is_saturated; rw [hsd]; simpa using hd
      refine ⟨hv.add_type t d, hrec ▸ hs.nodup, ?_, ?_, ?_⟩
      · rw [hrec]; intro x hx; exact Finset.mem_insert_of_mem (hs.sub x hx)
      · intro hc; rw [hsat] at hc; cases hc
      · intro _
        have hnS : insert t h.recorded.toFinset ⊆ insert t S := by
          apply Finset.insert_subset_insert
          intro x hx
          exact hs.sub x (List.mem_toFinset.1 hx)
        have hc := Finset.card_le_card hnS
        rw [Finset.card_insert_of_not_mem (by rw [List.mem_toFinset]; exact hin),
          List.toFinset_card_of_nodup hs.nodup] at hc
        omega
    · rw [if_neg (by rintro (h1 | h1 | h1); exacts [hin h1, hfull h1, ht h1])] at hrec
      have hsd2 : (h.add_type t d).1.saturated_dist = h.saturated_dist := by
        rw [hsd, if_neg (fun hc => hfull hc.2)]
      have hsat : (h.add_type t d).1.is_saturated = h.is_saturated := by
        unfold is_saturated; rw [hsd2]
      have hun : h.is_saturated = false := by
        by_contra hc
        have := hv.saturated_full (by simpa using hc)
        omega
      refine ⟨hv.add_type t d, ?_, ?_, ?_, ?_⟩
      · rw [hrec]
        exact List.Nodup.append hs.nodup (List.nodup_singleton t) (by simpa using hin)
      · rw [hrec]; intro x hx
        rcases List.mem_append.1 hx with h1 | h1
        · exact Finset.mem_insert_of_mem (hs.sub x h1)
        · rw [List.mem_singleton.1 h1]; exact Finset.mem_insert_self _ _
      · intro _ x hx
        rw [hrec]
        rcases Finset.mem_insert.1 hx with h1 | h1
        · rw [h1]; simp
        · exact List.mem_append_left _ (hs.unsat hun x h1)
      · intro hc; rw [hsat, hun] at hc; cases hc

theorem TypeflowHistory.Seen.sn_addAll (calls : List (Nat × Nat)) :
    ∀ (S : Finset Nat) (h : TypeflowHistory), Seen S h →
      (∀ c ∈ calls, c.1 ≠ type_max ∧ c.2 ≠ u8_max) →
      Seen (S ∪ (calls.map Prod.fst).toFinset) (TypeflowHistory.addAll calls h) := by
  induction calls with
  | nil => intro S h hs _; simpa [TypeflowHistory.addAll] using hs
  | cons c rest ih =>
    intro S h hs hc
    have h1 := hs.sn_step c.1 c.2 (hc c (List.mem_cons_self _ _)).1 (hc c (List.mem_cons_self _ _)).2
    have h2 := ih _ _ h1 (fun x hx => hc x (List.mem_cons_of_mem _ hx))
    have he : S ∪ ((c :: rest).map Prod.fst).toFinset
        = insert c.1 S ∪ (rest.map Prod.fst).toFinset := by
      ext x; simp
    rw [he]
    exact h2

theorem TypeflowHistory.Seen.sn_saturated_iff {S : Finset Nat} {h : TypeflowHistory}
    (hs : Seen S h) : h.is_saturated = true ↔ saturation_cutoff < S.card := by
  constructor
  · exact hs.sat
  · intro hc
    by_contra hn
    have hu : h.is_saturated = false := by simpa using hn
    have := hs.sn_card_eq hu
    have := hs.valid.recorded_length_le
    omega

/-- While the distance counter cannot wrap (without distances, or with fewer than 255 methods),
the sentinel marks exactly the unreached methods among those not purged. -/
theorem sentinel_unreached_below_wrap (adj : Adjacency) (hw : adj.wf) (purged : List Nat)
    (dm : Bool) (hn : dm = true → adj.n_methods < 255) (fuel : Nat) (r : Result)
    (hr : run adj purged dm fuel = some r) (m : Nat) (hm : m ∉ purged) :
    r.method_history.getD m u8_max = u8_max ↔ r.method_visited.getD m false = false := by
  have hc := BFS.create_canonical adj hw
  obtain ⟨s, h1, rfl⟩ := run_eq_some hr
  have hI := solve_phased (Core.co_phased hc purged dm hn) purged fuel
    (fun s0 h0 => Core.co_init hc purged dm fuel s0 h0) s h1
  have hwl : s.method_worklist = [] := hI.2
  have hq : QueueInv adj purged s := hI.1.co_queueInv
  have hroot : RootInv adj s := hI.1.co_rootInv
  have hd : DoneInv purged s := hI.1.2
  rw [finish_visited]
  show s.history m = u8_max ↔ _
  constructor
  · intro hh
    by_contra hv
    have hv1 : s.visited m = true := by
      cases hvm : s.visited m with
      | false => rw [hvm] at hv; simp at hv
      | true => rfl
    rcases hd m hv1 hm with h | h
    · rw [hwl] at h; cases h
    · exact h hh
  · intro hv
    by_contra hh
    have hv1 : s.visited m = true := by
      rcases hq.dequeued m hh with h | h
      · rw [h]; exact hroot.root_visited
      · exact h.1
    rw [hv1] at hv
    simp [hm] at hv

theorem TypeflowHistory.zero_fresh : TypeflowHistory.fresh.Zero := by
  constructor
  · intro p hp
    have : TypeflowHistory.fresh.iter = [] := by decide
    rw [this] at hp; cases hp
  · intro h; revert h; decide

theorem TypeflowHistory.Zero.ze_add_type {h : TypeflowHistory} (hz : h.Zero) (hv : h.Valid)
    (t : Nat) : (h.add_type t 0).1.Zero := by
  constructor
  · intro p hp
    rw [hv.iter_add_type] at hp
    split at hp
    · exact hz.1 p hp
    · rcases List.mem_append.1 hp with h1 | h1
      · exact hz.1 p h1
      · rw [List.mem_singleton.1 h1]
  · intro hs
    have hsd := hv.add_type_saturated_dist t 0
    split at hsd
    · exact hsd
    · rw [hsd]
      apply hz.2
      unfold TypeflowHistory.is_saturated at hs ⊢
      rw [hsd] at hs
      exact hs

theorem flowLoop_zero (skip : Nat → Bool) (l : List Nat) (h : TypeflowHistory) (c : Bool)
    (hv : h.Valid) (hz : h.Zero) : (flowLoop skip 0 l h c).1.Zero :=
  (flowLoop_induct (fun h => h.Valid ∧ h.Zero) skip 0 l h c ⟨hv, hz⟩
    (fun _ t _ _ hp => ⟨hp.1.add_type t 0, hp.2.ze_add_type hp.1 t⟩)).2

theorem ZeroInv.zi_frame {s s1 : State} (hs : ZeroInv s) (hd : s1.dist = s.dist)
    (hh : s1.method_history = s.method_history) (hf : ∀ v, s1.hist v = s.hist v) :
    ZeroInv s1 :=
  ⟨hd.trans hs.dist, fun m => by unfold State.history; rw [hh]; exact hs.methods m,
    fun v => by rw [hf]; exact hs.flows v⟩

theorem ZeroInv.zi_record {s s2 : State} {v : Nat} {skip : Nat → Bool} {l : List Nat} {c : Bool}
    (hs : ZeroInv s) (hstep : RecordStep s s2 v (flowLoop skip s.dist l (s.hist v) false) c)
    (hv : (s.hist v).Valid) : ZeroInv s2 := by
  refine ⟨(State.methodPart_dist hstep.methodPart).trans hs.dist, fun m => ?_, fun w => ?_⟩
  · rw [State.history_of_methodPart hstep.methodPart]; exact hs.methods m
  · by_cases hw : w = v
    · rw [hw, hstep.hist_self, hs.dist]
      exact flowLoop_zero skip l _ false hv (hs.flows v)
    · rw [hstep.hist_other w hw]; exact hs.flows w

theorem ZeroInv.zi_layer {adj : Adjacency} {s : State} (hs : ZeroInv s) :
    ZeroInv (methodLayer adj s) := by
  refine ⟨(methodLayer_dist adj s).trans hs.dist, fun m => ?_, fun v => ?_⟩
  · rw [methodLayer_history]
    split
    · exact Or.inl hs.dist
    · exact hs.methods m
  · rw [methodLayer_hist]; exact hs.flows v

theorem ZeroInv.zi_pop {bfs : BFS} {s s1 : State} (hc : bfs.Canonical) (hs : FlowShape bfs s)
    (hk : ZeroInv s) (fuel u : Nat) (hr : processTypeflow bfs fuel s u = some s1) :
    ZeroInv s1 :=
  processTypeflow_inv hc ZeroInv fuel s u s1 hr hs
    (hk.zi_frame (reachMethod_dist _ _) (reachMethod_history _ _)
      (State.flowPart_hist (reachMethod_flowPart _ _)))
    (fun s2 v hv hs2 h _ _ => by
      have hs1 := hs2.fs_feedInstantiated hc u v
      have h1 : ZeroInv (feedInstantiated bfs u s2 v) :=
        h.zi_frame (State.methodPart_dist (feedInstantiated_methodPart bfs u s2 v))
          (State.methodPart_history (feedInstantiated_methodPart bfs u s2 v))
          (feedInstantiated_hist bfs u s2 v)
      unfold flowEdge
      by_cases hsat : ((feedInstantiated bfs u s2 v).hist v).is_saturated = true
      · rw [flowInto_saturated _ _ _ _ hsat]; exact h1
      · exact h1.zi_record (flowInto_step bfs u _ v
          (hs1.hist_len ▸ hc.wf.flow_edge u v hv) (by simpa using hsat)) (hs1.valid v))
    (fun s2 v s3 hv hs2 h _ _ h3 => by
      by_cases hskip : (s2.hist v).is_saturated = true ∨
          s2.included_in_saturation_uses.getD v false = true
      · rw [saturatedEdge_skip bfs fuel s2 v s3 hskip h3]; exact h
      · have h1 : (s2.hist v).is_saturated = false := by
          by_contra hc1; exact hskip (Or.inl (by simpa using hc1))
        have h2 : s2.included_in_saturation_uses.getD v false = false := by
          by_contra hc1; exact hskip (Or.inr (by simpa using hc1))
        exact h.zi_record (saturatedEdge_step hc fuel s2 v (hc.wf.flow_edge u v hv)
          (hs2.hist_len ▸ hc.wf.flow_edge u v hv) s3 h1 h2 h3) (hs2.valid v))

theorem ZeroInv.zi_propagate {bfs : BFS} {s : State} (hc : bfs.Canonical)
    (hs : FlowShape bfs s) (hk : ZeroInv s) : ZeroInv (propagate bfs s) :=
  propagate_inv hc ZeroInv s hs hk
    (fun _ _ _ h => h.zi_frame rfl rfl (fun _ => rfl))
    (fun s2 v filtered kept hs2 h hv hns _ =>
      h.zi_record (replayUse_step bfs filtered (s2, kept) v (hs2.hist_len ▸ hv) hns)
        (hs2.valid v))
    (fun _ _ h => h.zi_frame rfl rfl (fun _ => rfl))

theorem ZeroInv.zi_phased {bfs : BFS} (hc : bfs.Canonical) (purged : List Nat) :
    Phased bfs false (fun p s => Base bfs purged p s ∧ ZeroInv s) :=
  (Base.ba_phased hc purged false).extend (fun _ s => ZeroInv s)
    (fun _ _ hk _ => hk.zi_layer)
    (fun _ _ _ hk _ => hk.zi_layer)
    (fun _ _ hk _ => hk)
    (fun fuel s u rest _ hb hk _ hr =>
      ZeroInv.zi_pop hc
        (show FlowShape bfs (popTypeflow s rest) from
          FlowShape.fs_of_flowPart (s := s) rfl hb.ba_flowShape)
        (show ZeroInv (popTypeflow s rest) from hk.zi_frame rfl rfl (fun _ => rfl)) fuel u hr)
    (fun _ hb hk _ _ _ => ZeroInv.zi_propagate hc hb.ba_flowShape hk)
    (fun _ _ hk _ _ => hk)

theorem ZeroInv.zi_start (bfs : BFS) (purged : List Nat) : ZeroInv (startState bfs purged) := by
  refine ⟨rfl, fun m => ?_, fun v => ?_⟩
  · rw [startState_history]
    split
    · exact Or.inl rfl
    · exact Or.inr rfl
  · rw [startState_hist]; exact TypeflowHistory.zero_fresh

theorem ZeroInv.zi_init {bfs : BFS} (hc : bfs.Canonical) (purged : List Nat) (fuel : Nat)
    (s0 : State) (h0 : initState bfs purged fuel = some s0) : ZeroInv s0 := by
  unfold initState at h0
  have := forM_opt_inv (fun s => FlowShape bfs s ∧ ZeroInv s)
    (whiteHoleStep bfs fuel) (bfs.adj.flow 0).forward_edges (startState bfs purged) s0
    ⟨FlowShape.fs_start bfs purged, ZeroInv.zi_start bfs purged⟩
    (fun s v s1 hv h h1 => ⟨h.1.fs_whiteHoleStep hc fuel v (hc.wf.flow_edge 0 v hv) h1, by
      have hstep := whiteHoleStep_step hc fuel s v (hc.wf.flow_edge 0 v hv)
        (h.1.hist_len ▸ hc.wf.flow_edge 0 v hv) s1 h1
      rw [← h.2.dist] at hstep
      exact h.2.zi_record hstep (h.1.valid v)⟩) h0
  exact this.2

/-- Without distances the solver leaves only zero distances behind. -/
theorem solve_zeroInv {bfs : BFS} (hc : bfs.Canonical) (purged : List Nat) (fuel : Nat)
    (s : State) (hr : solve bfs purged false fuel = some s) : ZeroInv s :=
  (solve_phased (ZeroInv.zi_phased hc purged) purged fuel
    (fun s0 h0 => ⟨Base.ba_init hc purged fuel s0 h0, ZeroInv.zi_init hc purged fuel s0 h0⟩)
    s hr).1.2

/-- Filling a history that is not saturated with new types at distance 0: the first free slots
take the types in order, and one type too many saturates at distance 0. -/
theorem flowLoop_fill (l : List Nat) :
    ∀ (ps : List (Nat × Nat)) (h : TypeflowHistory) (c : Bool), h.Holds ps →
      h.saturated_dist = u8_max → l.Nodup →
      (∀ t ∈ l, t ≠ type_max ∧ t ∉ ps.map Prod.fst) →
      (flowLoop (fun _ => false) 0 l h c).1.Holds
        (ps ++ (l.take (saturation_cutoff - ps.length)).map (fun t => (t, 0))) ∧
      (flowLoop (fun _ => false) 0 l h c).1.saturated_dist =
        if saturation_cutoff < ps.length + l.length then 0 else u8_max := by
  induction l with
  | nil =>
    intro ps h c hp hs _ _
    refine ⟨by simpa [flowLoop] using hp, ?_⟩
    have := hp.len
    simp only [flowLoop, List.length_nil, Nat.add_zero]
    rw [if_neg (by omega)]
    exact hs
  | cons t rest ih =>
    intro ps h c hp hs hnd hl
    have hv : h.Valid := ⟨ps, hp⟩
    have ht := hl t (List.mem_cons_self _ _)
    have hadd := hp.add_type_holds t 0
    have hsd := hv.add_type_saturated_dist t 0
    rw [hp.recorded_eq, List.length_map] at hsd
    have hlen := hp.len
    unfold flowLoop
    rw [if_neg Bool.false_ne_true]
    dsimp only
    by_cases hfull : saturation_cutoff ≤ ps.length
    · rw [if_pos ⟨ht.2, hfull⟩] at hsd
      rw [if_pos (Or.inr (Or.inl hfull))] at hadd
      have hsat : (h.add_type t 0).1.is_saturated = true := by
        unfold TypeflowHistory.is_saturated; rw [hsd]; decide
      rw [if_pos hsat]
      refine ⟨?_, ?_⟩
      · have h0 : saturation_cutoff - ps.length = 0 := by omega
        rw [h0]
        simpa using hadd
      · rw [hsd, if_pos (by simp only [List.length_cons]; omega)]
    · rw [if_neg (fun hc => hfull hc.2)] at hsd
      rw [if_neg (by rintro (h1 | h1 | h1); exacts [ht.2 h1, hfull h1, ht.1 h1])] at hadd
      have hsat : ¬ (h.add_type t 0).1.is_saturated = true := by
        unfold TypeflowHistory.is_saturated; rw [hsd, hs]; decide
      rw [if_neg hsat]
      have hnd2 := List.nodup_cons.1 hnd
      obtain ⟨h1, h2⟩ := ih (ps ++ [(t, 0)]) _ (c || (h.add_type t 0).2) hadd (hsd.trans hs)
        hnd2.2 (fun x hx => ⟨(hl x (List.mem_cons_of_mem _ hx)).1, by
          rw [List.map_append, List.mem_append]
          rintro (h3 | h3)
          · exact (hl x (List.mem_cons_of_mem _ hx)).2 h3
          · have : x = t := by simpa using h3
            rw [this] at hx
            exact hnd2.1 hx⟩)
      refine ⟨?_, ?_⟩
      · have h0 : saturation_cutoff - ps.length = (saturation_cutoff - (ps.length + 1)) + 1 := by
          omega
        rw [h0, List.take_succ_cons, List.map_cons]
        rw [List.length_append, List.length_singleton, List.append_assoc] at h1
        exact h1
      · rw [h2, List.length_append, List.length_singleton, List.length_cons]
        congr 1
        apply propext
        constructor <;> intro <;> omega

theorem membersFrom_nodup (F : TypeSet) (n a : Nat) : (membersFrom F n a).Nodup :=
  (List.nodup_range' a (n - a)).filter _

theorem membersFrom_admitted {bfs : BFS} (hc : bfs.Canonical) (v : Nat)
    (hv : v < bfs.adj.n_typeflows) :
    membersFrom (bfs.typeflow_filters.getD v default) bfs.adj.n_types 0 = bfs.adj.admitted v := by
  rw [membersFrom_zero]
  unfold Adjacency.admitted
  congr 1
  funext t
  exact hc.filter_get v t hv

theorem mem_membersFrom_of_admits {bfs : BFS} (hc : bfs.Canonical) (v t : Nat)
    (hv : v < bfs.adj.n_typeflows) (ht : bfs.adj.admits v t = true) :
    t ∈ membersFrom (bfs.typeflow_filters.getD v default) bfs.adj.n_types 0 := by
  rw [mem_membersFrom]
  refine ⟨Nat.zero_le _, ?_, by rw [hc.filter_get v t hv]; exact ht⟩
  rw [← hc.wf.filterOf_size v hv]
  exact Bitset.get_lt_size _ _ ht

/-- The shape of the seeded history. -/
theorem seedOf_shape {bfs : BFS} (hc : bfs.Canonical) (v : Nat) :
    (seedOf bfs v).Holds
      (((membersFrom (bfs.typeflow_filters.getD v default) bfs.adj.n_types 0).take
        saturation_cutoff).map (fun t => (t, 0))) ∧
    (seedOf bfs v).saturated_dist =
      if saturation_cutoff <
        (membersFrom (bfs.typeflow_filters.getD v default) bfs.adj.n_types 0).length
      then 0 else u8_max := by
  have := flowLoop_fill (membersFrom (bfs.typeflow_filters.getD v default) bfs.adj.n_types 0)
    [] TypeflowHistory.fresh false TypeflowHistory.holds_fresh rfl (membersFrom_nodup _ _ _)
    (fun t ht => ⟨lt_types_ne_max hc t ((mem_membersFrom _ _ _ _).1 ht).2.1, by simp⟩)
  simpa [seedOf] using this

theorem seedOf_valid {bfs : BFS} (hc : bfs.Canonical) (v : Nat) : (seedOf bfs v).Valid :=
  ⟨_, (seedOf_shape hc v).1⟩

theorem seedOf_saturated_iff {bfs : BFS} (hc : bfs.Canonical) (v : Nat) :
    (seedOf bfs v).is_saturated = true ↔ saturation_cutoff <
      (membersFrom (bfs.typeflow_filters.getD v default) bfs.adj.n_types 0).length := by
  unfold TypeflowHistory.is_saturated
  rw [(seedOf_shape hc v).2]
  split
  · rename_i h; simp only [h, iff_true]; decide
  · rename_i h; simp only [h, iff_false]; decide

theorem seedOf_recorded {bfs : BFS} (hc : bfs.Canonical) (v : Nat) :
    (seedOf bfs v).recorded =
      (membersFrom (bfs.typeflow_filters.getD v default) bfs.adj.n_types 0).take
        saturation_cutoff := by
  rw [(seedOf_shape hc v).1.recorded_eq, List.map_map]
  exact List.map_id _

theorem seedOf_recorded_unsat {bfs : BFS} (hc : bfs.Canonical) (v : Nat)
    (hns : (seedOf bfs v).is_saturated = false) :
    (seedOf bfs v).recorded =
      membersFrom (bfs.typeflow_filters.getD v default) bfs.adj.n_types 0 := by
  rw [seedOf_recorded hc v]
  apply List.take_of_length_le
  by_contra hc1
  have := (seedOf_saturated_iff hc v).2 (by omega)
  rw [hns] at this
  exact Bool.false_ne_true this

theorem flowLoop_present_skip (skip : Nat → Bool) (d : Nat) (h : TypeflowHistory) (hv : h.Valid)
    (hns : h.is_saturated = false) :
    ∀ (l : List Nat) (c : Bool), (∀ t ∈ l, skip t = false → t ∈ h.recorded) →
      flowLoop skip d l h c = (h, c) := by
  intro l
  induction l with
  | nil => intro c _; rfl
  | cons t rest ih =>
    intro c hl
    unfold flowLoop
    split
    · exact ih c (fun x hx => hl x (List.mem_cons_of_mem _ hx))
    · rename_i hsk
      simp only [add_type_present hv t d (hl t (List.mem_cons_self _ _) (by simpa using hsk)),
        hns, Bool.or_false]
      exact ih c (fun x hx => hl x (List.mem_cons_of_mem _ hx))

/-- Seeding a seeded history again leaves it as it is. -/
theorem seedOf_idem {bfs : BFS} (hc : bfs.Canonical) (v : Nat) :
    (flowLoop (fun _ => false) 0
      (membersFrom (bfs.typeflow_filters.getD v default) bfs.adj.n_types 0)
      (seedOf bfs v) false).1 = seedOf bfs v := by
  cases hs : (seedOf bfs v).is_saturated with
  | false =>
    rw [flowLoop_present (fun _ => false) 0 _ (seedOf_valid hc v) hs _ false
      (fun t ht => by rw [seedOf_recorded_unsat hc v hs]; exact ht)]
  | true =>
    have hlen := (seedOf_saturated_iff hc v).1 hs
    have hrec := seedOf_recorded hc v
    cases hm : membersFrom (bfs.typeflow_filters.getD v default) bfs.adj.n_types 0 with
    | nil => rw [hm] at hlen; simp at hlen
    | cons t rest =>
      rw [hm] at hrec
      have ht : t ∈ (seedOf bfs v).recorded := by
        rw [hrec]
        show t ∈ List.take (19 + 1) (t :: rest)
        rw [List.take_succ_cons]
        exact List.mem_cons_self _ _
      unfold flowLoop
      rw [if_neg Bool.false_ne_true]
      simp only [add_type_present (seedOf_valid hc v) t 0 ht, hs, if_true]

theorem SeedKept.sk_frame {bfs : BFS} {s s1 : State} (hk : SeedKept bfs s)
    (hf : ∀ v, s1.hist v = s.hist v) : SeedKept bfs s1 :=
  fun v hv => (hf v).trans (hk v hv)

theorem SeedKept.sk_record {bfs : BFS} (hc : bfs.Canonical) {s s2 : State} {w : Nat}
    {skip : Nat → Bool} {d : Nat} {l : List Nat} {c : Bool} (hk : SeedKept bfs s)
    (hstep : RecordStep s s2 w (flowLoop skip d l (s.hist w) false) c)
    (hl : ∀ t ∈ l, skip t = false →
      t ∈ membersFrom (bfs.typeflow_filters.getD w default) bfs.adj.n_types 0)
    (hns : (s.hist w).is_saturated = false) : SeedKept bfs s2 := by
  intro v hv
  by_cases hvw : v = w
  · subst hvw
    rw [hstep.hist_self]
    have he := hk v hv
    rw [he] at hns ⊢
    rw [flowLoop_present_skip skip d _ (seedOf_valid hc v) hns l false
      (fun t ht hsk => by rw [seedOf_recorded_unsat hc v hns]; exact hl t ht hsk)]
  · rw [hstep.hist_other v hvw]; exact hk v hv

theorem SeedKept.sk_pop {bfs : BFS} {s s1 : State} (hc : bfs.Canonical) (hs : FlowShape bfs s)
    (hk : SeedKept bfs s) (fuel u : Nat) (hr : processTypeflow bfs fuel s u = some s1) :
    SeedKept bfs s1 :=
  processTypeflow_inv hc (SeedKept bfs) fuel s u s1 hr hs
    (hk.sk_frame (State.flowPart_hist (reachMethod_flowPart _ _)))
    (fun s2 v hv hs2 h _ _ => by
      have hs1 := hs2.fs_feedInstantiated hc u v
      have hvl := hc.wf.flow_edge u v hv
      have h1 : SeedKept bfs (feedInstantiated bfs u s2 v) :=
        h.sk_frame (feedInstantiated_hist bfs u s2 v)
      unfold flowEdge
      by_cases hsat : ((feedInstantiated bfs u s2 v).hist v).is_saturated = true
      · rw [flowInto_saturated _ _ _ _ hsat]; exact h1
      · exact h1.sk_record hc (flowInto_step bfs u _ v (hs1.hist_len ▸ hvl)
          (by simpa using hsat))
          (fun t _ hsk => mem_membersFrom_of_admits hc v t hvl (by
            rw [← hc.filter_get v t hvl]; simpa using hsk))
          (by simpa using hsat))
    (fun s2 v s3 hv hs2 h _ _ h3 => by
      have hvl := hc.wf.flow_edge u v hv
      by_cases hskip : (s2.hist v).is_saturated = true ∨
          s2.included_in_saturation_uses.getD v false = true
      · rw [saturatedEdge_skip bfs fuel s2 v s3 hskip h3]; exact h
      · have h1 : (s2.hist v).is_saturated = false := by
          by_contra hc1; exact hskip (Or.inl (by simpa using hc1))
        have h2 : s2.included_in_saturation_uses.getD v false = false := by
          by_contra hc1; exact hskip (Or.inr (by simpa using hc1))
        exact h.sk_record hc (saturatedEdge_step hc fuel s2 v hvl (hs2.hist_len ▸ hvl) s3 h1 h2
          h3) (fun t ht _ => ht) h1)

theorem SeedKept.sk_propagate {bfs : BFS} {s : State} (hc : bfs.Canonical)
    (hs : FlowShape bfs s) (hk : SeedKept bfs s) : SeedKept bfs (propagate bfs s) :=
  propagate_inv hc (SeedKept bfs) s hs hk
    (fun _ _ _ h => h.sk_frame (fun _ => rfl))
    (fun s2 v filtered kept hs2 h hv hns hf =>
      h.sk_record hc (replayUse_step bfs filtered (s2, kept) v (hs2.hist_len ▸ hv) hns)
        (fun t ht _ => mem_membersFrom_of_admits hc v t hv (hf t ht).1) hns)
    (fun _ _ h => h.sk_frame (fun _ => rfl))

theorem SeedKept.sk_phased {bfs : BFS} (hc : bfs.Canonical) (purged : List Nat) (dm : Bool) :
    Phased bfs dm (fun p s => Base bfs purged p s ∧ SeedKept bfs s) :=
  (Base.ba_phased hc purged dm).extend (fun _ s => SeedKept bfs s)
    (fun s _ hk _ => hk.sk_frame (methodLayer_hist bfs.adj s))
    (fun s _ _ hk _ => hk.sk_frame (methodLayer_hist bfs.adj s))
    (fun s _ hk _ => hk.sk_frame (State.flowPart_hist (bumpDist_flowPart dm s)))
    (fun fuel s u rest _ hb hk _ hr =>
      SeedKept.sk_pop hc
        (show FlowShape bfs (popTypeflow s rest) from
          FlowShape.fs_of_flowPart (s := s) rfl hb.ba_flowShape)
        (show SeedKept bfs (popTypeflow s rest) from hk.sk_frame (fun _ => rfl)) fuel u hr)
    (fun _ hb hk _ _ _ => SeedKept.sk_propagate hc hb.ba_flowShape hk)
    (fun _ _ hk _ _ => hk)

theorem SeedKept.sk_init {bfs : BFS} (hc : bfs.Canonical) (purged : List Nat) (fuel : Nat)
    (s0 : State) (h0 : initState bfs purged fuel = some s0) : SeedKept bfs s0 := by
  unfold initState at h0
  have hstep : ∀ (s : State) (y : Nat) (s1 : State), y ∈ (bfs.adj.flow 0).forward_edges →
      FlowShape bfs s → (s.hist y = TypeflowHistory.fresh ∨ s.hist y = seedOf bfs y) →
      whiteHoleStep bfs fuel s y = some s1 →
      s1.hist y = seedOf bfs y ∧ ∀ w, w ≠ y → s1.hist w = s.hist w := by
    intro s y s1 hy hs hh h1
    have hst := whiteHoleStep_step hc fuel s y (hc.wf.flow_edge 0 y hy)
      (hs.hist_len ▸ hc.wf.flow_edge 0 y hy) s1 h1
    refine ⟨?_, hst.hist_other⟩
    rw [hst.hist_self]
    rcases hh with h | h
    · rw [h]; rfl
    · rw [h]; exact seedOf_idem hc y
  have := forM_opt_establish
    (fun s => FlowShape bfs s ∧ ∀ w, s.hist w = TypeflowHistory.fresh ∨ s.hist w = seedOf bfs w)
    (fun v s => s.hist v = seedOf bfs v)
    (whiteHoleStep bfs fuel) (bfs.adj.flow 0).forward_edges (startState bfs purged) s0
    ⟨FlowShape.fs_start bfs purged, fun w => Or.inl (startState_hist bfs purged w)⟩
    (fun s x s1 hx h h1 => by
      obtain ⟨e1, e2⟩ := hstep s x s1 hx h.1 (h.2 x) h1
      refine ⟨⟨h.1.fs_whiteHoleStep hc fuel x (hc.wf.flow_edge 0 x hx) h1, fun w => ?_⟩, e1⟩
      by_cases hw : w = x
      · rw [hw]; exact Or.inr e1
      · rw [e2 w hw]; exact h.2 w)
    (fun s x y s1 hy h hp h1 => by
      obtain ⟨e1, e2⟩ := hstep s y s1 hy h.1 (h.2 y) h1
      by_cases hxy : x = y
      · rw [hxy]; exact e1
      · rw [e2 x hxy]; exact hp) h0
  exact this.2

/-- At the end of the solver every successor of the white hole holds its seeded history. -/
theorem solve_seedKept {bfs : BFS} (hc : bfs.Canonical) (purged : List Nat) (dm : Bool)
    (fuel : Nat) (s : State) (hr : solve bfs purged dm fuel = some s) : SeedKept bfs s :=
  (solve_phased (SeedKept.sk_phased hc purged dm) purged fuel
    (fun s0 h0 => ⟨Base.ba_init hc purged fuel s0 h0, SeedKept.sk_init hc purged fuel s0 h0⟩)
    s hr).1.2

theorem loopGraph_method (k : Nat) (hk : k < 255) :
    loopGraph.method k = if k < 254 then ⟨[k + 1], []⟩ else ⟨[], [1, 2]⟩ := by
  unfold Adjacency.method loopGraph
  simp only
  rw [List.getD_eq_getElem?_getD, List.getElem?_map, List.getElem?_range hk]
  rfl

theorem methodLayer_single (adj : Adjacency) (s : State) (k : Nat)
    (hw : s.method_worklist = [k]) :
    methodLayer adj s = swapWorklists (methodBody adj s k) := by
  unfold methodLayer
  rw [hw]
  rfl

theorem climbing_layer (s : State) (k : Nat) (hk : k < 254) (h : Climbing k s) :
    Climbing (k + 1) (methodLayer loopGraph s) := by
  obtain ⟨hw, hn, hv, hq⟩ := h
  have hvk : s.visited (k + 1) = false := hv (k + 1) (by omega)
  have hl : methodLayer loopGraph s =
      { s with method_history := s.method_history.set k s.dist
               method_visited := s.method_visited.set (k + 1) true
               method_worklist := [k + 1]
               next_method_worklist := [] } := by
    rw [methodLayer_single loopGraph s k hw]
    unfold methodBody
    rw [loopGraph_method k (by omega), if_pos hk]
    simp only [List.foldl]
    unfold visitMethod
    have hvk2 : (recordDistance s k).visited (k + 1) = false := hvk
    rw [hvk2]
    simp only [Bool.not_false, if_true]
    unfold swapWorklists recordDistance
    simp only [hn, List.nil_append]
  rw [hl]
  refine ⟨rfl, rfl, fun m hm => ?_, hq⟩
  show (s.method_visited.set (k + 1) true).getD m false = false
  rw [getD_set_ne _ _ _ _ _ (by omega)]
  exact hv m (by omega)

theorem climbing_last (s : State) (h : Climbing 254 s) :
    (methodLayer loopGraph s).method_worklist = [] ∧ Circling (methodLayer loopGraph s) := by
  obtain ⟨hw, hn, hv, hq⟩ := h
  obtain ⟨q1, q2, q3, q4, q5, q6⟩ := hq
  have ha1 : lowSeed.any = true := by decide
  have ha2 : highSeed.any = true := by decide
  have hl : methodLayer loopGraph s =
      { s with method_history := s.method_history.set 254 s.dist
               typeflow_worklist := [1, 2]
               method_worklist := []
               next_method_worklist := [] } := by
    rw [methodLayer_single loopGraph s 254 hw]
    unfold methodBody
    rw [loopGraph_method 254 (by omega), if_neg (by omega)]
    simp only [List.foldl]
    unfold wakeDependent
    have h1 : (recordDistance s 254).hist 1 = lowSeed := q3
    rw [h1, ha1]
    have h2 : ((recordDistance s 254).pushIf true 1).hist 2 = highSeed := q4
    rw [h2, ha2]
    unfold swapWorklists State.pushIf State.pushTypeflow recordDistance
    simp only [if_true, hn, q1, List.nil_append, List.singleton_append]
  rw [hl]
  exact ⟨rfl, q3, q4, Or.inl ⟨rfl, q5, q6⟩⟩

theorem reachMethod_visited_root (s : State) (m : Nat) (h : s.visited m = true) :
    reachMethod s m = s := by
  unfold reachMethod
  rw [h]
  rfl

/-- Processing a popped typeflow of `loopGraph` at distance 255: its only successor `v` takes
the types of `u` and is pushed. -/
theorem circling_step (fuel : Nat) (s : State) (u v : Nat) (rest : List Nat) (s1 : State)
    (A B R : TypeflowHistory) (hs : FlowShape loopBFS s) (hroot : RootInv loopGraph s)
    (hd : s.dist = 255)
    (hreach : (loopGraph.flow u).method.reaching = 0)
    (hedges : (loopGraph.flow u).forward_edges = [v])
    (hdep : (loopGraph.flow v).method.dependent = 0)
    (hv0 : v ≠ 0) (hv5 : v < 5) (hu : s.hist u = A) (hvv : s.hist v = B)
    (hA : A.is_saturated = false) (hB : B.is_saturated = false)
    (hloop : flowLoop (fun t => !(loopBFS.typeflow_filters.getD v default).get t) 255
      A.recorded B false = (R, true))
    (hr : processTypeflow loopBFS fuel (popTypeflow s rest) u = some s1) :
    s1.dist = 255 ∧ s1.typeflow_worklist = rest ++ [v] ∧ s1.hist v = R ∧
      ∀ w, w ≠ v → s1.hist w = s.hist w := by
  have hadj : loopBFS.adj = loopGraph := rfl
  have hvis : (popTypeflow s rest).visited 0 = true := hroot.root_visited
  have hpu : (popTypeflow s rest).hist u = A := hu
  have hpv : (popTypeflow s rest).hist v = B := hvv
  have hlen : v < (popTypeflow s rest).typeflow_visited.length := by
    have h5 : s.typeflow_visited.length = 5 := hs.hist_len
    show v < s.typeflow_visited.length
    omega
  unfold processTypeflow at hr
  rw [hadj, hreach, reachMethod_visited_root _ 0 hvis, hpu, hA, hedges] at hr
  simp only [Bool.not_false, if_true, List.foldl] at hr
  have hfe : flowEdge loopBFS u (popTypeflow s rest) v = flowInto loopBFS u (popTypeflow s rest) v := by
    unfold flowEdge feedInstantiated
    rw [if_neg (by rw [hadj]; exact hv0)]
  rw [hfe] at hr
  have hstep := flowInto_step loopBFS u (popTypeflow s rest) v hlen (by rw [hpv]; exact hB)
  rw [Option.some.inj hr] at hstep
  have hdist : (popTypeflow s rest).dist = 255 := hd
  rw [hpu, hpv, hdist, hloop] at hstep
  have hgate : gateOpen loopBFS.adj (popTypeflow s rest) v = true := by
    unfold gateOpen
    rw [hadj, hdep]
    have : (popTypeflow s rest).history 0 = 0 := hroot.root_history
    rw [this]
    decide
  rw [hgate] at hstep
  refine ⟨(State.methodPart_dist hstep.methodPart).trans hd, ?_, hstep.hist_self, ?_⟩
  · rw [hstep.worklist]; rfl
  · intro w hw; rw [hstep.hist_other w hw]; rfl

theorem loop_low_into_fresh :
    flowLoop (fun t => !(loopBFS.typeflow_filters.getD 3 default).get t) 255
      lowSeed.recorded TypeflowHistory.fresh false = (lowLate, true) := by decide

theorem loop_high_into_fresh :
    flowLoop (fun t => !(loopBFS.typeflow_filters.getD 4 default).get t) 255
      highSeed.recorded TypeflowHistory.fresh false = (highLate, true) := by decide

/-- At distance 255 a full history takes a new type as a change and stays unsaturated. -/
theorem loop_low_into_high :
    flowLoop (fun t => !(loopBFS.typeflow_filters.getD 4 default).get t) 255
      lowLate.recorded highLate false = (highLate, true) := by decide

theorem loop_high_into_low :
    flowLoop (fun t => !(loopBFS.typeflow_filters.getD 3 default).get t) 255
      highLate.recorded lowLate false = (lowLate, true) := by decide

theorem circling_pop (fuel : Nat) (s : State) (u : Nat) (rest : List Nat) (s1 : State)
    (hs : FlowShape loopBFS s) (hroot : RootInv loopGraph s) (hd : s.dist = 255)
    (hc : Circling s) (hw : s.typeflow_worklist = u :: rest)
    (hr : processTypeflow loopBFS fuel (popTypeflow s rest) u = some s1) :
    s1.dist = 255 ∧ Circling s1 := by
  obtain ⟨h1, h2, hcase⟩ := hc
  rcases hcase with ⟨hq, h3, h4⟩ | ⟨hq, h3, h4⟩ | ⟨hq, h3, h4⟩
  · rw [hq] at hw
    obtain ⟨rfl, rfl⟩ := List.cons.inj hw
    obtain ⟨e1, e2, e3, e4⟩ := circling_step fuel s 1 3 [2] s1 lowSeed TypeflowHistory.fresh
      lowLate hs hroot hd rfl rfl rfl (by decide) (by decide) h1 h3 (by decide) (by decide)
      loop_low_into_fresh hr
    exact ⟨e1, (e4 1 (by decide)).trans h1, (e4 2 (by decide)).trans h2,
      Or.inr (Or.inl ⟨e2, e3, (e4 4 (by decide)).trans h4⟩)⟩
  · rw [hq] at hw
    obtain ⟨rfl, rfl⟩ := List.cons.inj hw
    obtain ⟨e1, e2, e3, e4⟩ := circling_step fuel s 2 4 [3] s1 highSeed TypeflowHistory.fresh
      highLate hs hroot hd rfl rfl rfl (by decide) (by decide) h2 h4 (by decide) (by decide)
      loop_high_into_fresh hr
    exact ⟨e1, (e4 1 (by decide)).trans h1, (e4 2 (by decide)).trans h2,
      Or.inr (Or.inr ⟨Or.inl e2, (e4 3 (by decide)).trans h3, e3⟩)⟩
  · have hfrom3 : ∀ r, u = 3 → rest = r → s1.dist = 255 ∧ s1.typeflow_worklist = r ++ [4] ∧
        s1.hist 4 = highLate ∧ ∀ w, w ≠ 4 → s1.hist w = s.hist w := by
      intro r hu hrest
      subst hu hrest
      exact circling_step fuel s 3 4 rest s1 lowLate highLate highLate hs hroot hd rfl rfl rfl
        (by decide) (by decide) h3 h4 (by decide) (by decide) loop_low_into_high hr
    have hfrom4 : ∀ r, u = 4 → rest = r → s1.dist = 255 ∧ s1.typeflow_worklist = r ++ [3] ∧
        s1.hist 3 = lowLate ∧ ∀ w, w ≠ 3 → s1.hist w = s.hist w := by
      intro r hu hrest
      subst hu hrest
      exact circling_step fuel s 4 3 rest s1 highLate lowLate lowLate hs hroot hd rfl rfl rfl
        (by decide) (by decide) h4 h3 (by decide) (by decide) loop_high_into_low hr
    rcases hq with hq | hq | hq | hq
    · rw [hq] at hw
      obtain ⟨hu, hrest⟩ := List.cons.inj hw
      obtain ⟨e1, e2, e3, e4⟩ := hfrom3 [4] hu.symm hrest.symm
      exact ⟨e1, (e4 1 (by decide)).trans h1, (e4 2 (by decide)).trans h2,
        Or.inr (Or.inr ⟨Or.inr (Or.inl e2), (e4 3 (by decide)).trans h3, e3⟩)⟩
    · rw [hq] at hw
      obtain ⟨hu, hrest⟩ := List.cons.inj hw
      obtain ⟨e1, e2, e3, e4⟩ := hfrom4 [4] hu.symm hrest.symm
      exact ⟨e1, (e4 1 (by decide)).trans h1, (e4 2 (by decide)).trans h2,
        Or.inr (Or.inr ⟨Or.inr (Or.inr (Or.inl e2)), e3, (e4 4 (by decide)).trans h4⟩)⟩
    · rw [hq] at hw
      obtain ⟨hu, hrest⟩ := List.cons.inj hw
      obtain ⟨e1, e2, e3, e4⟩ := hfrom4 [3] hu.symm hrest.symm
      exact ⟨e1, (e4 1 (by decide)).trans h1, (e4 2 (by decide)).trans h2,
        Or.inr (Or.inr ⟨Or.inr (Or.inr (Or.inr e2)), e3, (e4 4 (by decide)).trans h4⟩)⟩
    · rw [hq] at hw
      obtain ⟨hu, hrest⟩ := List.cons.inj hw
      obtain ⟨e1, e2, e3, e4⟩ := hfrom3 [3] hu.symm hrest.symm
      exact ⟨e1, (e4 1 (by decide)).trans h1, (e4 2 (by decide)).trans h2,
        Or.inr (Or.inr ⟨Or.inl e2, (e4 3 (by decide)).trans h3, e3⟩)⟩

theorem circling_nonempty (s : State) (hc : Circling s) : s.typeflow_worklist ≠ [] := by
  obtain ⟨_, _, hcase⟩ := hc
  rcases hcase with ⟨hq, _⟩ | ⟨hq, _⟩ | ⟨hq | hq | hq | hq, _⟩ <;> rw [hq] <;> exact List.cons_ne_nil _ _

set_option maxRecDepth 100000 in
theorem loopGraph_wf : loopGraph.wf := by decide

theorem Doomed.do_phased :
    Phased loopBFS true (fun p s => Base loopBFS [] p s ∧ Doomed p s) :=
  (Base.ba_phased (BFS.create_canonical loopGraph loopGraph_wf) [] true).extend Doomed
    (fun s _ hk _ => by
      obtain ⟨k, hk1, hk2, hk3⟩ := hk
      rcases Nat.lt_or_ge k 254 with hlt | hge
      · exact Or.inl ⟨k, hlt, (methodLayer_dist loopGraph s).trans hk2,
          climbing_layer s k hlt hk3⟩
      · have hk254 : k = 254 := by omega
        subst hk254
        exact Or.inr ⟨(methodLayer_dist loopGraph s).trans hk2, (climbing_last s hk3).2⟩)
    (fun _ hd _ _ _ => by cases hd)
    (fun s _ hk _ => by
      have hb : bumpDist true s = { s with dist := (s.dist + 1) % 256 } := rfl
      rcases hk with ⟨k, hk1, hk2, hk3⟩ | ⟨hk2, hk3⟩
      · refine Or.inl ⟨k, hk1, ?_, ?_⟩
        · rw [hb]
          show (s.dist + 1) % 256 = k + 1
          rw [hk2]
          exact Nat.mod_eq_of_lt (by omega)
        · rw [hb]; exact hk3
      · refine Or.inr ⟨?_, ?_⟩
        · rw [hb]
          show (s.dist + 1) % 256 = 255
          rw [hk2]
        · rw [hb]; exact hk3)
    (fun fuel s u rest s1 hb hk hw hr => by
      rcases hk with ⟨k, _, _, hk3⟩ | ⟨hk2, hk3⟩
      · rw [hk3.2.2.2.1] at hw; cases hw
      · exact Or.inr (circling_pop fuel s u rest s1 hb.ba_flowShape hb.ba_rootInv hk2 hk3 hw hr))
    (fun s _ hk hw hne _ => by
      rcases hk with ⟨k, _, _, hk3⟩ | ⟨_, hk3⟩
      · exact absurd hk3.2.2.2.2.1 hne
      · exact absurd hw (circling_nonempty s hk3))
    (fun s _ hk hw _ => by
      rcases hk with ⟨k, hk1, hk2, hk3⟩ | ⟨_, hk3⟩
      · exact ⟨k + 1, by omega, hk2, hk3⟩
      · exact absurd hw (circling_nonempty s hk3))

theorem doomed_init (fuel : Nat) (s0 : State) (h0 : initState loopBFS [] fuel = some s0) :
    Doomed Phase.head s0 := by
  have hc := BFS.create_canonical loopGraph loopGraph_wf
  have hmp := initState_methodPart loopBFS [] fuel s0 h0
  have hseed := SeedKept.sk_init hc [] fuel s0 h0
  have hq : s0.typeflow_worklist = [] ∧ s0.instantiated_since_last_iteration = [] ∧
      s0.hist 3 = TypeflowHistory.fresh ∧ s0.hist 4 = TypeflowHistory.fresh := by
    unfold initState at h0
    have := forM_opt_inv
      (fun s => FlowShape loopBFS s ∧ s.typeflow_worklist = [] ∧
        s.instantiated_since_last_iteration = [] ∧
        s.hist 3 = TypeflowHistory.fresh ∧ s.hist 4 = TypeflowHistory.fresh)
      (whiteHoleStep loopBFS fuel) (loopBFS.adj.flow 0).forward_edges (startState loopBFS []) s0
      ⟨FlowShape.fs_start loopBFS [], rfl, rfl, startState_hist loopBFS [] 3,
        startState_hist loopBFS [] 4⟩
      (fun s v s1 hv h h1 => by
        have hvl := hc.wf.flow_edge 0 v hv
        have hst := whiteHoleStep_step hc fuel s v hvl (h.1.hist_len ▸ hvl) s1 h1
        have hv12 : v = 1 ∨ v = 2 := by
          have : v ∈ [1, 2] := hv
          simpa using this
        have hdep : (((BFS.create loopGraph).adj.flow v).method.dependent == 0) = false := by
          rcases hv12 with rfl | rfl <;> rfl
        rw [hdep, Bool.and_false] at hst
        refine ⟨h.1.fs_whiteHoleStep hc fuel v hvl h1, ?_, hst.since.trans h.2.2.1, ?_, ?_⟩
        · rw [hst.worklist]; exact h.2.1
        · rw [hst.hist_other 3 (by rcases hv12 with rfl | rfl <;> decide)]; exact h.2.2.2.1
        · rw [hst.hist_other 4 (by rcases hv12 with rfl | rfl <;> decide)]; exact h.2.2.2.2)
      h0
    exact this.2
  refine ⟨0, by omega, State.methodPart_dist hmp, State.methodPart_worklist hmp,
    State.methodPart_next hmp, fun m hm => ?_, hq.1, hq.2.1, hseed 1 (by decide),
    hseed 2 (by decide), hq.2.2.1, hq.2.2.2⟩
  rw [State.visited_of_methodPart hmp, startState_visited]
  simp only [List.not_mem_nil, or_false, decide_eq_false_iff_not, not_and]
  intro h; omega

/-- On `loopGraph` with distances the solver does not leave its loops, whatever the fuel. -/
theorem solve_loopGraph (fuel : Nat) : solve loopBFS [] true fuel = none := by
  cases h : solve loopBFS [] true fuel with
  | none => rfl
  | some s =>
    have hI := solve_phased Doomed.do_phased [] fuel
      (fun s0 h0 => ⟨Base.ba_init (BFS.create_canonical loopGraph loopGraph_wf) [] fuel s0 h0,
        doomed_init fuel s0 h0⟩) s h
    obtain ⟨⟨_, k, _, _, hc⟩, hw⟩ := hI
    rw [hc.1] at hw
    cases hw

theorem Unset.un_of_methodPart {dm : Bool} {s s1 : State} (h : s1.methodPart = s.methodPart)
    (hs : Unset dm s) : Unset dm s1 := by
  refine ⟨fun m hm hm0 => ?_, fun hdm => ?_⟩
  · rw [State.methodPart_worklist h] at hm
    rw [State.history_of_methodPart h]
    exact hs.1 m hm hm0
  · rw [State.methodPart_dist h]; exact hs.2 hdm

theorem Unset.un_layer {adj : Adjacency} {dm : Bool} {purged : List Nat} {s : State}
    (h : Unset dm s) (hq : QueueInv adj purged s) (hnext : s.next_method_worklist = []) :
    Unset dm (methodLayer adj s) := by
  refine ⟨fun m hm hm0 => ?_, fun hdm => by rw [methodLayer_dist]; exact h.2 hdm⟩
  have hv := methodLayer_new adj s hnext m hm
  rw [methodLayer_history]
  have hnot : ¬ (m ∈ s.method_worklist ∧ m < s.method_history.length) := by
    rintro ⟨h1, _⟩
    have := (hq.waiting m (Or.inl h1)).2
    rw [hv] at this
    exact Bool.false_ne_true this
  rw [if_neg hnot]
  by_contra hc1
  rcases hq.dequeued m hc1 with h1 | h1
  · exact hm0 h1
  · rw [hv] at h1
    exact Bool.false_ne_true h1.1

theorem Unset.un_bump {dm : Bool} {s : State} (h : Unset dm s) : Unset dm (bumpDist dm s) := by
  obtain ⟨_, e2, e3, _, _⟩ := bumpDist_fields dm s
  refine ⟨fun m hm hm0 => ?_, fun hdm => ?_⟩
  · rw [e3] at hm
    unfold State.history
    rw [e2]
    exact h.1 m hm hm0
  · subst hdm; exact h.2 rfl

theorem Unset.un_reach {adj : Adjacency} {dm : Bool} {purged : List Nat} {s : State}
    (h : Unset dm s) (hq : QueueInv adj purged s) (v : Nat) : Unset dm (reachMethod s v) := by
  have hh : ∀ m, (reachMethod s v).history m = s.history m := fun m => by
    unfold State.history; rw [reachMethod_history]
  refine ⟨fun m hm hm0 => ?_, fun hdm => by rw [reachMethod_dist]; exact h.2 hdm⟩
  rw [hh]
  rcases reachMethod_worklist s v m hm with h1 | ⟨h1, h2⟩
  · exact h.1 m h1 hm0
  · by_contra hc1
    rcases hq.dequeued m hc1 with h3 | h3
    · exact hm0 h3
    · rw [h1, h2] at h3
      exact Bool.false_ne_true h3.1

theorem Base4.b4_phased {bfs : BFS} (hc : bfs.Canonical) (purged : List Nat) (dm : Bool) :
    Phased bfs dm (Base4 bfs purged dm) :=
  (Base2.b2_phased hc purged dm).extend (fun _ s => Unset dm s)
    (fun _ hb hk _ => hk.un_layer hb.2 hb.1.2.2.2)
    (fun _ _ hb hk _ => hk.un_layer hb.2 hb.1.2.2.2)
    (fun _ _ hk _ => hk.un_bump)
    (fun fuel s u rest s1 hb hk _ hr =>
      Unset.un_of_methodPart (processTypeflow_methodPart bfs fuel _ u s1 hr)
        ((Unset.un_of_methodPart (show (popTypeflow s rest).methodPart = s.methodPart from rfl)
          hk).un_reach (QueueInv.qu_of_methodPart
            (show (popTypeflow s rest).methodPart = s.methodPart from rfl) hb.2) _))
    (fun s _ hk _ _ _ => Unset.un_of_methodPart (propagate_methodPart bfs s) hk)
    (fun _ _ hk _ _ => hk)

theorem Base4.b4_init {bfs : BFS} (hc : bfs.Canonical) (purged : List Nat) (dm : Bool)
    (fuel : Nat) (s0 : State) (h0 : initState bfs purged fuel = some s0) :
    Base4 bfs purged dm Phase.head s0 := by
  refine ⟨Base2.b2_init hc purged fuel s0 h0, ?_⟩
  have hmp := initState_methodPart bfs purged fuel s0 h0
  refine Unset.un_of_methodPart hmp ⟨fun m hm hm0 => ?_, fun _ => rfl⟩
  have : m = 0 := by simpa [startState] using hm
  exact absurd this hm0

/-- A distance of 254 once set is not overwritten. -/
theorem Tainted.ta_layer {bfs : BFS} {purged : List Nat} {dm : Bool} {p : Phase} {s : State}
    (hb : Base4 bfs purged dm p s) (h : Tainted dm s) : Tainted dm (methodLayer bfs.adj s) := by
  obtain ⟨hdm, m, hm⟩ := h
  refine ⟨hdm, m, ?_⟩
  rw [methodLayer_history]
  have hnot : ¬ (m ∈ s.method_worklist ∧ m < s.method_history.length) := by
    rintro ⟨h1, _⟩
    by_cases hm0 : m = 0
    · rw [hm0, hb.1.1.ba_rootInv.root_history] at hm
      exact absurd hm (by decide)
    · rw [hb.2.1 m h1 hm0] at hm
      exact absurd hm (by decide)
  rw [if_neg hnot]
  exact hm

theorem Tainted.ta_of_history {dm : Bool} {s s1 : State}
    (h : s1.method_history = s.method_history) : Tainted dm s1 ↔ Tainted dm s := by
  unfold Tainted State.history
  rw [h]

theorem Tainted.ta_bump (dm : Bool) (s : State) : Tainted dm (bumpDist dm s) ↔ Tainted dm s :=
  Tainted.ta_of_history (bumpDist_fields dm s).2.1

theorem Tainted.ta_pop {bfs : BFS} {dm : Bool} {fuel : Nat} {s s1 : State} {u : Nat}
    {rest : List Nat} (hr : processTypeflow bfs fuel (popTypeflow s rest) u = some s1) :
    Tainted dm s1 ↔ Tainted dm s :=
  (Tainted.ta_of_history (State.methodPart_history
    (processTypeflow_methodPart bfs fuel _ u s1 hr))).trans
    ((Tainted.ta_of_history (reachMethod_history _ _)).trans (Tainted.ta_of_history rfl))

theorem Tainted.ta_propagate (bfs : BFS) (dm : Bool) (s : State) :
    Tainted dm (propagate bfs s) ↔ Tainted dm s :=
  Tainted.ta_of_history (State.methodPart_history (propagate_methodPart bfs s))

/-- A family `K` that is carried by every transition of a run that is not tainted can be
added, under that condition, to a phased family `I`. -/
theorem Phased.unless {bfs : BFS} {purged : List Nat} {dm : Bool} {I : Phase → State → Prop}
    (hI : Phased bfs dm I) (hb : ∀ p s, I p s → Base4 bfs purged dm p s)
    (K : Phase → State → Prop)
    (layer : ∀ s, I Phase.head s → K Phase.head s → s.method_worklist ≠ [] →
      ¬ Tainted dm s → ¬ Tainted dm (methodLayer bfs.adj s) →
      K Phase.methods (methodLayer bfs.adj s))
    (relayer : ∀ s, dm = false → I Phase.methods s → K Phase.methods s →
      s.method_worklist ≠ [] → K Phase.methods (methodLayer bfs.adj s))
    (bump : ∀ s, I Phase.methods s → K Phase.methods s →
      (dm = true ∨ s.method_worklist = []) → ¬ Tainted dm s → K Phase.flows (bumpDist dm s))
    (pop : ∀ fuel s u rest s1, I Phase.flows s → K Phase.flows s →
      s.typeflow_worklist = u :: rest →
      processTypeflow bfs fuel (popTypeflow s rest) u = some s1 → ¬ Tainted dm s →
      K Phase.flows s1)
    (prop : ∀ s, I Phase.flows s → K Phase.flows s → s.typeflow_worklist = [] →
      s.instantiated_since_last_iteration ≠ [] → (dm = true ∨ s.method_worklist = []) →
      ¬ Tainted dm s → K Phase.flows (propagate bfs s))
    (exit : ∀ s, I Phase.flows s → K Phase.flows s → s.typeflow_worklist = [] →
      ((dm = false ∧ s.method_worklist ≠ []) ∨ s.instantiated_since_last_iteration = []) →
      K Phase.head s) :
    Phased bfs dm (fun p s => I p s ∧ (Tainted dm s ∨ K p s)) :=
  hI.extend (fun p s => Tainted dm s ∨ K p s)
    (fun s hi hk hne => by
      by_cases hpost : Tainted dm (methodLayer bfs.adj s)
      · exact Or.inl hpost
      · rcases hk with hk | hk
        · exact absurd (hk.ta_layer (hb _ _ hi)) hpost
        · exact Or.inr (layer s hi hk hne (fun ht => hpost (ht.ta_layer (hb _ _ hi))) hpost))
    (fun s hdm hi hk hne => by
      rcases hk with hk | hk
      · rw [hdm] at hk; exact absurd hk.1 (by decide)
      · exact Or.inr (relayer s hdm hi hk hne))
    (fun s hi hk hd => by
      rcases hk with hk | hk
      · exact Or.inl ((Tainted.ta_bump dm s).2 hk)
      · by_cases ht : Tainted dm s
        · exact Or.inl ((Tainted.ta_bump dm s).2 ht)
        · exact Or.inr (bump s hi hk hd ht))
    (fun fuel s u rest s1 hi hk hw hr => by
      rcases hk with hk | hk
      · exact Or.inl ((Tainted.ta_pop hr).2 hk)
      · by_cases ht : Tainted dm s
        · exact Or.inl ((Tainted.ta_pop hr).2 ht)
        · exact Or.inr (pop fuel s u rest s1 hi hk hw hr ht))
    (fun s hi hk hw hne hd => by
      rcases hk with hk | hk
      · exact Or.inl ((Tainted.ta_propagate bfs dm s).2 hk)
      · by_cases ht : Tainted dm s
        · exact Or.inl ((Tainted.ta_propagate bfs dm s).2 ht)
        · exact Or.inr (prop s hi hk hw hne hd ht))
    (fun s hi hk hw hcase => by
      rcases hk with hk | hk
      · exact Or.inl hk
      · exact Or.inr (exit s hi hk hw hcase))

theorem Below.be_dist_ne {dm : Bool} {p : Phase} {s : State} (hu : Unset dm s)
    (h : Below dm p s) : s.dist ≠ u8_max := by
  unfold u8_max
  cases dm with
  | false => rw [hu.2 rfl]; decide
  | true =>
    cases p with
    | head => have := h rfl; omega
    | methods => have := h rfl; omega
    | flows => have := h rfl; omega

theorem Base5.b5_phased {bfs : BFS} (hc : bfs.Canonical) (purged : List Nat) (dm : Bool) :
    Phased bfs dm (Base5 bfs purged dm) :=
  (Base4.b4_phased hc purged dm).unless (fun _ _ h => h) (Below dm)
    (fun s hi hk hne _ hpost hdm => by
      have hk1 : s.dist ≤ 254 := hk hdm
      rw [methodLayer_dist]
      by_contra hgt
      apply hpost
      obtain ⟨u, hu⟩ := List.exists_mem_of_ne_nil _ hne
      refine ⟨hdm, u, ?_⟩
      have hult := (hi.1.2.waiting u (Or.inl hu)).1
      rw [methodLayer_history, if_pos ⟨hu, hi.1.1.ba_purgeInv.history_len ▸ hult⟩]
      omega)
    (fun _ hdm _ _ _ hdm2 => by rw [hdm] at hdm2; cases hdm2)
    (fun s _ hk _ _ hdm => by
      have hk1 : s.dist ≤ 253 := hk hdm
      subst hdm
      show (s.dist + 1) % 256 ≤ 254
      rw [Nat.mod_eq_of_lt (by omega)]
      omega)
    (fun fuel s u rest s1 _ hk _ hr _ hdm => by
      have hk1 : s.dist ≤ 254 := hk hdm
      rw [State.methodPart_dist (processTypeflow_methodPart bfs fuel _ u s1 hr),
        reachMethod_dist]
      exact hk1)
    (fun s _ hk _ _ _ _ hdm => by
      have hk1 : s.dist ≤ 254 := hk hdm
      rw [State.methodPart_dist (propagate_methodPart bfs s)]
      exact hk1)
    (fun _ _ hk _ _ => hk)

theorem Base5.b5_init {bfs : BFS} (hc : bfs.Canonical) (purged : List Nat) (dm : Bool)
    (fuel : Nat) (s0 : State) (h0 : initState bfs purged fuel = some s0) :
    Base5 bfs purged dm Phase.head s0 := by
  refine ⟨Base4.b4_init hc purged dm fuel s0 h0, Or.inr (fun _ => ?_)⟩
  rw [State.methodPart_dist (initState_methodPart bfs purged fuel s0 h0)]
  exact Nat.zero_le _

theorem Base5.b5_dist_ne {bfs : BFS} {purged : List Nat} {dm : Bool} {p : Phase} {s : State}
    (h : Base5 bfs purged dm p s) (ht : ¬ Tainted dm s) : s.dist ≠ u8_max :=
  (h.2.resolve_left ht).be_dist_ne h.1.2

theorem Core2.c2_phased {bfs : BFS} (hc : bfs.Canonical) (purged : List Nat) (dm : Bool) :
    Phased bfs dm (Core2 bfs purged dm) :=
  (Base5.b5_phased hc purged dm).unless (fun _ _ h => h.1) (fun _ s => DoneInv purged s)
    (fun _ hi hk _ ht _ =>
      hk.dn_layer (hi.b5_dist_ne ht) hi.1.1.2 hi.1.1.1.ba_purgeInv.history_len)
    (fun _ hdm hi hk _ =>
      hk.dn_layer (hi.b5_dist_ne (fun ht => by rw [hdm] at ht; exact absurd ht.1 (by decide)))
        hi.1.1.2 hi.1.1.1.ba_purgeInv.history_len)
    (fun _ _ hk _ _ => hk.dn_bump dm)
    (fun fuel s u rest s1 _ hk _ hr _ =>
      DoneInv.dn_of_methodPart (processTypeflow_methodPart bfs fuel _ u s1 hr)
        ((DoneInv.dn_of_methodPart (show (popTypeflow s rest).methodPart = s.methodPart from rfl)
          hk).dn_reach _))
    (fun s _ hk _ _ _ _ => DoneInv.dn_of_methodPart (propagate_methodPart bfs s) hk)
    (fun _ _ hk _ _ => hk)

theorem Core2.c2_init {bfs : BFS} (hc : bfs.Canonical) (purged : List Nat) (dm : Bool)
    (fuel : Nat) (s0 : State) (h0 : initState bfs purged fuel = some s0) :
    Core2 bfs purged dm Phase.head s0 :=
  ⟨Base5.b5_init hc purged dm fuel s0 h0,
    Or.inr (DoneInv.dn_of_methodPart (initState_methodPart bfs purged fuel s0 h0)
      (DoneInv.dn_start bfs purged))⟩

theorem Core2.c2_base4 {bfs : BFS} {purged : List Nat} {dm : Bool} {p : Phase} {s : State}
    (h : Core2 bfs purged dm p s) : Base4 bfs purged dm p s := h.1.1

theorem Core2.c2_flowShape {bfs : BFS} {purged : List Nat} {dm : Bool} {p : Phase} {s : State}
    (h : Core2 bfs purged dm p s) : FlowShape bfs s := h.1.1.1.1.ba_flowShape

theorem Core2.c2_queueInv {bfs : BFS} {purged : List Nat} {dm : Bool} {p : Phase} {s : State}
    (h : Core2 bfs purged dm p s) : QueueInv bfs.adj purged s := h.1.1.1.2

theorem Core2.c2_rootInv {bfs : BFS} {purged : List Nat} {dm : Bool} {p : Phase} {s : State}
    (h : Core2 bfs purged dm p s) : RootInv bfs.adj s := h.1.1.1.1.ba_rootInv

theorem Core2.c2_dist_ne {bfs : BFS} {purged : List Nat} {dm : Bool} {p : Phase} {s : State}
    (h : Core2 bfs purged dm p s) (ht : ¬ Tainted dm s) : s.dist ≠ u8_max :=
  h.1.b5_dist_ne ht

theorem Core2.c2_doneInv {bfs : BFS} {purged : List Nat} {dm : Bool} {p : Phase} {s : State}
    (h : Core2 bfs purged dm p s) (ht : ¬ Tainted dm s) : DoneInv purged s :=
  h.2.resolve_left ht

/-- A state is tainted exactly when its distance vector holds 254 (with distances). -/
theorem tainted_iff_mem (dm : Bool) (s : State) :
    Tainted dm s ↔ dm = true ∧ 254 ∈ s.method_history := by
  unfold Tainted State.history
  constructor
  · rintro ⟨hdm, m, hm⟩
    refine ⟨hdm, ?_⟩
    by_cases hlt : m < s.method_history.length
    · rw [← hm]; exact getD_mem _ _ _ hlt
    · rw [getD_default _ _ _ (Nat.le_of_not_lt hlt)] at hm
      exact absurd hm (by decide)
  · rintro ⟨hdm, hmem⟩
    obtain ⟨i, hi, he⟩ := List.getElem_of_mem hmem
    exact ⟨hdm, i, by rw [List.getD_eq_getElem _ _ hi]; exact he⟩

theorem SatInv.sa_unless {bfs : BFS} (hc : bfs.Canonical) (hl : bfs.adj.dependentsListed)
    (purged : List Nat) (dm : Bool) :
    Phased bfs dm (fun p s => Core2 bfs purged dm p s ∧
      (Tainted dm s ∨ SatInv bfs (fun _ => False) s)) :=
  (Core2.c2_phased hc purged dm).unless (fun _ _ h => h.c2_base4)
    (fun _ s => SatInv bfs (fun _ => False) s)
    (fun _ hb hk _ _ _ => hk.sa_layer hl hb.c2_flowShape hb.c2_rootInv)
    (fun _ _ hb hk _ => hk.sa_layer hl hb.c2_flowShape hb.c2_rootInv)
    (fun s _ hk _ _ => hk.sa_frame (bumpDist_flowPart dm s) (bumpDist_fields dm s).2.1
      (fun x hx => by rw [(bumpDist_fields dm s).2.2.2.2]; exact hx))
    (fun fuel _ u rest _ hb hk hw hr ht =>
      hk.sa_pop hc hb.c2_flowShape (hb.c2_dist_ne ht) fuel u rest hw hr)
    (fun _ hb hk _ _ _ ht => hk.sa_propagate hc hb.c2_flowShape (hb.c2_dist_ne ht))
    (fun _ _ hk _ _ => hk)

/-- The saturation invariant at the end of a run that stayed below the sentinel distance. -/
theorem solve_satInv_below {bfs : BFS} (hc : bfs.Canonical) (hl : bfs.adj.dependentsListed)
    (purged : List Nat) (dm : Bool) (fuel : Nat) (s : State)
    (hr : solve bfs purged dm fuel = some s) (ht : ¬ Tainted dm s) :
    SatInv bfs (fun _ => False) s :=
  ((solve_phased (SatInv.sa_unless hc hl purged dm) purged fuel
    (fun s0 h0 => ⟨Core2.c2_init hc purged dm fuel s0 h0,
      Or.inr (SatInv.sa_init hc purged fuel s0 h0)⟩) s hr).1.2).resolve_left ht

theorem SoundInv.so_unless {bfs : BFS} (hc : bfs.Canonical) (ha : bfs.adj.dependentsAgree)
    (dm : Bool) :
    Phased bfs dm (fun p s => Core2 bfs [] dm p s ∧
      (Tainted dm s ∨ (NoSat s → SoundInv bfs.adj s))) :=
  (Core2.c2_phased hc [] dm).unless (fun _ _ h => h.c2_base4)
    (fun _ s => NoSat s → SoundInv bfs.adj s)
    (fun s hb hk _ _ _ hn1 => (hk ((methodLayer_histMono bfs.adj s).hm_noSat hn1)).so_layer
      hc.wf ha hb.c2_queueInv hb.1.1.1.1.ba_purgeInv hb.c2_rootInv.visited_len hb.c2_flowShape)
    (fun s _ hb hk _ hn1 => (hk ((methodLayer_histMono bfs.adj s).hm_noSat hn1)).so_layer
      hc.wf ha hb.c2_queueInv hb.1.1.1.1.ba_purgeInv hb.c2_rootInv.visited_len hb.c2_flowShape)
    (fun s _ hk _ _ hn1 => (hk ((bumpDist_histMono dm s).hm_noSat hn1)).so_frame
      (State.flowPart_hists (bumpDist_flowPart dm s))
      (State.flowPart_uses (bumpDist_flowPart dm s)) (bumpDist_fields dm s).1
      (fun x hx => by rw [(bumpDist_fields dm s).2.2.2.2] at hx; exact hx))
    (fun fuel _ u rest _ hb hk hw hr ht => SoundInv.so_pop hc hb.c2_flowShape (hb.c2_dist_ne ht)
      hb.c2_queueInv hb.c2_rootInv.visited_len hk fuel u rest hw hr)
    (fun _ hb hk _ _ _ ht => SoundInv.so_propagate hc hb.c2_flowShape (hb.c2_dist_ne ht) hk)
    (fun _ _ hk _ _ => hk)

theorem Closing.cg_unless {bfs : BFS} (hc : bfs.Canonical) (hl : bfs.adj.dependentsListed)
    (purged : List Nat) (dm : Bool) :
    Phased bfs dm (fun p s => Core2 bfs purged dm p s ∧ (Tainted dm s ∨ Closing bfs s)) :=
  (Core2.c2_phased hc purged dm).unless (fun _ _ h => h.c2_base4) (fun _ s => Closing bfs s)
    (fun s hb hk _ _ _ => ⟨hk.1.ed_layer hl hb.c2_flowShape hb.c2_rootInv,
      hk.2.se_mono (methodLayer_histMono bfs.adj s)⟩)
    (fun s _ hb hk _ => ⟨hk.1.ed_layer hl hb.c2_flowShape hb.c2_rootInv,
      hk.2.se_mono (methodLayer_histMono bfs.adj s)⟩)
    (fun s _ hk _ _ => ⟨hk.1.ed_frame (State.flowPart_hist (bumpDist_flowPart dm s))
      (bumpDist_fields dm s).2.1
      (fun x hx => by rw [(bumpDist_fields dm s).2.2.2.2]; exact hx),
      hk.2.se_mono (bumpDist_histMono dm s)⟩)
    (fun fuel s u rest s1 hb hk hw hr ht =>
      ⟨hk.1.ed_pop hc hb.c2_flowShape (hb.c2_dist_ne ht) fuel u rest hw hr,
        by
          have h1 : FlowShape bfs (popTypeflow s rest) :=
            FlowShape.fs_of_flowPart (s := s) rfl hb.c2_flowShape
          have h0 : s.dist ≠ u8_max := hb.c2_dist_ne ht
          have h2 : (popTypeflow s rest).dist ≠ u8_max := h0
          have h3 : HistMono (popTypeflow s rest) s1 :=
            processTypeflow_histMono hc h1 h2 fuel u hr
          have h4 : HistMono s (popTypeflow s rest) := HistMono.hm_of_eq (fun _ => rfl)
          exact hk.2.se_mono (h4.hm_trans h3)⟩)
    (fun s hb hk _ _ _ ht => ⟨hk.1.ed_propagate hc hb.c2_flowShape (hb.c2_dist_ne ht),
      hk.2.se_mono (propagate_histMono hc hb.c2_flowShape (hb.c2_dist_ne ht))⟩)
    (fun _ _ hk _ _ => hk)

/-- A final state without saturation, reached below the sentinel distance, is closed under the
propagation rules. -/
theorem holds_of_derivable_below {bfs : BFS} {s : State}
    (hroot : RootInv bfs.adj s) (hdone : DoneInv [] s) (hfin : Final bfs [] s)
    (hcl : Closing bfs s) (hns : NoSat s) (f : Fact) (h : Derivable bfs.adj f) :
    Holds s f := by
  induction h with
  | root => exact hroot.root_visited
  | call m v _ hv ih =>
    have hclosed := hfin.base.ba_closedInv.closed m ih
    rw [hfin.methods_done, hfin.base.2.2.2] at hclosed
    rcases hclosed with h1 | h1 | h1 | h1
    · simp at h1
    · simp at h1
    · simp at h1
    · exact h1 v hv
  | reach u t _ ih =>
    have hne : (s.hist u).recorded ≠ [] := List.ne_nil_of_mem ih
    cases hrole : (bfs.adj.flow u).method with
    | Reaching m =>
      rcases hfin.reach u m hrole hne with h1 | h1
      · rw [hfin.flows_done] at h1
        simp at h1
      · exact h1
    | Dependent m => exact hroot.root_visited
  | seed v t hv ha =>
    rcases hcl.2 v hv t ha with h1 | h1
    · exact h1
    · rw [hns v] at h1
      exact absurd h1 (by decide)
  | flow u v t _ _ hv ha ih1 ih2 =>
    have hgate : gateOpen bfs.adj s u = true := by
      unfold gateOpen
      have hvis : s.visited (bfs.adj.flow u).method.dependent = true := ih2
      rcases hdone _ hvis (by simp) with h1 | h1
      · rw [hfin.methods_done] at h1
        simp at h1
      · simpa using h1
    rcases hcl.1 u hgate (hns u) with h1 | h1 | h1
    · rw [hfin.flows_done] at h1
      simp at h1
    · rcases h1 v hv t ih1 ha with h2 | h2
      · exact h2
      · rw [hns v] at h2
        exact absurd h2 (by decide)
    · exact absurd h1 id

/-- Without a purged method and without saturation a run that stayed below the sentinel
distance computes, in either mode, exactly the derivable facts. -/
theorem solve_characterized_below {bfs : BFS} (hc : bfs.Canonical)
    (ha : bfs.adj.dependentsAgree) (hl : bfs.adj.dependentsListed) (dm : Bool)
    (fuel : Nat) (s : State) (hr : solve bfs [] dm fuel = some s) (ht : ¬ Tainted dm s)
    (hns : NoSat s) (f : Fact) : Holds s f ↔ Derivable bfs.adj f := by
  have h1 := (solve_phased (SoundInv.so_unless hc ha dm) [] fuel
    (fun s0 h0 => ⟨Core2.c2_init hc [] dm fuel s0 h0,
      Or.inr (fun _ => SoundInv.so_init hc fuel s0 h0)⟩) s hr).1
  have h2 := (solve_phased (Closing.cg_unless hc hl [] dm) [] fuel
    (fun s0 h0 => ⟨Core2.c2_init hc [] dm fuel s0 h0,
      Or.inr (Closing.cg_init hc [] fuel s0 h0)⟩) s hr).1
  have h3 := solve_final hc [] dm fuel s hr
  constructor
  · intro hf
    cases f with
    | method m => exact (h1.2.resolve_left ht hns).methods m hf
    | type v t => exact (h1.2.resolve_left ht hns).types v t hf
  · exact holds_of_derivable_below h1.1.c2_rootInv (h1.1.c2_doneInv ht) h3
      (h2.2.resolve_left ht) hns f

theorem Sourced.sr_mono {adj : Adjacency} {purged : List Nat} {s s2 : State} {t : Nat}
    (hm : HistMono s s2) (hvis : ∀ m, s.visited m = true → s2.visited m = true)
    (h : Sourced adj purged s t) : Sourced adj purged s2 t := by
  obtain ⟨u, h1, h2, h3⟩ := h
  exact ⟨u, h1.li_mono hvis, hm.types u t h2, h3⟩

theorem Hands.hd_mono {adj : Adjacency} {purged : List Nat} {s s2 : State} {u t : Nat}
    (hm : HistMono s s2) (hvis : ∀ m, s.visited m = true → s2.visited m = true)
    (h : Hands adj purged s u t) : Hands adj purged s2 u t := by
  rcases h with h | ⟨h1, h2⟩
  · exact Or.inl h
  · refine Or.inr ⟨h1.li_mono hvis, ?_⟩
    rcases h2 with h2 | ⟨h2, h3⟩
    · exact Or.inl (hm.types u t h2)
    · exact Or.inr ⟨hm.sat u h2, h3.sr_mono hm hvis⟩

theorem Given.gv_mono {adj : Adjacency} {purged : List Nat} {s s2 : State} {v t : Nat}
    (hm : HistMono s s2) (hvis : ∀ m, s.visited m = true → s2.visited m = true)
    (h : Given adj purged s v t) : Given adj purged s2 v t := by
  obtain ⟨u, h1, h2⟩ := h
  exact ⟨u, h1, h2.hd_mono hm hvis⟩

theorem Feeder.fd_mono {adj : Adjacency} {purged : List Nat} {s s2 : State} {v : Nat}
    (hm : HistMono s s2) (hvis : ∀ m, s.visited m = true → s2.visited m = true)
    (h : Feeder adj purged s v) : Feeder adj purged s2 v := by
  obtain ⟨u, h1, h2⟩ := h
  refine ⟨u, h1, ?_⟩
  rcases h2 with h2 | ⟨h2, h3⟩
  · exact Or.inl h2
  · exact Or.inr ⟨h2.li_mono hvis, hm.sat u h3⟩

/-- A type that reached a typeflow through a feeder was handed on. -/
theorem Feeder.fd_given {adj : Adjacency} {purged : List Nat} {s : State} {v t : Nat}
    (h : Feeder adj purged s v) (ht : Sourced adj purged s t) : Given adj purged s v t := by
  obtain ⟨u, h1, h2⟩ := h
  refine ⟨u, h1, ?_⟩
  rcases h2 with h2 | ⟨h2, h3⟩
  · exact Or.inl h2
  · exact Or.inr ⟨h2, Or.inr ⟨h3, ht⟩⟩

/-- The general transfer of the invariant along a step. -/
theorem TypeGate.tg_step {adj : Adjacency} {purged : List Nat} {s s2 : State}
    (hk : TypeGate adj purged s) (hm : HistMono s s2)
    (hvis : ∀ m, s.visited m = true → s2.visited m = true)
    (hrec : ∀ v t, t ∈ (s2.hist v).recorded →
      t ∈ (s.hist v).recorded ∨ Given adj purged s2 v t)
    (hinst : ∀ t, s2.allInstantiated.get t = true →
      s.allInstantiated.get t = true ∨ Sourced adj purged s2 t)
    (huses : ∀ f v, v ∈ s2.saturation_uses_by_filter.getD f [] →
      v ∈ s.saturation_uses_by_filter.getD f [] ∨ Feeder adj purged s2 v) :
    TypeGate adj purged s2 := by
  refine ⟨fun v t ht => ?_, fun t ht => ?_, fun f v hv => ?_⟩
  · rcases hrec v t ht with h | h
    · exact (hk.recorded v t h).gv_mono hm hvis
    · exact h
  · rcases hinst t ht with h | h
    · exact (hk.inst t h).sr_mono hm hvis
    · exact h
  · rcases huses f v hv with h | h
    · exact (hk.uses f v h).fd_mono hm hvis
    · exact h

theorem TypeGate.tg_frame {adj : Adjacency} {purged : List Nat} {s s2 : State}
    (hk : TypeGate adj purged s) (hvis : ∀ m, s.visited m = true → s2.visited m = true)
    (h2 : ∀ v, s2.hist v = s.hist v) (h3 : s2.allInstantiated = s.allInstantiated)
    (h4 : s2.saturation_uses_by_filter = s.saturation_uses_by_filter) :
    TypeGate adj purged s2 :=
  hk.tg_step (HistMono.hm_of_eq h2) hvis
    (fun v t ht => Or.inl (by rw [h2] at ht; exact ht))
    (fun t ht => Or.inl (by rw [h3] at ht; exact ht))
    (fun f v hv => Or.inl (by rw [h4] at hv; exact hv))

/-- A record step whose types are handed on by a predecessor keeps the invariant. -/
theorem TypeGate.tg_record {adj : Adjacency} {purged : List Nat} {s s2 : State}
    (hk : TypeGate adj purged s) (v : Nat) (skip : Nat → Bool) (d : Nat) (l : List Nat)
    (c : Bool) (hv : (s.hist v).Valid)
    (hstep : RecordStep s s2 v (flowLoop skip d l (s.hist v) false) c)
    (hm : HistMono s s2)
    (hgiven : ∀ t ∈ l, skip t = false → Given adj purged s v t)
    (huses : ∀ f w, w ∈ s2.saturation_uses_by_filter.getD f [] →
      w ∈ s.saturation_uses_by_filter.getD f [] ∨ Feeder adj purged s w) :
    TypeGate adj purged s2 := by
  have hvis : ∀ m, s.visited m = true → s2.visited m = true := fun m hm1 => by
    rw [State.visited_of_methodPart hstep.methodPart]; exact hm1
  refine hk.tg_step hm hvis (fun w t ht => ?_) (fun t ht => Or.inl (by
    rw [hstep.inst] at ht; exact ht)) (fun f w hw => ?_)
  · by_cases hwv : w = v
    · subst hwv
      rw [hstep.hist_self] at ht
      rcases flowLoop_sound skip d l _ false hv t ht with h | h
      · exact Or.inl h
      · exact Or.inr ((hgiven t h.1 h.2).gv_mono hm hvis)
    · rw [hstep.hist_other w hwv] at ht; exact Or.inl ht
  · rcases huses f w hw with h | h
    · exact Or.inl h
    · exact Or.inr (h.fd_mono hm hvis)

/-- A record step into a history that is not saturated only extends the histories. -/
theorem RecordStep.rs_histMono {s s2 : State} {v : Nat} {skip : Nat → Bool} {d : Nat}
    {l : List Nat} {c : Bool}
    (hstep : RecordStep s s2 v (flowLoop skip d l (s.hist v) false) c)
    (hv : (s.hist v).Valid) (hns : (s.hist v).is_saturated = false) : HistMono s s2 := by
  refine ⟨fun w hw => ?_, hstep.rs_rec_mono hv⟩
  by_cases hwv : w = v
  · rw [hwv, hns] at hw
    exact absurd hw (by decide)
  · rw [hstep.hist_other w hwv]; exact hw

/-- The types that a step puts into the all-instantiated set are recorded by `u`, and the
successor is the all-instantiated typeflow. -/
theorem feedInstantiated_source (bfs : BFS) (u : Nat) (s : State) (v : Nat) (x : Nat)
    (hx : (feedInstantiated bfs u s v).allInstantiated.get x = true) :
    s.allInstantiated.get x = true ∨
      (v = bfs.adj.allInstantiated ∧ x ∈ (s.hist u).recorded) := by
  unfold feedInstantiated at hx
  split at hx
  · rename_i hva
    have := foldl_inv (fun s1 : State => ∀ x, s1.allInstantiated.get x = true →
        s.allInstantiated.get x = true ∨ x ∈ (s.hist u).recorded)
      instantiate (s.hist u).recorded s (fun x hx => Or.inl hx)
      (fun s1 t ht h x hx => by
        unfold instantiate at hx
        split at hx
        · have hx1 : (s1.allInstantiated.set t).get x = true := hx
          rw [Bitset.get_set] at hx1
          rcases Bool.or_eq_true_iff.1 hx1 with h1 | h1
          · exact h x h1
          · have := (of_decide_eq_true h1).1
            subst this
            exact Or.inr ht
        · exact h x hx)
    rcases this x hx with h | h
    · exact Or.inl h
    · exact Or.inr ⟨hva, h⟩
  · exact Or.inl hx

theorem Bitset.get_zeros (n t : Nat) : (Bitset.zeros n).get t = false := by
  unfold Bitset.get Bitset.zeros
  exact getD_replicate _ _ _

theorem TypeGate.tg_flowEdge {bfs : BFS} {purged : List Nat} {s : State} (hc : bfs.Canonical)
    (hs : FlowShape bfs s) (hk : TypeGate bfs.adj purged s) (u v : Nat)
    (hv : v ∈ (bfs.adj.flow u).forward_edges) (hlive : Live bfs.adj purged s u) :
    TypeGate bfs.adj purged (flowEdge bfs u s v) := by
  have hvlt := hc.wf.flow_edge u v hv
  unfold flowEdge
  have hs1 := hs.fs_feedInstantiated hc u v
  have hmp1 := feedInstantiated_methodPart bfs u s v
  have hvis1 : ∀ m, s.visited m = true → (feedInstantiated bfs u s v).visited m = true :=
    fun m hm => by rw [State.visited_of_methodPart hmp1]; exact hm
  have hlive1 : Live bfs.adj purged (feedInstantiated bfs u s v) u := hlive.li_mono hvis1
  have hk1 : TypeGate bfs.adj purged (feedInstantiated bfs u s v) :=
    hk.tg_step (HistMono.hm_of_eq (feedInstantiated_hist bfs u s v)) hvis1
      (fun w t ht => Or.inl (by rw [feedInstantiated_hist] at ht; exact ht))
      (fun t ht => by
        rcases feedInstantiated_source bfs u s v t ht with h | ⟨h1, h2⟩
        · exact Or.inl h
        · exact Or.inr ⟨u, hlive1, by rw [feedInstantiated_hist]; exact h2, h1 ▸ hv⟩)
      (fun f w hw => Or.inl (by rw [(feedInstantiated_uses bfs u s v).1] at hw; exact hw))
  by_cases hsat : ((feedInstantiated bfs u s v).hist v).is_saturated = true
  · rw [flowInto_saturated _ _ _ _ hsat]; exact hk1
  · have hns : ((feedInstantiated bfs u s v).hist v).is_saturated = false := by
      simpa using hsat
    have hstep := flowInto_step bfs u (feedInstantiated bfs u s v) v (hs1.hist_len ▸ hvlt) hns
    exact hk1.tg_record v _ _ _ _ (hs1.valid v) hstep (hstep.rs_histMono (hs1.valid v) hns)
      (fun t ht _ => ⟨u, hv, Or.inr ⟨hlive1, Or.inl ht⟩⟩)
      (fun f w hw => Or.inl (by rw [(flowInto_uses bfs u _ v).1] at hw; exact hw))

theorem TypeGate.tg_saturatedEdge {bfs : BFS} {purged : List Nat} {s s1 : State}
    (hc : bfs.Canonical) (hs : FlowShape bfs s) (hk : TypeGate bfs.adj purged s)
    (fuel u v : Nat) (hv : v ∈ (bfs.adj.flow u).forward_edges)
    (hlive : Live bfs.adj purged s u) (hsat : (s.hist u).is_saturated = true)
    (hr : saturatedEdge bfs fuel s v = some s1) : TypeGate bfs.adj purged s1 := by
  have hvlt := hc.wf.flow_edge u v hv
  by_cases hskip : (s.hist v).is_saturated = true ∨
      s.included_in_saturation_uses.getD v false = true
  · rw [saturatedEdge_skip bfs fuel s v s1 hskip hr]; exact hk
  · have h1 : (s.hist v).is_saturated = false := by
      by_contra hc1; exact hskip (Or.inl (by simpa using hc1))
    have h2 : s.included_in_saturation_uses.getD v false = false := by
      by_contra hc1; exact hskip (Or.inr (by simpa using hc1))
    have hstep := saturatedEdge_step hc fuel s v hvlt (hs.hist_len ▸ hvlt) s1 h1 h2 hr
    refine hk.tg_record v _ _ _ _ (hs.valid v) hstep (hstep.rs_histMono (hs.valid v) h1)
      (fun t _ hsk => ⟨u, hv, Or.inr ⟨hlive, Or.inr ⟨hsat, hk.inst t (by simpa using hsk)⟩⟩⟩)
      (fun f w hw => ?_)
    rw [(saturatedEdge_uses bfs fuel s v s1 (hs.hist_len ▸ hvlt) h1 h2 hr).2] at hw
    split at hw
    · exact Or.inl hw
    · rw [getD_set] at hw
      split at hw
      · rename_i hf
        rcases List.mem_append.1 hw with h | h
        · exact Or.inl (hf.1 ▸ h)
        · have hwv : w = v := by simpa using h
          exact Or.inr ⟨u, hwv ▸ hv, Or.inr ⟨hlive, hsat⟩⟩
      · exact Or.inl hw

theorem TypeGate.tg_pop {bfs : BFS} {purged : List Nat} {s s1 : State} (hc : bfs.Canonical)
    (hs : FlowShape bfs s) (hk : TypeGate bfs.adj purged s) (hg : GateInv bfs.adj purged s)
    (fuel u : Nat) (rest : List Nat) (hw : s.typeflow_worklist = u :: rest)
    (hr : processTypeflow bfs fuel (popTypeflow s rest) u = some s1) :
    TypeGate bfs.adj purged s1 := by
  have hu := hg.queued u (by rw [hw]; exact List.mem_cons_self _ _)
  have hvis : ∀ m, s.visited m = true →
      (reachMethod (popTypeflow s rest) (bfs.adj.flow u).method.reaching).visited m = true :=
    fun m hm => reachMethod_mono (popTypeflow s rest) _ m hm
  have hfp : (reachMethod (popTypeflow s rest) (bfs.adj.flow u).method.reaching).flowPart =
      s.flowPart := reachMethod_flowPart _ _
  have hk0 : TypeGate bfs.adj purged
      (reachMethod (popTypeflow s rest) (bfs.adj.flow u).method.reaching) :=
    hk.tg_frame hvis (State.flowPart_hist hfp) (State.flowPart_inst hfp)
      (State.flowPart_uses hfp)
  have hl0 : Live bfs.adj purged
      (reachMethod (popTypeflow s rest) (bfs.adj.flow u).method.reaching) u :=
    hu.1.li_mono hvis
  have := processTypeflow_inv hc
    (fun s2 => TypeGate bfs.adj purged s2 ∧ Live bfs.adj purged s2 u) fuel
    (popTypeflow s rest) u s1 hr (FlowShape.fs_of_flowPart (s := s) rfl hs) ⟨hk0, hl0⟩
    (fun s2 v hv hs2 h _ _ => ⟨h.1.tg_flowEdge hc hs2 u v hv h.2,
      h.2.li_of_methodPart (flowEdge_methodPart bfs u s2 v)⟩)
    (fun s2 v s3 hv hs2 h he hsat h3 =>
      ⟨h.1.tg_saturatedEdge hc hs2 fuel u v hv h.2 (by rw [he]; exact hsat) h3,
        h.2.li_of_methodPart (saturatedEdge_methodPart bfs fuel s2 v s3 h3)⟩)
  exact this.1

theorem TypeGate.tg_propagate {bfs : BFS} {purged : List Nat} {s : State} (hc : bfs.Canonical)
    (hs : FlowShape bfs s) (hk : TypeGate bfs.adj purged s) :
    TypeGate bfs.adj purged (propagate bfs s) :=
  propagate_inv_mem hc (TypeGate bfs.adj purged) s hs hk
    (fun s2 f l h hl => h.tg_step (HistMono.hm_of_eq (fun _ => rfl)) (fun m hm => hm)
      (fun v t ht => Or.inl ht) (fun t ht => Or.inl ht)
      (fun f1 v hv => Or.inl (by
        have hv1 : v ∈ (s2.saturation_uses_by_filter.set f l).getD f1 [] := hv
        rw [getD_set] at hv1
        split at hv1
        · rename_i hf; exact hf.1 ▸ hl v hv1
        · exact hv1)))
    (fun s2 v filtered kept f hs2 h hv hmem hns hf => by
      have hstep := replayUse_step bfs filtered (s2, kept) v (hs2.hist_len ▸ hv) hns
      exact h.tg_record v _ _ _ _ (hs2.valid v) hstep (hstep.rs_histMono (hs2.valid v) hns)
        (fun t ht _ => (h.uses f v hmem).fd_given (h.inst t (hs2.since_inst t (hf t ht).2)))
        (fun f1 w hw => Or.inl (by
          rw [(replayUse_uses bfs filtered (s2, kept) v).1] at hw; exact hw)))
    (fun s2 _ h => h.tg_frame (fun m hm => hm) (fun _ => rfl) rfl rfl)

theorem TypeGate.tg_phased {bfs : BFS} (hc : bfs.Canonical) (ha : bfs.adj.dependentsAgree)
    (purged : List Nat) (dm : Bool) :
    Phased bfs dm (fun p s => (Base2 bfs purged p s ∧ GateInv bfs.adj purged s) ∧
      TypeGate bfs.adj purged s) :=
  (GateInv.ga_phased hc ha purged dm).extend (fun _ s => TypeGate bfs.adj purged s)
    (fun s _ hk _ => hk.tg_frame (methodLayer_mono bfs.adj s) (methodLayer_hist bfs.adj s)
      (State.flowPart_inst (methodLayer_flowPart bfs.adj s))
      (State.flowPart_uses (methodLayer_flowPart bfs.adj s)))
    (fun s _ _ hk _ => hk.tg_frame (methodLayer_mono bfs.adj s) (methodLayer_hist bfs.adj s)
      (State.flowPart_inst (methodLayer_flowPart bfs.adj s))
      (State.flowPart_uses (methodLayer_flowPart bfs.adj s)))
    (fun s _ hk _ => hk.tg_frame
      (fun m hm => by unfold State.visited at *; rw [(bumpDist_fields dm s).1]; exact hm)
      (State.flowPart_hist (bumpDist_flowPart dm s))
      (State.flowPart_inst (bumpDist_flowPart dm s))
      (State.flowPart_uses (bumpDist_flowPart dm s)))
    (fun fuel _ u rest _ hb hk hw hr => hk.tg_pop hc hb.1.1.ba_flowShape hb.2 fuel u rest hw hr)
    (fun _ hb hk _ _ _ => hk.tg_propagate hc hb.1.1.ba_flowShape)
    (fun _ _ hk _ _ => hk)

theorem TypeGate.tg_start (bfs : BFS) (purged : List Nat) :
    TypeGate bfs.adj purged (startState bfs purged) := by
  refine ⟨fun v t ht => ?_, fun t ht => ?_, fun f v hv => ?_⟩
  · rw [startState_hist, recorded_fresh] at ht
    simp at ht
  · have : (startState bfs purged).allInstantiated.get t = false := Bitset.get_zeros _ _
    rw [this] at ht
    exact absurd ht (by decide)
  · have : (startState bfs purged).saturation_uses_by_filter.getD f [] = [] :=
      getD_replicate _ _ _
    rw [this] at hv
    simp at hv

theorem TypeGate.tg_init {bfs : BFS} (hc : bfs.Canonical) (purged : List Nat) (fuel : Nat)
    (s0 : State) (h0 : initState bfs purged fuel = some s0) : TypeGate bfs.adj purged s0 := by
  unfold initState at h0
  have := forM_opt_inv (fun s => FlowShape bfs s ∧ TypeGate bfs.adj purged s)
    (whiteHoleStep bfs fuel) (bfs.adj.flow 0).forward_edges (startState bfs purged) s0
    ⟨FlowShape.fs_start bfs purged, TypeGate.tg_start bfs purged⟩
    (fun s v s1 hv h h1 => by
      have hvlt := hc.wf.flow_edge 0 v hv
      have hstep := whiteHoleStep_step hc fuel s v hvlt (h.1.hist_len ▸ hvlt) s1 h1
      exact ⟨h.1.fs_whiteHoleStep hc fuel v hvlt h1,
        h.2.tg_record v _ _ _ _ (h.1.valid v) hstep
          (HistMono.hm_step hstep (h.1.valid v) (by decide))
          (fun t _ _ => ⟨0, hv, Or.inl rfl⟩)
          (fun f w hw => Or.inl (by
            rw [(whiteHoleStep_uses bfs fuel s v s1 h1).1] at hw; exact hw))⟩) h0
  exact this.2

/-- At the end of the solver every recorded type was handed on by a predecessor. -/
theorem solve_typeGate {bfs : BFS} (hc : bfs.Canonical) (ha : bfs.adj.dependentsAgree)
    (purged : List Nat) (dm : Bool) (fuel : Nat) (s : State)
    (hr : solve bfs purged dm fuel = some s) : TypeGate bfs.adj purged s :=
  (solve_phased (TypeGate.tg_phased hc ha purged dm) purged fuel
    (fun s0 h0 => ⟨⟨Base2.b2_init hc purged fuel s0 h0, GateInv.ga_init hc purged fuel s0 h0⟩,
      TypeGate.tg_init hc purged fuel s0 h0⟩) s hr).1.2

theorem finish_final {adj : Adjacency} (hw : adj.wf) {purged : List Nat} {dm : Bool} {fuel : Nat}
    {r : Result} (hr : run adj purged dm fuel = some r) :
    ∃ s, Final (BFS.create adj) purged s ∧ r = finish purged s := by
  obtain ⟨s, h1, h2⟩ := run_eq_some hr
  exact ⟨s, solve_final (BFS.create_canonical adj hw) purged dm fuel s h1, h2⟩

/-- C1: for a well-formed adjacency, every purged list and both modes, if the result reports
`method_visited[u] = true` and `v` is a forward edge of `u`, then `method_visited[v] = true` is
reported or `v` is one of the purged methods. -/
theorem method_reachability_forward_closed (adj : Adjacency) (hw : adj.wf) (purged : List Nat)
    (dm : Bool) (fuel : Nat) (r : Result) (hr : run adj purged dm fuel = some r) (u v : Nat)
    (hu : r.method_visited.getD u false = true) (hv : v ∈ (adj.method u).forward_edges) :
    r.method_visited.getD v false = true ∨ v ∈ purged := by
  obtain ⟨s, hf, rfl⟩ := finish_final hw hr
  rw [finish_visited] at hu ⊢
  have hu1 : s.visited u = true ∧ u ∉ purged := by simpa using hu
  by_cases hp : v ∈ purged
  · exact Or.inr hp
  · left
    have hcl := hf.base.ba_closedInv.closed u hu1.1
    rw [hf.methods_done, hf.base.2.2.2] at hcl
    rcases hcl with h | h | h | h
    · exact absurd h hu1.2
    · simp at h
    · simp at h
    · have : s.visited v = true := h v hv
      simp [this, hp]

theorem method_reachability_forward_closed_witness :
    chainGraph.wf ∧ run chainGraph [] true 10 = some chainGraphResult ∧
    chainGraphResult.method_visited.getD 1 false = true ∧
    2 ∈ (chainGraph.method 1).forward_edges ∧
    (chainGraphResult.method_visited.getD 2 false = true ∨ 2 ∈ ([] : List Nat)) :=
  ⟨by decide, by decide, by decide, by decide,
    method_reachability_forward_closed chainGraph (by decide) [] true 10 chainGraphResult
      (by decide) 1 2 (by decide) (by decide)⟩

/-- C2: for a well-formed adjacency, every purged list and both modes, if typeflow `u` has role
`Reaching(m)` and its history in the result is non-empty (`any()`), then `method_visited[m]`
is reported true or `m` is purged. -/
theorem reaching_role_reaches_method (adj : Adjacency) (hw : adj.wf) (purged : List Nat)
    (dm : Bool) (fuel : Nat) (r : Result) (hr : run adj purged dm fuel = some r) (u m : Nat)
    (hrole : (adj.flow u).method = MethodRole.Reaching m)
    (hany : (r.typeflow_visited.getD u default).any = true) :
    r.method_visited.getD m false = true ∨ m ∈ purged := by
  obtain ⟨s, hf, rfl⟩ := finish_final hw hr
  rw [finish_visited]
  have hne : (s.hist u).recorded ≠ [] := ((hf.base.ba_flowShape.valid u).any_iff).1 hany
  rcases hf.reach u m hrole hne with h | h
  · rw [hf.flows_done] at h; simp at h
  · by_cases hp : m ∈ purged
    · exact Or.inr hp
    · left; simp [h, hp]

theorem reaching_role_reaches_method_witness :
    (singleFlow (MethodRole.Reaching 1)).wf ∧
    run (singleFlow (MethodRole.Reaching 1)) [] true 10 = some singleFlowResult ∧
    ((singleFlow (MethodRole.Reaching 1)).flow 1).method = MethodRole.Reaching 1 ∧
    (singleFlowResult.typeflow_visited.getD 1 default).any = true ∧
    (singleFlowResult.method_visited.getD 1 false = true ∨ 1 ∈ ([] : List Nat)) :=
  ⟨by decide, by decide, by decide, by decide,
    reaching_role_reaches_method (singleFlow (MethodRole.Reaching 1)) (by decide) [] true 10
      singleFlowResult (by decide) 1 1 (by decide) (by decide)⟩

/-- C4: for every adjacency, mode and purged list, every purged method `p` has
`method_visited[p] = false` in the result, and if `p` is not the root it is never dequeued:
`method_history[p]` is the sentinel 255. -/
theorem purged_observed_unreached (adj : Adjacency) (purged : List Nat) (dm : Bool) (fuel : Nat)
    (r : Result) (hr : run adj purged dm fuel = some r) (p : Nat) (hp : p ∈ purged) :
    r.method_visited.getD p false = false ∧ (p ≠ 0 → r.method_history.getD p u8_max = u8_max) := by
  obtain ⟨s, h1, rfl⟩ := run_eq_some hr
  refine ⟨?_, fun h0 => (solve_purgeInv _ purged dm fuel s h1).purged_history p hp h0⟩
  rw [finish_visited]
  simp [hp]

theorem purged_observed_unreached_witness :
    run (singleFlow (MethodRole.Reaching 1)) [1] true 10 = some gatedFlowResult ∧
    1 ∈ [1] ∧ gatedFlowResult.pairs 1 = [(7, 0)] ∧
    (gatedFlowResult.method_visited.getD 1 false = false ∧
      ((1 : Nat) ≠ 0 → gatedFlowResult.method_history.getD 1 u8_max = u8_max)) :=
  ⟨by decide, by decide, by decide,
    purged_observed_unreached (singleFlow (MethodRole.Reaching 1)) [1] true 10 gatedFlowResult
      (by decide) 1 (by decide)⟩

/-- C5: for every adjacency that has the root method, every mode and purged list, the result
has `method_history[0] = 0`, and `method_visited[0] = true` whenever method 0 is not purged. -/
theorem root_reached_at_distance_zero (adj : Adjacency) (hn : 0 < adj.n_methods)
    (purged : List Nat) (dm : Bool) (fuel : Nat) (r : Result)
    (hr : run adj purged dm fuel = some r) :
    r.method_history.getD 0 u8_max = 0 ∧ (0 ∉ purged → r.method_visited.getD 0 false = true) := by
  obtain ⟨s, h1, rfl⟩ := run_eq_some hr
  have hroot := solve_rootInv (BFS.create adj) hn purged dm fuel s h1
  refine ⟨hroot.root_history, fun hp => ?_⟩
  rw [finish_visited, hroot.root_visited]
  simp [hp]

theorem root_reached_at_distance_zero_witness :
    0 < emptyGraph.n_methods ∧ run emptyGraph [] true 10 = some emptyGraphResult ∧
    emptyGraphResult.method_visited = [true] ∧ emptyGraphResult.method_history = [0] ∧
    (emptyGraphResult.typeflow_visited.getD 0 default).any = false ∧
    (emptyGraphResult.method_history.getD 0 u8_max = 0 ∧
      (0 ∉ ([] : List Nat) → emptyGraphResult.method_visited.getD 0 false = true)) :=
  ⟨by decide, by decide, by decide, by decide, by decide,
    root_reached_at_distance_zero emptyGraph (by decide) [] true 10 emptyGraphResult (by decide)⟩

/-- C6: for every well-formed adjacency, purged list and mode, and every typeflow `v`, every
(type, distance) pair yielded by iterating the result history of `v` has its type admitted by
the filter of `v`; the invariant behind it is kept by all four paths that add types. -/
theorem filter_honored (adj : Adjacency) (hw : adj.wf) (purged : List Nat) (dm : Bool)
    (fuel : Nat) (r : Result) (hr : run adj purged dm fuel = some r) (v : Nat) (p : Nat × Nat)
    (hp : p ∈ r.pairs v) : adj.admits v p.1 = true := by
  obtain ⟨s, h1, rfl⟩ := run_eq_some hr
  have hs := solve_flowShape (BFS.create_canonical adj hw) purged dm fuel s h1
  exact hs.honored v p.1 (List.mem_map.2 ⟨p, hp, rfl⟩)

theorem filter_honored_witness :
    (singleFlow (MethodRole.Reaching 1)).wf ∧
    run (singleFlow (MethodRole.Reaching 1)) [] true 10 = some singleFlowResult ∧
    (7, 0) ∈ singleFlowResult.pairs 1 ∧
    (singleFlow (MethodRole.Reaching 1)).admits 1 7 = true :=
  ⟨by decide, by decide, by decide,
    filter_honored (singleFlow (MethodRole.Reaching 1)) (by decide) [] true 10 singleFlowResult
      (by decide) 1 (7, 0) (by decide)⟩

/-- C3: for every well-formed adjacency, mode and purged list without the root, every method
reported `method_visited[m] = true` is connected by a path of method forward edges without
purged methods to the root or to the reaching method of a typeflow whose result history is
non-empty; so when no typeflow ends with a non-empty history, a method without such a path
from the root is reported unreached. -/
theorem purge_isolation (adj : Adjacency) (hw : adj.wf) (purged : List Nat) (hroot : 0 ∉ purged)
    (dm : Bool) (fuel : Nat) (r : Result) (hr : run adj purged dm fuel = some r) :
    (∀ m, r.method_visited.getD m false = true →
      ∃ src, (src = 0 ∨ ∃ u, (adj.flow u).method = MethodRole.Reaching src ∧
          (r.typeflow_visited.getD u default).any = true) ∧
        PurgeFreePath adj purged src m) ∧
    ((∀ u, (r.typeflow_visited.getD u default).any = false) →
      ∀ m, ¬ PurgeFreePath adj purged 0 m → r.method_visited.getD m false = false) := by
  obtain ⟨s, h1, rfl⟩ := run_eq_some hr
  obtain ⟨hk, hs⟩ := solve_justInv (BFS.create_canonical adj hw) purged hroot dm fuel s h1
  have hj : ∀ m, (finish purged s).method_visited.getD m false = true →
      Justified adj purged s m := by
    intro m hm
    rw [finish_visited] at hm
    have hm1 : s.visited m = true ∧ m ∉ purged := by simpa using hm
    exact hk.marked m hm1.1 hm1.2
  refine ⟨fun m hm => ?_, fun hnone m hpath => ?_⟩
  · obtain ⟨src, hsrc, hp⟩ := hj m hm
    refine ⟨src, ?_, hp⟩
    rcases hsrc with h0 | ⟨u, hu, hne⟩
    · exact Or.inl h0
    · exact Or.inr ⟨u, hu, ((hs.valid u).any_iff).2 hne⟩
  · by_contra hv
    have hv1 : (finish purged s).method_visited.getD m false = true := by simpa using hv
    apply hpath
    apply justified_root_only _ (hj m hv1)
    intro u
    by_contra hne
    have := ((hs.valid u).any_iff).2 hne
    have h2 := hnone u
    exact absurd (this.symm.trans h2) (by simp)

theorem purge_isolation_witness :
    chainGraph.wf ∧ 0 ∉ [2] ∧ run chainGraph [2] true 10 = some purgedChainResult ∧
    ((∀ m, purgedChainResult.method_visited.getD m false = true →
      ∃ src, (src = 0 ∨ ∃ u, (chainGraph.flow u).method = MethodRole.Reaching src ∧
          (purgedChainResult.typeflow_visited.getD u default).any = true) ∧
        PurgeFreePath chainGraph [2] src m) ∧
    ((∀ u, (purgedChainResult.typeflow_visited.getD u default).any = false) →
      ∀ m, ¬ PurgeFreePath chainGraph [2] 0 m →
        purgedChainResult.method_visited.getD m false = false)) :=
  ⟨by decide, by decide, by decide,
    purge_isolation chainGraph (by decide) [2] (by decide) true 10 purgedChainResult (by decide)⟩

set_option maxRecDepth 1000000 in
/-- C10, evaluation at the failing input: on the chain of 257 methods with the edge
`m256 → m2` both ends of that edge are reached, `method_history[m256]` is 0 (256 wrapped to
eight bits) and `method_history[m2]` is 2, which exceeds `0 + 1`. -/
theorem distance_law_wraps :
    2 ∈ (deepChain.method 256).forward_edges ∧
    (run deepChain [] true 300).map (fun r =>
      (r.method_visited.getD 256 false, r.method_visited.getD 2 false,
        r.method_history.getD 256 u8_max, r.method_history.getD 2 u8_max)) =
      some (true, true, 0, 2) := by
  decide

/-- C7, counterexample: the gated scenario is well formed, and in it `m1` is never reached (its
distance is the sentinel and it is reported unvisited), yet the typeflow `t1` with role
`Dependent(m1)` records `(7, 0)` and `any()` is true. -/
theorem gate_records_before_method_counterexample :
    (singleFlow (MethodRole.Dependent 1)).wf ∧
    (singleFlow (MethodRole.Dependent 1)).dependentsAgree ∧
    ((singleFlow (MethodRole.Dependent 1)).flow 1).method = MethodRole.Dependent 1 ∧
    run (singleFlow (MethodRole.Dependent 1)) [] true 10 = some gatedFlowResult ∧
    gatedFlowResult.method_history.getD 1 u8_max = u8_max ∧
    gatedFlowResult.method_visited.getD 1 false = false ∧
    gatedFlowResult.pairs 1 = [(7, 0)] ∧
    (gatedFlowResult.typeflow_visited.getD 1 default).any = true := by
  decide

/-- C7, amended: the gate blocks the propagation of types, not their recording. For every
well-formed adjacency whose lists of dependent typeflows agree with the roles, every purged
list and mode, a typeflow hands a type on to its successors only if it is the white hole or is
not held back (it depends on no method or on the root, or its method `m` is reported reached):
every type `t` recorded in the result history of a typeflow `v` comes from a predecessor `u`
that is the white hole, or that is not held back and records `t` itself, or that is not held
back and saturated, `t` being recorded by a typeflow that is not held back and has an edge to
the all-instantiated typeflow. In particular a typeflow all of whose predecessors are
typeflows other than the white hole with role `Dependent(m)`, `m` not the root and never
reached, has `any()` false. -/
theorem gate_blocks_propagation (adj : Adjacency) (hw : adj.wf) (ha : adj.dependentsAgree)
    (purged : List Nat) (dm : Bool) (fuel : Nat) (r : Result)
    (hr : run adj purged dm fuel = some r) :
    (∀ v t, t ∈ (r.typeflow_visited.getD v default).recorded →
      ∃ u, v ∈ (adj.flow u).forward_edges ∧
        (u = 0 ∨ (r.notHeld adj u ∧
          (t ∈ (r.typeflow_visited.getD u default).recorded ∨
            ((r.typeflow_visited.getD u default).is_saturated = true ∧
              ∃ w, r.notHeld adj w ∧ t ∈ (r.typeflow_visited.getD w default).recorded ∧
                adj.allInstantiated ∈ (adj.flow w).forward_edges))))) ∧
    (∀ v, (∀ u, v ∈ (adj.flow u).forward_edges →
        u ≠ 0 ∧ (adj.flow u).method.dependent ≠ 0 ∧
          r.method_visited.getD (adj.flow u).method.dependent false = false) →
      (r.typeflow_visited.getD v default).any = false) := by
  have hc := BFS.create_canonical adj hw
  obtain ⟨s, h1, rfl⟩ := run_eq_some hr
  have hk0 := solve_typeGate hc ha purged dm fuel s h1
  have hk : TypeGate adj purged s := hk0
  have hs := (solve_gateInv hc ha purged dm fuel s h1).2
  have hlive : ∀ u, Live adj purged s u → (finish purged s).notHeld adj u := by
    intro u hu
    rcases hu with hu | hu
    · exact Or.inl hu
    · right
      rw [finish_visited, hu.1]
      simp [hu.2]
  have hmain : ∀ v t, t ∈ (s.hist v).recorded →
      ∃ u, v ∈ (adj.flow u).forward_edges ∧
        (u = 0 ∨ ((finish purged s).notHeld adj u ∧
          (t ∈ (s.hist u).recorded ∨
            ((s.hist u).is_saturated = true ∧
              ∃ w, (finish purged s).notHeld adj w ∧ t ∈ (s.hist w).recorded ∧
                adj.allInstantiated ∈ (adj.flow w).forward_edges)))) := by
    intro v t ht
    obtain ⟨u, hu, h2⟩ := hk.recorded v t ht
    refine ⟨u, hu, ?_⟩
    rcases h2 with h2 | ⟨h2, h3⟩
    · exact Or.inl h2
    · refine Or.inr ⟨hlive u h2, ?_⟩
      rcases h3 with h3 | ⟨h3, w, h4, h5, h6⟩
      · exact Or.inl h3
      · exact Or.inr ⟨h3, w, hlive w h4, h5, h6⟩
  refine ⟨hmain, fun v hall => ?_⟩
  by_contra hne
  have hv : (s.hist v).any = true := Bool.of_not_eq_false hne
  have hrec : (s.hist v).recorded ≠ [] := ((hs.valid v).any_iff).1 hv
  obtain ⟨t, ht⟩ := List.exists_mem_of_ne_nil _ hrec
  obtain ⟨u, hu, h2⟩ := hmain v t ht
  obtain ⟨h3, h4, h5⟩ := hall u hu
  rcases h2 with h2 | ⟨h2 | h2, _⟩
  · exact h3 h2
  · exact h4 h2
  · rw [h5] at h2
    exact Bool.false_ne_true h2

theorem gate_blocks_propagation_witness :
    leakGraph.wf ∧ leakGraph.dependentsAgree ∧
    run leakGraph [] true 10 = some leakResult ∧
    (leakResult.typeflow_visited.getD 1 default).recorded = [1] ∧
    (leakResult.typeflow_visited.getD 3 default).recorded = [2] ∧
    ((∀ v t, t ∈ (leakResult.typeflow_visited.getD v default).recorded →
      ∃ u, v ∈ (leakGraph.flow u).forward_edges ∧
        (u = 0 ∨ (leakResult.notHeld leakGraph u ∧
          (t ∈ (leakResult.typeflow_visited.getD u default).recorded ∨
            ((leakResult.typeflow_visited.getD u default).is_saturated = true ∧
              ∃ w, leakResult.notHeld leakGraph w ∧
                t ∈ (leakResult.typeflow_visited.getD w default).recorded ∧
                leakGraph.allInstantiated ∈ (leakGraph.flow w).forward_edges))))) ∧
    (∀ v, (∀ u, v ∈ (leakGraph.flow u).forward_edges →
        u ≠ 0 ∧ (leakGraph.flow u).method.dependent ≠ 0 ∧
          leakResult.method_visited.getD (leakGraph.flow u).method.dependent false = false) →
      (leakResult.typeflow_visited.getD v default).any = false)) :=
  ⟨by decide, by decide, by decide, by decide, by decide,
    gate_blocks_propagation leakGraph (by decide) (by decide) [] true 10 leakResult
      (by decide)⟩

/-- C8, counterexample: on a well-formed adjacency with two methods, whose dependent typeflow
is listed with its method, at termination `t1` is saturated, its successor `t2` is not, type 29
is in the all-instantiated set and admitted by the filter of `t2`, and `t2` does not record
it: `t1` is gated by the method `m1`, whose distance stays unset, and was never popped. -/
theorem saturation_closure_counterexample :
    gatedSaturation.wf ∧ gatedSaturation.dependentsListed ∧
    2 ∈ (gatedSaturation.flow 1).forward_edges ∧
    (solve (BFS.create gatedSaturation) [] true 40).map (fun s =>
      ((s.hist 1).is_saturated, (s.hist 2).is_saturated, s.allInstantiated.get 29,
        gatedSaturation.admits 2 29, decide (29 ∈ (s.hist 2).recorded),
        s.history (gatedSaturation.flow 1).method.dependent)) =
      some (true, false, true, true, false, u8_max) := by
  decide

/-- C8, amended: saturation closure holds for the saturated typeflows whose gate is open. For
every well-formed adjacency in which every typeflow that depends on a method other than the
root is listed among the dependent typeflows of that method, every purged list and mode, in a
run with distances that dequeued no method at distance 254 (so that no typeflow loop ran at the
sentinel distance 255) and in every run without distances, at termination, for every typeflow
edge `u → v` where `u` is saturated, the distance of the dependent method of `u` is set (which
is so for every typeflow with a reaching role) and `v` is not saturated, the history of `v`
contains every type of the global `allInstantiated` set that the filter of `v` admits. -/
theorem saturation_closure_open_gate (adj : Adjacency) (hw : adj.wf)
    (hl : adj.dependentsListed) (purged : List Nat) (dm : Bool) (fuel : Nat) (s : State)
    (hr : solve (BFS.create adj) purged dm fuel = some s)
    (hd : dm = true → 254 ∉ s.method_history) (u v : Nat)
    (hv : v ∈ (adj.flow u).forward_edges) (hu : (s.hist u).is_saturated = true)
    (hg : s.history (adj.flow u).method.dependent ≠ u8_max)
    (hns : (s.hist v).is_saturated = false) (t : Nat)
    (ht : s.allInstantiated.get t = true) (ha : adj.admits v t = true) :
    t ∈ (s.hist v).recorded := by
  have hc := BFS.create_canonical adj hw
  have hk := solve_satInv_below hc hl purged dm fuel s hr
    (fun htd => hd htd.1 ((tainted_iff_mem dm s).1 htd).2)
  have hf := solve_final hc purged dm fuel s hr
  have hgate : gateOpen (BFS.create adj).adj s u = true := by
    unfold gateOpen
    simpa using hg
  have hvlt : v < (BFS.create adj).adj.n_typeflows := hc.wf.flow_edge u v hv
  rcases hk.processed u hu hgate with h | h | h
  · rw [hf.flows_done] at h
    simp at h
  · rcases h v hv with h1 | h1
    · rw [hns] at h1
      exact absurd h1 (by decide)
    · rcases (hk.complete v hvlt h1 hns).2 t ht ha with h2 | h2
      · exact h2
      · rw [hf.since_done] at h2
        simp at h2
  · exact absurd h id

theorem saturation_closure_open_gate_witness :
    openSaturation.wf ∧ openSaturation.dependentsListed ∧
    solve (BFS.create openSaturation) [] true 40 = some openSaturationFinal ∧
    (true = true → 254 ∉ openSaturationFinal.method_history) ∧
    2 ∈ (openSaturation.flow 1).forward_edges ∧
    (openSaturationFinal.hist 1).is_saturated = true ∧
    openSaturationFinal.history (openSaturation.flow 1).method.dependent ≠ u8_max ∧
    (openSaturationFinal.hist 2).is_saturated = false ∧
    openSaturationFinal.allInstantiated.get 29 = true ∧ openSaturation.admits 2 29 = true ∧
    29 ∈ (openSaturationFinal.hist 2).recorded :=
  ⟨by decide, by decide, by decide, fun _ => by decide, by decide, by decide, by decide,
    by decide, by decide, by decide,
    saturation_closure_open_gate openSaturation (by decide) (by decide) [] true 40
      openSaturationFinal (by decide) (fun _ => by decide) 1 2 (by decide) (by decide)
      (by decide) (by decide) 29 (by decide) (by decide)⟩

/-- C9, counterexample: on a well-formed adjacency with five methods whose lists of dependent
typeflows agree with the roles, with an empty purged list the two modes return different
`method_visited` vectors: `m4` is reached with distances and unreached without. The history
of `t4` is saturated in both results. -/
theorem modes_disagree_counterexample :
    orderSensitive.wf ∧ orderSensitive.dependentsAgree ∧ orderSensitive.dependentsListed ∧
    (run orderSensitive [] true 40).map (fun r => r.method_visited) =
      some [true, true, true, true, true] ∧
    (run orderSensitive [] false 40).map (fun r => r.method_visited) =
      some [true, true, true, true, false] ∧
    (run orderSensitive [] true 40).map
      (fun r => (r.typeflow_visited.getD 4 default).is_saturated) = some true ∧
    (run orderSensitive [] false 40).map
      (fun r => (r.typeflow_visited.getD 4 default).is_saturated) = some true := by
  decide

/-- C9, amended: the two modes agree as long as no history saturates. For every well-formed
adjacency whose lists of dependent typeflows agree with the roles in both directions, if
`run<false>` and `run<true>` with an empty purged list return results in which no typeflow
history is saturated, and the run with distances dequeued no method at distance 254 (so that
no typeflow loop ran at the sentinel distance 255), then the two results have the same
`method_visited` vector and, for every typeflow `v`, the same set of recorded types; only the
recorded distances and the `method_history` values may differ. -/
theorem modes_agree_without_saturation (adj : Adjacency) (hw : adj.wf)
    (ha : adj.dependentsAgree) (hl : adj.dependentsListed)
    (fuel1 fuel2 : Nat) (r1 r2 : Result) (h1 : run adj [] false fuel1 = some r1)
    (h2 : run adj [] true fuel2 = some r2) (hd : 254 ∉ r2.method_history)
    (hs1 : ∀ h ∈ r1.typeflow_visited, h.is_saturated = false)
    (hs2 : ∀ h ∈ r2.typeflow_visited, h.is_saturated = false) :
    r1.method_visited = r2.method_visited ∧
    ∀ v t, t ∈ (r1.typeflow_visited.getD v default).recorded ↔
      t ∈ (r2.typeflow_visited.getD v default).recorded := by
  have hc := BFS.create_canonical adj hw
  obtain ⟨s1, e1, rfl⟩ := run_eq_some h1
  obtain ⟨s2, e2, rfl⟩ := run_eq_some h2
  have hnosat : ∀ s : State, (∀ h ∈ s.typeflow_visited, h.is_saturated = false) → NoSat s := by
    intro s hs v
    by_cases hv : v < s.typeflow_visited.length
    · exact hs _ (getD_mem _ _ _ hv)
    · unfold State.hist
      rw [getD_default _ _ _ (Nat.le_of_not_lt hv)]
      rfl
  have hc1 := solve_characterized_below hc ha hl false fuel1 s1 e1
    (fun htd => absurd htd.1 (by decide)) (hnosat s1 hs1)
  have hc2 := solve_characterized_below hc ha hl true fuel2 s2 e2
    (fun htd => hd ((tainted_iff_mem true s2).1 htd).2) (hnosat s2 hs2)
  have hlen1 := (solve_final hc [] false fuel1 s1 e1).base.ba_rootInv.visited_len
  have hlen2 := (solve_final hc [] true fuel2 s2 e2).base.ba_rootInv.visited_len
  constructor
  · show s1.method_visited = s2.method_visited
    apply List.ext_getElem (hlen1.trans hlen2.symm)
    intro m hm1 hm2
    have hiff : s1.visited m = true ↔ s2.visited m = true :=
      (hc1 (Fact.method m)).trans (hc2 (Fact.method m)).symm
    unfold State.visited at hiff
    rw [List.getD_eq_getElem _ _ hm1, List.getD_eq_getElem _ _ hm2] at hiff
    exact Bool.eq_iff_iff.2 hiff
  · intro v t
    exact (hc1 (Fact.type v t)).trans (hc2 (Fact.type v t)).symm

theorem modes_agree_without_saturation_witness :
    (singleFlow (MethodRole.Reaching 1)).wf ∧
    (singleFlow (MethodRole.Reaching 1)).dependentsAgree ∧
    (singleFlow (MethodRole.Reaching 1)).dependentsListed ∧
    run (singleFlow (MethodRole.Reaching 1)) [] false 10 = some singleFlowFlat ∧
    run (singleFlow (MethodRole.Reaching 1)) [] true 10 = some singleFlowResult ∧
    254 ∉ singleFlowResult.method_history ∧
    (∀ h ∈ singleFlowFlat.typeflow_visited, h.is_saturated = false) ∧
    (∀ h ∈ singleFlowResult.typeflow_visited, h.is_saturated = false) ∧
    (singleFlowFlat.method_visited = singleFlowResult.method_visited ∧
    ∀ v t, t ∈ (singleFlowFlat.typeflow_visited.getD v default).recorded ↔
      t ∈ (singleFlowResult.typeflow_visited.getD v default).recorded) :=
  ⟨by decide, by decide, by decide, by decide, by decide, by decide, by decide, by decide,
    modes_agree_without_saturation (singleFlow (MethodRole.Reaching 1)) (by decide) (by decide)
      (by decide) 10 10 singleFlowFlat singleFlowResult (by decide) (by decide) (by decide)
      (by decide) (by decide)⟩

theorem distance_law_below_wrap_witness :
    chainGraph.wf ∧ chainGraph.n_methods < 255 ∧
    run chainGraph [] true 10 = some chainGraphResult ∧
    2 ∈ (chainGraph.method 1).forward_edges ∧
    chainGraphResult.method_visited.getD 1 false = true ∧
    chainGraphResult.method_visited.getD 2 false = true ∧
    chainGraphResult.method_history.getD 2 u8_max ≤
      chainGraphResult.method_history.getD 1 u8_max + 1 :=
  ⟨by decide, by decide, by decide, by decide, by decide, by decide,
    distance_law_below_wrap chainGraph (by decide) [] (by decide) 10 chainGraphResult
      (by decide) 1 2 (by decide) (by decide) (by decide)⟩

/-- C13: the contract of `add_type`. For every history `h` reachable from a fresh one by
`add_type` calls, every type `t` other than the sentinel and every distance `d`: if `t` is
stored already, the call returns false and leaves `h` unchanged; otherwise, with fewer than 20
types stored, it returns true, the stored pairs become the old pairs followed by `(t, d)` and
`saturated_dist` is unchanged; otherwise it returns true, leaves the 20 stored pairs unchanged
and sets `saturated_dist` to `d`. -/
theorem add_type_contract (h : TypeflowHistory) (hr : h.Reachable) (t d : Nat)
    (ht : t ≠ type_max) :
    (t ∈ h.recorded → h.add_type t d = (h, false)) ∧
    (t ∉ h.recorded → h.recorded.length < saturation_cutoff →
      (h.add_type t d).2 = true ∧ (h.add_type t d).1.iter = h.iter ++ [(t, d)] ∧
        (h.add_type t d).1.saturated_dist = h.saturated_dist) ∧
    (t ∉ h.recorded → ¬ h.recorded.length < saturation_cutoff →
      (h.add_type t d).2 = true ∧ (h.add_type t d).1.iter = h.iter ∧
        (h.add_type t d).1.saturated_dist = d) := by
  have hv := hr.rb_valid
  refine ⟨fun hin => ?_, fun hnin hlt => ?_, fun hnin hge => ?_⟩
  · have hflag : (h.add_type t d).2 = false := by
      rw [hv.add_type_flag, decide_eq_true hin]; rfl
    exact Prod.ext (hv.add_type_unchanged t d hflag) hflag
  · refine ⟨by rw [hv.add_type_flag, decide_eq_false hnin]; rfl, ?_, ?_⟩
    · rw [hv.iter_add_type, if_neg]
      rintro (h1 | h1 | h1)
      · exact hnin h1
      · omega
      · exact ht h1
    · rw [hv.add_type_saturated_dist, if_neg]
      rintro ⟨_, h1⟩
      omega
  · refine ⟨by rw [hv.add_type_flag, decide_eq_false hnin]; rfl, ?_, ?_⟩
    · rw [hv.iter_add_type, if_pos (Or.inr (Or.inl (by omega)))]
    · rw [hv.add_type_saturated_dist, if_pos ⟨hnin, by omega⟩]

theorem add_type_contract_witness :
    TypeflowHistory.fresh.Reachable ∧ 7 ≠ type_max ∧
    ((7 ∈ TypeflowHistory.fresh.recorded →
      TypeflowHistory.fresh.add_type 7 3 = (TypeflowHistory.fresh, false)) ∧
    (7 ∉ TypeflowHistory.fresh.recorded →
      TypeflowHistory.fresh.recorded.length < saturation_cutoff →
      (TypeflowHistory.fresh.add_type 7 3).2 = true ∧
        (TypeflowHistory.fresh.add_type 7 3).1.iter = TypeflowHistory.fresh.iter ++ [(7, 3)] ∧
        (TypeflowHistory.fresh.add_type 7 3).1.saturated_dist =
          TypeflowHistory.fresh.saturated_dist) ∧
    (7 ∉ TypeflowHistory.fresh.recorded →
      ¬ TypeflowHistory.fresh.recorded.length < saturation_cutoff →
      (TypeflowHistory.fresh.add_type 7 3).2 = true ∧
        (TypeflowHistory.fresh.add_type 7 3).1.iter = TypeflowHistory.fresh.iter ∧
        (TypeflowHistory.fresh.add_type 7 3).1.saturated_dist = 3)) :=
  ⟨TypeflowHistory.Reachable.fresh, by decide,
    add_type_contract TypeflowHistory.fresh TypeflowHistory.Reachable.fresh 7 3 (by decide)⟩

/-- C15: a history only grows and keeps the insertion order. For every history `h` reachable
from a fresh one, every type `t` and distance `d`, the pairs yielded by the iteration before
`add_type(t, d)` are a prefix of the pairs yielded after it, and if `h` is saturated the
sequence is unchanged. -/
theorem history_grows_in_order (h : TypeflowHistory) (hr : h.Reachable) (t d : Nat) :
    h.iter <+: (h.add_type t d).1.iter ∧
    (h.is_saturated = true → (h.add_type t d).1.iter = h.iter) := by
  have hv := hr.rb_valid
  rw [hv.iter_add_type]
  constructor
  · split
    · exact List.prefix_refl _
    · exact List.prefix_append _ _
  · intro hs
    rw [if_pos (Or.inr (Or.inl (le_of_eq (hv.saturated_full hs).symm)))]

theorem history_grows_in_order_witness :
    sevenAtZero.Reachable ∧
    (sevenAtZero.iter <+: (sevenAtZero.add_type 9 4).1.iter ∧
    (sevenAtZero.is_saturated = true → (sevenAtZero.add_type 9 4).1.iter = sevenAtZero.iter)) :=
  ⟨TypeflowHistory.Reachable.add _ 7 0 TypeflowHistory.Reachable.fresh,
    history_grows_in_order sevenAtZero
      (TypeflowHistory.Reachable.add _ 7 0 TypeflowHistory.Reachable.fresh) 9 4⟩

/-- C14, as stated, fails: twenty-one distinct types (none the sentinel) added at distance 255
leave `is_saturated()` false. -/
theorem saturation_at_21st_counterexample :
    (∀ c ∈ twentyOneAtMax, c.1 ≠ type_max) ∧
    (twentyOneAtMax.map Prod.fst).toFinset.card = 21 ∧
    (TypeflowHistory.addAll twentyOneAtMax TypeflowHistory.fresh).is_saturated = false := by
  decide

/-- C14, amended: for every sequence of `add_type` calls on a fresh history whose types are not
the type sentinel and whose distances are not the distance sentinel 255, `is_saturated()` holds
exactly when more than 20 distinct types have been added. -/
theorem saturation_at_21st_below_sentinel (calls : List (Nat × Nat))
    (hc : ∀ c ∈ calls, c.1 ≠ type_max ∧ c.2 ≠ u8_max) :
    (TypeflowHistory.addAll calls TypeflowHistory.fresh).is_saturated = true ↔
      saturation_cutoff < (calls.map Prod.fst).toFinset.card := by
  have h := TypeflowHistory.Seen.sn_addAll calls ∅ _ TypeflowHistory.seen_fresh hc
  rw [Finset.empty_union] at h
  exact h.sn_saturated_iff

theorem saturation_at_21st_below_sentinel_witness :
    (∀ c ∈ twentyOneAtZero, c.1 ≠ type_max ∧ c.2 ≠ u8_max) ∧
    ((TypeflowHistory.addAll twentyOneAtZero TypeflowHistory.fresh).is_saturated = true ↔
      saturation_cutoff < (twentyOneAtZero.map Prod.fst).toFinset.card) :=
  ⟨by decide, saturation_at_21st_below_sentinel twentyOneAtZero (by decide)⟩

/-- C16: a `TypeSet` built from a bitset `b` is an exact view of it: membership at every index,
`count` and `first` agree with those of `b`, and the singleton representation is chosen exactly
when `b.count() == 1`; a `TypeSet` built from a single type `t` has count 1, first `t` and
membership true exactly at `t`. -/
theorem typeset_exact_view (b : Bitset) (i t : Nat) :
    (TypeSet.ofBitset b).get i = b.get i ∧
    (TypeSet.ofBitset b).count = b.count ∧
    (TypeSet.ofBitset b).first = b.first ∧
    ((TypeSet.ofBitset b).is_single_type = true ↔ b.count = 1) ∧
    (TypeSet.ofType t).count = 1 ∧
    (TypeSet.ofType t).first = t ∧
    ((TypeSet.ofType t).get i = true ↔ i = t) := by
  refine ⟨TypeSet.ofBitset_get b i, TypeSet.ofBitset_count b, TypeSet.ofBitset_first b, ?_,
    rfl, rfl, ?_⟩
  · unfold TypeSet.ofBitset
    by_cases hc : b.count = 1
    · rw [if_pos hc]; exact ⟨fun _ => hc, fun _ => rfl⟩
    · rw [if_neg hc]
      exact ⟨fun h => (by cases h), fun h => absurd h hc⟩
  · show decide (t = i) = true ↔ i = t
    rw [decide_eq_true_iff]
    exact eq_comm

/-- C17, as stated, fails: the set built from the single type 7, or from a bitset whose only
member is 7, answers `next(3)` with the type sentinel, although 7 is a member strictly greater
than 3; the bitset itself answers 7. -/
theorem typeset_next_counterexample :
    (TypeSet.ofType 7).get 7 = true ∧ (TypeSet.ofType 7).next 3 = type_max ∧
    (TypeSet.ofBitset onlySeven).get 7 = true ∧ (TypeSet.ofBitset onlySeven).next 3 = type_max ∧
    onlySeven.next 3 = 7 ∧
    (¬ ∃ n, NextContract (TypeSet.ofType 7).get n 3 ((TypeSet.ofType 7).next 3)) ∧
    (¬ ∃ n, NextContract (TypeSet.ofBitset onlySeven).get n 3
      ((TypeSet.ofBitset onlySeven).next 3)) := by
  refine ⟨by decide, by decide, by decide, by decide, by decide, ?_, ?_⟩
  · rintro ⟨n, h | h⟩
    · exact absurd h.2.1 (by decide)
    · exact absurd (h.2 7 (by decide)) (by decide)
  · rintro ⟨n, h | h⟩
    · exact absurd h.2.1 (by decide)
    · exact absurd (h.2 7 (by decide)) (by decide)

/-- C17, amended: for every `TypeSet` `s` over a domain of size `n` that its sentinels are not
below, and every position `pos` that is at least the member of `s` when `s` is in the singleton
representation, `s.next(pos)` is the smallest member of `s` strictly greater than `pos`, or a
sentinel that is at least the domain size when no such member exists. -/
theorem typeset_next_contract (s : TypeSet) (n pos : Nat) (hfit : s.fits n)
    (hpos : s.is_single_type = true → s.first ≤ pos) :
    NextContract s.get n pos (s.next pos) := by
  cases s with
  | single t =>
    right
    refine ⟨hfit, fun j hj => ?_⟩
    have ht : t ≤ pos := hpos rfl
    show decide (t = j) = false
    rw [decide_eq_false_iff_not]
    omega
  | multi b =>
    have hn : n ≤ b.size := hfit
    show NextContract b.get n pos (b.findFrom (pos + 1))
    rcases b.findFrom_spec (pos + 1) with h | h
    · left
      exact ⟨by omega, h.2.2.1, fun j h1 h2 => h.2.2.2 j (by omega) h2⟩
    · right
      exact ⟨by omega, fun j h1 => h.2 j (by omega)⟩

theorem typeset_next_contract_witness :
    (TypeSet.ofBitset onlySeven).fits 8 ∧
    ((TypeSet.ofBitset onlySeven).is_single_type = true →
      (TypeSet.ofBitset onlySeven).first ≤ 7) ∧
    NextContract (TypeSet.ofBitset onlySeven).get 8 7 ((TypeSet.ofBitset onlySeven).next 7) :=
  ⟨show 8 ≤ type_max by decide, fun _ => by decide,
    typeset_next_contract (TypeSet.ofBitset onlySeven) 8 7 (show 8 ≤ type_max by decide)
      (fun _ => by decide)⟩

set_option maxRecDepth 1000000 in
/-- C11 fails on the code where the 8-bit distance counter reaches the sentinel: in the chain
`m0 → m1 → … → m256` run with distances and nothing purged, method `m255` is reported reached
(`method_visited[m255]` is true) and carries `method_history[m255] = 255`, the sentinel;
its neighbour `m254` is reached at distance 254. -/
theorem sentinel_collides_with_distance :
    (run deepChain [] true 300).map (fun r =>
      (r.method_visited.getD 255 false, r.method_history.getD 255 u8_max,
        r.method_visited.getD 254 false, r.method_history.getD 254 u8_max)) =
      some (true, 255, true, 254) := by
  decide

/-- C12: with `dist_matters = false` all distances are zero: for every well-formed adjacency and
purged list, in the result of `run<false>` every `method_history` entry is 0 or the sentinel,
every distance stored in every typeflow history is 0, and the `saturated_dist` of every
saturated history is 0. -/
theorem without_distances_all_zero (adj : Adjacency) (hw : adj.wf) (purged : List Nat)
    (fuel : Nat) (r : Result) (hr : run adj purged false fuel = some r) :
    (∀ d ∈ r.method_history, d = 0 ∨ d = u8_max) ∧
    (∀ h ∈ r.typeflow_visited, (∀ p ∈ h.iter, p.2 = 0) ∧
      (h.is_saturated = true → h.saturated_dist = 0)) := by
  obtain ⟨s, h1, rfl⟩ := run_eq_some hr
  have hz := solve_zeroInv (BFS.create_canonical adj hw) purged fuel s h1
  constructor
  · intro d hd
    have hd1 : d ∈ s.method_history := hd
    obtain ⟨i, hi, he⟩ := List.getElem_of_mem hd1
    have := hz.methods i
    unfold State.history at this
    have hg : s.method_history.getD i u8_max = d := by
      rw [List.getD_eq_getElem?_getD, List.getElem?_eq_getElem hi]
      simpa using he
    rw [← hg]
    exact this
  · intro h hh
    have hh1 : h ∈ s.typeflow_visited := hh
    obtain ⟨i, hi, he⟩ := List.getElem_of_mem hh1
    have := hz.flows i
    unfold State.hist at this
    have hg : s.typeflow_visited.getD i default = h := by
      rw [List.getD_eq_getElem?_getD, List.getElem?_eq_getElem hi]
      simpa using he
    rw [← hg]
    exact this

theorem without_distances_all_zero_witness :
    (singleFlow (MethodRole.Reaching 1)).wf ∧
    run (singleFlow (MethodRole.Reaching 1)) [] false 10 = some singleFlowFlat ∧
    ((∀ d ∈ singleFlowFlat.method_history, d = 0 ∨ d = u8_max) ∧
    (∀ h ∈ singleFlowFlat.typeflow_visited, (∀ p ∈ h.iter, p.2 = 0) ∧
      (h.is_saturated = true → h.saturated_dist = 0))) :=
  ⟨by decide, by decide,
    without_distances_all_zero (singleFlow (MethodRole.Reaching 1)) (by decide) [] 10
      singleFlowFlat (by decide)⟩

/-- C18 fails on the code for a saturated typeflow: in scenario 4 the all-instantiated typeflow
`t3` is a successor of `t1`, which the white hole saturates and pushes; when `t1` is popped and
processed, it records the types 0..19 and none of them is put into the all-instantiated set,
which is still empty when the solver ends, and the successors `t2` and `t3` record nothing. -/
theorem saturated_feeder_skips_sink :
    saturatedFeeder.wf ∧
    saturatedFeeder.allInstantiated ∈ (saturatedFeeder.flow 1).forward_edges ∧
    saturatedFeederAtPop.map (fun s => s.typeflow_worklist) = some [1] ∧
    (saturatedFeederAtPop.bind (fun s =>
      processTypeflow (BFS.create saturatedFeeder) 40 (popTypeflow s []) 1)).map (fun s =>
        ((s.hist 1).is_saturated, (s.hist 1).recorded, s.allInstantiated.count)) =
      some (true, List.range 20, 0) ∧
    (solve (BFS.create saturatedFeeder) [] true 40).map (fun s =>
      ((s.hist 1).is_saturated, (s.hist 1).recorded, s.allInstantiated.count,
        (s.hist 2).recorded, (s.hist 3).recorded)) =
      some (true, List.range 20, 0, [], []) := by
  decide

/-- C19: white-hole seeding determines the history of every white-hole successor: for every
well-formed adjacency, purged list and mode, and every successor `v` of typeflow 0, if the
filter of `v` admits at most 20 types below `n_types`, the result history of `v` is exactly
those types in increasing order, each at distance 0, and `v` is not saturated; if it admits
more than 20, the history holds the 20 smallest at distance 0 and `v` is saturated with
`saturated_dist` 0. -/
theorem white_hole_seeding_determines (adj : Adjacency) (hw : adj.wf) (purged : List Nat)
    (dm : Bool) (fuel : Nat) (r : Result) (hr : run adj purged dm fuel = some r) (v : Nat)
    (hv : v ∈ (adj.flow 0).forward_edges) :
    ((adj.admitted v).length ≤ saturation_cutoff →
      r.pairs v = (adj.admitted v).map (fun t => (t, 0)) ∧
      (r.typeflow_visited.getD v default).is_saturated = false) ∧
    (saturation_cutoff < (adj.admitted v).length →
      r.pairs v = ((adj.admitted v).take saturation_cutoff).map (fun t => (t, 0)) ∧
      (r.typeflow_visited.getD v default).is_saturated = true ∧
      (r.typeflow_visited.getD v default).saturated_dist = 0) := by
  have hc := BFS.create_canonical adj hw
  obtain ⟨s, h1, rfl⟩ := run_eq_some hr
  have hk := solve_seedKept hc purged dm fuel s h1 v hv
  have hvl : v < adj.n_typeflows := hw.flow_edge 0 v hv
  have hm := membersFrom_admitted hc v hvl
  have hsh := seedOf_shape hc v
  have hsat := seedOf_saturated_iff hc v
  rw [hm] at hsh hsat
  have hh : (finish purged s).typeflow_visited.getD v default = seedOf (BFS.create adj) v := hk
  have hp : (finish purged s).pairs v = (seedOf (BFS.create adj) v).iter := by
    unfold Result.pairs; rw [hh]
  have hadm : (BFS.create adj).adj.admitted v = adj.admitted v := rfl
  rw [hadm] at hsh hsat
  rw [hh, hp, hsh.1.iter_eq]
  constructor
  · intro hle
    refine ⟨by rw [List.take_of_length_le hle], ?_⟩
    by_contra hc1
    have := hsat.1 (by simpa using hc1)
    omega
  · intro hlt
    refine ⟨rfl, hsat.2 hlt, ?_⟩
    rw [hsh.2, if_pos hlt]

theorem white_hole_seeding_determines_witness :
    ((singleFlow (MethodRole.Reaching 1)).wf ∧
      run (singleFlow (MethodRole.Reaching 1)) [] true 10 = some singleFlowResult ∧
      1 ∈ ((singleFlow (MethodRole.Reaching 1)).flow 0).forward_edges ∧
      (singleFlow (MethodRole.Reaching 1)).admitted 1 = [7] ∧
      singleFlowResult.pairs 1 = [(7, 0)]) ∧
    (((singleFlow (MethodRole.Reaching 1)).admitted 1).length ≤ saturation_cutoff →
      singleFlowResult.pairs 1 =
        ((singleFlow (MethodRole.Reaching 1)).admitted 1).map (fun t => (t, 0)) ∧
      (singleFlowResult.typeflow_visited.getD 1 default).is_saturated = false) ∧
    (saturation_cutoff < ((singleFlow (MethodRole.Reaching 1)).admitted 1).length →
      singleFlowResult.pairs 1 =
        (((singleFlow (MethodRole.Reaching 1)).admitted 1).take saturation_cutoff).map
          (fun t => (t, 0)) ∧
      (singleFlowResult.typeflow_visited.getD 1 default).is_saturated = true ∧
      (singleFlowResult.typeflow_visited.getD 1 default).saturated_dist = 0) :=
  ⟨⟨by decide, by decide, by decide, by decide, by decide⟩,
    white_hole_seeding_determines (singleFlow (MethodRole.Reaching 1)) (by decide) [] true 10
      singleFlowResult (by decide) 1 (by decide)⟩

/-- C20 fails on the code where the 8-bit distance reaches the sentinel: `loopGraph` is
well-formed, and `run` with distances and no purged method does not reach the end of its outer
loop with any amount of fuel. At distance 255 the full histories of `t3` and `t4` take each
other's types as a change without becoming saturated, so each push of one is answered by a
push of the other and the typeflow worklist never empties. -/
theorem solver_circles_at_sentinel_distance :
    loopGraph.wf ∧ ∀ fuel, run loopGraph [] true fuel = none := by
  refine ⟨loopGraph_wf, fun fuel => ?_⟩
  unfold run
  have h : solve (BFS.create loopGraph) [] true fuel = none := solve_loopGraph fuel
  rw [h]
  rfl

end CausalityGraph
